import Mathlib

/-!
# pigeon: single-threaded message delivery with dual-owned contacts

A shallow embedding of `include/pigeon/pigeon.h`.

Every `detail::contact` node lives in an arena indexed by natural numbers (the
node's address; addresses are never reused).  The two intrusive singly linked
lists through a node, `NextSender` (owned by a `message`) and `NextContact`
(owned by a `pigeon`), are represented by the sequence of node ids reachable
from the respective list head.  The flag bit packed into a list head or into
`NextContact` is a separate boolean.

Modelling decisions:

* In the first model the on-drop callback of every contact is the default
  `detail::noop`, and nodes are allocated with the null allocator (`new` /
  `delete this`).  The second model (namespace `callback`) adds the callbacks
  that call back into the library, and the allocators.
* A handler and the response handler act on an environment `σ` of the caller
  (the arguments passed by reference and the variables the lambdas capture).
  A handler may read the heap (`isSending()`, `size()`), and either may throw.
  In the first and in the second model they make no call of the library that
  changes the heap.  In `callback.reentrant` they do: a handler takes the heap
  and hands back the heap that its calls left, `Calls` says what calls can
  make of a heap, and the loop goes on from there.  For the message that is
  dispatching, `drop`, `clear` and `deliver` throw and `response` returns at
  once, so the list that the loop walks is changed by the loop alone
  (`calls_keeps`), while the dropped flags of its entries can be set by a
  handler.  With handlers that make no call the loop of `callback.reentrant`
  is that of the second model (`reentrant_walk_quiet`).
* `message.response` keeps the flag set from `scoped_set()` until the guard is
  destroyed, which is what the source does when the guard is constructed in
  place.  `message.response_guarded` spells out the declaration
  `auto guard = Senders.scoped_set();`, with or without copy elision.
* `response` may loop for ever (`repeat`), so its loop takes fuel; `none`
  means that the fuel ran out, not that the call returned.
* In both models `deliver` places the new node at an address never used
  before.  `pigeon.deliver_at` is `deliver` with the address as a parameter,
  for a program in which released storage is handed out again.
* `logged_send` and `logged_controller` wrap the handlers so that each call is
  noted in a ghost log; the library code runs them like any other handlers.
* `detail.flag_pointer` is the bit-packed word itself, with the bit operations
  of the source on a word of `bits` bits.  `detail.cells` and `detail.cursor`
  give the sender list of one message as such words, and the three cases of
  the loop of `response` are also embedded on them; `cursor.represents` ties
  them to the state `(visited, chain)` of the loop in the list models.
-/

set_option linter.dupNamespace false
set_option linter.unusedVariables false

namespace pigeon

/-! ## Enumerations -/

/-- Which owner issued a drop: `enum class who`. -/
inductive who
  | pigeon
  | message
  deriving DecidableEq, Repr

/-- Tag accompanying a mutable argument: `enum class value_state`. -/
inductive value_state
  | original
  | changed
  | moved_from
  | constant
  deriving DecidableEq, Repr

/-- Decision returned by the response handler: `enum class iteration_state`.
The enumerator `repeat` is spelled `repeat_`. -/
inductive iteration_state
  | dead
  | progress
  | finish
  | repeat_
  deriving DecidableEq, Repr

/-- The exception `std::logic_error` thrown by the `ensure...` checks and by
the arena allocators, told apart by its message. -/
inductive logic_error
  | while_delivering
  | while_destructing
  | not_enough_memory
  deriving DecidableEq, Repr

/-- A `contact_token` wraps the address of a contact. -/
abbrev contact_token := Nat

/-! ## Data model -/

namespace detail

/-- A `detail::contact` node.  `dropped` is the flag bit of `NextContact`.
The remaining fields are ghost state: `destructs` counts the executions of
`destruct()`, `destructed_linked` records whether some execution of
`destruct()` found the node still linked into a list of one of its owners, and
`owner_message` / `owner_pigeon` remember the message and the pigeon that were
passed to `pigeon::deliver` when the node was created. -/
@[ext]
structure contact where
  dropped : Bool
  destructs : Nat
  destructed_linked : Bool
  owner_message : Nat
  owner_pigeon : Nat
  deriving DecidableEq, Repr

end detail

/-- A `message<R(Args...)>`: the list head `Senders` together with its flag
bit `Senders_flag`, which stores `isSending`. -/
structure message where
  Senders : List Nat
  Senders_flag : Bool
  deriving DecidableEq, Repr

/-- A `pigeon`: the list head `contacts` together with its flag bit, which
stores the destructing mark. -/
structure pigeon where
  contacts : List Nat
  contacts_flag : Bool
  deriving DecidableEq, Repr

/-- The whole heap: all contact nodes, the allocation counter, and all message
and pigeon objects, each addressed by a natural number. -/
@[ext]
structure World where
  arena : Nat → detail.contact
  next : Nat
  messages : Nat → message
  pigeons : Nat → pigeon

namespace World

/-- The heap before anything has been created: empty lists, clear flags. -/
def init : World where
  arena := fun _ => ⟨false, 0, false, 0, 0⟩
  next := 0
  messages := fun _ => ⟨[], false⟩
  pigeons := fun _ => ⟨[], false⟩

/-- Overwrite the contact node `c`. -/
def setContact (w : World) (c : Nat) (v : detail.contact) : World :=
  { w with arena := fun i => if i = c then v else w.arena i }

/-- Repoint the list head of message `m`, keeping its flag:
`Senders.keep_flag_assign_pointer`, or the same call on the `NextSender` cell
of the entry before the cursor. -/
def setSenders (w : World) (m : Nat) (l : List Nat) : World :=
  { w with messages := fun i => if i = m then ⟨l, (w.messages m).Senders_flag⟩ else w.messages i }

/-- Write the flag of the list head of message `m`, keeping the list:
`Senders.set()` / `Senders.reset()`. -/
def setSending (w : World) (m : Nat) (b : Bool) : World :=
  { w with messages := fun i => if i = m then ⟨(w.messages m).Senders, b⟩ else w.messages i }

/-- Repoint the list head of pigeon `p`, keeping its flag:
`contacts.keep_flag_assign_pointer`, or the same call on the `NextContact` cell
of the entry before the cursor. -/
def setContacts (w : World) (p : Nat) (l : List Nat) : World :=
  { w with pigeons := fun i => if i = p then ⟨l, (w.pigeons p).contacts_flag⟩ else w.pigeons i }

/-- Set the flag of the list head of pigeon `p`: `contacts.set()`. -/
def setDestructing (w : World) (p : Nat) : World :=
  { w with pigeons := fun i => if i = p then ⟨(w.pigeons p).contacts, true⟩ else w.pigeons i }

/-- Ghost predicate: node `c` is reachable from the list head of the message or
of the pigeon it was created for. -/
def linked (w : World) (c : Nat) : Bool :=
  decide (c ∈ (w.messages (w.arena c).owner_message).Senders) ||
  decide (c ∈ (w.pigeons (w.arena c).owner_pigeon).contacts)

end World

/-! ## `detail::contact` -/

namespace detail

/-- The default on-drop callback `detail::noop`: does nothing. -/
def noop (_token : contact_token) (_w : who) (w : World) : World := w

/-- Member `contact::isDropped`. -/
def contact.isDropped (c : Nat) (w : World) : Bool := (w.arena c).dropped

/-- Member `inbox::destruct` (`delete this`).  The ghost counter is bumped and
the ghost mark records whether the node was still linked. -/
def contact.destruct (c : Nat) (w : World) : World :=
  w.setContact c
    { w.arena c with
      destructs := (w.arena c).destructs + 1
      destructed_linked := (w.arena c).destructed_linked || w.linked c }

/-- Member `inbox::callOnDrop` with the default callback. -/
def contact.callOnDrop (c : Nat) (by_side : who) (w : World) : World :=
  noop c by_side w

/-- Member `contact::setDropped`: set the flag, then notify. -/
def contact.setDropped (c : Nat) (by_side : who) (w : World) : World :=
  contact.callOnDrop c by_side (w.setContact c { w.arena c with dropped := true })

/-- Member `contact::drop`. -/
def contact.drop (c : Nat) (by_side : who) (w : World) : World :=
  if contact.isDropped c w then contact.destruct c w else contact.setDropped c by_side w

/-- The loop `while (x) { next = x->Next; x->drop(w); x = next; }` shared by
`message::clear` and `pigeon::clear`, run over the detached chain. -/
def drop_chain (by_side : who) : List Nat → World → World
  | [], w => w
  | c :: next, w => drop_chain by_side next (contact.drop c by_side w)

/-- The search loop shared by `message::drop` and `pigeon::drop`: walk the
chain until the node equal to the token is found and unlink it.  Returns the
chain without that node, or `none` when the walk reaches the end. -/
def unlink (token : contact_token) : List Nat → Option (List Nat)
  | [] => none
  | c :: next =>
    if c = token then some next
    else match unlink token next with
      | none => none
      | some rest => some (c :: rest)

end detail

/-! ## `message` -/

/-- Member `message::isSending`. -/
def message.isSending (m : Nat) (w : World) : Bool := (w.messages m).Senders_flag

/-- Member `message::size`: count the entries that are not dropped. -/
def message.size (m : Nat) (w : World) : Nat :=
  ((w.messages m).Senders.filter (fun c => !detail.contact.isDropped c w)).length

/-- Member `message::ensureNotSending`. -/
def message.ensureNotSending (m : Nat) (w : World) : Except logic_error Unit :=
  if message.isSending m w then .error .while_delivering else .ok ()

/-- Member `message::clear`.  The check throws before anything is changed. -/
def message.clear (m : Nat) (w : World) : Except logic_error World :=
  match message.ensureNotSending m w with
  | .error e => .error e
  | .ok () =>
    let sender := (w.messages m).Senders
    .ok (detail.drop_chain .message sender (w.setSenders m []))

/-- Member `message::drop`.  The check throws before anything is changed. -/
def message.drop (m : Nat) (token : contact_token) (w : World) :
    Except logic_error (Bool × World) :=
  match message.ensureNotSending m w with
  | .error e => .error e
  | .ok () =>
    match detail.unlink token (w.messages m).Senders with
    | some rest => .ok (true, detail.contact.drop token .message (w.setSenders m rest))
    | none => .ok (false, w)

/-- Member `message::make_contact` with a null allocator and the default
callback: allocate a fresh node and link it at the head of `Senders`.  The
pigeon `p` is only recorded in the ghost field `owner_pigeon` of the node. -/
def message.make_contact (m : Nat) (p : Nat) (w : World) : Except logic_error (Nat × World) :=
  match message.ensureNotSending m w with
  | .error e => .error e
  | .ok () =>
    let sender := w.next
    let w1 : World := { w.setContact sender ⟨false, 0, false, m, p⟩ with next := w.next + 1 }
    .ok (sender, w1.setSenders m (sender :: (w1.messages m).Senders))

/-- The result of one `response` call: the heap and the caller's environment
when the call exits, the senders whose handler ran (in invocation order), and
whether the call exited by an exception of a handler. -/
structure Outcome (σ : Type) where
  world : World
  user : σ
  trace : List Nat
  threw : Bool

namespace detail

/-- Member `sender::do_send`: run the subscriber's handler `send` on the
arguments, then hand its result to the response handler `h`.  Either may
throw (`none`); the caller's environment `σ` holds everything the two can
touch (arguments passed by reference, captured variables). -/
def sender.do_send {σ ρ : Type} (send : World → Nat → σ → σ × Option ρ)
    (h : ρ → σ → σ × Option iteration_state) (self : Nat) (w : World) (a : σ) :
    σ × Option iteration_state :=
  match send w self a with
  | (a1, none) => (a1, none)
  | (a1, some r) => h r a1

/-- Member `sender::try_send`. -/
def sender.try_send {σ ρ : Type} (send : World → Nat → σ → σ × Option ρ)
    (h : ρ → σ → σ × Option iteration_state) (self : Nat) (w : World) (a : σ) :
    σ × Option iteration_state :=
  if contact.isDropped self w then (a, some .dead)
  else sender.do_send send h self w a

/-- The specialisation `call_handler<MR, void>`: a response handler that
returns nothing counts as `progress`. -/
def call_handler_void {σ ρ : Type} (h : ρ → σ → σ × Option Unit) :
    ρ → σ → σ × Option iteration_state :=
  fun r a => match h r a with
    | (a1, none) => (a1, none)
    | (a1, some ()) => (a1, some .progress)

end detail

/-- The `while (sender)` loop of `message::response`.  `visited` is the part of
the list before `previous_sender`, the second list is the chain starting at
`sender`; the list of the message is always `visited ++ chain`, and each case
writes the relinked list back to the heap as the source does.  `tr` collects
the senders whose handler ran (ghost).  One unit of fuel is used per loop
test.  The handlers make no call of the library here; the loop for handlers
that do is `callback.reentrant.message.response.walk`. -/
def message.response.walk {σ ρ : Type} (send : World → Nat → σ → σ × Option ρ)
    (h : ρ → σ → σ × Option iteration_state) (m : Nat) :
    Nat → List Nat → List Nat → σ → List Nat → World → Option (Outcome σ)
  | 0, _, _, _, _, _ => none
  | _ + 1, _, [], a, tr, w => some ⟨w, a, tr, false⟩
  | fuel + 1, visited, sender :: next, a, tr, w =>
    let tr1 := if detail.contact.isDropped sender w then tr else tr ++ [sender]
    match detail.sender.try_send send h sender w a with
    | (a1, none) => some ⟨w, a1, tr1, true⟩
    | (a1, some .dead) =>
      message.response.walk send h m fuel visited next a1 tr1
        (detail.contact.drop sender .message (w.setSenders m (visited ++ next)))
    | (a1, some .progress) =>
      message.response.walk send h m fuel (visited ++ [sender]) next a1 tr1 w
    | (a1, some .repeat_) =>
      message.response.walk send h m fuel [sender] (next ++ visited) a1 tr1
        (w.setSenders m (sender :: (next ++ visited)))
    | (a1, some .finish) => some ⟨w, a1, tr1, false⟩

/-- Member `message::response`: the reentrancy check, the scoped flag, the
loop.  The guard object resets the flag on every way out of the loop.  Here
the guard is constructed in place by `auto guard = Senders.scoped_set();`;
`message.response_guarded` below spells the declaration out. -/
def message.response {σ ρ : Type} (fuel : Nat) (send : World → Nat → σ → σ × Option ρ)
    (h : ρ → σ → σ × Option iteration_state) (m : Nat) (a : σ) (w : World) :
    Option (Outcome σ) :=
  if message.isSending m w then some ⟨w, a, [], false⟩
  else
    match message.response.walk send h m fuel [] (w.messages m).Senders a []
        (w.setSending m true) with
    | none => none
    | some out => some { out with world := out.world.setSending m false }

/-- Member `message::send`: `response` with the handler `[](...){ }`. -/
def message.send {σ ρ : Type} (fuel : Nat) (send : World → Nat → σ → σ × Option ρ)
    (m : Nat) (a : σ) (w : World) : Option (Outcome σ) :=
  message.response fuel send (detail.call_handler_void (fun _ s => (s, some ()))) m a w

/-- The declaration `auto guard = Senders.scoped_set();` of
`message::response`.  `flag_pointer::scoped_set` sets the flag and returns a
`scoped_reset_guard` by value, and `guard` is copy-initialised from the object
returned.  `in_place` says whether the compiler constructs that object in
`guard` itself (copy elision: the rule from C++17 on, permitted but not
required by C++11 and C++14, for which the library is written).  If it does
not, `guard` is a copy of a temporary, and the destructor of the temporary
runs `reset()` at the end of the declaration, before the loop. -/
def message.scoped_set (in_place : Bool) (m : Nat) (w : World) : World :=
  if in_place then w.setSending m true else (w.setSending m true).setSending m false

/-- Member `message::response` with the declaration of the guard spelled
out: the reentrancy check, the declaration, the loop, and the destructor of
`guard` on every way out.  `message.response` is the case `in_place = true`. -/
def message.response_guarded {σ ρ : Type} (in_place : Bool) (fuel : Nat)
    (send : World → Nat → σ → σ × Option ρ) (h : ρ → σ → σ × Option iteration_state)
    (m : Nat) (a : σ) (w : World) : Option (Outcome σ) :=
  if message.isSending m w then some ⟨w, a, [], false⟩
  else
    match message.response.walk send h m fuel [] (w.messages m).Senders a []
        (message.scoped_set in_place m w) with
    | none => none
    | some out => some { out with world := out.world.setSending m false }

/-! ## `pigeon` -/

/-- Member `pigeon::ensureNotDestructing`. -/
def pigeon.ensureNotDestructing (p : Nat) (w : World) : Except logic_error Unit :=
  if (w.pigeons p).contacts_flag then .error .while_destructing else .ok ()

/-- Member `pigeon::size`. -/
def pigeon.size (p : Nat) (w : World) : Except logic_error Nat :=
  match pigeon.ensureNotDestructing p w with
  | .error e => .error e
  | .ok () =>
    .ok ((w.pigeons p).contacts.filter (fun c => !detail.contact.isDropped c w)).length

/-- Member `pigeon::clear`. -/
def pigeon.clear (p : Nat) (w : World) : World :=
  let contact := (w.pigeons p).contacts
  detail.drop_chain .pigeon contact (w.setContacts p [])

/-- Member `pigeon::deliver` with a null allocator and the default callback.
Both checks throw before anything is changed. -/
def pigeon.deliver (p : Nat) (m : Nat) (w : World) : Except logic_error (contact_token × World) :=
  match pigeon.ensureNotDestructing p w with
  | .error e => .error e
  | .ok () =>
    match message.make_contact m p w with
    | .error e => .error e
    | .ok (contact, w1) => .ok (contact, w1.setContacts p (contact :: (w1.pigeons p).contacts))

/-- Member `pigeon::drop`. -/
def pigeon.drop (p : Nat) (token : contact_token) (w : World) : Bool × World :=
  match detail.unlink token (w.pigeons p).contacts with
  | some rest => (true, detail.contact.drop token .pigeon (w.setContacts p rest))
  | none => (false, w)

/-- Member `pigeon::setDestructing`. -/
def pigeon.setDestructing (p : Nat) (w : World) : World := w.setDestructing p

/-- The destructor `pigeon::~pigeon`. -/
def pigeon.destructor (p : Nat) (w : World) : World :=
  pigeon.clear p (pigeon.setDestructing p w)

/-- The destructor `message::~message`, which only calls `clear()`. -/
def message.destructor (m : Nat) (w : World) : Except logic_error World :=
  message.clear m w

/-! ## Programs: sequences of calls -/

/-- One call of the public interface that returns without a `logic_error`
(a call that throws leaves the heap as it was). -/
inductive Step : World → World → Prop
  | deliver (p m : Nat) (token : contact_token) {w w1 : World} :
      pigeon.deliver p m w = .ok (token, w1) → Step w w1
  | message_drop (m : Nat) (token : contact_token) {w w1 : World} {found : Bool} :
      message.drop m token w = .ok (found, w1) → Step w w1
  | pigeon_drop (p : Nat) (token : contact_token) {w : World} :
      Step w (pigeon.drop p token w).2
  | message_clear (m : Nat) {w w1 : World} :
      message.clear m w = .ok w1 → Step w w1
  | pigeon_clear (p : Nat) {w : World} :
      Step w (pigeon.clear p w)
  | response {σ ρ : Type} (fuel : Nat) (send : World → Nat → σ → σ × Option ρ)
      (h : ρ → σ → σ × Option iteration_state) (m : Nat) (a : σ) {w : World} {out : Outcome σ} :
      message.response fuel send h m a w = some out → Step w out.world
  | message_destructor (m : Nat) {w w1 : World} :
      message.destructor m w = .ok w1 → Step w w1
  | pigeon_destructor (p : Nat) {w : World} :
      Step w (pigeon.destructor p w)

/-- Any finite sequence of calls. -/
def Steps : World → World → Prop := Relation.ReflTransGen Step

/-- The heaps that a program can reach from the empty heap. -/
def Reachable (w : World) : Prop := Steps World.init w

/-! ## The structural invariant -/

/-- Node `c` is in the sender list of the message it was created for. -/
def World.inMessage (w : World) (c : Nat) : Prop :=
  c ∈ (w.messages (w.arena c).owner_message).Senders

/-- Node `c` is in the contact list of the pigeon it was created for. -/
def World.inPigeon (w : World) (c : Nat) : Prop :=
  c ∈ (w.pigeons (w.arena c).owner_pigeon).contacts

/-- The structural invariant of the heap between and during calls. -/
structure Inv (w : World) : Prop where
  senders_nodup : ∀ m, (w.messages m).Senders.Nodup
  contacts_nodup : ∀ p, (w.pigeons p).contacts.Nodup
  sender_owner : ∀ m c, c ∈ (w.messages m).Senders → (w.arena c).owner_message = m ∧ c < w.next
  contact_owner : ∀ p c, c ∈ (w.pigeons p).contacts → (w.arena c).owner_pigeon = p ∧ c < w.next
  dropped_iff : ∀ c, (w.arena c).dropped = true ↔ c < w.next ∧ ¬ (w.inMessage c ∧ w.inPigeon c)
  destructs_one : ∀ c, c < w.next → ¬ w.inMessage c → ¬ w.inPigeon c → (w.arena c).destructs = 1
  destructs_zero : ∀ c, (w.next ≤ c ∨ w.inMessage c ∨ w.inPigeon c) → (w.arena c).destructs = 0
  never_linked : ∀ c, (w.arena c).destructed_linked = false

/-- No message is dispatching: the state of the heap between two calls of a
single-threaded program whose handlers do not call back into the library. -/
def Quiet (w : World) : Prop := ∀ m, message.isSending m w = false

/-! ## Example programs -/

/-- The heap after a `deliver` call, or the unchanged heap when it throws. -/
def World.after_deliver (w : World) (p m : Nat) : World :=
  match pigeon.deliver p m w with
  | .ok (_, w1) => w1
  | .error _ => w

/-- The heap after a `message::clear` call, or the unchanged heap when it throws. -/
def World.after_message_clear (w : World) (m : Nat) : World :=
  match message.clear m w with
  | .ok w1 => w1
  | .error _ => w

/-- The heap after a `message::drop` call, or the unchanged heap when it throws. -/
def World.after_message_drop (w : World) (m : Nat) (token : contact_token) : World :=
  match message.drop m token w with
  | .ok (_, w1) => w1
  | .error _ => w

/-- Pigeon 0 subscribes once to message 0. -/
def Demo.one : World := World.init.after_deliver 0 0

/-- A handler that stores `isSending()` of message 0 in the environment. -/
def Demo.store_isSending (w : World) (_self : Nat) (_seen : Option Bool) :
    Option Bool × Option Unit :=
  (some (message.isSending 0 w), some ())

/-- Then the pigeon clears, then the message clears. -/
def Demo.one_cleared : World := (pigeon.clear 0 Demo.one).after_message_clear 0

/-- Pigeon 0 subscribes twice to message 0. -/
def Demo.two : World := Demo.one.after_deliver 0 0

/-- One side requests the drop of contact `c`: `pigeon::drop` with its token
returns true, `pigeon::clear` of the pigeon that lists it, `message::drop` with
its token returns true, or `message::clear` of the message that lists it.  The
two heaps are the one before and the one after the request. -/
inductive DropRequested (c : Nat) : World → World → Prop
  | pigeon_drop (p : Nat) {w : World} :
      (pigeon.drop p c w).1 = true → DropRequested c w (pigeon.drop p c w).2
  | pigeon_clear (p : Nat) {w : World} :
      c ∈ (w.pigeons p).contacts → DropRequested c w (pigeon.clear p w)
  | message_drop (m : Nat) {w w1 : World} :
      message.drop m c w = .ok (true, w1) → DropRequested c w w1
  | message_clear (m : Nat) {w w1 : World} :
      c ∈ (w.messages m).Senders → message.clear m w = .ok w1 → DropRequested c w w1

/-- The pigeons `ps` subscribe to message `m` one after the other; the tokens
are returned in the order of the `deliver` calls.  `none` when one call throws. -/
def subscribe_all (m : Nat) : List Nat → World → Option (List contact_token × World)
  | [], w => some ([], w)
  | p :: ps, w =>
    match pigeon.deliver p m w with
    | .error _ => none
    | .ok (token, w1) =>
      match subscribe_all m ps w1 with
      | none => none
      | some (tokens, w2) => some (token :: tokens, w2)

/-- Pigeons 0, 1 and 0 subscribe, in that order, to message 0. -/
def Demo.three : World := ((World.init.after_deliver 0 0).after_deliver 1 0).after_deliver 0 0

/-! ## The test case `single value_state` of `tests/iteration.cpp` -/

namespace iteration_test

/-- Everything the handlers of the test can touch: the two arguments passed
by reference and the captured variables `check1`, `check2`, `check3` (which
start uninitialised). -/
structure Env where
  value : Int
  state : value_state
  check1 : Option Int
  check2 : Option Int
  check3 : Option Int
  deriving DecidableEq, Repr

/-- The lambda `modify1`. -/
def modify1 (e : Env) : Env :=
  let e1 := if e.state = .original then { e with value := 42, state := .changed } else e
  { e1 with check1 := some e1.value }

/-- The lambda `modify2`. -/
def modify2 (e : Env) : Env :=
  let e1 := if e.state = .original then { e with value := 43, state := .changed } else e
  { e1 with check2 := some e1.value }

/-- The lambda `nomodify`. -/
def nomodify (e : Env) : Env :=
  { e with check3 := some e.value }

/-- The handler behind each token: `modify1`, `modify2`, `nomodify` were
delivered in this order and so own the tokens 0, 1, 2. -/
def handlers (_w : World) (token : Nat) (e : Env) : Env × Option Unit :=
  if token = 0 then (modify1 e, some ())
  else if token = 1 then (modify2 e, some ())
  else if token = 2 then (nomodify e, some ())
  else (e, some ())

/-- The response handler of the test. -/
def controller (_r : Unit) (e : Env) : Env × Option iteration_state :=
  if e.state = .changed then ({ e with state := .constant }, some .repeat_)
  else (e, some .progress)

/-- The heap after the three `pigeon.deliver(message, ...)` calls. -/
def subscribed : World := ((World.init.after_deliver 0 0).after_deliver 0 0).after_deliver 0 0

/-- The arguments `value = 0`, `state = original`. -/
def arguments : Env := ⟨0, .original, none, none, none⟩

end iteration_test

/-! ## The library with on-drop callbacks and allocators

The second model keeps the heap `World` of the first one and adds what the
first one fixes: the callback `F` stored in every inbox, the allocator pointer
`Alloc` of an `inbox_with_allocator`, and the allocators themselves.  A
callback may call `drop` of a message or of a pigeon, which calls
`contact::drop` again, so `contact::drop` takes fuel for the nesting of
callbacks; `none` means that the fuel ran out.  A call that throws hands back
the heap as the exception leaves it. -/

namespace callback

/-- The arena allocators `arena_heap_allocator<N>` and
`arena_stack_allocator<N>`, which differ only in where `Memory` lives.
`MinAlignment` is `sizeof(void*)` and `size_bits` is the width of `size_t`. -/
structure arena_allocator where
  N : Nat
  MinAlignment : Nat
  size_bits : Nat
  ByteIndex : Nat
  deriving DecidableEq, Repr

/-- Member `allocate` of the arena allocators, in `size_t` arithmetic.  The
result is the offset of the returned address in `Memory`.  The index is
advanced before the check, also when the call throws. -/
def arena_allocator.allocate (a : arena_allocator) (size_bytes : Nat) :
    Except logic_error Nat × arena_allocator :=
  let oldByteIndex := a.ByteIndex
  let rounded :=
    ((size_bytes + a.MinAlignment + (2 ^ a.size_bits - 1)) % 2 ^ a.size_bits
      / a.MinAlignment * a.MinAlignment) % 2 ^ a.size_bits
  let a1 := { a with ByteIndex := (a.ByteIndex + rounded) % 2 ^ a.size_bits }
  if a1.ByteIndex ≥ a.N then (.error .not_enough_memory, a1) else (.ok oldByteIndex, a1)

/-- Member `deallocate` of the arena allocators: empty. -/
def arena_allocator.deallocate (a : arena_allocator) : arena_allocator := a

/-- The implementations of the interface `allocator`: the two arena
allocators, and the allocator of `tests/test.cpp`, which forwards to
`operator new` and `operator delete` and records that it was called. -/
inductive allocator
  | arena (a : arena_allocator)
  | recording (CalledAllocate CalledDeAllocate : Bool)
  deriving DecidableEq, Repr

/-- Virtual member `allocator::allocate`. -/
def allocator.allocate : allocator → Nat → Except logic_error Unit × allocator
  | .arena a, size_bytes =>
    match a.allocate size_bytes with
    | (.error e, a1) => (.error e, .arena a1)
    | (.ok _, a1) => (.ok (), .arena a1)
  | .recording _ d, _ => (.ok (), .recording true d)

/-- Virtual member `allocator::deallocate`. -/
def allocator.deallocate : allocator → allocator
  | .arena a => .arena a.deallocate
  | .recording c _ => .recording c true

/-- The on-drop callbacks of the library and of `tests/test.cpp`:
`detail::noop`; `detail::onDrop_handler<M>{Message}`; the lambdas of the test
cases `pigeon drop first` (`message.drop(token)`), `message drop first`
(`pigeon.drop(token)`) and `either drop first` (a switch over `who`). -/
inductive on_drop
  | noop
  | onDrop_handler (Message : Nat)
  | drop_message (Message : Nat)
  | drop_pigeon (Pigeon : Nat)
  | drop_other (Pigeon Message : Nat)
  deriving DecidableEq, Repr

/-- One call of `allocate` that returned, or one call of `deallocate`: the
allocator, the node placed in the storage, and the size passed. -/
structure alloc_call where
  alloc : Nat
  storage : Nat
  size_bytes : Nat
  deriving DecidableEq, Repr

/-- The heap of the first model together with, per node, the callback `F`, the
member `Alloc` (`none` for a plain `inbox`) and `sizeof` of the node's type;
the allocators; and ghost logs of the calls of `allocate` that returned, of
`deallocate`, and of `callOnDrop`, newest first. -/
structure Heap where
  world : World
  on_drop : Nat → on_drop
  Alloc : Nat → Option Nat
  node_size : Nat → Nat
  allocators : Nat → allocator
  allocate_calls : List alloc_call
  deallocate_calls : List alloc_call
  on_drop_calls : List (contact_token × who)

/-- The heap before anything has been created, with the given allocators. -/
def Heap.init (allocators : Nat → allocator) : Heap where
  world := World.init
  on_drop := fun _ => .noop
  Alloc := fun _ => none
  node_size := fun _ => 0
  allocators := allocators
  allocate_calls := []
  deallocate_calls := []
  on_drop_calls := []

/-- The outcome of a call that may nest callbacks: `none` when the fuel ran
out, otherwise the value returned or the exception thrown, and the heap. -/
abbrev Result (α : Type) := Option (Except logic_error α × Heap)

/-- Members `inbox::destruct` (`delete this`) and
`inbox_with_allocator::destruct` (run the destructor, then
`alloc->deallocate(this, sizeof (inbox_with_allocator))`). -/
def contact.destruct (c : Nat) (h : Heap) : Heap :=
  let h1 := { h with world := pigeon.detail.contact.destruct c h.world }
  match h.Alloc c with
  | none => h1
  | some alloc =>
    { h1 with
      allocators := fun i =>
        if i = alloc then (h.allocators alloc).deallocate else h.allocators i
      deallocate_calls := ⟨alloc, c, h.node_size c⟩ :: h.deallocate_calls }

/-- The body of `message::drop`, over the `contact::drop` it calls. -/
def message.drop_body (drop : Nat → who → Heap → Result Unit) (m : Nat)
    (token : contact_token) (h : Heap) : Result Bool :=
  if message.isSending m h.world then some (.error .while_delivering, h)
  else
    match pigeon.detail.unlink token (h.world.messages m).Senders with
    | some rest =>
      match drop token .message { h with world := h.world.setSenders m rest } with
      | none => none
      | some (.error e, h1) => some (.error e, h1)
      | some (.ok (), h1) => some (.ok true, h1)
    | none => some (.ok false, h)

/-- The body of `pigeon::drop`, over the `contact::drop` it calls. -/
def pigeon.drop_body (drop : Nat → who → Heap → Result Unit) (p : Nat)
    (token : contact_token) (h : Heap) : Result Bool :=
  match pigeon.detail.unlink token (h.world.pigeons p).contacts with
  | some rest =>
    match drop token .pigeon { h with world := h.world.setContacts p rest } with
    | none => none
    | some (.error e, h1) => some (.error e, h1)
    | some (.ok (), h1) => some (.ok true, h1)
  | none => some (.ok false, h)

/-- A call whose result is not used: `Message.drop(token);`. -/
def discard {α : Type} : Result α → Result Unit
  | none => none
  | some (.error e, h) => some (.error e, h)
  | some (.ok _, h) => some (.ok (), h)

/-- The call operator of a callback, over the `contact::drop` that the
members it calls use. -/
def on_drop.call (drop : Nat → who → Heap → Result Unit) (f : on_drop)
    (token : contact_token) (w : who) (h : Heap) : Result Unit :=
  match f with
  | .noop => some (.ok (), h)
  | .onDrop_handler Message =>
    match w with
    | .pigeon => discard (message.drop_body drop Message token h)
    | .message => some (.ok (), h)
  | .drop_message Message => discard (message.drop_body drop Message token h)
  | .drop_pigeon Pigeon => discard (pigeon.drop_body drop Pigeon token h)
  | .drop_other Pigeon Message =>
    match w with
    | .pigeon => discard (message.drop_body drop Message token h)
    | .message => discard (pigeon.drop_body drop Pigeon token h)

/-- Member `contact::drop`, with `setDropped` (set the flag, then
`callOnDrop(w)`, which is `F::operator()(contact_token{this}, w)`) inlined.
One unit of fuel is used per nested callback. -/
def contact.drop : Nat → Nat → who → Heap → Result Unit
  | 0, _, _, _ => none
  | fuel + 1, c, by_side, h =>
    if pigeon.detail.contact.isDropped c h.world then some (.ok (), contact.destruct c h)
    else
      let h1 : Heap :=
        { h with
          world := h.world.setContact c { h.world.arena c with dropped := true }
          on_drop_calls := (c, by_side) :: h.on_drop_calls }
      on_drop.call (contact.drop fuel) (h.on_drop c) c by_side h1

/-- Member `message::drop`. -/
def message.drop (fuel : Nat) (m : Nat) (token : contact_token) (h : Heap) : Result Bool :=
  message.drop_body (contact.drop fuel) m token h

/-- Member `pigeon::drop`. -/
def pigeon.drop (fuel : Nat) (p : Nat) (token : contact_token) (h : Heap) : Result Bool :=
  pigeon.drop_body (contact.drop fuel) p token h

/-- The loop `while (x) { next = x->Next; x->drop(w); x = next; }` of the two
`clear` members over the detached chain; an exception leaves the loop. -/
def drop_chain (fuel : Nat) (by_side : who) : List Nat → Heap → Result Unit
  | [], h => some (.ok (), h)
  | c :: next, h =>
    match contact.drop fuel c by_side h with
    | none => none
    | some (.error e, h1) => some (.error e, h1)
    | some (.ok (), h1) => drop_chain fuel by_side next h1

/-- Member `message::clear`. -/
def message.clear (fuel : Nat) (m : Nat) (h : Heap) : Result Unit :=
  if message.isSending m h.world then some (.error .while_delivering, h)
  else
    drop_chain fuel .message (h.world.messages m).Senders
      { h with world := h.world.setSenders m [] }

/-- Member `pigeon::clear`. -/
def pigeon.clear (fuel : Nat) (p : Nat) (h : Heap) : Result Unit :=
  drop_chain fuel .pigeon (h.world.pigeons p).contacts
    { h with world := h.world.setContacts p [] }

/-- Member `message::make_contact`: the check, then the allocation (which may
throw), then the node is constructed and linked at the head of `Senders`.
`size_bytes` is `sizeof` of the inbox type. -/
def message.make_contact (m p : Nat) (alloc : Option Nat) (f : on_drop) (size_bytes : Nat)
    (h : Heap) : Except logic_error Nat × Heap :=
  if message.isSending m h.world then (.error .while_delivering, h)
  else
    let sender := h.world.next
    let construct (h0 : Heap) : Except logic_error Nat × Heap :=
      let w1 : World :=
        { h0.world.setContact sender ⟨false, 0, false, m, p⟩ with next := h0.world.next + 1 }
      (.ok sender,
        { h0 with
          world := w1.setSenders m (sender :: (w1.messages m).Senders)
          on_drop := fun i => if i = sender then f else h0.on_drop i
          Alloc := fun i => if i = sender then alloc else h0.Alloc i
          node_size := fun i => if i = sender then size_bytes else h0.node_size i })
    match alloc with
    | none => construct h
    | some a =>
      match (h.allocators a).allocate size_bytes with
      | (.error e, a1) =>
        (.error e, { h with allocators := fun i => if i = a then a1 else h.allocators i })
      | (.ok (), a1) =>
        construct
          { h with
            allocators := fun i => if i = a then a1 else h.allocators i
            allocate_calls := ⟨a, sender, size_bytes⟩ :: h.allocate_calls }

/-- Member `pigeon::deliver(message, inbox, alloc, f)`. -/
def pigeon.deliver (p m : Nat) (alloc : Option Nat) (f : on_drop) (size_bytes : Nat)
    (h : Heap) : Except logic_error contact_token × Heap :=
  if (h.world.pigeons p).contacts_flag then (.error .while_destructing, h)
  else
    match message.make_contact m p alloc f size_bytes h with
    | (.error e, h1) => (.error e, h1)
    | (.ok contact, h1) =>
      (.ok contact,
        { h1 with world := h1.world.setContacts p (contact :: (h1.world.pigeons p).contacts) })

/-- Member `allocator_pigeon::deliver(message, box)`: the base `deliver` with
the pigeon's own allocator and `detail::onDrop_handler<M>{message}`.  The
member `allocator` of the allocator_pigeon number `p` is allocator number `p`. -/
def allocator_pigeon.deliver (p m : Nat) (size_bytes : Nat) (h : Heap) :
    Except logic_error contact_token × Heap :=
  pigeon.deliver p m (some p) (.onDrop_handler m) size_bytes h

/-- Members `drop` and `clear` of `allocator_pigeon` are those of the base
(`using base::drop; using base::clear;`). -/
def allocator_pigeon.drop (fuel : Nat) (p : Nat) (token : contact_token) (h : Heap) :
    Result Bool :=
  pigeon.drop fuel p token h

def allocator_pigeon.clear (fuel : Nat) (p : Nat) (h : Heap) : Result Unit :=
  pigeon.clear fuel p h

/-- The heap after a `deliver` of an allocator_pigeon (as the exception, if
any, leaves it). -/
def Heap.after_deliver (h : Heap) (p m size_bytes : Nat) : Heap :=
  (allocator_pigeon.deliver p m size_bytes h).2

/-- An allocator_pigeon over `arena_stack_allocator<100>` on a 64-bit platform
(pigeon 0), as in the test case `stackmemory`. -/
def Demo.stack : Heap := Heap.init (fun _ => .arena ⟨100, 8, 64, 0⟩)

/-- Two subscriptions of 40 bytes of that pigeon to message 0. -/
def Demo.stack_two : Heap := (Demo.stack.after_deliver 0 0 40).after_deliver 0 0 40

/-- Repoint the list head of message `m` in the second model. -/
def Heap.setSenders (h : Heap) (m : Nat) (l : List Nat) : Heap :=
  { h with world := h.world.setSenders m l }

/-- Repoint the list head of pigeon `p` in the second model. -/
def Heap.setContacts (h : Heap) (p : Nat) (l : List Nat) : Heap :=
  { h with world := h.world.setContacts p l }

/-- The heap in which `contact::setDropped` calls `callOnDrop(w)`: the flag of
the node is set and the ghost log has noted the call. -/
def Heap.setDropped (h : Heap) (c : Nat) (by_side : who) : Heap :=
  { h with
    world := h.world.setContact c { h.world.arena c with dropped := true }
    on_drop_calls := (c, by_side) :: h.on_drop_calls }

/-- What a call on the nodes `D` leaves alone: every other node with its
callback, allocator and log records, all flags, and the membership and order
of the other nodes in every list (lists only lose entries). -/
structure Frame (D : Nat → Prop) (h h1 : Heap) : Prop where
  next : h1.world.next = h.world.next
  arena : ∀ x, ¬ D x → h1.world.arena x = h.world.arena x
  Senders_flag : ∀ i, (h1.world.messages i).Senders_flag = (h.world.messages i).Senders_flag
  Senders_sub : ∀ i, (h1.world.messages i).Senders.Sublist (h.world.messages i).Senders
  Senders_mem : ∀ i x, ¬ D x → x ∈ (h.world.messages i).Senders →
    x ∈ (h1.world.messages i).Senders
  contacts_flag : ∀ i, (h1.world.pigeons i).contacts_flag = (h.world.pigeons i).contacts_flag
  contacts_sub : ∀ i, (h1.world.pigeons i).contacts.Sublist (h.world.pigeons i).contacts
  contacts_mem : ∀ i x, ¬ D x → x ∈ (h.world.pigeons i).contacts →
    x ∈ (h1.world.pigeons i).contacts
  on_drop : h1.on_drop = h.on_drop
  Alloc : h1.Alloc = h.Alloc
  node_size : h1.node_size = h.node_size
  allocate_calls : h1.allocate_calls = h.allocate_calls
  deallocate_calls : ∀ x, ¬ D x →
    h1.deallocate_calls.filter (fun r => decide (r.storage = x)) =
      h.deallocate_calls.filter (fun r => decide (r.storage = x))
  on_drop_calls : ∀ x, ¬ D x →
    h1.on_drop_calls.filter (fun r => decide (r.1 = x)) =
      h.on_drop_calls.filter (fun r => decide (r.1 = x))

/-- The result of one `response` call in the second model: the heap and the
caller's environment when the call exits, the senders whose handler ran, and
whether the call exited by an exception (of a handler, or of the callback of
an entry that the loop dropped). -/
structure Outcome (σ : Type) where
  heap : Heap
  user : σ
  trace : List Nat
  threw : Bool

/-- The `while (sender)` loop of `message::response` in the second model: the
loop of the first model, with the `contact::drop` of the case `dead` calling
the callback (`nest` is its fuel).  The handlers make no call of the library;
`reentrant.message.response.walk` is the loop for handlers that do. -/
def message.response.walk {σ ρ : Type} (nest : Nat) (send : World → Nat → σ → σ × Option ρ)
    (hd : ρ → σ → σ × Option iteration_state) (m : Nat) :
    Nat → List Nat → List Nat → σ → List Nat → Heap → Option (Outcome σ)
  | 0, _, _, _, _, _ => none
  | _ + 1, _, [], a, tr, h => some ⟨h, a, tr, false⟩
  | fuel + 1, visited, sender :: next, a, tr, h =>
    let tr1 := if pigeon.detail.contact.isDropped sender h.world then tr else tr ++ [sender]
    match pigeon.detail.sender.try_send send hd sender h.world a with
    | (a1, none) => some ⟨h, a1, tr1, true⟩
    | (a1, some .dead) =>
      match contact.drop nest sender .message (h.setSenders m (visited ++ next)) with
      | none => none
      | some (.error _, h1) => some ⟨h1, a1, tr1, true⟩
      | some (.ok (), h1) => message.response.walk nest send hd m fuel visited next a1 tr1 h1
    | (a1, some .progress) =>
      message.response.walk nest send hd m fuel (visited ++ [sender]) next a1 tr1 h
    | (a1, some .repeat_) =>
      message.response.walk nest send hd m fuel [sender] (next ++ visited) a1 tr1
        (h.setSenders m (sender :: (next ++ visited)))
    | (a1, some .finish) => some ⟨h, a1, tr1, false⟩

/-- Member `message::response` in the second model. -/
def message.response {σ ρ : Type} (nest fuel : Nat) (send : World → Nat → σ → σ × Option ρ)
    (hd : ρ → σ → σ × Option iteration_state) (m : Nat) (a : σ) (h : Heap) :
    Option (Outcome σ) :=
  if message.isSending m h.world then some ⟨h, a, [], false⟩
  else
    match message.response.walk nest send hd m fuel [] (h.world.messages m).Senders a []
        { h with world := h.world.setSending m true } with
    | none => none
    | some out =>
      some { out with heap := { out.heap with world := out.heap.world.setSending m false } }

/-- Member `message::send` in the second model. -/
def message.send {σ ρ : Type} (nest fuel : Nat) (send : World → Nat → σ → σ × Option ρ)
    (m : Nat) (a : σ) (h : Heap) : Option (Outcome σ) :=
  message.response nest fuel send
    (pigeon.detail.call_handler_void (fun _ s => (s, some ()))) m a h

/-- The destructor `message::~message`. -/
def message.destructor (fuel : Nat) (m : Nat) (h : Heap) : Result Unit :=
  message.clear fuel m h

/-- The destructor `pigeon::~pigeon`. -/
def pigeon.destructor (fuel : Nat) (p : Nat) (h : Heap) : Result Unit :=
  pigeon.clear fuel p { h with world := h.world.setDestructing p }

/-- Member `capacity` of the arena allocators. -/
def arena_allocator.capacity (a : arena_allocator) : Nat := a.N

/-- Member `allocator_pigeon::total_memory`, on the pigeon's allocator. -/
def allocator_pigeon.total_memory (allocator : arena_allocator) : Nat := allocator.capacity

/-- Member `allocator_pigeon::used_memory`. -/
def allocator_pigeon.used_memory (allocator : arena_allocator) : Nat := allocator.ByteIndex

/-- Member `allocator_pigeon::available_memory`: a subtraction in `size_t`. -/
def allocator_pigeon.available_memory (allocator : arena_allocator) : Nat :=
  (allocator_pigeon.total_memory allocator + 2 ^ allocator.size_bits
    - allocator_pigeon.used_memory allocator % 2 ^ allocator.size_bits) % 2 ^ allocator.size_bits

/-- One call of the interface in the second model, whether it returns or
throws.  In a program made of such calls alone the handlers do not call back
into the library, so between two calls no message is dispatching; the calls
that a handler makes are those of `reentrant.Calls`. -/
inductive Step : Heap → Heap → Prop
  | deliver (p m : Nat) (alloc : Option Nat) (f : on_drop) (size_bytes : Nat) {h : Heap} :
      Step h (pigeon.deliver p m alloc f size_bytes h).2
  | message_drop (fuel m : Nat) (token : contact_token) {h h1 : Heap}
      {r : Except logic_error Bool} :
      message.drop fuel m token h = some (r, h1) → Step h h1
  | pigeon_drop (fuel p : Nat) (token : contact_token) {h h1 : Heap}
      {r : Except logic_error Bool} :
      pigeon.drop fuel p token h = some (r, h1) → Step h h1
  | message_clear (fuel m : Nat) {h h1 : Heap} {r : Except logic_error Unit} :
      message.clear fuel m h = some (r, h1) → Step h h1
  | pigeon_clear (fuel p : Nat) {h h1 : Heap} {r : Except logic_error Unit} :
      pigeon.clear fuel p h = some (r, h1) → Step h h1
  | response {σ ρ : Type} (nest fuel : Nat) (send : World → Nat → σ → σ × Option ρ)
      (hd : ρ → σ → σ × Option iteration_state) (m : Nat) (a : σ) {h : Heap}
      {out : Outcome σ} :
      message.response nest fuel send hd m a h = some out → Step h out.heap
  | pigeon_destructor (fuel p : Nat) {h h1 : Heap} {r : Except logic_error Unit} :
      pigeon.destructor fuel p h = some (r, h1) → Step h h1

/-- Any finite sequence of calls in the second model. -/
def Steps : Heap → Heap → Prop := Relation.ReflTransGen Step

/-- The heaps that a program can reach from the empty heap with the given
allocators. -/
def Reachable (h : Heap) : Prop := ∃ allocators, Steps (Heap.init allocators) h

/-- The ghost logs are in step with the nodes: one callback record for a
flagged node and none for a live one; for a node made with an allocator one
`allocate` record, and as many `deallocate` records as the node was
destructed, all with the node's allocator, address and size. -/
structure Logs (h : Heap) : Prop where
  calls : ∀ c, (h.on_drop_calls.filter (fun r => decide (r.1 = c))).length =
    if (h.world.arena c).dropped then 1 else 0
  allocated : ∀ c, h.allocate_calls.filter (fun r => decide (r.storage = c)) =
    if c < h.world.next then
      match h.Alloc c with
      | some a => [⟨a, c, h.node_size c⟩]
      | none => []
    else []
  deallocated : ∀ c, h.deallocate_calls.filter (fun r => decide (r.storage = c)) =
    if c < h.world.next then
      match h.Alloc c with
      | some a => List.replicate (h.world.arena c).destructs ⟨a, c, h.node_size c⟩
      | none => []
    else []

/-- The invariant of the second model between calls: the structural invariant
of the first model, no message dispatching, and the logs in step. -/
structure Inv (h : Heap) : Prop where
  world : pigeon.Inv h.world
  quiet : Quiet h.world
  logs : Logs h

/-- The program of the test case `either drop first`: pigeon 0 subscribes to
message 0 with the recording allocator (allocator 0) and the callback that
forwards the drop to the other side.  The handler `[]{}` is empty and the
callback captures two references, which makes a node of 48 bytes on a 64-bit
platform. -/
def Demo.either : Heap :=
  (pigeon.deliver 0 0 (some 0) (.drop_other 0 0) 48
    (Heap.init (fun _ => .recording false false))).2

/-- Lists only lose existing nodes between `h` and `h1`: a node that exists
in `h` and is in a list in `h1` was in that same list in `h`. -/
structure Shrinks (h h1 : Heap) : Prop where
  next : h.world.next ≤ h1.world.next
  Senders : ∀ c i, c < h.world.next → c ∈ (h1.world.messages i).Senders →
    c ∈ (h.world.messages i).Senders
  contacts : ∀ c i, c < h.world.next → c ∈ (h1.world.pigeons i).contacts →
    c ∈ (h.world.pigeons i).contacts

/-! ### Handlers that call the library

A handler, or the response handler, may itself call members of the library
while `response` runs it (`pigeon::drop`, `pigeon::clear`, calls on other
messages, ...).  Here it takes the heap and hands back the heap as its calls
left it.  For the message that is dispatching, `drop`, `clear` and `deliver`
throw and `response` returns at once, so the calls of a handler leave the list
that the loop walks as it is, but they can set the dropped flag of its
entries. -/

namespace reentrant

/-- Member `sender::do_send` with a handler `send` and a response handler `hd`
that may call the library.  `tr` (ghost) collects the senders whose handler
was called; the call is noted here, where it is made. -/
def sender.do_send {σ ρ : Type} (send : Heap → Nat → σ → Heap × σ × Option ρ)
    (hd : Heap → ρ → σ → Heap × σ × Option iteration_state) (self : Nat) (g : Heap) (a : σ)
    (tr : List Nat) : Heap × σ × List Nat × Option iteration_state :=
  match send g self a with
  | (g1, a1, none) => (g1, a1, tr ++ [self], none)
  | (g1, a1, some r) =>
    match hd g1 r a1 with
    | (g2, a2, d) => (g2, a2, tr ++ [self], d)

/-- Member `sender::try_send`. -/
def sender.try_send {σ ρ : Type} (send : Heap → Nat → σ → Heap × σ × Option ρ)
    (hd : Heap → ρ → σ → Heap × σ × Option iteration_state) (self : Nat) (g : Heap) (a : σ)
    (tr : List Nat) : Heap × σ × List Nat × Option iteration_state :=
  if pigeon.detail.contact.isDropped self g.world then (g, a, tr, some .dead)
  else sender.do_send send hd self g a tr

/-- The `while (sender)` loop of `message::response`, each case continuing on
the heap that the handlers left.  `visited` is the part of the list before
`previous_sender`, the second list is the chain starting at `sender`. -/
def message.response.walk {σ ρ : Type} (nest : Nat)
    (send : Heap → Nat → σ → Heap × σ × Option ρ)
    (hd : Heap → ρ → σ → Heap × σ × Option iteration_state) (m : Nat) :
    Nat → List Nat → List Nat → σ → List Nat → Heap → Option (Outcome σ)
  | 0, _, _, _, _, _ => none
  | _ + 1, _, [], a, tr, g => some ⟨g, a, tr, false⟩
  | fuel + 1, visited, sender :: next, a, tr, g =>
    match reentrant.sender.try_send send hd sender g a tr with
    | (g1, a1, tr1, none) => some ⟨g1, a1, tr1, true⟩
    | (g1, a1, tr1, some .dead) =>
      match callback.contact.drop nest sender .message (g1.setSenders m (visited ++ next)) with
      | none => none
      | some (.error _, g2) => some ⟨g2, a1, tr1, true⟩
      | some (.ok (), g2) => message.response.walk nest send hd m fuel visited next a1 tr1 g2
    | (g1, a1, tr1, some .progress) =>
      message.response.walk nest send hd m fuel (visited ++ [sender]) next a1 tr1 g1
    | (g1, a1, tr1, some .repeat_) =>
      message.response.walk nest send hd m fuel [sender] (next ++ visited) a1 tr1
        (g1.setSenders m (sender :: (next ++ visited)))
    | (g1, a1, tr1, some .finish) => some ⟨g1, a1, tr1, false⟩

/-- Member `message::response` (the guard constructed in place). -/
def message.response {σ ρ : Type} (nest fuel : Nat)
    (send : Heap → Nat → σ → Heap × σ × Option ρ)
    (hd : Heap → ρ → σ → Heap × σ × Option iteration_state) (m : Nat) (a : σ) (g : Heap) :
    Option (Outcome σ) :=
  if pigeon.message.isSending m g.world then some ⟨g, a, [], false⟩
  else
    match message.response.walk nest send hd m fuel [] (g.world.messages m).Senders a []
        { g with world := g.world.setSending m true } with
    | none => none
    | some out =>
      some { out with heap := { out.heap with world := out.heap.world.setSending m false } }

/-- A handler that makes no call of the library. -/
def quiet_handler {σ ρ : Type} (send : World → Nat → σ → σ × Option ρ) :
    Heap → Nat → σ → Heap × σ × Option ρ :=
  fun g self a => (g, send g.world self a)

/-- A response handler that makes no call of the library. -/
def quiet_controller {σ ρ : Type} (h : ρ → σ → σ × Option iteration_state) :
    Heap → ρ → σ → Heap × σ × Option iteration_state :=
  fun g r a => (g, h r a)

/-- Member `message::send`: `response` with the handler `[](...){ }`. -/
def message.send {σ ρ : Type} (nest fuel : Nat)
    (send : Heap → Nat → σ → Heap × σ × Option ρ) (m : Nat) (a : σ) (g : Heap) :
    Option (Outcome σ) :=
  message.response nest fuel send
    (quiet_controller (pigeon.detail.call_handler_void (fun _ s => (s, some ())))) m a g

/-- What the calls of a handler can make of the heap: any sequence of calls
of the interface, among them `response` calls whose handlers make such calls
in turn. -/
inductive Calls : Heap → Heap → Prop
  | done (g : Heap) : Calls g g
  | call {g g1 g2 : Heap} : Calls g g1 → Step g1 g2 → Calls g g2
  | response {σ ρ : Type} (nest fuel : Nat) (send : Heap → Nat → σ → Heap × σ × Option ρ)
      (hd : Heap → ρ → σ → Heap × σ × Option iteration_state) (m : Nat) (a : σ)
      {g g1 : Heap} {out : Outcome σ} :
      Calls g g1 → (∀ g0 c s, Calls g0 (send g0 c s).1) → (∀ g0 r s, Calls g0 (hd g0 r s).1) →
      message.response nest fuel send hd m a g1 = some out → Calls g out.heap

/-- What calls of the library keep, whatever they are: nodes stay allocated,
a dropped flag stays set, and a message that is dispatching, other than those
in `D`, stays dispatching with its list as it is. -/
structure Keeps (D : Nat → Prop) (g g1 : Heap) : Prop where
  next : g.world.next ≤ g1.world.next
  dropped : ∀ c, c < g.world.next → (g.world.arena c).dropped = true →
    (g1.world.arena c).dropped = true
  sending : ∀ m, ¬ D m → pigeon.message.isSending m g.world = true →
    pigeon.message.isSending m g1.world = true ∧
      (g1.world.messages m).Senders = (g.world.messages m).Senders

/-- The words of the claim on a heap: the handlers of the senders of a list
run in turn, in list order, each followed by the response handler, every call
on the heap and the environment that the call before left (a handler that
throws ends the run). -/
def spec_in_turn {σ ρ : Type} (send : Heap → Nat → σ → Heap × σ × Option ρ)
    (hd : Heap → ρ → σ → Heap × σ × Option iteration_state) :
    List Nat → Heap → σ → Heap × σ
  | [], g, a => (g, a)
  | c :: l, g, a =>
    match send g c a with
    | (g1, a1, none) => (g1, a1)
    | (g1, a1, some r) => spec_in_turn send hd l (hd g1 r a1).1 (hd g1 r a1).2.1

end reentrant

/-- One side requests the drop of contact `c`, in the second model:
`pigeon::drop` with its token returns true, `pigeon::clear` of the pigeon that
lists it returns, `message::drop` with its token returns true, or
`message::clear` of the message that lists it returns.  The two heaps are the
one before and the one after the request. -/
inductive DropRequested (c : Nat) : Heap → Heap → Prop
  | pigeon_drop (fuel p : Nat) {g g1 : Heap} :
      pigeon.drop fuel p c g = some (.ok true, g1) → DropRequested c g g1
  | pigeon_clear (fuel p : Nat) {g g1 : Heap} :
      c ∈ (g.world.pigeons p).contacts → pigeon.clear fuel p g = some (.ok (), g1) →
      DropRequested c g g1
  | message_drop (fuel m : Nat) {g g1 : Heap} :
      message.drop fuel m c g = some (.ok true, g1) → DropRequested c g g1
  | message_clear (fuel m : Nat) {g g1 : Heap} :
      c ∈ (g.world.messages m).Senders → message.clear fuel m g = some (.ok (), g1) →
      DropRequested c g g1

/-- One `deliver` call of a program: the pigeon that subscribes, the
allocator, the callback, and `sizeof` of the inbox type. -/
structure deliver_call where
  Pigeon : Nat
  alloc : Option Nat
  f : on_drop
  size_bytes : Nat

/-- The `deliver` calls `ds` on message `m`, one after the other; the tokens
are returned in the order of the calls.  `none` when one call throws. -/
def subscribe_all (m : Nat) : List deliver_call → Heap → Option (List contact_token × Heap)
  | [], g => some ([], g)
  | d :: ds, g =>
    match pigeon.deliver d.Pigeon m d.alloc d.f d.size_bytes g with
    | (.error _, _) => none
    | (.ok token, g1) =>
      match subscribe_all m ds g1 with
      | none => none
      | some (tokens, g2) => some (token :: tokens, g2)

/-- Pigeon 0 subscribes twice to message 0, with plain inboxes: no allocator,
the default callback.  The last argument of `deliver` is `sizeof` of the inbox
type, which plays no part without an allocator; 32 and 48 are the sizes, on a
64-bit platform, for handlers that capture one and three references. -/
def Demo.plain_two : Heap :=
  (pigeon.deliver 0 0 none .noop 48
    (pigeon.deliver 0 0 none .noop 32 (Heap.init (fun _ => .recording false false))).2).2

/-- Handlers that append their token to a list and call nothing. -/
def Demo.appends (g : Heap) (self : Nat) (log : List Nat) : Heap × List Nat × Option Unit :=
  (g, log ++ [self], some ())

/-- Handlers that append their token to a list; the handler of subscription 1
first calls `pigeon.drop(token)` on pigeon 0. -/
def Demo.drops (token : contact_token) (g : Heap) (self : Nat) (log : List Nat) :
    Heap × List Nat × Option Unit :=
  if self = 1 then
    match pigeon.drop 2 0 token g with
    | none => (g, log ++ [self], some ())
    | some (_, g1) => (g1, log ++ [self], some ())
  else (g, log ++ [self], some ())

/-- Pigeon 0 subscribes once to message 0, with a plain inbox of 32 bytes. -/
def Demo.plain_one : Heap :=
  (pigeon.deliver 0 0 none .noop 32 (Heap.init (fun _ => .recording false false))).2

/-- The program of the test case `either drop first`, with a handler that
captures the pigeon, the token and a variable for the result by reference,
which makes a node of 72 bytes on a 64-bit platform. -/
def Demo.either_dropping : Heap :=
  (pigeon.deliver 0 0 (some 0) (.drop_other 0 0) 72
    (Heap.init (fun _ => .recording false false))).2

/-- The handler of that program: it calls `pigeon.drop(token)` with its own
token inside a `try` block and stores what the call returned, or the
exception that it caught. -/
def Demo.drops_itself (g : Heap) (self : Nat) (_seen : Option (Except logic_error Bool)) :
    Heap × Option (Except logic_error Bool) × Option Unit :=
  match pigeon.drop 2 0 self g with
  | none => (g, none, some ())
  | some (r, g1) => (g1, some r, some ())

/-- The heap of `Demo.plain_two` after `pigeon.drop(token0)` of pigeon 0. -/
def Demo.plain_two_dropped : Heap :=
  match pigeon.drop 2 0 0 Demo.plain_two with
  | none => Demo.plain_two
  | some (_, g1) => g1

/-- Handlers that append their token to a list, but for the handler of
subscription 0, which would throw. -/
def Demo.appends_or_throws (g : Heap) (self : Nat) (log : List Nat) :
    Heap × List Nat × Option Unit :=
  if self = 0 then (g, log ++ [99], none) else Demo.appends g self log

end callback

/-! ## The static check of the argument types -/

/-- Whether an argument type is a reference, and of which kind. -/
inductive reference_kind
  | not_a_reference
  | lvalue
  | rvalue
  deriving DecidableEq, Repr

/-- What the check looks at in an argument type `Arg`: whether the type
referred to is `pigeon::value_state`, whether
`std::is_const<std::remove_reference<Arg>::type>` holds, and the kind of
reference.  (`volatile` plays no part in the check.) -/
structure arg_type where
  is_value_state : Bool
  is_const : Bool
  reference : reference_kind
  deriving DecidableEq, Repr

/-- The trait `std::is_rvalue_reference<Arg>`. -/
def arg_type.is_rvalue_reference (Arg : arg_type) : Bool := Arg.reference = .rvalue

/-- The trait `std::is_lvalue_reference<Arg>`. -/
def arg_type.is_lvalue_reference (Arg : arg_type) : Bool := Arg.reference = .lvalue

/-- The type `value_state&` that the first partial specialisation matches. -/
def value_state_ref : arg_type := ⟨true, false, .lvalue⟩

namespace detail

/-- The two `static_assert`s of the specialisation `argument_checker<Arg, Args...>`. -/
def argument_checker.asserts (Arg : arg_type) : Bool :=
  !Arg.is_rvalue_reference && (!Arg.is_lvalue_reference || Arg.is_const)

/-- The class template `detail::argument_checker<Args...>`: `true` when its
instantiation compiles (then `value` is the `true` of `argument_checker<>`).
Of the two partial specialisations the one with `value_state&` in the second
place is the more specialised, so it is chosen whenever it matches. -/
def argument_checker : List arg_type → Bool
  | [] => true
  | [Arg] => argument_checker.asserts Arg && argument_checker []
  | Arg :: second :: Args =>
    if second = value_state_ref then argument_checker Args
    else argument_checker.asserts Arg && argument_checker (second :: Args)

end detail

/-- The `static_assert` of the class template `message<R(Args...), protected_access>`. -/
def message.accepts_signature (Args : List arg_type) : Bool := detail.argument_checker Args

/-- The words of the specification: scan the argument types from left to
right and take away every argument that is immediately followed by
`value_state&`, together with that `value_state&`; what is left over. -/
def spec_unpaired : List arg_type → List arg_type
  | [] => []
  | [a] => [a]
  | a :: b :: rest =>
    if b = value_state_ref then spec_unpaired rest else a :: spec_unpaired (b :: rest)

/-- The words of the specification: every argument left over is neither an
rvalue reference nor a non-const lvalue reference. -/
def spec_accepts (Args : List arg_type) : Prop :=
  ∀ a ∈ spec_unpaired Args,
    a.reference ≠ .rvalue ∧ ¬ (a.reference = .lvalue ∧ a.is_const = false)

/-- The argument types of the test case `value_state` and of the
specification: `int`, `int&`, `int const&`, `int&&`. -/
def Demo.int : arg_type := ⟨false, false, .not_a_reference⟩
def Demo.int_ref : arg_type := ⟨false, false, .lvalue⟩
def Demo.int_const_ref : arg_type := ⟨false, true, .lvalue⟩
def Demo.int_rvalue_ref : arg_type := ⟨false, false, .rvalue⟩

/-! ## Storage that is handed out again -/

/-- No contact lives at the address: it was never handed out, or the node
that was placed there has been destructed (`delete this`), after which
`operator new` may return the same address again. -/
def World.free (w : World) (address : Nat) : Bool :=
  decide (w.next ≤ address) || decide (0 < (w.arena address).destructs)

/-- Member `message::make_contact` (null allocator, default callback) when
`new` returns `address`.  The library does not choose the address; a token is
the address of its node (`contact_token` holds a `detail::contact*`).
`message.make_contact` above is the case of an address never used before. -/
def message.make_contact_at (address : Nat) (m : Nat) (p : Nat) (w : World) :
    Except logic_error (Nat × World) :=
  match message.ensureNotSending m w with
  | .error e => .error e
  | .ok () =>
    let sender := address
    let w1 : World :=
      { w.setContact sender ⟨false, 0, false, m, p⟩ with next := max w.next (address + 1) }
    .ok (sender, w1.setSenders m (sender :: (w1.messages m).Senders))

/-- Member `pigeon::deliver` when `new` returns `address`; `none` when a
contact lives at the address, which `new` cannot return. -/
def pigeon.deliver_at (address : Nat) (p : Nat) (m : Nat) (w : World) :
    Option (Except logic_error (contact_token × World)) :=
  if w.free address then
    some
      (match pigeon.ensureNotDestructing p w with
      | .error e => .error e
      | .ok () =>
        match message.make_contact_at address m p w with
        | .error e => .error e
        | .ok (contact, w1) =>
          .ok (contact, w1.setContacts p (contact :: (w1.pigeons p).contacts)))
  else none

/-- One call of a program in which released storage may be handed out again:
a call of the interface as in `Step`, or a `deliver` that is given the address
of a contact destructed earlier (or the next address never used). -/
inductive Step_reusing : World → World → Prop
  | call {w w1 : World} : Step w w1 → Step_reusing w w1
  | deliver_at (address p m : Nat) (token : contact_token) {w w1 : World} :
      address ≤ w.next → pigeon.deliver_at address p m w = some (.ok (token, w1)) →
      Step_reusing w w1

/-- The heaps that such a program can reach from the empty heap. -/
def Reachable_reusing (w : World) : Prop := Relation.ReflTransGen Step_reusing World.init w


/-- The heap of `Demo.two` after `message.drop(1)` and `pigeon.drop(1)`:
contact 1 has been destructed. -/
def Demo.two_released : World := (pigeon.drop 0 1 (Demo.two.after_message_drop 0 1)).2

/-- Then pigeon 1 subscribes to message 0, and `new` returns the address of
the contact just released. -/
def Demo.two_reused : World :=
  match pigeon.deliver_at 1 1 0 Demo.two_released with
  | some (.ok (_, w)) => w
  | _ => Demo.two_released

/-! ## A ghost log of the calls that `response` makes -/

/-- One call made by `sender::do_send`: the handler of a sender (`send`), with
the dropped flag of the sender at the call and the value returned (`none`
when it threw); or the response handler, with the argument it was given and
the decision returned (`none` when it threw). -/
inductive call_event (ρ : Type)
  | handler (sender : Nat) (flagged : Bool) (result : Option ρ)
  | controller (argument : ρ) (decision : Option iteration_state)
  deriving DecidableEq, Repr

/-- The sender of a handler call. -/
def call_event.handler_of {ρ : Type} : call_event ρ → Option Nat
  | .handler sender _ _ => some sender
  | .controller _ _ => none

/-- The handlers `send`, each call noted at the end of a ghost log that is
kept next to the caller's environment. -/
def logged_send {σ ρ : Type} (send : World → Nat → σ → σ × Option ρ) :
    World → Nat → σ × List (call_event ρ) → (σ × List (call_event ρ)) × Option ρ :=
  fun w self a =>
    match send w self a.1 with
    | (a1, r) => ((a1, a.2 ++ [.handler self (detail.contact.isDropped self w) r]), r)

/-- The response handler `h`, each call noted at the end of the ghost log. -/
def logged_controller {σ ρ : Type} (h : ρ → σ → σ × Option iteration_state) :
    ρ → σ × List (call_event ρ) → (σ × List (call_event ρ)) × Option iteration_state :=
  fun r a =>
    match h r a.1 with
    | (a1, d) => ((a1, a.2 ++ [.controller r d]), d)

/-- A response handler that returns nothing, each call noted at the end of
the ghost log by the handler itself.  It has no decision of its own; the entry
says `progress` when it returned and nothing when it threw. -/
def logged_void {σ ρ : Type} (hv : ρ → σ → σ × Option Unit) :
    ρ → σ × List (call_event ρ) → (σ × List (call_event ρ)) × Option Unit :=
  fun r a =>
    match hv r a.1 with
    | (a1, u) => ((a1, a.2 ++ [.controller r (u.map (fun _ => iteration_state.progress))]), u)

/-- An outcome without the ghost log. -/
def Outcome.unlogged {σ ρ : Type} (out : Outcome (σ × List (call_event ρ))) : Outcome σ :=
  ⟨out.world, out.user.1, out.trace, out.threw⟩

/-- The words of the specification, on a log: every handler call that
returned is followed at once by one call of the response handler, with the
value that the handler returned; there is no other call of the response
handler; a handler call that threw is the last call. -/
def spec_paired {ρ : Type} : List (call_event ρ) → Prop
  | [] => True
  | [.handler _ _ none] => True
  | .handler _ _ (some r) :: .controller argument _ :: rest => argument = r ∧ spec_paired rest
  | _ => False

/-! ## `detail::flag_pointer` -/

namespace detail

/-- The class template `flag_pointer<T>`: one `std::uintptr_t` (of `bits`
bits) that holds an address and, in its lowest bit, a flag. -/
structure flag_pointer where
  bits : Nat
  PointerWithFlag : Nat
  deriving DecidableEq, Repr

/-- The constant `~static_cast<std::uintptr_t>(1)`: every bit of the word but
the lowest. -/
def flag_pointer.not_one (bits : Nat) : Nat := (2 ^ bits - 1) ^^^ 1

/-- The constructor `flag_pointer(T* ptr)`: the address, `reinterpret_cast` to
`std::uintptr_t`. -/
def flag_pointer.of_ptr (bits : Nat) (ptr : Nat) : flag_pointer := ⟨bits, ptr % 2 ^ bits⟩

/-- Member `flag_pointer::test`. -/
def flag_pointer.test (c : flag_pointer) : Bool := (c.PointerWithFlag &&& 1) != 0

/-- Member `flag_pointer::set`. -/
def flag_pointer.set (c : flag_pointer) : flag_pointer :=
  { c with PointerWithFlag := c.PointerWithFlag ||| 1 }

/-- Member `flag_pointer::reset`. -/
def flag_pointer.reset (c : flag_pointer) : flag_pointer :=
  { c with PointerWithFlag := c.PointerWithFlag &&& flag_pointer.not_one c.bits }

/-- Member `flag_pointer::get`. -/
def flag_pointer.get (c : flag_pointer) : Nat :=
  c.PointerWithFlag &&& flag_pointer.not_one c.bits

/-- The conversion `explicit operator bool`: `get() != nullptr`. -/
def flag_pointer.toBool (c : flag_pointer) : Bool := c.get != 0

/-- Member `flag_pointer::keep_flag_assign_pointer`. -/
def flag_pointer.keep_flag_assign_pointer (c rhs : flag_pointer) : flag_pointer :=
  let keep_flag := c.test
  let c1 : flag_pointer := { c with PointerWithFlag := rhs.PointerWithFlag }
  if keep_flag then c1.set else c1.reset

end detail

/-- The words of the specification: a plain (pointer, bool) record. -/
structure spec_cell where
  pointer : Nat
  flag : Bool
  deriving DecidableEq, Repr

/-- The record that a cell stands for: its address and its flag. -/
def detail.flag_pointer.abs (c : detail.flag_pointer) : spec_cell := ⟨c.get, c.test⟩

/-- A call of the response handler that answered `repeat`. -/
def call_event.is_repeat {ρ : Type} : call_event ρ → Bool
  | .controller _ (some .repeat_) => true
  | _ => false

/-! ## The sender list of a message as cells -/

namespace detail

/-- The cells that make up the sender list of one message: the list head
`message::Senders` and the member `sender::NextSender` of the sender at each
address.  The address 0 is `nullptr`. -/
structure cells where
  Senders : flag_pointer
  NextSender : Nat → flag_pointer

/-- What the variable `previous_sender` points to: `&Senders`, or
`&sender->NextSender` of some sender. -/
inductive cell_ref
  | Senders
  | NextSender (sender : Nat)
  deriving DecidableEq, Repr

/-- Read the cell that `r` points to. -/
def cells.read (c : cells) : cell_ref → flag_pointer
  | .Senders => c.Senders
  | .NextSender sender => c.NextSender sender

/-- Overwrite the cell that `r` points to. -/
def cells.write (c : cells) (r : cell_ref) (v : flag_pointer) : cells :=
  match r with
  | .Senders => { c with Senders := v }
  | .NextSender sender =>
    { c with NextSender := fun i => if i = sender then v else c.NextSender i }

/-- The call `r->keep_flag_assign_pointer(rhs)`. -/
def cells.assign (c : cells) (r : cell_ref) (rhs : flag_pointer) : cells :=
  c.write r ((c.read r).keep_flag_assign_pointer rhs)

/-- The loop `while(lastSender->NextSender) lastSender =
lastSender->NextSender.get();` of the case `repeat`, one unit of fuel per
test. -/
def cells.lastSender (c : cells) : Nat → Nat → Option Nat
  | 0, _ => none
  | fuel + 1, lastSender =>
    if (c.NextSender lastSender).toBool then c.lastSender fuel (c.NextSender lastSender).get
    else some lastSender

/-- The cells and the two variables of the loop of `message::response`. -/
structure cursor where
  cells : cells
  previous_sender : cell_ref
  sender : Nat

end detail

/-- The case `iteration_state::progress` of `message::response`. -/
def message.response.progress_case (s : detail.cursor) : detail.cursor :=
  ⟨s.cells, .NextSender s.sender, (s.cells.NextSender s.sender).get⟩

/-- The case `iteration_state::repeat` of `message::response` on the cells:
find `lastSender`; `previous_sender->keep_flag_assign_pointer(nullptr)`;
`lastSender->NextSender.keep_flag_assign_pointer(Senders)`;
`Senders.keep_flag_assign_pointer(sender)`; then
`previous_sender = &sender->NextSender; sender = sender->NextSender.get()`. -/
def message.response.repeat_case (fuel : Nat) (s : detail.cursor) : Option detail.cursor :=
  match s.cells.lastSender fuel s.sender with
  | none => none
  | some lastSender =>
    let c1 := s.cells.assign s.previous_sender (detail.flag_pointer.of_ptr s.cells.Senders.bits 0)
    let c2 := c1.assign (.NextSender lastSender) c1.Senders
    let c3 := c2.assign .Senders (detail.flag_pointer.of_ptr s.cells.Senders.bits s.sender)
    some ⟨c3, .NextSender s.sender, (c3.NextSender s.sender).get⟩

/-- The chain of `NextSender` cells from the address `p` runs through exactly
the entries `l`, none of them `nullptr`, and ends with the address `q`. -/
def detail.cells.segment (c : detail.cells) : Nat → List Nat → Nat → Prop
  | p, [], q => p = q
  | p, x :: l, q => p = x ∧ x ≠ 0 ∧ detail.cells.segment c (c.NextSender x).get l q

/-- The cells hold the list `l`: the chain from `Senders` runs through the
entries of `l` and ends with `nullptr`, and no entry occurs twice. -/
def detail.cells.is_list (c : detail.cells) (l : List Nat) : Prop :=
  c.segment c.Senders.get l 0 ∧ l.Nodup

/-- Every cell is a word of `bits` bits, and the entries are even addresses
that fit the word. -/
def detail.cells.valid (c : detail.cells) (bits : Nat) (l : List Nat) : Prop :=
  0 < bits ∧ (∀ r, (c.read r).bits = bits) ∧ ∀ x ∈ l, x % 2 = 0 ∧ x < 2 ^ bits

/-- The cell behind the entries `visited`: the `NextSender` of the last of
them, or `Senders` when there is none. -/
def detail.cell_ref.after (visited : List Nat) : detail.cell_ref :=
  match visited.getLast? with
  | none => .Senders
  | some p => .NextSender p

/-- The cursor stands for the state `(visited, chain)` of the loop in the
first model: the chain from `Senders` runs through `visited` to `sender`, from
`sender` through `chain` to `nullptr`, and `previous_sender` points to the
cell behind `visited`. -/
def detail.cursor.represents (s : detail.cursor) (visited chain : List Nat) : Prop :=
  s.cells.segment s.cells.Senders.get visited s.sender ∧
  s.cells.segment s.sender chain 0 ∧
  s.previous_sender = detail.cell_ref.after visited

/-- Three senders at the addresses 4096, 8192 and 12288 of a 64-bit platform,
in this order, in the list of a message that is dispatching (the flag of
`Senders` is set). -/
def Demo.cells : detail.cells where
  Senders := ⟨64, 4097⟩
  NextSender := fun i =>
    if i = 4096 then ⟨64, 8192⟩ else if i = 8192 then ⟨64, 12288⟩ else ⟨64, 0⟩

/-- The loop of `response` on these cells, at the second sender. -/
def Demo.cursor : detail.cursor := ⟨Demo.cells, .NextSender 4096, 8192⟩

/-! # Lemmas -/

open detail

/-! ## Field access after the elementary writes -/

@[simp] theorem World.setContact_arena (w : World) (c : Nat) (v : contact) (i : Nat) :
    (w.setContact c v).arena i = if i = c then v else w.arena i := rfl
@[simp] theorem World.setContact_next (w : World) (c : Nat) (v : contact) :
    (w.setContact c v).next = w.next := rfl
@[simp] theorem World.setContact_messages (w : World) (c : Nat) (v : contact) :
    (w.setContact c v).messages = w.messages := rfl
@[simp] theorem World.setContact_pigeons (w : World) (c : Nat) (v : contact) :
    (w.setContact c v).pigeons = w.pigeons := rfl

@[simp] theorem World.setSenders_arena (w : World) (m : Nat) (l : List Nat) :
    (w.setSenders m l).arena = w.arena := rfl
@[simp] theorem World.setSenders_next (w : World) (m : Nat) (l : List Nat) :
    (w.setSenders m l).next = w.next := rfl
@[simp] theorem World.setSenders_pigeons (w : World) (m : Nat) (l : List Nat) :
    (w.setSenders m l).pigeons = w.pigeons := rfl
@[simp] theorem World.setSenders_Senders (w : World) (m : Nat) (l : List Nat) (i : Nat) :
    ((w.setSenders m l).messages i).Senders = if i = m then l else (w.messages i).Senders := by
  unfold World.setSenders; by_cases h : i = m <;> simp [h]
@[simp] theorem World.setSenders_flag (w : World) (m : Nat) (l : List Nat) (i : Nat) :
    ((w.setSenders m l).messages i).Senders_flag = (w.messages i).Senders_flag := by
  unfold World.setSenders; by_cases h : i = m <;> simp [h]

@[simp] theorem World.setSending_arena (w : World) (m : Nat) (b : Bool) :
    (w.setSending m b).arena = w.arena := rfl
@[simp] theorem World.setSending_next (w : World) (m : Nat) (b : Bool) :
    (w.setSending m b).next = w.next := rfl
@[simp] theorem World.setSending_pigeons (w : World) (m : Nat) (b : Bool) :
    (w.setSending m b).pigeons = w.pigeons := rfl
@[simp] theorem World.setSending_Senders (w : World) (m : Nat) (b : Bool) (i : Nat) :
    ((w.setSending m b).messages i).Senders = (w.messages i).Senders := by
  unfold World.setSending; by_cases h : i = m <;> simp [h]
@[simp] theorem World.setSending_flag (w : World) (m : Nat) (b : Bool) (i : Nat) :
    ((w.setSending m b).messages i).Senders_flag =
      if i = m then b else (w.messages i).Senders_flag := by
  unfold World.setSending; by_cases h : i = m <;> simp [h]

@[simp] theorem World.setContacts_arena (w : World) (p : Nat) (l : List Nat) :
    (w.setContacts p l).arena = w.arena := rfl
@[simp] theorem World.setContacts_next (w : World) (p : Nat) (l : List Nat) :
    (w.setContacts p l).next = w.next := rfl
@[simp] theorem World.setContacts_messages (w : World) (p : Nat) (l : List Nat) :
    (w.setContacts p l).messages = w.messages := rfl
@[simp] theorem World.setContacts_contacts (w : World) (p : Nat) (l : List Nat) (i : Nat) :
    ((w.setContacts p l).pigeons i).contacts = if i = p then l else (w.pigeons i).contacts := by
  unfold World.setContacts; by_cases h : i = p <;> simp [h]
@[simp] theorem World.setContacts_flag (w : World) (p : Nat) (l : List Nat) (i : Nat) :
    ((w.setContacts p l).pigeons i).contacts_flag = (w.pigeons i).contacts_flag := by
  unfold World.setContacts; by_cases h : i = p <;> simp [h]

@[simp] theorem World.setDestructing_arena (w : World) (p : Nat) :
    (w.setDestructing p).arena = w.arena := rfl
@[simp] theorem World.setDestructing_next (w : World) (p : Nat) :
    (w.setDestructing p).next = w.next := rfl
@[simp] theorem World.setDestructing_messages (w : World) (p : Nat) :
    (w.setDestructing p).messages = w.messages := rfl
@[simp] theorem World.setDestructing_contacts (w : World) (p : Nat) (i : Nat) :
    ((w.setDestructing p).pigeons i).contacts = (w.pigeons i).contacts := by
  unfold World.setDestructing; by_cases h : i = p <;> simp [h]

/-! ## The effect of `contact::drop` -/

@[simp] theorem contact_drop_next (c : Nat) (s : who) (w : World) :
    (contact.drop c s w).next = w.next := by
  unfold contact.drop contact.destruct contact.setDropped contact.callOnDrop noop
  split <;> rfl
@[simp] theorem contact_drop_messages (c : Nat) (s : who) (w : World) :
    (contact.drop c s w).messages = w.messages := by
  unfold contact.drop contact.destruct contact.setDropped contact.callOnDrop noop
  split <;> rfl
@[simp] theorem contact_drop_pigeons (c : Nat) (s : who) (w : World) :
    (contact.drop c s w).pigeons = w.pigeons := by
  unfold contact.drop contact.destruct contact.setDropped contact.callOnDrop noop
  split <;> rfl
theorem contact_drop_arena_ne (c : Nat) (s : who) (w : World) (i : Nat) (h : i ≠ c) :
    (contact.drop c s w).arena i = w.arena i := by
  unfold contact.drop contact.destruct contact.setDropped contact.callOnDrop noop
  split <;> simp [h]
theorem contact_drop_arena_live (c : Nat) (s : who) (w : World) (h : (w.arena c).dropped = false) :
    (contact.drop c s w).arena c = { w.arena c with dropped := true } := by
  unfold contact.drop contact.destruct contact.setDropped contact.callOnDrop noop contact.isDropped
  simp [h]
theorem contact_drop_arena_dropped (c : Nat) (s : who) (w : World)
    (h : (w.arena c).dropped = true) :
    (contact.drop c s w).arena c =
      { w.arena c with
        destructs := (w.arena c).destructs + 1
        destructed_linked := (w.arena c).destructed_linked || w.linked c } := by
  unfold contact.drop contact.destruct contact.setDropped contact.callOnDrop noop contact.isDropped
  simp [h]
@[simp] theorem contact_drop_owner_message (c : Nat) (s : who) (w : World) (i : Nat) :
    ((contact.drop c s w).arena i).owner_message = (w.arena i).owner_message := by
  unfold contact.drop contact.destruct contact.setDropped contact.callOnDrop noop
  split <;> by_cases h : i = c <;> simp [h]
@[simp] theorem contact_drop_owner_pigeon (c : Nat) (s : who) (w : World) (i : Nat) :
    ((contact.drop c s w).arena i).owner_pigeon = (w.arena i).owner_pigeon := by
  unfold contact.drop contact.destruct contact.setDropped contact.callOnDrop noop
  split <;> by_cases h : i = c <;> simp [h]
@[simp] theorem contact_drop_dropped_self (c : Nat) (s : who) (w : World) :
    ((contact.drop c s w).arena c).dropped = true := by
  cases h : (w.arena c).dropped
  · rw [contact_drop_arena_live c s w h]
  · rw [contact_drop_arena_dropped c s w h]; exact h

/-! ## Preservation of the structural invariant -/

theorem inv_init : Inv World.init := by
  constructor <;> simp [World.init, World.inMessage, World.inPigeon]

/-- The invariant only depends on the nodes and on the entries of each list,
not on their order or on the flags of the list heads. -/
theorem inv_congr {w w1 : World} (hw : Inv w) (ha : w1.arena = w.arena) (hn : w1.next = w.next)
    (hs : ∀ m, (w1.messages m).Senders.Nodup ∧
      ∀ x, x ∈ (w1.messages m).Senders ↔ x ∈ (w.messages m).Senders)
    (hc : ∀ p, (w1.pigeons p).contacts.Nodup ∧
      ∀ x, x ∈ (w1.pigeons p).contacts ↔ x ∈ (w.pigeons p).contacts) :
    Inv w1 := by
  have key : ∀ c, w1.inMessage c ↔ w.inMessage c := by
    intro c; simp only [World.inMessage, ha]; exact (hs _).2 c
  have key2 : ∀ c, w1.inPigeon c ↔ w.inPigeon c := by
    intro c; simp only [World.inPigeon, ha]; exact (hc _).2 c
  obtain ⟨h1, h2, h3, h4, h5, h6, h7, h8⟩ := hw
  constructor
  · exact fun m => (hs m).1
  · exact fun p => (hc p).1
  · intro m c hc1; rw [ha, hn]; exact h3 m c (((hs m).2 c).1 hc1)
  · intro p c hc1; rw [ha, hn]; exact h4 p c (((hc p).2 c).1 hc1)
  · intro c; rw [key, key2, ha, hn]; exact h5 c
  · intro c; rw [key, key2, ha, hn]; exact h6 c
  · intro c; rw [key, key2, ha, hn]; exact h7 c
  · intro c; rw [ha]; exact h8 c

theorem inv_setSending {w : World} (hw : Inv w) (m : Nat) (b : Bool) :
    Inv (w.setSending m b) :=
  inv_congr hw rfl rfl (fun i => by simpa using hw.senders_nodup i)
    (fun p => ⟨hw.contacts_nodup p, fun _ => Iff.rfl⟩)

theorem inv_setDestructing {w : World} (hw : Inv w) (p : Nat) :
    Inv (w.setDestructing p) :=
  inv_congr hw rfl rfl (fun m => ⟨hw.senders_nodup m, fun _ => Iff.rfl⟩)
    (fun i => by simpa using hw.contacts_nodup i)

/-- Relinking the entries of a sender list in another order keeps the invariant. -/
theorem inv_setSenders_perm {w : World} (hw : Inv w) (m : Nat) (l : List Nat)
    (hnd : l.Nodup) (hmem : ∀ x, x ∈ l ↔ x ∈ (w.messages m).Senders) :
    Inv (w.setSenders m l) := by
  refine inv_congr hw rfl rfl (fun i => ?_) (fun p => ⟨hw.contacts_nodup p, fun _ => Iff.rfl⟩)
  simp only [World.setSenders_Senders]
  split
  · next h => subst h; exact ⟨hnd, hmem⟩
  · exact ⟨hw.senders_nodup i, fun _ => Iff.rfl⟩

/-- Relinking the entries of a contact list in another order keeps the invariant. -/
theorem inv_setContacts_perm {w : World} (hw : Inv w) (p : Nat) (l : List Nat)
    (hnd : l.Nodup) (hmem : ∀ x, x ∈ l ↔ x ∈ (w.pigeons p).contacts) :
    Inv (w.setContacts p l) := by
  refine inv_congr hw rfl rfl (fun m => ⟨hw.senders_nodup m, fun _ => Iff.rfl⟩) (fun i => ?_)
  simp only [World.setContacts_contacts]
  split
  · next h => subst h; exact ⟨hnd, hmem⟩
  · exact ⟨hw.contacts_nodup i, fun _ => Iff.rfl⟩

/-- The arena after `contact::drop`, case by case. -/
theorem contact_drop_cases (c : Nat) (s : who) (w : World) :
    ((w.arena c).dropped = false ∧
      (contact.drop c s w).arena c = { w.arena c with dropped := true }) ∨
    ((w.arena c).dropped = true ∧
      (contact.drop c s w).arena c =
        { w.arena c with
          destructs := (w.arena c).destructs + 1
          destructed_linked := (w.arena c).destructed_linked || w.linked c }) := by
  cases h : (w.arena c).dropped
  · exact Or.inl ⟨rfl, contact_drop_arena_live c s w h⟩
  · exact Or.inr ⟨rfl, contact_drop_arena_dropped c s w h⟩

/-- The message side unlinks entry `c` from its list and then drops it. -/
theorem inv_drop_message {w : World} (hw : Inv w) (s : who) (m c : Nat)
    (hc : c ∈ (w.messages m).Senders) (l : List Nat) (hnd : l.Nodup)
    (hmem : ∀ x, x ∈ l ↔ x ∈ (w.messages m).Senders ∧ x ≠ c) :
    Inv (contact.drop c s (w.setSenders m l)) := by
  obtain ⟨h1, h2, h3, h4, h5, h6, h7, h8⟩ := hw
  have hom : (w.arena c).owner_message = m := (h3 m c hc).1
  have hlt : c < w.next := (h3 m c hc).2
  have hinM : w.inMessage c := by unfold World.inMessage; rw [hom]; exact hc
  have sub : ∀ i x, x ∈ ((w.setSenders m l).messages i).Senders → x ∈ (w.messages i).Senders := by
    intro i x hx
    simp only [World.setSenders_Senders] at hx
    split at hx
    · next h => subst h; exact ((hmem x).1 hx).1
    · exact hx
  have keyM : ∀ x, (contact.drop c s (w.setSenders m l)).inMessage x ↔
      (w.inMessage x ∧ x ≠ c) := by
    intro x
    simp only [World.inMessage, contact_drop_messages, contact_drop_owner_message,
      World.setSenders_arena, World.setSenders_Senders]
    split
    · next h => rw [hmem, h]
    · next h =>
      constructor
      · intro hx
        refine ⟨hx, ?_⟩
        rintro rfl
        exact h hom
      · exact fun hx => hx.1
  have keyP : ∀ x, (contact.drop c s (w.setSenders m l)).inPigeon x ↔ w.inPigeon x := by
    intro x
    simp only [World.inPigeon, contact_drop_pigeons, contact_drop_owner_pigeon,
      World.setSenders_arena, World.setSenders_pigeons]
  have hne : ∀ x, x ≠ c →
      (contact.drop c s (w.setSenders m l)).arena x = w.arena x := by
    intro x hx
    rw [contact_drop_arena_ne c _ _ x hx]; rfl
  have hdrop := contact_drop_cases c s (w.setSenders m l)
  simp only [World.setSenders_arena] at hdrop
  constructor
  · intro i
    simp only [contact_drop_messages, World.setSenders_Senders]
    split
    · exact hnd
    · exact h1 i
  · intro p
    simpa using h2 p
  · intro i x hx
    simp only [contact_drop_messages] at hx
    simpa using h3 i x (sub i x hx)
  · intro p x hx
    simp only [contact_drop_pigeons, World.setSenders_pigeons] at hx
    simpa using h4 p x hx
  · intro x
    rw [keyM, keyP]
    by_cases hx : x = c
    · subst hx
      simp [hlt]
    · rw [hne x hx, h5 x]
      simp [hx]
  · intro x hx1 hx2 hx3
    rw [keyM] at hx2
    rw [keyP] at hx3
    simp only [contact_drop_next, World.setSenders_next] at hx1
    by_cases hx : x = c
    · subst hx
      rcases hdrop with ⟨hd, he⟩ | ⟨hd, he⟩
      · exfalso
        have := (h5 x).not.1 (by simp [hd])
        simp only [hlt, true_and, not_not] at this
        exact hx3 this.2
      · rw [he]
        simp only
        rw [h7 x (Or.inr (Or.inl hinM))]
    · rw [hne x hx]
      exact h6 x hx1 (fun h => hx2 ⟨h, hx⟩) hx3
  · intro x hx1
    rw [keyM, keyP] at hx1
    simp only [contact_drop_next, World.setSenders_next] at hx1
    by_cases hx : x = c
    · subst hx
      have hP : w.inPigeon x := by
        rcases hx1 with h | h | h
        · omega
        · exact absurd rfl h.2
        · exact h
      rcases hdrop with ⟨hd, he⟩ | ⟨hd, he⟩
      · rw [he]
        exact h7 x (Or.inr (Or.inl hinM))
      · exfalso
        exact ((h5 x).1 hd).2 ⟨hinM, hP⟩
    · rw [hne x hx]
      refine h7 x ?_
      rcases hx1 with h | h | h
      · exact Or.inl h
      · exact Or.inr (Or.inl h.1)
      · exact Or.inr (Or.inr h)
  · intro x
    by_cases hx : x = c
    · subst hx
      rcases hdrop with ⟨hd, he⟩ | ⟨hd, he⟩
      · rw [he]; exact h8 x
      · rw [he]
        have hnP : ¬ w.inPigeon x := fun hP => ((h5 x).1 hd).2 ⟨hinM, hP⟩
        have hnl : x ∉ l := fun hl => ((hmem x).1 hl).2 rfl
        simp only [h8 x, Bool.false_or]
        unfold World.inPigeon at hnP
        simp [World.linked, hom, hnl, hnP]
    · rw [hne x hx]; exact h8 x

/-- The pigeon side unlinks entry `c` from its list and then drops it. -/
theorem inv_drop_pigeon {w : World} (hw : Inv w) (s : who) (p c : Nat)
    (hc : c ∈ (w.pigeons p).contacts) (l : List Nat) (hnd : l.Nodup)
    (hmem : ∀ x, x ∈ l ↔ x ∈ (w.pigeons p).contacts ∧ x ≠ c) :
    Inv (contact.drop c s (w.setContacts p l)) := by
  obtain ⟨h1, h2, h3, h4, h5, h6, h7, h8⟩ := hw
  have hop : (w.arena c).owner_pigeon = p := (h4 p c hc).1
  have hlt : c < w.next := (h4 p c hc).2
  have hinP : w.inPigeon c := by unfold World.inPigeon; rw [hop]; exact hc
  have sub : ∀ i x, x ∈ ((w.setContacts p l).pigeons i).contacts → x ∈ (w.pigeons i).contacts := by
    intro i x hx
    simp only [World.setContacts_contacts] at hx
    split at hx
    · next h => subst h; exact ((hmem x).1 hx).1
    · exact hx
  have keyP : ∀ x, (contact.drop c s (w.setContacts p l)).inPigeon x ↔
      (w.inPigeon x ∧ x ≠ c) := by
    intro x
    simp only [World.inPigeon, contact_drop_pigeons, contact_drop_owner_pigeon,
      World.setContacts_arena, World.setContacts_contacts]
    split
    · next h => rw [hmem, h]
    · next h =>
      constructor
      · intro hx
        refine ⟨hx, ?_⟩
        rintro rfl
        exact h hop
      · exact fun hx => hx.1
  have keyM : ∀ x, (contact.drop c s (w.setContacts p l)).inMessage x ↔ w.inMessage x := by
    intro x
    simp only [World.inMessage, contact_drop_messages, contact_drop_owner_message,
      World.setContacts_arena, World.setContacts_messages]
  have hne : ∀ x, x ≠ c →
      (contact.drop c s (w.setContacts p l)).arena x = w.arena x := by
    intro x hx
    rw [contact_drop_arena_ne c _ _ x hx]; rfl
  have hdrop := contact_drop_cases c s (w.setContacts p l)
  simp only [World.setContacts_arena] at hdrop
  constructor
  · intro m
    simpa using h1 m
  · intro i
    simp only [contact_drop_pigeons, World.setContacts_contacts]
    split
    · exact hnd
    · exact h2 i
  · intro m x hx
    simp only [contact_drop_messages, World.setContacts_messages] at hx
    simpa using h3 m x hx
  · intro i x hx
    simp only [contact_drop_pigeons] at hx
    simpa using h4 i x (sub i x hx)
  · intro x
    rw [keyM, keyP]
    by_cases hx : x = c
    · subst hx
      simp [hlt]
    · rw [hne x hx, h5 x]
      simp [hx]
  · intro x hx1 hx2 hx3
    rw [keyM] at hx2
    rw [keyP] at hx3
    simp only [contact_drop_next, World.setContacts_next] at hx1
    by_cases hx : x = c
    · subst hx
      rcases hdrop with ⟨hd, he⟩ | ⟨hd, he⟩
      · exfalso
        have := (h5 x).not.1 (by simp [hd])
        simp only [hlt, true_and, not_not] at this
        exact hx2 this.1
      · rw [he]
        simp only
        rw [h7 x (Or.inr (Or.inr hinP))]
    · rw [hne x hx]
      exact h6 x hx1 hx2 (fun h => hx3 ⟨h, hx⟩)
  · intro x hx1
    rw [keyM, keyP] at hx1
    simp only [contact_drop_next, World.setContacts_next] at hx1
    by_cases hx : x = c
    · subst hx
      have hM : w.inMessage x := by
        rcases hx1 with h | h | h
        · omega
        · exact h
        · exact absurd rfl h.2
      rcases hdrop with ⟨hd, he⟩ | ⟨hd, he⟩
      · rw [he]
        exact h7 x (Or.inr (Or.inr hinP))
      · exfalso
        exact ((h5 x).1 hd).2 ⟨hM, hinP⟩
    · rw [hne x hx]
      refine h7 x ?_
      rcases hx1 with h | h | h
      · exact Or.inl h
      · exact Or.inr (Or.inl h)
      · exact Or.inr (Or.inr h.1)
  · intro x
    by_cases hx : x = c
    · subst hx
      rcases hdrop with ⟨hd, he⟩ | ⟨hd, he⟩
      · rw [he]; exact h8 x
      · rw [he]
        have hnM : ¬ w.inMessage x := fun hM => ((h5 x).1 hd).2 ⟨hM, hinP⟩
        have hnl : x ∉ l := fun hl => ((hmem x).1 hl).2 rfl
        simp only [h8 x, Bool.false_or]
        unfold World.inMessage at hnM
        simp [World.linked, hop, hnl, hnM]
    · rw [hne x hx]; exact h8 x

/-! ## The search loop -/

theorem unlink_eq_none {token : Nat} {l : List Nat} :
    unlink token l = none ↔ token ∉ l := by
  induction l with
  | nil => simp [unlink]
  | cons c next ih =>
    unfold unlink
    by_cases h : c = token
    · simp [h]
    · simp only [h, if_false, List.mem_cons]
      cases hu : unlink token next with
      | none => simp [ih.1 hu, Ne.symm h]
      | some rest =>
        have : token ∈ next := by
          by_contra hn
          rw [ih.2 hn] at hu
          cases hu
        simp [this]

theorem unlink_eq_some {token : Nat} {l rest : List Nat} (h : unlink token l = some rest) :
    token ∈ l ∧ rest = l.erase token := by
  induction l generalizing rest with
  | nil => simp [unlink] at h
  | cons c next ih =>
    unfold unlink at h
    by_cases hc : c = token
    · simp only [hc, if_true, Option.some.injEq] at h
      subst h; subst hc
      simp
    · simp only [hc, if_false] at h
      cases hu : unlink token next with
      | none => rw [hu] at h; cases h
      | some r =>
        rw [hu] at h
        simp only [Option.some.injEq] at h
        obtain ⟨h1, h2⟩ := ih hu
        subst h; subst h2
        refine ⟨List.mem_cons_of_mem _ h1, ?_⟩
        rw [List.erase_cons_tail]
        simpa using hc

theorem unlink_of_mem {token : Nat} {l : List Nat} (h : token ∈ l) :
    unlink token l = some (l.erase token) := by
  cases hu : unlink token l with
  | none => exact absurd h (unlink_eq_none.1 hu)
  | some rest => rw [(unlink_eq_some hu).2]

theorem mem_erase_nodup {l : List Nat} (hnd : l.Nodup) (c x : Nat) :
    x ∈ l.erase c ↔ x ∈ l ∧ x ≠ c := by
  rw [hnd.mem_erase_iff]; tauto

/-! ## The calls keep the invariant -/

theorem contact_drop_setSenders_comm (c : Nat) (s : who) (w : World) (m : Nat)
    (l l1 : List Nat) (h : (w.setSenders m l).linked c = (w.setSenders m l1).linked c) :
    contact.drop c s (w.setSenders m l) = (contact.drop c s (w.setSenders m l1)).setSenders m l := by
  unfold contact.drop contact.isDropped contact.destruct contact.setDropped contact.callOnDrop noop
  simp only [World.setSenders_arena]
  split
  · rw [h]
    ext1
    · rfl
    · rfl
    · funext i
      by_cases hi : i = m <;> simp [World.setSenders, World.setContact, hi]
    · rfl
  · ext1
    · rfl
    · rfl
    · funext i
      by_cases hi : i = m <;> simp [World.setSenders, World.setContact, hi]
    · rfl

theorem contact_drop_setContacts_comm (c : Nat) (s : who) (w : World) (p : Nat)
    (l l1 : List Nat) (h : (w.setContacts p l).linked c = (w.setContacts p l1).linked c) :
    contact.drop c s (w.setContacts p l) =
      (contact.drop c s (w.setContacts p l1)).setContacts p l := by
  unfold contact.drop contact.isDropped contact.destruct contact.setDropped contact.callOnDrop noop
  simp only [World.setContacts_arena]
  split
  · rw [h]
    ext1
    · rfl
    · rfl
    · rfl
    · funext i
      by_cases hi : i = p <;> simp [World.setContacts, World.setContact, hi]
  · ext1
    · rfl
    · rfl
    · rfl
    · funext i
      by_cases hi : i = p <;> simp [World.setContacts, World.setContact, hi]

/-- The loop of `message::clear` over the detached chain. -/
theorem inv_drop_chain_message (s : who) (m : Nat) :
    ∀ (l : List Nat) (v : World), Inv v → (v.messages m).Senders = l →
      Inv (drop_chain s l (v.setSenders m [])) := by
  intro l
  induction l with
  | nil =>
    intro v hv hl
    exact inv_setSenders_perm hv m [] List.nodup_nil (by simp [hl])
  | cons c next ih =>
    intro v hv hl
    have hnd : (c :: next).Nodup := hl ▸ hv.senders_nodup m
    have hcn : c ∉ next := (List.nodup_cons.1 hnd).1
    have hcm : c ∈ (v.messages m).Senders := by rw [hl]; exact List.mem_cons_self _ _
    have hom := (hv.sender_owner m c hcm).1
    have hv1 : Inv (contact.drop c s (v.setSenders m next)) := by
      refine inv_drop_message hv s m c hcm next (List.nodup_cons.1 hnd).2 ?_
      intro x
      rw [hl, List.mem_cons]
      constructor
      · intro hx
        exact ⟨Or.inr hx, fun h => hcn (h ▸ hx)⟩
      · rintro ⟨h1 | h1, h2⟩
        · exact absurd h1 h2
        · exact h1
    have hcomm := contact_drop_setSenders_comm c s v m [] next
      (by simp [World.linked, hom, hcn])
    unfold drop_chain
    rw [hcomm]
    exact ih _ hv1 (by simp)

/-- The loop of `pigeon::clear` over the detached chain. -/
theorem inv_drop_chain_pigeon (s : who) (p : Nat) :
    ∀ (l : List Nat) (v : World), Inv v → (v.pigeons p).contacts = l →
      Inv (drop_chain s l (v.setContacts p [])) := by
  intro l
  induction l with
  | nil =>
    intro v hv hl
    exact inv_setContacts_perm hv p [] List.nodup_nil (by simp [hl])
  | cons c next ih =>
    intro v hv hl
    have hnd : (c :: next).Nodup := hl ▸ hv.contacts_nodup p
    have hcn : c ∉ next := (List.nodup_cons.1 hnd).1
    have hcm : c ∈ (v.pigeons p).contacts := by rw [hl]; exact List.mem_cons_self _ _
    have hop := (hv.contact_owner p c hcm).1
    have hv1 : Inv (contact.drop c s (v.setContacts p next)) := by
      refine inv_drop_pigeon hv s p c hcm next (List.nodup_cons.1 hnd).2 ?_
      intro x
      rw [hl, List.mem_cons]
      constructor
      · intro hx
        exact ⟨Or.inr hx, fun h => hcn (h ▸ hx)⟩
      · rintro ⟨h1 | h1, h2⟩
        · exact absurd h1 h2
        · exact h1
    have hcomm := contact_drop_setContacts_comm c s v p [] next
      (by simp [World.linked, hop, hcn])
    unfold drop_chain
    rw [hcomm]
    exact ih _ hv1 (by simp)

@[simp] theorem drop_chain_next (s : who) (l : List Nat) (w : World) :
    (drop_chain s l w).next = w.next := by
  induction l generalizing w with
  | nil => rfl
  | cons c next ih => unfold drop_chain; rw [ih]; simp

@[simp] theorem drop_chain_messages (s : who) (l : List Nat) (w : World) :
    (drop_chain s l w).messages = w.messages := by
  induction l generalizing w with
  | nil => rfl
  | cons c next ih => unfold drop_chain; rw [ih]; simp

@[simp] theorem drop_chain_pigeons (s : who) (l : List Nat) (w : World) :
    (drop_chain s l w).pigeons = w.pigeons := by
  induction l generalizing w with
  | nil => rfl
  | cons c next ih => unfold drop_chain; rw [ih]; simp

/-- What a successful `message::clear` computes. -/
theorem message_clear_ok {m : Nat} {w w1 : World} (h : message.clear m w = .ok w1) :
    message.isSending m w = false ∧
    w1 = drop_chain .message (w.messages m).Senders (w.setSenders m []) := by
  unfold message.clear message.ensureNotSending at h
  cases hs : message.isSending m w
  · simp only [hs] at h
    simp only [Bool.false_eq_true, if_false, Except.ok.injEq] at h
    exact ⟨rfl, h.symm⟩
  · simp [hs] at h

/-- What a successful `message::drop` computes. -/
theorem message_drop_ok {m token : Nat} {w w1 : World} {found : Bool}
    (h : message.drop m token w = .ok (found, w1)) :
    message.isSending m w = false ∧
    ((found = true ∧ token ∈ (w.messages m).Senders ∧
        w1 = contact.drop token .message
          (w.setSenders m ((w.messages m).Senders.erase token))) ∨
     (found = false ∧ token ∉ (w.messages m).Senders ∧ w1 = w)) := by
  unfold message.drop message.ensureNotSending at h
  cases hs : message.isSending m w
  · simp only [hs, Bool.false_eq_true, if_false] at h
    refine ⟨rfl, ?_⟩
    cases hu : unlink token (w.messages m).Senders with
    | none =>
      rw [hu] at h
      simp only [Except.ok.injEq, Prod.mk.injEq] at h
      exact Or.inr ⟨h.1.symm, unlink_eq_none.1 hu, h.2.symm⟩
    | some rest =>
      rw [hu] at h
      simp only [Except.ok.injEq, Prod.mk.injEq] at h
      obtain ⟨hm, hr⟩ := unlink_eq_some hu
      subst hr
      exact Or.inl ⟨h.1.symm, hm, h.2.symm⟩
  · simp [hs] at h

/-- What `pigeon::drop` computes. -/
theorem pigeon_drop_cases (p token : Nat) (w : World) :
    (token ∈ (w.pigeons p).contacts ∧
      pigeon.drop p token w = (true, contact.drop token .pigeon
          (w.setContacts p ((w.pigeons p).contacts.erase token)))) ∨
    (token ∉ (w.pigeons p).contacts ∧ pigeon.drop p token w = (false, w)) := by
  unfold pigeon.drop
  by_cases h : token ∈ (w.pigeons p).contacts
  · rw [unlink_of_mem h]; exact Or.inl ⟨h, rfl⟩
  · rw [unlink_eq_none.2 h]; exact Or.inr ⟨h, rfl⟩

/-- What a successful `pigeon::deliver` computes. -/
theorem pigeon_deliver_ok {p m token : Nat} {w w1 : World}
    (h : pigeon.deliver p m w = .ok (token, w1)) :
    (w.pigeons p).contacts_flag = false ∧ message.isSending m w = false ∧ token = w.next ∧
    w1.next = w.next + 1 ∧
    (∀ i, w1.arena i = if i = w.next then ⟨false, 0, false, m, p⟩ else w.arena i) ∧
    (∀ i, (w1.messages i).Senders =
      if i = m then w.next :: (w.messages m).Senders else (w.messages i).Senders) ∧
    (∀ i, (w1.messages i).Senders_flag = (w.messages i).Senders_flag) ∧
    (∀ i, (w1.pigeons i).contacts =
      if i = p then w.next :: (w.pigeons p).contacts else (w.pigeons i).contacts) ∧
    (∀ i, (w1.pigeons i).contacts_flag = (w.pigeons i).contacts_flag) := by
  unfold pigeon.deliver pigeon.ensureNotDestructing message.make_contact
    message.ensureNotSending at h
  cases hd : (w.pigeons p).contacts_flag
  · cases hs : message.isSending m w
    · simp only [hd, hs, Bool.false_eq_true, if_false, Except.ok.injEq, Prod.mk.injEq] at h
      obtain ⟨h1, h2⟩ := h
      subst h2
      refine ⟨rfl, rfl, h1.symm, rfl, fun i => rfl, fun i => ?_, fun i => ?_, fun i => ?_,
        fun i => ?_⟩
      · simp
      · simp
      · simp
      · simp
    · simp [hd, hs] at h
  · simp [hd] at h

theorem inv_message_clear {m : Nat} {w w1 : World} (hw : Inv w)
    (h : message.clear m w = .ok w1) : Inv w1 := by
  rw [(message_clear_ok h).2]
  exact inv_drop_chain_message _ m _ w hw rfl

theorem inv_message_drop {m token : Nat} {w w1 : World} {found : Bool} (hw : Inv w)
    (h : message.drop m token w = .ok (found, w1)) : Inv w1 := by
  rcases (message_drop_ok h).2 with ⟨_, hm, rfl⟩ | ⟨_, _, rfl⟩
  · exact inv_drop_message hw _ m token hm _ ((hw.senders_nodup m).erase token)
      (mem_erase_nodup (hw.senders_nodup m) token)
  · exact hw

theorem inv_pigeon_clear {w : World} (hw : Inv w) (p : Nat) : Inv (pigeon.clear p w) :=
  inv_drop_chain_pigeon _ p _ w hw rfl

theorem inv_pigeon_drop {w : World} (hw : Inv w) (p token : Nat) :
    Inv (pigeon.drop p token w).2 := by
  rcases pigeon_drop_cases p token w with ⟨hm, he⟩ | ⟨_, he⟩
  · rw [he]
    exact inv_drop_pigeon hw _ p token hm _ ((hw.contacts_nodup p).erase token)
      (mem_erase_nodup (hw.contacts_nodup p) token)
  · rw [he]; exact hw

theorem inv_pigeon_destructor {w : World} (hw : Inv w) (p : Nat) :
    Inv (pigeon.destructor p w) :=
  inv_pigeon_clear (inv_setDestructing hw p) p

theorem inv_pigeon_deliver {p m token : Nat} {w w1 : World} (hw : Inv w)
    (h : pigeon.deliver p m w = .ok (token, w1)) : Inv w1 := by
  obtain ⟨_, _, _, hn, ha, hS, _, hC, _⟩ := pigeon_deliver_ok h
  obtain ⟨h1, h2, h3, h4, h5, h6, h7, h8⟩ := hw
  have fresh_m : ∀ i, w.next ∉ (w.messages i).Senders := fun i hx =>
    absurd (h3 i _ hx).2 (lt_irrefl _)
  have fresh_p : ∀ i, w.next ∉ (w.pigeons i).contacts := fun i hx =>
    absurd (h4 i _ hx).2 (lt_irrefl _)
  have keyM : ∀ x, w1.inMessage x ↔ (x = w.next ∨ w.inMessage x) := by
    intro x
    unfold World.inMessage
    rw [ha x, hS]
    by_cases hx : x = w.next
    · subst hx; simp
    · simp only [hx, if_false, false_or]
      split
      · next hm => rw [List.mem_cons, hm]; simp [hx]
      · rfl
  have keyP : ∀ x, w1.inPigeon x ↔ (x = w.next ∨ w.inPigeon x) := by
    intro x
    unfold World.inPigeon
    rw [ha x, hC]
    by_cases hx : x = w.next
    · subst hx; simp
    · simp only [hx, if_false, false_or]
      split
      · next hm => rw [List.mem_cons, hm]; simp [hx]
      · rfl
  have notM : ¬ w.inMessage w.next := fresh_m _
  have notP : ¬ w.inPigeon w.next := fresh_p _
  constructor
  · intro i
    rw [hS]
    split
    · exact List.nodup_cons.2 ⟨fresh_m m, h1 m⟩
    · exact h1 i
  · intro i
    rw [hC]
    split
    · exact List.nodup_cons.2 ⟨fresh_p p, h2 p⟩
    · exact h2 i
  · intro i x hx
    rw [hS] at hx
    rw [ha x, hn]
    by_cases hxn : x = w.next
    · subst hxn
      simp only [if_true]
      split at hx
      · next hi => exact ⟨hi.symm, Nat.lt_succ_self _⟩
      · exact absurd hx (fresh_m i)
    · simp only [hxn, if_false]
      have hx1 : x ∈ (w.messages i).Senders := by
        split at hx
        · next hi =>
          subst hi
          rcases List.mem_cons.1 hx with h | h
          · exact absurd h hxn
          · exact h
        · exact hx
      exact ⟨(h3 i x hx1).1, Nat.lt_succ_of_lt (h3 i x hx1).2⟩
  · intro i x hx
    rw [hC] at hx
    rw [ha x, hn]
    by_cases hxn : x = w.next
    · subst hxn
      simp only [if_true]
      split at hx
      · next hi => exact ⟨hi.symm, Nat.lt_succ_self _⟩
      · exact absurd hx (fresh_p i)
    · simp only [hxn, if_false]
      have hx1 : x ∈ (w.pigeons i).contacts := by
        split at hx
        · next hi =>
          subst hi
          rcases List.mem_cons.1 hx with h | h
          · exact absurd h hxn
          · exact h
        · exact hx
      exact ⟨(h4 i x hx1).1, Nat.lt_succ_of_lt (h4 i x hx1).2⟩
  · intro x
    rw [keyM, keyP, ha x, hn]
    by_cases hxn : x = w.next
    · subst hxn; simp
    · simp only [hxn, if_false, false_or]
      rw [h5 x]
      constructor
      · exact fun hx => ⟨Nat.lt_succ_of_lt hx.1, hx.2⟩
      · exact fun hx => ⟨lt_of_le_of_ne (Nat.lt_succ_iff.1 hx.1) hxn, hx.2⟩
  · intro x hx1 hx2 hx3
    rw [keyM] at hx2
    rw [keyP] at hx3
    rw [hn] at hx1
    have hxn : x ≠ w.next := fun h => hx2 (Or.inl h)
    rw [ha x]
    simp only [hxn, if_false]
    exact h6 x (lt_of_le_of_ne (Nat.lt_succ_iff.1 hx1) hxn) (fun h => hx2 (Or.inr h))
      (fun h => hx3 (Or.inr h))
  · intro x hx
    rw [keyM, keyP, hn] at hx
    rw [ha x]
    by_cases hxn : x = w.next
    · simp [hxn]
    · simp only [hxn, if_false]
      refine h7 x ?_
      rcases hx with h | h | h
      · exact Or.inl (by omega)
      · exact Or.inr (Or.inl (h.resolve_left hxn))
      · exact Or.inr (Or.inr (h.resolve_left hxn))
  · intro x
    rw [ha x]
    split
    · rfl
    · exact h8 x

/-! ## The dispatch loop -/

/-- Induction along the dispatch loop: a property `P` of the loop state that
every kind of iteration hands on, and a property `Q` of the outcome that every
way out of the loop establishes. -/
theorem walk_rec {σ ρ : Type} (send : World → Nat → σ → σ × Option ρ)
    (h : ρ → σ → σ × Option iteration_state) (m : Nat)
    (P : List Nat → List Nat → σ → List Nat → World → Prop) (Q : Outcome σ → Prop)
    (h_end : ∀ visited a tr w, P visited [] a tr w → Q ⟨w, a, tr, false⟩)
    (h_throw : ∀ visited c next a tr w a1, P visited (c :: next) a tr w →
      sender.try_send send h c w a = (a1, none) →
      Q ⟨w, a1, if contact.isDropped c w then tr else tr ++ [c], true⟩)
    (h_dead : ∀ visited c next a tr w a1, P visited (c :: next) a tr w →
      sender.try_send send h c w a = (a1, some .dead) →
      P visited next a1 (if contact.isDropped c w then tr else tr ++ [c])
        (contact.drop c .message (w.setSenders m (visited ++ next))))
    (h_progress : ∀ visited c next a tr w a1, P visited (c :: next) a tr w →
      sender.try_send send h c w a = (a1, some .progress) →
      P (visited ++ [c]) next a1 (if contact.isDropped c w then tr else tr ++ [c]) w)
    (h_repeat : ∀ visited c next a tr w a1, P visited (c :: next) a tr w →
      sender.try_send send h c w a = (a1, some .repeat_) →
      P [c] (next ++ visited) a1 (if contact.isDropped c w then tr else tr ++ [c])
        (w.setSenders m (c :: (next ++ visited))))
    (h_finish : ∀ visited c next a tr w a1, P visited (c :: next) a tr w →
      sender.try_send send h c w a = (a1, some .finish) →
      Q ⟨w, a1, if contact.isDropped c w then tr else tr ++ [c], false⟩) :
    ∀ (fuel : Nat) (visited chain : List Nat) (a : σ) (tr : List Nat) (w : World)
      (out : Outcome σ), P visited chain a tr w →
      message.response.walk send h m fuel visited chain a tr w = some out → Q out := by
  intro fuel
  induction fuel with
  | zero =>
    intro visited chain a tr w out _ hw
    simp [message.response.walk] at hw
  | succ fuel ih =>
    intro visited chain a tr w out hP hw
    cases chain with
    | nil =>
      simp only [message.response.walk, Option.some.injEq] at hw
      subst hw
      exact h_end visited a tr w hP
    | cons c next =>
      rw [message.response.walk] at hw
      generalize hts : sender.try_send send h c w a = r at hw
      obtain ⟨a1, d⟩ := r
      cases d with
      | none =>
        simp only [Option.some.injEq] at hw
        subst hw
        exact h_throw visited c next a tr w a1 hP hts
      | some d =>
        cases d with
        | dead => exact ih _ _ _ _ _ _ (h_dead visited c next a tr w a1 hP hts) hw
        | progress => exact ih _ _ _ _ _ _ (h_progress visited c next a tr w a1 hP hts) hw
        | repeat_ => exact ih _ _ _ _ _ _ (h_repeat visited c next a tr w a1 hP hts) hw
        | finish =>
          simp only [Option.some.injEq] at hw
          subst hw
          exact h_finish visited c next a tr w a1 hP hts

/-- The dispatch loop keeps the structural invariant. -/
theorem inv_walk {σ ρ : Type} (send : World → Nat → σ → σ × Option ρ)
    (h : ρ → σ → σ × Option iteration_state) (m : Nat)
    (fuel : Nat) (visited chain : List Nat) (a : σ) (tr : List Nat) (w : World)
    (out : Outcome σ) (hw : Inv w) (hl : (w.messages m).Senders = visited ++ chain)
    (hr : message.response.walk send h m fuel visited chain a tr w = some out) :
    Inv out.world := by
  refine walk_rec send h m
    (fun visited chain _ _ w => Inv w ∧ (w.messages m).Senders = visited ++ chain)
    (fun out => Inv out.world) ?_ ?_ ?_ ?_ ?_ ?_ fuel visited chain a tr w out ⟨hw, hl⟩ hr
  · intro visited a tr w hP; exact hP.1
  · intro visited c next a tr w a1 hP _; exact hP.1
  · intro visited c next a tr w a1 ⟨hI, hL⟩ _
    have hnd : (visited ++ c :: next).Nodup := hL ▸ hI.senders_nodup m
    have hperm : (visited ++ c :: next).Perm (c :: (visited ++ next)) := List.perm_middle
    have hnd2 := List.nodup_cons.1 (hperm.nodup_iff.1 hnd)
    refine ⟨inv_drop_message hI _ m c (by rw [hL]; simp) _ hnd2.2 ?_, by simp⟩
    intro x
    rw [hL, hperm.mem_iff, List.mem_cons]
    constructor
    · intro hx
      exact ⟨Or.inr hx, fun h => hnd2.1 (h ▸ hx)⟩
    · rintro ⟨h1 | h1, h2⟩
      · exact absurd h1 h2
      · exact h1
  · intro visited c next a tr w a1 ⟨hI, hL⟩ _
    exact ⟨hI, by rw [hL]; simp⟩
  · intro visited c next a tr w a1 ⟨hI, hL⟩ _
    have hnd : (visited ++ c :: next).Nodup := hL ▸ hI.senders_nodup m
    have hperm : (visited ++ c :: next).Perm (c :: (next ++ visited)) :=
      List.perm_middle.trans (List.Perm.cons c List.perm_append_comm)
    refine ⟨inv_setSenders_perm hI m _ (hperm.nodup_iff.1 hnd) ?_, by simp⟩
    intro x
    rw [hL]
    exact hperm.mem_iff.symm
  · intro visited c next a tr w a1 hP _; exact hP.1

/-- The dispatch loop writes no flag of a list head, no pigeon, and allocates
nothing. -/
theorem walk_frame {σ ρ : Type} (send : World → Nat → σ → σ × Option ρ)
    (h : ρ → σ → σ × Option iteration_state) (m : Nat)
    (fuel : Nat) (visited chain : List Nat) (a : σ) (tr : List Nat) (w : World)
    (out : Outcome σ)
    (hr : message.response.walk send h m fuel visited chain a tr w = some out) :
    (∀ i, (out.world.messages i).Senders_flag = (w.messages i).Senders_flag) ∧
    (∀ i, i ≠ m → (out.world.messages i).Senders = (w.messages i).Senders) ∧
    out.world.pigeons = w.pigeons ∧ out.world.next = w.next := by
  refine walk_rec send h m
    (fun _ _ _ _ w1 => (∀ i, (w1.messages i).Senders_flag = (w.messages i).Senders_flag) ∧
      (∀ i, i ≠ m → (w1.messages i).Senders = (w.messages i).Senders) ∧
      w1.pigeons = w.pigeons ∧ w1.next = w.next)
    (fun out => (∀ i, (out.world.messages i).Senders_flag = (w.messages i).Senders_flag) ∧
      (∀ i, i ≠ m → (out.world.messages i).Senders = (w.messages i).Senders) ∧
      out.world.pigeons = w.pigeons ∧ out.world.next = w.next)
    ?_ ?_ ?_ ?_ ?_ ?_ fuel visited chain a tr w out
    ⟨fun _ => rfl, fun _ _ => rfl, rfl, rfl⟩ hr
  · intro visited a tr w1 hP; exact hP
  · intro visited c next a tr w1 a1 hP _; exact hP
  · intro visited c next a tr w1 a1 ⟨h1, h2, h3, h4⟩ _
    refine ⟨fun i => by simpa using h1 i, fun i hi => ?_, by simpa using h3, by simpa using h4⟩
    simp only [contact_drop_messages, World.setSenders_Senders, hi, if_false]
    exact h2 i hi
  · intro visited c next a tr w1 a1 hP _; exact hP
  · intro visited c next a tr w1 a1 ⟨h1, h2, h3, h4⟩ _
    refine ⟨fun i => by simpa using h1 i, fun i hi => ?_, by simpa using h3, by simpa using h4⟩
    simp only [World.setSenders_Senders, hi, if_false]
    exact h2 i hi
  · intro visited c next a tr w1 a1 hP _; exact hP

/-- What `message::response` computes when the message is not dispatching. -/
theorem response_ok {σ ρ : Type} {fuel : Nat} {send : World → Nat → σ → σ × Option ρ}
    {h : ρ → σ → σ × Option iteration_state} {m : Nat} {a : σ} {w : World} {out : Outcome σ}
    (hs : message.isSending m w = false)
    (hr : message.response fuel send h m a w = some out) :
    ∃ out1, message.response.walk send h m fuel [] (w.messages m).Senders a []
        (w.setSending m true) = some out1 ∧
      out = { out1 with world := out1.world.setSending m false } := by
  unfold message.response at hr
  simp only [hs, Bool.false_eq_true, if_false] at hr
  cases hwalk : message.response.walk send h m fuel [] (w.messages m).Senders a []
      (w.setSending m true) with
  | none => rw [hwalk] at hr; cases hr
  | some out1 =>
    rw [hwalk] at hr
    simp only [Option.some.injEq] at hr
    exact ⟨out1, rfl, hr.symm⟩

theorem inv_response {σ ρ : Type} {fuel : Nat} {send : World → Nat → σ → σ × Option ρ}
    {h : ρ → σ → σ × Option iteration_state} {m : Nat} {a : σ} {w : World} {out : Outcome σ}
    (hw : Inv w) (hr : message.response fuel send h m a w = some out) : Inv out.world := by
  cases hs : message.isSending m w
  · obtain ⟨out1, h1, rfl⟩ := response_ok hs hr
    exact inv_setSending (inv_walk send h m fuel [] _ a [] _ out1 (inv_setSending hw m true)
      (by simp) h1) m false
  · unfold message.response at hr
    simp only [hs, if_true, Option.some.injEq] at hr
    subst hr
    exact hw

/-! ## Programs keep the invariant -/

theorem step_inv {w w1 : World} (hs : Step w w1) (hw : Inv w) : Inv w1 := by
  cases hs with
  | deliver p m token h => exact inv_pigeon_deliver hw h
  | message_drop m token h => exact inv_message_drop hw h
  | pigeon_drop p token => exact inv_pigeon_drop hw p token
  | message_clear m h => exact inv_message_clear hw h
  | pigeon_clear p => exact inv_pigeon_clear hw p
  | response fuel send h m a hr => exact inv_response hw hr
  | message_destructor m h => exact inv_message_clear hw h
  | pigeon_destructor p => exact inv_pigeon_destructor hw p

theorem step_quiet {w w1 : World} (hs : Step w w1) (hw : Quiet w) : Quiet w1 := by
  intro i
  have hi := hw i
  unfold message.isSending at hi ⊢
  cases hs with
  | deliver p m token h =>
    obtain ⟨_, _, _, _, _, _, hF, _, _⟩ := pigeon_deliver_ok h
    rw [hF]; exact hi
  | message_drop m token h =>
    rcases (message_drop_ok h).2 with ⟨_, _, rfl⟩ | ⟨_, _, rfl⟩
    · simpa using hi
    · exact hi
  | pigeon_drop p token =>
    rcases pigeon_drop_cases p token w with ⟨_, he⟩ | ⟨_, he⟩
    · rw [he]; simpa using hi
    · rw [he]; exact hi
  | message_clear m h =>
    rw [(message_clear_ok h).2]; simpa using hi
  | pigeon_clear p =>
    unfold pigeon.clear; simpa using hi
  | response fuel send h m a hr =>
    obtain ⟨out1, h1, rfl⟩ := response_ok (hw m) hr
    have hf := (walk_frame send h m fuel [] _ a [] _ out1 h1).1 i
    simp only [World.setSending_flag] at hf ⊢
    split
    · rfl
    · next hne => rw [hf]; simp only [hne, if_false]; exact hi
  | message_destructor m h =>
    rw [(message_clear_ok h).2]; simpa using hi
  | pigeon_destructor p =>
    unfold pigeon.destructor pigeon.clear pigeon.setDestructing; simpa using hi

theorem steps_inv {w w1 : World} (hs : Steps w w1) (hw : Inv w) (hq : Quiet w) :
    Inv w1 ∧ Quiet w1 := by
  induction hs with
  | refl => exact ⟨hw, hq⟩
  | tail _ hstep ih => exact ⟨step_inv hstep ih.1, step_quiet hstep ih.2⟩

theorem reachable_inv {w : World} (hr : Reachable w) : Inv w ∧ Quiet w :=
  steps_inv hr inv_init (fun _ => rfl)

@[simp] theorem drop_chain_owner_message (s : who) (l : List Nat) (w : World) (i : Nat) :
    ((drop_chain s l w).arena i).owner_message = (w.arena i).owner_message := by
  induction l generalizing w with
  | nil => rfl
  | cons c next ih => unfold drop_chain; rw [ih]; simp

@[simp] theorem drop_chain_owner_pigeon (s : who) (l : List Nat) (w : World) (i : Nat) :
    ((drop_chain s l w).arena i).owner_pigeon = (w.arena i).owner_pigeon := by
  induction l generalizing w with
  | nil => rfl
  | cons c next ih => unfold drop_chain; rw [ih]; simp

/-- The invariant determines every node from the lists and the ghost owners. -/
theorem inv_unique {w w1 : World} (hw : Inv w) (hw1 : Inv w1) (hn : w1.next = w.next)
    (hm : w1.messages = w.messages) (hp : w1.pigeons = w.pigeons)
    (hom : ∀ c, (w1.arena c).owner_message = (w.arena c).owner_message)
    (hop : ∀ c, (w1.arena c).owner_pigeon = (w.arena c).owner_pigeon) : w1 = w := by
  have keyM : ∀ c, w1.inMessage c ↔ w.inMessage c := by
    intro c; unfold World.inMessage; rw [hm, hom]
  have keyP : ∀ c, w1.inPigeon c ↔ w.inPigeon c := by
    intro c; unfold World.inPigeon; rw [hp, hop]
  ext1
  · funext c
    apply contact.ext
    · have h1 := hw1.dropped_iff c
      have h2 := hw.dropped_iff c
      rw [keyM, keyP, hn] at h1
      cases hd : (w.arena c).dropped
      · cases hd1 : (w1.arena c).dropped
        · rfl
        · exact absurd (h2.2 (h1.1 hd1)) (by simp [hd])
      · exact h1.2 (h2.1 hd)
    · by_cases h : w.next ≤ c ∨ w.inMessage c ∨ w.inPigeon c
      · rw [hw.destructs_zero c h]
        exact hw1.destructs_zero c (by rw [keyM, keyP, hn]; exact h)
      · push_neg at h
        rw [hw.destructs_one c h.1 h.2.1 h.2.2]
        exact hw1.destructs_one c (by rw [hn]; exact h.1) (by rw [keyM]; exact h.2.1)
          (by rw [keyP]; exact h.2.2)
    · rw [hw.never_linked, hw1.never_linked]
    · exact hom c
    · exact hop c
  · exact hn
  · exact hm
  · exact hp


theorem message_clear_of_not_sending {m : Nat} {w : World} (h : message.isSending m w = false) :
    message.clear m w = .ok (drop_chain .message (w.messages m).Senders (w.setSenders m [])) := by
  unfold message.clear message.ensureNotSending
  simp [h]

/-- A dispatch over an empty list runs no handler. -/
theorem send_empty {σ ρ : Type} (send : World → Nat → σ → σ × Option ρ) (m : Nat) (a : σ)
    (w : World) (fuel : Nat) (hs : message.isSending m w = false)
    (hl : (w.messages m).Senders = []) :
    ∃ out, message.send (fuel + 1) send m a w = some out ∧ out.trace = [] := by
  unfold message.send message.response
  simp [hs, hl, message.response.walk]



/-- The dispatch loop only removes or reorders the entries of the list. -/
theorem walk_senders_subset {σ ρ : Type} (send : World → Nat → σ → σ × Option ρ)
    (h : ρ → σ → σ × Option iteration_state) (m : Nat)
    (fuel : Nat) (visited chain : List Nat) (a : σ) (tr : List Nat) (w : World)
    (out : Outcome σ) (hl : (w.messages m).Senders = visited ++ chain)
    (hr : message.response.walk send h m fuel visited chain a tr w = some out) :
    ∀ x, x ∈ (out.world.messages m).Senders → x ∈ (w.messages m).Senders := by
  refine walk_rec send h m
    (fun visited chain _ _ w1 => (w1.messages m).Senders = visited ++ chain ∧
      ∀ x, x ∈ (w1.messages m).Senders → x ∈ (w.messages m).Senders)
    (fun out => ∀ x, x ∈ (out.world.messages m).Senders → x ∈ (w.messages m).Senders)
    ?_ ?_ ?_ ?_ ?_ ?_ fuel visited chain a tr w out ⟨hl, fun _ hx => hx⟩ hr
  · intro visited a tr w1 hP; exact hP.2
  · intro visited c next a tr w1 a1 hP _; exact hP.2
  · intro visited c next a tr w1 a1 ⟨h1, h2⟩ _
    refine ⟨by simp, fun x hx => h2 x ?_⟩
    simp only [contact_drop_messages, World.setSenders_Senders, if_true, List.mem_append] at hx
    rw [h1]
    rcases hx with hx | hx
    · exact List.mem_append_left _ hx
    · exact List.mem_append_right _ (List.mem_cons_of_mem _ hx)
  · intro visited c next a tr w1 a1 ⟨h1, h2⟩ _
    exact ⟨by rw [h1]; simp, h2⟩
  · intro visited c next a tr w1 a1 ⟨h1, h2⟩ _
    refine ⟨by simp, fun x hx => h2 x ?_⟩
    simp only [World.setSenders_Senders, if_true, List.mem_cons, List.mem_append] at hx
    rw [h1]
    simp only [List.mem_append, List.mem_cons]
    tauto
  · intro visited c next a tr w1 a1 hP _; exact hP.2

/-- A call never links an existing node into a list: an existing node that is
in a list after the call was in that same list before it. -/
theorem step_mono {w w1 : World} (hs : Step w w1) :
    w.next ≤ w1.next ∧
    (∀ c i, c < w.next → c ∈ (w1.messages i).Senders → c ∈ (w.messages i).Senders) ∧
    (∀ c i, c < w.next → c ∈ (w1.pigeons i).contacts → c ∈ (w.pigeons i).contacts) := by
  have herase : ∀ (l : List Nat) (t x : Nat), x ∈ l.erase t → x ∈ l :=
    fun l t x hx => List.mem_of_mem_erase hx
  cases hs with
  | deliver p m token h =>
    obtain ⟨_, _, _, hn, _, hS, _, hC, _⟩ := pigeon_deliver_ok h
    refine ⟨by omega, fun c i hc hx => ?_, fun c i hc hx => ?_⟩
    · rw [hS] at hx
      split at hx
      · next hi =>
        subst hi
        rcases List.mem_cons.1 hx with h1 | h1
        · omega
        · exact h1
      · exact hx
    · rw [hC] at hx
      split at hx
      · next hi =>
        subst hi
        rcases List.mem_cons.1 hx with h1 | h1
        · omega
        · exact h1
      · exact hx
  | message_drop m token h =>
    rcases (message_drop_ok h).2 with ⟨_, _, rfl⟩ | ⟨_, _, rfl⟩
    · refine ⟨by simp, fun c i _ hx => ?_, fun c i _ hx => by simpa using hx⟩
      simp only [contact_drop_messages, World.setSenders_Senders] at hx
      split at hx
      · next hi => subst hi; exact herase _ _ _ hx
      · exact hx
    · exact ⟨le_refl _, fun _ _ _ hx => hx, fun _ _ _ hx => hx⟩
  | pigeon_drop p token =>
    rcases pigeon_drop_cases p token w with ⟨_, he⟩ | ⟨_, he⟩
    · rw [he]
      refine ⟨by simp, fun c i _ hx => by simpa using hx, fun c i _ hx => ?_⟩
      simp only [contact_drop_pigeons, World.setContacts_contacts] at hx
      split at hx
      · next hi => subst hi; exact herase _ _ _ hx
      · exact hx
    · rw [he]
      exact ⟨le_refl _, fun _ _ _ hx => hx, fun _ _ _ hx => hx⟩
  | message_clear m h =>
    rw [(message_clear_ok h).2]
    refine ⟨by simp, fun c i _ hx => ?_, fun c i _ hx => by simpa using hx⟩
    simp only [drop_chain_messages, World.setSenders_Senders] at hx
    split at hx
    · simp at hx
    · exact hx
  | pigeon_clear p =>
    unfold pigeon.clear
    refine ⟨by simp, fun c i _ hx => by simpa using hx, fun c i _ hx => ?_⟩
    simp only [drop_chain_pigeons, World.setContacts_contacts] at hx
    split at hx
    · simp at hx
    · exact hx
  | response fuel send h m a hr =>
    cases hsd : message.isSending m w
    · obtain ⟨out1, h1, rfl⟩ := response_ok hsd hr
      obtain ⟨_, hf2, hf3, hf4⟩ := walk_frame send h m fuel [] _ a [] _ out1 h1
      have hsub := walk_senders_subset send h m fuel [] _ a [] _ out1 (by simp) h1
      refine ⟨by simp [hf4], fun c i _ hx => ?_, fun c i _ hx => by simpa [hf3] using hx⟩
      simp only [World.setSending_Senders] at hx
      by_cases hi : i = m
      · subst hi
        simpa using hsub c hx
      · rw [hf2 i hi] at hx
        simpa using hx
    · unfold message.response at hr
      simp only [hsd, if_true, Option.some.injEq] at hr
      subst hr
      exact ⟨le_refl _, fun _ _ _ hx => hx, fun _ _ _ hx => hx⟩
  | message_destructor m h =>
    rw [(message_clear_ok h).2]
    refine ⟨by simp, fun c i _ hx => ?_, fun c i _ hx => by simpa using hx⟩
    simp only [drop_chain_messages, World.setSenders_Senders] at hx
    split at hx
    · simp at hx
    · exact hx
  | pigeon_destructor p =>
    unfold pigeon.destructor pigeon.clear pigeon.setDestructing
    refine ⟨by simp, fun c i _ hx => by simpa using hx, fun c i _ hx => ?_⟩
    simp only [drop_chain_pigeons, World.setContacts_contacts] at hx
    split at hx
    · simp at hx
    · simpa using hx

theorem steps_mono {w w1 : World} (hs : Steps w w1) :
    w.next ≤ w1.next ∧
    (∀ c i, c < w.next → c ∈ (w1.messages i).Senders → c ∈ (w.messages i).Senders) ∧
    (∀ c i, c < w.next → c ∈ (w1.pigeons i).contacts → c ∈ (w.pigeons i).contacts) := by
  induction hs with
  | refl => exact ⟨le_refl _, fun _ _ _ hx => hx, fun _ _ _ hx => hx⟩
  | tail _ hstep ih =>
    obtain ⟨h1, h2, h3⟩ := step_mono hstep
    obtain ⟨i1, i2, i3⟩ := ih
    exact ⟨le_trans i1 h1, fun c i hc hx => i2 c i hc (h2 c i (lt_of_lt_of_le hc i1) hx),
      fun c i hc hx => i3 c i hc (h3 c i (lt_of_lt_of_le hc i1) hx)⟩

/-- The dropped flag of a node is never cleared by `contact::drop`. -/
theorem contact_drop_dropped_mono (c : Nat) (s : who) (w : World) (x : Nat)
    (h : (w.arena x).dropped = true) : ((contact.drop c s w).arena x).dropped = true := by
  by_cases hx : x = c
  · subst hx; exact contact_drop_dropped_self x s w
  · rw [contact_drop_arena_ne c s w x hx]; exact h

theorem drop_chain_dropped (s : who) (l : List Nat) (w : World) (x : Nat)
    (h : x ∈ l ∨ (w.arena x).dropped = true) : ((drop_chain s l w).arena x).dropped = true := by
  induction l generalizing w with
  | nil =>
    rcases h with h | h
    · cases h
    · exact h
  | cons c next ih =>
    unfold drop_chain
    apply ih
    rcases h with h | h
    · rcases List.mem_cons.1 h with h1 | h1
      · subst h1; exact Or.inr (contact_drop_dropped_self x s w)
      · exact Or.inl h1
    · exact Or.inr (contact_drop_dropped_mono c s w x h)

/-- The dispatch loop never runs the handler of an entry that is flagged
dropped when the loop starts, and leaves it flagged. -/
theorem walk_skips_dropped {σ ρ : Type} (send : World → Nat → σ → σ × Option ρ)
    (h : ρ → σ → σ × Option iteration_state) (m : Nat)
    (fuel : Nat) (visited chain : List Nat) (a : σ) (tr : List Nat) (w : World)
    (out : Outcome σ) (c : Nat) (hd : (w.arena c).dropped = true) (htr : c ∉ tr)
    (hr : message.response.walk send h m fuel visited chain a tr w = some out) :
    c ∉ out.trace ∧ (out.world.arena c).dropped = true := by
  have hstep : ∀ (x : Nat) (tr1 : List Nat) (w1 : World), (w1.arena c).dropped = true →
      c ∉ tr1 → c ∉ (if contact.isDropped x w1 then tr1 else tr1 ++ [x]) := by
    intro x tr1 w1 h1 h2
    by_cases hx : x = c
    · subst hx
      simp [contact.isDropped, h1, h2]
    · split
      · exact h2
      · simp [h2, Ne.symm hx]
  refine walk_rec send h m
    (fun _ _ _ tr1 w1 => (w1.arena c).dropped = true ∧ c ∉ tr1)
    (fun out => c ∉ out.trace ∧ (out.world.arena c).dropped = true)
    ?_ ?_ ?_ ?_ ?_ ?_ fuel visited chain a tr w out ⟨hd, htr⟩ hr
  · intro visited a tr1 w1 hP; exact ⟨hP.2, hP.1⟩
  · intro visited x next a tr1 w1 a1 hP _; exact ⟨hstep x tr1 w1 hP.1 hP.2, hP.1⟩
  · intro visited x next a tr1 w1 a1 hP _
    exact ⟨contact_drop_dropped_mono x _ _ c (by simpa using hP.1), hstep x tr1 w1 hP.1 hP.2⟩
  · intro visited x next a tr1 w1 a1 hP _; exact ⟨hP.1, hstep x tr1 w1 hP.1 hP.2⟩
  · intro visited x next a tr1 w1 a1 hP _
    exact ⟨by simpa using hP.1, hstep x tr1 w1 hP.1 hP.2⟩
  · intro visited x next a tr1 w1 a1 hP _; exact ⟨hstep x tr1 w1 hP.1 hP.2, hP.1⟩

/-- A `response` call never runs the handler of an entry that is flagged
dropped when the call starts, and leaves it flagged. -/
theorem response_skips_dropped {σ ρ : Type} {fuel : Nat}
    {send : World → Nat → σ → σ × Option ρ} {h : ρ → σ → σ × Option iteration_state}
    {m : Nat} {a : σ} {w : World} {out : Outcome σ} (c : Nat)
    (hd : (w.arena c).dropped = true)
    (hr : message.response fuel send h m a w = some out) :
    c ∉ out.trace ∧ (out.world.arena c).dropped = true := by
  cases hs : message.isSending m w
  · obtain ⟨out1, h1, rfl⟩ := response_ok hs hr
    have := walk_skips_dropped send h m fuel [] _ a [] _ out1 c (by simpa using hd)
      (List.not_mem_nil c) h1
    exact ⟨this.1, by simpa using this.2⟩
  · unfold message.response at hr
    simp only [hs, if_true, Option.some.injEq] at hr
    subst hr
    exact ⟨List.not_mem_nil c, hd⟩

/-- No call clears the dropped flag of a node. -/
theorem step_dropped_mono {w w1 : World} (hs : Step w w1) (hw : Inv w) (c : Nat)
    (hd : (w.arena c).dropped = true) : (w1.arena c).dropped = true := by
  cases hs with
  | deliver p m token h =>
    obtain ⟨_, _, _, _, ha, _⟩ := pigeon_deliver_ok h
    have hlt := ((hw.dropped_iff c).1 hd).1
    rw [ha c, if_neg (Nat.ne_of_lt hlt)]
    exact hd
  | message_drop m token h =>
    rcases (message_drop_ok h).2 with ⟨_, _, rfl⟩ | ⟨_, _, rfl⟩
    · exact contact_drop_dropped_mono _ _ _ c (by simpa using hd)
    · exact hd
  | pigeon_drop p token =>
    rcases pigeon_drop_cases p token w with ⟨_, he⟩ | ⟨_, he⟩
    · rw [he]; exact contact_drop_dropped_mono _ _ _ c (by simpa using hd)
    · rw [he]; exact hd
  | message_clear m h =>
    rw [(message_clear_ok h).2]
    exact drop_chain_dropped _ _ _ c (Or.inr (by simpa using hd))
  | pigeon_clear p =>
    exact drop_chain_dropped _ _ _ c (Or.inr (by simpa using hd))
  | response fuel send h m a hr => exact (response_skips_dropped c hd hr).2
  | message_destructor m h =>
    rw [(message_clear_ok h).2]
    exact drop_chain_dropped _ _ _ c (Or.inr (by simpa using hd))
  | pigeon_destructor p =>
    exact drop_chain_dropped _ _ _ c (Or.inr (by simpa [pigeon.setDestructing] using hd))

theorem steps_dropped_mono {w w1 : World} (hs : Steps w w1) (hw : Inv w) (hq : Quiet w)
    (c : Nat) (hd : (w.arena c).dropped = true) : (w1.arena c).dropped = true := by
  induction hs with
  | refl => exact hd
  | tail hpre hstep ih => exact step_dropped_mono hstep (steps_inv hpre hw hq).1 c ih

/-- A drop request, from either side, leaves the contact flagged dropped. -/
theorem drop_requested_dropped {c : Nat} {w w1 : World} (h : DropRequested c w w1) :
    (w1.arena c).dropped = true ∧ Step w w1 := by
  cases h with
  | pigeon_drop p hf =>
    refine ⟨?_, Step.pigeon_drop p c⟩
    rcases pigeon_drop_cases p c w with ⟨_, he⟩ | ⟨_, he⟩
    · rw [he]; exact contact_drop_dropped_self c _ _
    · rw [he] at hf; cases hf
  | pigeon_clear p hm =>
    exact ⟨drop_chain_dropped _ _ _ c (Or.inl hm), Step.pigeon_clear p⟩
  | message_drop m hd =>
    refine ⟨?_, Step.message_drop m c hd⟩
    rcases (message_drop_ok hd).2 with ⟨_, _, rfl⟩ | ⟨hf, _, _⟩
    · exact contact_drop_dropped_self c _ _
    · cases hf
  | message_clear m hm hd =>
    refine ⟨?_, Step.message_clear m hd⟩
    rw [(message_clear_ok hd).2]
    exact drop_chain_dropped _ _ _ c (Or.inl hm)

/-- Setting and then resetting the flag of a message that is not dispatching
gives back the heap. -/
theorem setSending_roundtrip (w : World) (m : Nat) (h : message.isSending m w = false) :
    (w.setSending m true).setSending m false = w := by
  unfold message.isSending at h
  ext1
  · rfl
  · rfl
  · funext i
    by_cases hi : i = m
    · subst hi
      simp only [World.setSending, if_true]
      rw [← h]
    · simp [World.setSending, hi]
  · rfl

/-- Handlers that agree on every heap in which the message is dispatching give
the same run of the loop. -/
theorem walk_congr {σ ρ : Type} (send send1 : World → Nat → σ → σ × Option ρ)
    (h : ρ → σ → σ × Option iteration_state) (m : Nat)
    (hag : ∀ w i s, message.isSending m w = true → send1 w i s = send w i s) :
    ∀ (fuel : Nat) (visited chain : List Nat) (a : σ) (tr : List Nat) (w : World),
      message.isSending m w = true →
      message.response.walk send1 h m fuel visited chain a tr w =
        message.response.walk send h m fuel visited chain a tr w := by
  intro fuel
  induction fuel with
  | zero => intro visited chain a tr w _; rfl
  | succ fuel ih =>
    intro visited chain a tr w hs
    cases chain with
    | nil => rfl
    | cons c next =>
      have hts : sender.try_send send1 h c w a = sender.try_send send h c w a := by
        unfold sender.try_send sender.do_send
        rw [hag w c a hs]
      rw [message.response.walk, message.response.walk, hts]
      generalize sender.try_send send h c w a = r
      obtain ⟨a1, d⟩ := r
      cases d with
      | none => rfl
      | some d =>
        cases d with
        | dead =>
          exact ih _ _ _ _ _ (by simpa [message.isSending] using hs)
        | progress => exact ih _ _ _ _ _ hs
        | repeat_ =>
          exact ih _ _ _ _ _ (by simpa [message.isSending] using hs)
        | finish => rfl

/-- Dropping an entry that is already flagged leaves every flag as it is. -/
theorem contact_drop_isDropped_of_dropped (c : Nat) (s : who) (w : World)
    (h : contact.isDropped c w = true) (x : Nat) :
    contact.isDropped x (contact.drop c s w) = contact.isDropped x w := by
  unfold contact.isDropped at *
  by_cases hx : x = c
  · subst hx; rw [contact_drop_dropped_self, h]
  · rw [contact_drop_arena_ne c s w x hx]

/-- One pass of the loop over `chain` while the response handler keeps
answering `progress` and nothing throws: the handlers of exactly the entries
that are not flagged dropped run, in list order.  `P` is any property of the
caller's environment that makes the next answer `progress` and is handed on. -/
theorem walk_pass {σ ρ : Type} (send : World → Nat → σ → σ × Option ρ)
    (h : ρ → σ → σ × Option iteration_state) (m : Nat) (P : σ → Prop)
    (hlater : ∀ w1 i s, P s → ∃ s1 r1 s2, send w1 i s = (s1, some r1) ∧
      h r1 s1 = (s2, some .progress) ∧ P s2) :
    ∀ (chain : List Nat) (fuel : Nat) (visited : List Nat) (a : σ) (tr : List Nat) (w : World),
      P a → chain.length + 1 ≤ fuel →
      ∃ out, message.response.walk send h m fuel visited chain a tr w = some out ∧
        out.trace = tr ++ chain.filter (fun x => !contact.isDropped x w) ∧
        out.threw = false ∧ P out.user ∧
        ((∀ x ∈ chain, contact.isDropped x w = false) → out.world = w) := by
  intro chain
  induction chain with
  | nil =>
    intro fuel visited a tr w hP hf
    obtain ⟨k, rfl⟩ : ∃ k, fuel = k + 1 := ⟨fuel - 1, by omega⟩
    exact ⟨⟨w, a, tr, false⟩, rfl, by simp, rfl, hP, fun _ => rfl⟩
  | cons c next ih =>
    intro fuel visited a tr w hP hf
    obtain ⟨k, rfl⟩ : ∃ k, fuel = k + 1 := ⟨fuel - 1, by omega⟩
    have hk : next.length + 1 ≤ k := by simp only [List.length_cons] at hf; omega
    rw [message.response.walk]
    cases hd : contact.isDropped c w
    · obtain ⟨s1, r1, s2, h1, h2, h3⟩ := hlater w c a hP
      have hts : sender.try_send send h c w a = (s2, some .progress) := by
        unfold sender.try_send sender.do_send
        simp only [hd, Bool.false_eq_true, if_false, h1]
        exact h2
      rw [hts]
      obtain ⟨out, ho, htr, hth, hPo, hw⟩ := ih k (visited ++ [c]) s2 (tr ++ [c]) w h3 hk
      refine ⟨out, ?_, ?_, hth, hPo, fun hall => hw (fun x hx => hall x (List.mem_cons_of_mem _ hx))⟩
      · simpa using ho
      · rw [htr]; simp [List.filter_cons, hd]
    · have hts : sender.try_send send h c w a = (a, some .dead) := by
        unfold sender.try_send
        simp [hd]
      rw [hts]
      obtain ⟨out, ho, htr, hth, hPo, _⟩ := ih k visited a tr
        (contact.drop c .message (w.setSenders m (visited ++ next))) hP hk
      have hsame : (fun x => !contact.isDropped x
          (contact.drop c .message (w.setSenders m (visited ++ next)))) =
          (fun x => !contact.isDropped x w) := by
        funext x
        rw [contact_drop_isDropped_of_dropped c _ _ (by simpa [contact.isDropped] using hd) x]
        rfl
      refine ⟨out, ?_, ?_, hth, hPo, fun hall => ?_⟩
      · simpa [hd] using ho
      · rw [htr, hsame]; simp [List.filter_cons, hd]
      · have := hall c (List.mem_cons_self _ _)
        rw [hd] at this
        cases this

/-- What a run of subscriptions to one message leaves behind. -/
theorem subscribe_all_spec (m : Nat) :
    ∀ (ps ts : List Nat) (w w1 : World), subscribe_all m ps w = some (ts, w1) →
      (w1.messages m).Senders = ts.reverse ++ (w.messages m).Senders ∧
      (∀ i, (w1.messages i).Senders_flag = (w.messages i).Senders_flag) ∧
      w.next ≤ w1.next ∧ (∀ x, x < w.next → w1.arena x = w.arena x) ∧
      (∀ t ∈ ts, w.next ≤ t ∧ (w1.arena t).dropped = false) ∧ ts.Nodup := by
  intro ps
  induction ps with
  | nil =>
    intro ts w w1 h
    simp only [subscribe_all, Option.some.injEq, Prod.mk.injEq] at h
    obtain ⟨rfl, rfl⟩ := h
    simp
  | cons p ps ih =>
    intro ts w w1 h
    rw [subscribe_all] at h
    cases hd : pigeon.deliver p m w with
    | error e => rw [hd] at h; cases h
    | ok r =>
      obtain ⟨t, w0⟩ := r
      rw [hd] at h
      simp only at h
      cases hrest : subscribe_all m ps w0 with
      | none => rw [hrest] at h; cases h
      | some r1 =>
        obtain ⟨ts1, w2⟩ := r1
        rw [hrest] at h
        simp only [Option.some.injEq, Prod.mk.injEq] at h
        obtain ⟨rfl, rfl⟩ := h
        obtain ⟨_, _, ht, hn, ha, hS, hF, _, _⟩ := pigeon_deliver_ok hd
        obtain ⟨i1, i2, i3, i4, i5, i6⟩ := ih ts1 w0 w2 hrest
        refine ⟨?_, fun i => by rw [i2, hF], by omega, fun x hx => ?_, ?_, ?_⟩
        · rw [i1, hS, ht]; simp
        · rw [i4 x (by omega), ha x, if_neg (Nat.ne_of_lt hx)]
        · intro x hx
          rcases List.mem_cons.1 hx with hx1 | hx1
          · rw [hx1]
            refine ⟨by omega, ?_⟩
            rw [i4 t (by omega), ha t, ht]
            simp
          · exact ⟨by have := (i5 x hx1).1; omega, (i5 x hx1).2⟩
        · refine List.nodup_cons.2 ⟨fun hmem => ?_, i6⟩
          have := (i5 t hmem).1
          omega

/-- More fuel does not change the outcome of a loop that returned. -/
theorem walk_fuel_succ {σ ρ : Type} (send : World → Nat → σ → σ × Option ρ)
    (h : ρ → σ → σ × Option iteration_state) (m : Nat) :
    ∀ (fuel : Nat) (visited chain : List Nat) (a : σ) (tr : List Nat) (w : World)
      (out : Outcome σ), message.response.walk send h m fuel visited chain a tr w = some out →
      message.response.walk send h m (fuel + 1) visited chain a tr w = some out := by
  intro fuel
  induction fuel with
  | zero =>
    intro visited chain a tr w out hw
    simp [message.response.walk] at hw
  | succ fuel ih =>
    intro visited chain a tr w out hw
    cases chain with
    | nil =>
      simp only [message.response.walk] at hw ⊢
      exact hw
    | cons c next =>
      rw [message.response.walk] at hw ⊢
      generalize sender.try_send send h c w a = r at hw ⊢
      obtain ⟨a1, d⟩ := r
      cases d with
      | none => exact hw
      | some d =>
        cases d with
        | dead => exact ih _ _ _ _ _ _ hw
        | progress => exact ih _ _ _ _ _ _ hw
        | repeat_ => exact ih _ _ _ _ _ _ hw
        | finish => exact hw

theorem walk_fuel_mono {σ ρ : Type} (send : World → Nat → σ → σ × Option ρ)
    (h : ρ → σ → σ × Option iteration_state) (m : Nat)
    (fuel k : Nat) (visited chain : List Nat) (a : σ) (tr : List Nat) (w : World)
    (out : Outcome σ) (hw : message.response.walk send h m fuel visited chain a tr w = some out) :
    message.response.walk send h m (fuel + k) visited chain a tr w = some out := by
  induction k with
  | zero => exact hw
  | succ k ih => exact walk_fuel_succ send h m _ _ _ _ _ _ _ ih

/-- More fuel does not change the outcome of a `response` call that returned. -/
theorem response_fuel_mono {σ ρ : Type} (send : World → Nat → σ → σ × Option ρ)
    (h : ρ → σ → σ × Option iteration_state) (m : Nat) (fuel k : Nat) (a : σ) (w : World)
    (out : Outcome σ) (hr : message.response fuel send h m a w = some out) :
    message.response (fuel + k) send h m a w = some out := by
  unfold message.response at hr ⊢
  split
  · next hs => simpa [hs] using hr
  · next hs =>
    simp only [hs, if_false] at hr
    cases hwalk : message.response.walk send h m fuel [] (w.messages m).Senders a []
        (w.setSending m true) with
    | none => rw [hwalk] at hr; cases hr
    | some out1 =>
      rw [hwalk] at hr
      rw [walk_fuel_mono send h m fuel k _ _ _ _ _ _ hwalk]
      exact hr

theorem demo_one_reachable : Reachable Demo.one :=
  Relation.ReflTransGen.single (Step.deliver 0 0 0 rfl)

theorem demo_one_cleared_reachable : Reachable Demo.one_cleared :=
  (demo_one_reachable.tail (Step.pigeon_clear 0)).tail (Step.message_clear 0 rfl)

theorem demo_two_reachable : Reachable Demo.two :=
  demo_one_reachable.tail (Step.deliver 0 0 1 rfl)

/-- The loop over a stretch `pre` of entries that are not flagged dropped,
while the response handler answers `progress` for them and nothing throws:
the handlers of `pre` run in list order, the heap is untouched, and the loop
goes on behind the stretch.  `P` is any property of the caller's environment
that makes the answers for `pre` be `progress` and is handed on. -/
theorem walk_prefix {σ ρ : Type} (send : World → Nat → σ → σ × Option ρ)
    (h : ρ → σ → σ × Option iteration_state) (m : Nat) (P : σ → Prop) (w : World) :
    ∀ (pre : List Nat) (visited rest : List Nat) (a : σ) (tr : List Nat) (fuel : Nat),
      (∀ i ∈ pre, contact.isDropped i w = false) →
      (∀ i s, i ∈ pre → P s → ∃ s1 r1 s2, send w i s = (s1, some r1) ∧
        h r1 s1 = (s2, some .progress) ∧ P s2) →
      P a →
      ∃ a1, P a1 ∧
        message.response.walk send h m (fuel + pre.length) visited (pre ++ rest) a tr w =
          message.response.walk send h m fuel (visited ++ pre) rest a1 (tr ++ pre) w := by
  intro pre
  induction pre with
  | nil =>
    intro visited rest a tr fuel _ _ hP
    exact ⟨a, hP, by simp⟩
  | cons c pre ih =>
    intro visited rest a tr fuel hlive hprog hP
    obtain ⟨s1, r1, s2, h1, h2, h3⟩ := hprog c a (List.mem_cons_self _ _) hP
    have hd := hlive c (List.mem_cons_self _ _)
    have hts : sender.try_send send h c w a = (s2, some .progress) := by
      unfold sender.try_send sender.do_send
      simp only [hd, Bool.false_eq_true, if_false, h1]
      exact h2
    obtain ⟨a1, hP1, hw⟩ := ih (visited ++ [c]) rest s2 (tr ++ [c]) fuel
      (fun i hi => hlive i (List.mem_cons_of_mem _ hi))
      (fun i s hi hs => hprog i s (List.mem_cons_of_mem _ hi) hs) h3
    refine ⟨a1, hP1, ?_⟩
    have hlen : fuel + (c :: pre).length = (fuel + pre.length) + 1 := by
      simp only [List.length_cons]; omega
    rw [hlen, List.cons_append, message.response.walk, hts]
    simp only [hd, Bool.false_eq_true, if_false]
    rw [hw]
    simp

/-- The loop step for an entry that is not flagged dropped and for which the
response handler answers `finish`. -/
theorem walk_finish {σ ρ : Type} (send : World → Nat → σ → σ × Option ρ)
    (h : ρ → σ → σ × Option iteration_state) (m : Nat) (fuel : Nat)
    (visited : List Nat) (c : Nat) (next : List Nat) (a a1 a2 : σ) (r : ρ) (tr : List Nat)
    (w : World) (hlive : contact.isDropped c w = false)
    (hsend : send w c a = (a1, some r)) (hfin : h r a1 = (a2, some .finish)) :
    message.response.walk send h m (fuel + 1) visited (c :: next) a tr w =
      some ⟨w, a2, tr ++ [c], false⟩ := by
  have hts : sender.try_send send h c w a = (a2, some .finish) := by
    unfold sender.try_send sender.do_send
    simp only [hlive, Bool.false_eq_true, if_false, hsend]
    exact hfin
  rw [message.response.walk, hts]
  simp [hlive]

/-- A `response` call on a message that is not dispatching is the loop run
between setting and resetting the flag. -/
theorem response_of_walk {σ ρ : Type} {fuel : Nat} {send : World → Nat → σ → σ × Option ρ}
    {h : ρ → σ → σ × Option iteration_state} {m : Nat} {a : σ} {w : World} {out : Outcome σ}
    (hs : message.isSending m w = false)
    (hw : message.response.walk send h m fuel [] (w.messages m).Senders a []
      (w.setSending m true) = some out) :
    message.response fuel send h m a w =
      some { out with world := out.world.setSending m false } := by
  unfold message.response
  rw [hw]
  simp [hs]

/-- A dispatch over entries none of which is flagged dropped, with a response
handler that always answers `progress` and handlers that do not throw, runs
each handler once in list order and gives back the heap. -/
theorem response_all_progress {σ ρ : Type} (send : World → Nat → σ → σ × Option ρ)
    (hsend : ∀ w0 i s, ((send w0 i s).2).isSome = true)
    (h : ρ → σ → σ × Option iteration_state) (hh : ∀ r s, (h r s).2 = some .progress)
    (m : Nat) (a : σ) (w : World) (hq : message.isSending m w = false)
    (hlive : ∀ c ∈ (w.messages m).Senders, contact.isDropped c w = false)
    (fuel : Nat) (hfuel : (w.messages m).Senders.length < fuel) :
    ∃ out, message.response fuel send h m a w = some out ∧
      out.trace = (w.messages m).Senders ∧ out.world = w ∧ out.threw = false := by
  have hlater : ∀ (w0 : World) (i : Nat) (s : σ), True → ∃ s1 r1 s2,
      send w0 i s = (s1, some r1) ∧ h r1 s1 = (s2, some .progress) ∧ True := by
    intro w0 i s _
    obtain ⟨r1, hr1⟩ := Option.isSome_iff_exists.1 (hsend w0 i s)
    exact ⟨(send w0 i s).1, r1, (h r1 (send w0 i s).1).1, Prod.ext rfl hr1,
      Prod.ext rfl (hh _ _), trivial⟩
  obtain ⟨out1, ho, htr, hth, _, hw⟩ := walk_pass send h m (fun _ => True) hlater
    (w.messages m).Senders fuel [] a [] (w.setSending m true) trivial (by omega)
  have hall : ∀ x ∈ (w.messages m).Senders,
      contact.isDropped x (w.setSending m true) = false := hlive
  refine ⟨{ out1 with world := out1.world.setSending m false }, response_of_walk hq ho, ?_, ?_,
    hth⟩
  · rw [htr]
    simp only [List.nil_append]
    exact List.filter_eq_self.2 (fun x hx => by simp [hall x hx])
  · simp only
    rw [hw hall]
    exact setSending_roundtrip w m hq

/-- The search loop finds the first occurrence of the token. -/
theorem unlink_append (token : Nat) (pre post : List Nat) (h : token ∉ pre) :
    unlink token (pre ++ token :: post) = some (pre ++ post) := by
  induction pre with
  | nil => simp [unlink]
  | cons c pre ih =>
    have hc : c ≠ token := fun e => h (e ▸ List.mem_cons_self _ _)
    have hp : token ∉ pre := fun e => h (List.mem_cons_of_mem _ e)
    simp [unlink, hc, ih hp]

/-- An entry of a list splits it at its first occurrence. -/
theorem split_at_first (token : Nat) (l : List Nat) (h : token ∈ l) :
    ∃ pre post, l = pre ++ token :: post ∧ token ∉ pre := by
  induction l with
  | nil => cases h
  | cons c l ih =>
    by_cases hc : c = token
    · exact ⟨[], l, by simp [hc], by simp⟩
    · have hl : token ∈ l := by
        rcases List.mem_cons.1 h with e | e
        · exact absurd e.symm hc
        · exact e
      obtain ⟨pre, post, h1, h2⟩ := ih hl
      refine ⟨c :: pre, post, by simp [h1], ?_⟩
      intro hm
      rcases List.mem_cons.1 hm with e | e
      · exact hc e.symm
      · exact h2 e

theorem message_drop_found {m token : Nat} {w : World} (hs : message.isSending m w = false)
    (pre post : List Nat) (hl : (w.messages m).Senders = pre ++ token :: post)
    (hp : token ∉ pre) :
    message.drop m token w =
      .ok (true, contact.drop token .message (w.setSenders m (pre ++ post))) := by
  unfold message.drop message.ensureNotSending
  simp [hs, hl, unlink_append token pre post hp]

theorem message_drop_not_found {m token : Nat} {w : World}
    (hs : message.isSending m w = false) (hn : token ∉ (w.messages m).Senders) :
    message.drop m token w = .ok (false, w) := by
  unfold message.drop message.ensureNotSending
  simp [hs, unlink_eq_none.2 hn]

/-- The clear loop leaves the nodes that are not in the chain alone. -/
theorem drop_chain_arena_not_mem (s : who) (l : List Nat) (w : World) (x : Nat)
    (h : x ∉ l) : (drop_chain s l w).arena x = w.arena x := by
  induction l generalizing w with
  | nil => rfl
  | cons c next ih =>
    unfold drop_chain
    rw [ih _ (fun e => h (List.mem_cons_of_mem _ e)),
      contact_drop_arena_ne c s w x (fun e => h (e ▸ List.mem_cons_self _ _))]

/-- The clear loop flags a live node of a duplicate-free chain. -/
theorem drop_chain_arena_live (s : who) (l : List Nat) (w : World) (x : Nat)
    (hnd : l.Nodup) (h : x ∈ l) (hd : (w.arena x).dropped = false) :
    (drop_chain s l w).arena x = { w.arena x with dropped := true } := by
  induction l generalizing w with
  | nil => cases h
  | cons c next ih =>
    unfold drop_chain
    obtain ⟨hc, hn⟩ := List.nodup_cons.1 hnd
    by_cases hx : x = c
    · subst hx
      rw [drop_chain_arena_not_mem s next _ x hc, contact_drop_arena_live x s w hd]
    · have hm : x ∈ next := by
        rcases List.mem_cons.1 h with e | e
        · exact absurd e hx
        · exact e
      rw [ih _ hn hm (by rw [contact_drop_arena_ne c s w x hx]; exact hd),
        contact_drop_arena_ne c s w x hx]

/-- The clear loop destructs a flagged node of a duplicate-free chain, once. -/
theorem drop_chain_arena_dropped (s : who) (l : List Nat) (w : World) (x : Nat)
    (hnd : l.Nodup) (h : x ∈ l) (hd : (w.arena x).dropped = true) :
    ((drop_chain s l w).arena x).destructs = (w.arena x).destructs + 1 ∧
    ((drop_chain s l w).arena x).dropped = true := by
  induction l generalizing w with
  | nil => cases h
  | cons c next ih =>
    unfold drop_chain
    obtain ⟨hc, hn⟩ := List.nodup_cons.1 hnd
    by_cases hx : x = c
    · subst hx
      rw [drop_chain_arena_not_mem s next _ x hc, contact_drop_arena_dropped x s w hd]
      exact ⟨rfl, hd⟩
    · have hm : x ∈ next := by
        rcases List.mem_cons.1 h with e | e
        · exact absurd e hx
        · exact e
      have := ih (contact.drop c s w) hn hm (by rw [contact_drop_arena_ne c s w x hx]; exact hd)
      rw [contact_drop_arena_ne c s w x hx] at this
      exact this

/-- The number of entries that pass a test does not change when the test
changes only off the list. -/
theorem filter_length_congr (l : List Nat) (f g : Nat → Bool) (h : ∀ x ∈ l, f x = g x) :
    (l.filter f).length = (l.filter g).length := by
  rw [List.filter_congr h]

theorem filter_length_cons_pos (l : List Nat) (f : Nat → Bool) (x : Nat) (h : f x = true) :
    ((x :: l).filter f).length = (l.filter f).length + 1 := by
  simp [List.filter_cons, h]

theorem filter_length_cons_neg (l : List Nat) (f : Nat → Bool) (x : Nat) (h : f x = false) :
    ((x :: l).filter f).length = (l.filter f).length := by
  simp [List.filter_cons, h]

/-- Flagging one counted entry of a duplicate-free list lowers the count by one. -/
theorem filter_length_flip (l : List Nat) (f g : Nat → Bool) (t : Nat) (hnd : l.Nodup)
    (ht : t ∈ l) (hf : f t = true) (hg : g t = false) (hsame : ∀ x ∈ l, x ≠ t → f x = g x) :
    (l.filter g).length + 1 = (l.filter f).length := by
  induction l with
  | nil => cases ht
  | cons c l ih =>
    obtain ⟨hc, hn⟩ := List.nodup_cons.1 hnd
    by_cases hx : c = t
    · subst hx
      rw [filter_length_cons_pos _ _ _ hf, filter_length_cons_neg _ _ _ hg,
        filter_length_congr l f g (fun x hx => hsame x (List.mem_cons_of_mem _ hx)
          (fun e => hc (e ▸ hx)))]
    · have hm : t ∈ l := by
        rcases List.mem_cons.1 ht with e | e
        · exact absurd e.symm hx
        · exact e
      have ih1 := ih hn hm (fun x hx1 hx2 => hsame x (List.mem_cons_of_mem _ hx1) hx2)
      have hcc := hsame c (List.mem_cons_self _ _) hx
      cases hfc : f c
      · rw [filter_length_cons_neg _ _ _ hfc, filter_length_cons_neg _ _ _ (hcc ▸ hfc)]
        exact ih1
      · rw [filter_length_cons_pos _ _ _ hfc, filter_length_cons_pos _ _ _ (hcc ▸ hfc)]
        omega

/-- With a response handler that always answers `progress`, `try_send` answers
`dead` (flagged entry), `progress` (live entry) or throws. -/
theorem try_send_progress_only {σ ρ : Type} (send : World → Nat → σ → σ × Option ρ)
    (h : ρ → σ → σ × Option iteration_state) (hh : ∀ r s, (h r s).2 = some .progress)
    (c : Nat) (w : World) (a : σ) :
    (sender.try_send send h c w a).2 ≠ some .repeat_ ∧
    (sender.try_send send h c w a).2 ≠ some .finish ∧
    ((sender.try_send send h c w a).2 = some .progress → contact.isDropped c w = false) := by
  unfold sender.try_send
  cases hd : contact.isDropped c w
  · simp only [Bool.false_eq_true, if_false, implies_true, and_true]
    unfold sender.do_send
    generalize send w c a = r
    obtain ⟨a1, o⟩ := r
    cases o with
    | none => simp
    | some r1 => simp [hh r1 a1]
  · simp

/-- A dispatch whose response handler always answers `progress` and that
returns without an exception has unlinked every entry that was flagged
dropped when it started. -/
theorem walk_progress_unlinks_flagged {σ ρ : Type} (send : World → Nat → σ → σ × Option ρ)
    (h : ρ → σ → σ × Option iteration_state) (hh : ∀ r s, (h r s).2 = some .progress)
    (m : Nat) (tok : Nat) (fuel : Nat) (visited chain : List Nat) (a : σ) (tr : List Nat)
    (w : World) (out : Outcome σ) (hl : (w.messages m).Senders = visited ++ chain)
    (hv : tok ∉ visited) (hd : (w.arena tok).dropped = true)
    (hr : message.response.walk send h m fuel visited chain a tr w = some out) :
    out.threw = false → tok ∉ (out.world.messages m).Senders := by
  refine walk_rec send h m
    (fun visited chain _ _ w1 => (w1.messages m).Senders = visited ++ chain ∧
      tok ∉ visited ∧ (w1.arena tok).dropped = true)
    (fun out => out.threw = false → tok ∉ (out.world.messages m).Senders)
    ?_ ?_ ?_ ?_ ?_ ?_ fuel visited chain a tr w out ⟨hl, hv, hd⟩ hr
  · intro visited a tr w1 ⟨h1, h2, _⟩ _
    rw [h1]; simpa using h2
  · intro visited c next a tr w1 a1 _ _ hth
    cases hth
  · intro visited c next a tr w1 a1 ⟨h1, h2, h3⟩ _
    exact ⟨by simp, h2, contact_drop_dropped_mono c _ _ tok (by simpa using h3)⟩
  · intro visited c next a tr w1 a1 ⟨h1, h2, h3⟩ hts
    have hlive := (try_send_progress_only send h hh c w1 a).2.2 (by rw [hts])
    refine ⟨by rw [h1]; simp, ?_, h3⟩
    intro hmem
    rcases List.mem_append.1 hmem with e | e
    · exact h2 e
    · simp only [List.mem_singleton] at e
      subst e
      unfold contact.isDropped at hlive
      rw [h3] at hlive
      cases hlive
  · intro visited c next a tr w1 a1 _ hts
    exact absurd (by rw [hts]) (try_send_progress_only send h hh c w1 a).1
  · intro visited c next a tr w1 a1 _ hts
    exact absurd (by rw [hts]) (try_send_progress_only send h hh c w1 a).2.1

/-- In a heap that satisfies the invariant, a created node that is in no list
has been destructed exactly once. -/
theorem inv_unlinked_destructed {w : World} (hI : Inv w) (c : Nat) (hc : c < w.next)
    (hm : ∀ i, c ∉ (w.messages i).Senders) (hp : ∀ i, c ∉ (w.pigeons i).contacts) :
    (w.arena c).destructs = 1 :=
  hI.destructs_one c hc (hm _) (hp _)

/-- In a heap that satisfies the invariant, an entry of a sender list is in no
other sender list. -/
theorem inv_sender_unique {w : World} (hI : Inv w) {c m i : Nat}
    (hm : c ∈ (w.messages m).Senders) (hi : c ∈ (w.messages i).Senders) : i = m :=
  (hI.sender_owner i c hi).1.symm.trans (hI.sender_owner m c hm).1

theorem inv_contact_unique {w : World} (hI : Inv w) {c p i : Nat}
    (hp : c ∈ (w.pigeons p).contacts) (hi : c ∈ (w.pigeons i).contacts) : i = p :=
  (hI.contact_owner i c hi).1.symm.trans (hI.contact_owner p c hp).1

/-- A contact that was linked on both sides is destructed exactly once as soon
as later calls have unlinked it from its message's and its pigeon's list. -/
theorem destructed_once_unlinked {w w2 : World} (hr : Reachable w) (hs : Steps w w2)
    {tok m p : Nat} (hm : tok ∈ (w.messages m).Senders) (hp : tok ∈ (w.pigeons p).contacts)
    (h1 : tok ∉ (w2.messages m).Senders) (h2 : tok ∉ (w2.pigeons p).contacts) :
    (w2.arena tok).destructs = 1 := by
  obtain ⟨hI, hQ⟩ := reachable_inv hr
  obtain ⟨hI2, _⟩ := steps_inv hs hI hQ
  obtain ⟨hn, hmS, hmC⟩ := steps_mono hs
  have hlt : tok < w.next := (hI.sender_owner m tok hm).2
  refine inv_unlinked_destructed hI2 tok (lt_of_lt_of_le hlt hn) ?_ ?_
  · intro i hi
    have := inv_sender_unique hI hm (hmS tok i hlt hi)
    subst this
    exact h1 hi
  · intro i hi
    have := inv_contact_unique hI hp (hmC tok i hlt hi)
    subst this
    exact h2 hi

/-- In a reachable heap a contact that is in a sender list and in a contact
list is not flagged dropped and not destructed. -/
theorem linked_both_live {w : World} (hI : Inv w) {tok m p : Nat}
    (hm : tok ∈ (w.messages m).Senders) (hp : tok ∈ (w.pigeons p).contacts) :
    (w.arena tok).dropped = false ∧ (w.arena tok).destructs = 0 := by
  have hM : w.inMessage tok := by
    unfold World.inMessage; rw [(hI.sender_owner m tok hm).1]; exact hm
  have hP : w.inPigeon tok := by
    unfold World.inPigeon; rw [(hI.contact_owner p tok hp).1]; exact hp
  refine ⟨?_, hI.destructs_zero tok (Or.inr (Or.inl hM))⟩
  cases hd : (w.arena tok).dropped
  · rfl
  · exact absurd ⟨hM, hP⟩ ((hI.dropped_iff tok).1 hd).2

/-- What `pigeon::drop` does to a live contact of the pigeon's list. -/
theorem pigeon_drop_live {w : World} (hI : Inv w) {tok m p : Nat}
    (hm : tok ∈ (w.messages m).Senders) (hp : tok ∈ (w.pigeons p).contacts) :
    (pigeon.drop p tok w).1 = true ∧
    (pigeon.drop p tok w).2.messages = w.messages ∧
    (pigeon.drop p tok w).2.next = w.next ∧
    (pigeon.drop p tok w).2.arena tok = { w.arena tok with dropped := true } ∧
    (∀ x, x ≠ tok → (pigeon.drop p tok w).2.arena x = w.arena x) ∧
    tok ∉ ((pigeon.drop p tok w).2.pigeons p).contacts := by
  rcases pigeon_drop_cases p tok w with ⟨_, he⟩ | ⟨hn, _⟩
  · rw [he]
    refine ⟨rfl, by simp, by simp, ?_, ?_, ?_⟩
    · rw [contact_drop_arena_live tok _ _ (by simpa using (linked_both_live hI hm hp).1)]; rfl
    · intro x hx
      rw [contact_drop_arena_ne tok _ _ x hx]; rfl
    · simp only [contact_drop_pigeons, World.setContacts_contacts, if_true]
      exact fun h => ((mem_erase_nodup (hI.contacts_nodup p) tok tok).1 h).2 rfl
  · exact absurd hp hn

/-- After `pigeon::drop` of a live contact the message counts one entry less
although the entry is still in its list. -/
theorem pigeon_drop_live_size {w : World} (hI : Inv w) {tok m p : Nat}
    (hm : tok ∈ (w.messages m).Senders) (hp : tok ∈ (w.pigeons p).contacts) :
    message.size m (pigeon.drop p tok w).2 + 1 = message.size m w ∧
    ∀ i, i ≠ m → message.size i (pigeon.drop p tok w).2 = message.size i w := by
  obtain ⟨_, hmsg, _, hat, hao, _⟩ := pigeon_drop_live hI hm hp
  have hlive := (linked_both_live hI hm hp).1
  constructor
  · unfold message.size
    rw [hmsg]
    refine filter_length_flip _ _ _ tok (hI.senders_nodup m) hm ?_ ?_ ?_
    · simp [contact.isDropped, hlive]
    · simp [contact.isDropped, hat]
    · intro x _ hx
      simp [contact.isDropped, hao x hx]
  · intro i hi
    unfold message.size
    rw [hmsg]
    apply filter_length_congr
    intro x hx
    have hne : x ≠ tok := fun e => hi (inv_sender_unique hI hm (e ▸ hx))
    simp [contact.isDropped, hao x hne]

theorem filter_length_split (l : List Nat) (f g q : Nat → Bool)
    (h1 : ∀ x ∈ l, q x = true → f x = true ∧ g x = false)
    (h2 : ∀ x ∈ l, q x = false → g x = f x) :
    (l.filter g).length + (l.filter q).length = (l.filter f).length := by
  induction l with
  | nil => rfl
  | cons c l ih =>
    have ih1 := ih (fun x hx => h1 x (List.mem_cons_of_mem _ hx))
      (fun x hx => h2 x (List.mem_cons_of_mem _ hx))
    cases hq : q c
    · have hgf := h2 c (List.mem_cons_self _ _) hq
      rw [filter_length_cons_neg _ _ _ hq]
      cases hf : f c
      · rw [filter_length_cons_neg _ _ _ hf, filter_length_cons_neg _ _ _ (hgf.trans hf)]
        exact ih1
      · rw [filter_length_cons_pos _ _ _ hf, filter_length_cons_pos _ _ _ (hgf.trans hf)]
        omega
    · obtain ⟨hf, hg⟩ := h1 c (List.mem_cons_self _ _) hq
      rw [filter_length_cons_pos _ _ _ hq, filter_length_cons_pos _ _ _ hf,
        filter_length_cons_neg _ _ _ hg]
      omega

theorem filter_length_erase (l : List Nat) (f : Nat → Bool) (t : Nat) (ht : t ∈ l) :
    ((l.erase t).filter f).length + (if f t = true then 1 else 0) = (l.filter f).length := by
  have hperm := ((List.perm_cons_erase ht).filter f).length_eq
  rw [hperm]
  cases hf : f t
  · rw [filter_length_cons_neg _ _ _ hf]; simp
  · rw [filter_length_cons_pos _ _ _ hf]; simp

/-- The lists of the messages and the nodes other than the token's are the
same after `pigeon::drop`, whatever it returns. -/
theorem pigeon_drop_frame (p tok : Nat) (w : World) :
    (pigeon.drop p tok w).2.messages = w.messages ∧
    ∀ x, x ≠ tok → (pigeon.drop p tok w).2.arena x = w.arena x := by
  rcases pigeon_drop_cases p tok w with ⟨_, he⟩ | ⟨_, he⟩
  · rw [he]
    refine ⟨by simp, fun x hx => ?_⟩
    rw [contact_drop_arena_ne tok _ _ x hx]; rfl
  · rw [he]; exact ⟨rfl, fun _ _ => rfl⟩

/-- The effect of `pigeon::drop` on the size of any message. -/
theorem pigeon_drop_message_size {w : World} (hI : Inv w) (p m tok : Nat)
    (hf : (pigeon.drop p tok w).1 = true) :
    message.size m (pigeon.drop p tok w).2 + (if tok ∈ (w.messages m).Senders then 1 else 0) =
      message.size m w := by
  have hp : tok ∈ (w.pigeons p).contacts := by
    rcases pigeon_drop_cases p tok w with ⟨h, _⟩ | ⟨_, he⟩
    · exact h
    · rw [he] at hf; cases hf
  by_cases hm : tok ∈ (w.messages m).Senders
  · rw [if_pos hm]; exact (pigeon_drop_live_size hI hm hp).1
  · rw [if_neg hm, Nat.add_zero]
    obtain ⟨hmsg, hao⟩ := pigeon_drop_frame p tok w
    unfold message.size
    rw [hmsg]
    apply filter_length_congr
    intro x hx
    have hne : x ≠ tok := fun e => hm (e ▸ hx)
    simp [contact.isDropped, hao x hne]

/-- The effect of `pigeon::clear` on the size of any message. -/
theorem pigeon_clear_message_size {w : World} (hI : Inv w) (p m : Nat) :
    message.size m (pigeon.clear p w) +
      ((w.messages m).Senders.filter (fun c => decide (c ∈ (w.pigeons p).contacts))).length =
      message.size m w := by
  unfold message.size pigeon.clear
  simp only [drop_chain_messages, World.setContacts_messages]
  apply filter_length_split
  · intro x hx hq
    have hq1 : x ∈ (w.pigeons p).contacts := by simpa using hq
    have hl := (linked_both_live hI hx hq1).1
    constructor
    · simp [contact.isDropped, hl]
    · simp [contact.isDropped, drop_chain_dropped .pigeon _ _ x (Or.inl hq1)]
  · intro x hx hq
    have hq1 : x ∉ (w.pigeons p).contacts := by simpa using hq
    simp [contact.isDropped, drop_chain_arena_not_mem .pigeon _ _ x hq1]

/-- The effect of a successful `message::drop` on the sizes of both sides. -/
theorem message_drop_sizes {w w1 : World} (hI : Inv w) (p m tok : Nat)
    (h : message.drop m tok w = .ok (true, w1)) :
    message.size m w1 + (if (w.arena tok).dropped = true then 0 else 1) = message.size m w ∧
    (∀ i, i ≠ m → message.size i w1 = message.size i w) ∧
    ((w.pigeons p).contacts_flag = false →
      ∃ n, pigeon.size p w1 = .ok n ∧
        pigeon.size p w = .ok (n + if tok ∈ (w.pigeons p).contacts then 1 else 0)) := by
  obtain ⟨hs, hc⟩ := message_drop_ok h
  rcases hc with ⟨_, hm, rfl⟩ | ⟨hf, _, _⟩
  swap
  · cases hf
  have hao : ∀ x, x ≠ tok →
      (contact.drop tok .message (w.setSenders m ((w.messages m).Senders.erase tok))).arena x =
        w.arena x := by
    intro x hx
    rw [contact_drop_arena_ne tok _ _ x hx]; rfl
  refine ⟨?_, ?_, ?_⟩
  · unfold message.size
    simp only [contact_drop_messages, World.setSenders_Senders, if_true]
    rw [← filter_length_erase _ (fun c => !contact.isDropped c w) tok hm]
    congr 1
    · apply filter_length_congr
      intro x hx
      have hne : x ≠ tok := ((mem_erase_nodup (hI.senders_nodup m) tok x).1 hx).2
      simp [contact.isDropped, hao x hne]
    · cases hd : (w.arena tok).dropped <;> simp [contact.isDropped, hd]
  · intro i hi
    unfold message.size
    simp only [contact_drop_messages, World.setSenders_Senders, if_neg hi]
    apply filter_length_congr
    intro x hx
    have hne : x ≠ tok := fun e => hi (inv_sender_unique hI hm (e ▸ hx))
    simp [contact.isDropped, hao x hne]
  · intro hflag
    unfold pigeon.size pigeon.ensureNotDestructing
    simp only [contact_drop_pigeons, World.setSenders_pigeons, hflag, Bool.false_eq_true,
      if_false]
    refine ⟨_, rfl, ?_⟩
    congr 1
    by_cases hp : tok ∈ (w.pigeons p).contacts
    · rw [if_pos hp]
      refine (filter_length_flip _ _ _ tok (hI.contacts_nodup p) hp ?_ ?_ ?_).symm
      · simp [contact.isDropped, (linked_both_live hI hm hp).1]
      · simp [contact.isDropped, contact_drop_dropped_self]
      · intro x _ hx
        simp [contact.isDropped, hao x hx]
    · rw [if_neg hp, Nat.add_zero]
      apply filter_length_congr
      intro x hx
      have hne : x ≠ tok := fun e => hp (e ▸ hx)
      simp [contact.isDropped, hao x hne]

theorem demo_three_reachable : Reachable Demo.three :=
  have h1 : Reachable (Demo.one.after_deliver 1 0) :=
    demo_one_reachable.tail (Step.deliver 1 0 1 rfl)
  h1.tail (Step.deliver 0 0 2 rfl)

/-! ## The destructing flag -/

@[simp] theorem World.setDestructing_flag (w : World) (p : Nat) (i : Nat) :
    ((w.setDestructing p).pigeons i).contacts_flag =
      if i = p then true else (w.pigeons i).contacts_flag := by
  unfold World.setDestructing; by_cases h : i = p <;> simp [h]

/-- No call of the interface resets the destructing flag of a pigeon. -/
theorem step_destructing_mono {w w1 : World} (hs : Step w w1) (p : Nat)
    (hd : (w.pigeons p).contacts_flag = true) : (w1.pigeons p).contacts_flag = true := by
  cases hs with
  | deliver q m token h =>
    obtain ⟨_, _, _, _, _, _, _, _, hF⟩ := pigeon_deliver_ok h
    rw [hF]; exact hd
  | message_drop m token h =>
    rcases (message_drop_ok h).2 with ⟨_, _, rfl⟩ | ⟨_, _, rfl⟩
    · simpa using hd
    · exact hd
  | pigeon_drop q token =>
    rcases pigeon_drop_cases q token w with ⟨_, he⟩ | ⟨_, he⟩
    · rw [he]; simpa using hd
    · rw [he]; exact hd
  | message_clear m h =>
    rw [(message_clear_ok h).2]; simpa using hd
  | pigeon_clear q =>
    unfold pigeon.clear; simpa using hd
  | response fuel send h m a hr =>
    cases hsd : message.isSending m w
    · obtain ⟨out1, h1, rfl⟩ := response_ok hsd hr
      obtain ⟨_, _, hf3, _⟩ := walk_frame send h m fuel [] _ a [] _ out1 h1
      simpa [hf3] using hd
    · unfold message.response at hr
      simp only [hsd, if_true, Option.some.injEq] at hr
      subst hr
      exact hd
  | message_destructor m h =>
    rw [(message_clear_ok h).2]; simpa using hd
  | pigeon_destructor q =>
    unfold pigeon.destructor pigeon.clear pigeon.setDestructing
    simp only [drop_chain_pigeons, World.setContacts_flag, World.setDestructing_flag]
    split
    · rfl
    · exact hd

theorem steps_destructing_mono {w w1 : World} (hs : Steps w w1) (p : Nat)
    (hd : (w.pigeons p).contacts_flag = true) : (w1.pigeons p).contacts_flag = true := by
  induction hs with
  | refl => exact hd
  | tail _ h ih => exact step_destructing_mono h p ih

/-- The destructor of a pigeon leaves its flag set and its list empty. -/
theorem pigeon_destructor_flag_list (p : Nat) (w : World) :
    ((pigeon.destructor p w).pigeons p).contacts_flag = true ∧
    ((pigeon.destructor p w).pigeons p).contacts = [] := by
  unfold pigeon.destructor pigeon.clear pigeon.setDestructing
  simp

/-! ## Callbacks and allocators -/

theorem frame_refl (D : Nat → Prop) (h : callback.Heap) : callback.Frame D h h :=
  ⟨rfl, fun _ _ => rfl, fun _ => rfl, fun _ => List.Sublist.refl _, fun _ _ _ hx => hx,
    fun _ => rfl, fun _ => List.Sublist.refl _, fun _ _ _ hx => hx, rfl, rfl, rfl, rfl,
    fun _ _ => rfl, fun _ _ => rfl⟩

theorem frame_trans {D : Nat → Prop} {h h1 h2 : callback.Heap} (a : callback.Frame D h h1)
    (b : callback.Frame D h1 h2) : callback.Frame D h h2 where
  next := b.next.trans a.next
  arena := fun x hx => (b.arena x hx).trans (a.arena x hx)
  Senders_flag := fun i => (b.Senders_flag i).trans (a.Senders_flag i)
  Senders_sub := fun i => (b.Senders_sub i).trans (a.Senders_sub i)
  Senders_mem := fun i x hx hm => b.Senders_mem i x hx (a.Senders_mem i x hx hm)
  contacts_flag := fun i => (b.contacts_flag i).trans (a.contacts_flag i)
  contacts_sub := fun i => (b.contacts_sub i).trans (a.contacts_sub i)
  contacts_mem := fun i x hx hm => b.contacts_mem i x hx (a.contacts_mem i x hx hm)
  on_drop := b.on_drop.trans a.on_drop
  Alloc := b.Alloc.trans a.Alloc
  node_size := b.node_size.trans a.node_size
  allocate_calls := b.allocate_calls.trans a.allocate_calls
  deallocate_calls := fun x hx => (b.deallocate_calls x hx).trans (a.deallocate_calls x hx)
  on_drop_calls := fun x hx => (b.on_drop_calls x hx).trans (a.on_drop_calls x hx)

theorem frame_mono {D E : Nat → Prop} {h h1 : callback.Heap} (hDE : ∀ x, D x → E x)
    (a : callback.Frame D h h1) : callback.Frame E h h1 where
  next := a.next
  arena := fun x hx => a.arena x (fun hd => hx (hDE x hd))
  Senders_flag := a.Senders_flag
  Senders_sub := a.Senders_sub
  Senders_mem := fun i x hx => a.Senders_mem i x (fun hd => hx (hDE x hd))
  contacts_flag := a.contacts_flag
  contacts_sub := a.contacts_sub
  contacts_mem := fun i x hx => a.contacts_mem i x (fun hd => hx (hDE x hd))
  on_drop := a.on_drop
  Alloc := a.Alloc
  node_size := a.node_size
  allocate_calls := a.allocate_calls
  deallocate_calls := fun x hx => a.deallocate_calls x (fun hd => hx (hDE x hd))
  on_drop_calls := fun x hx => a.on_drop_calls x (fun hd => hx (hDE x hd))

theorem callback_drop_succ (fuel c : Nat) (s : who) (h : callback.Heap) :
    callback.contact.drop (fuel + 1) c s h =
      if contact.isDropped c h.world then some (.ok (), callback.contact.destruct c h)
      else
        callback.on_drop.call (callback.contact.drop fuel) (h.on_drop c) c s
          { h with
            world := h.world.setContact c { h.world.arena c with dropped := true }
            on_drop_calls := (c, s) :: h.on_drop_calls } := rfl

/-- A flagged node is destructed by `contact::drop` without any callback. -/
theorem callback_drop_flagged (fuel c : Nat) (s : who) (h : callback.Heap)
    (hd : (h.world.arena c).dropped = true) :
    callback.contact.drop (fuel + 1) c s h = some (.ok (), callback.contact.destruct c h) := by
  rw [callback_drop_succ]
  simp [contact.isDropped, hd]

theorem frame_destruct (c : Nat) (h : callback.Heap) :
    callback.Frame (fun x => x = c) h (callback.contact.destruct c h) := by
  unfold callback.contact.destruct
  cases h.Alloc c with
  | none =>
    exact ⟨rfl, fun x hx => by simp [contact.destruct, hx], fun _ => rfl,
      fun _ => List.Sublist.refl _, fun _ _ _ hm => hm, fun _ => rfl,
      fun _ => List.Sublist.refl _, fun _ _ _ hm => hm, rfl, rfl, rfl, rfl,
      fun _ _ => rfl, fun _ _ => rfl⟩
  | some a =>
    refine ⟨rfl, fun x hx => by simp [contact.destruct, hx], fun _ => rfl,
      fun _ => List.Sublist.refl _, fun _ _ _ hm => hm, fun _ => rfl,
      fun _ => List.Sublist.refl _, fun _ _ _ hm => hm, rfl, rfl, rfl, rfl,
      fun x hx => ?_, fun _ _ => rfl⟩
    have hne : ¬ c = x := fun e => hx e.symm
    simp [List.filter_cons, hne]

theorem frame_flag (c : Nat) (s : who) (h : callback.Heap) :
    callback.Frame (fun x => x = c) h
      { h with
        world := h.world.setContact c { h.world.arena c with dropped := true }
        on_drop_calls := (c, s) :: h.on_drop_calls } := by
  refine ⟨rfl, fun x hx => by simp [hx], fun _ => rfl,
    fun _ => List.Sublist.refl _, fun _ _ _ hm => hm, fun _ => rfl,
    fun _ => List.Sublist.refl _, fun _ _ _ hm => hm, rfl, rfl, rfl, rfl,
    fun _ _ => rfl, fun x hx => ?_⟩
  have hne : ¬ c = x := fun e => hx e.symm
  simp [List.filter_cons, hne]

theorem frame_setSenders (c m : Nat) (h : callback.Heap) :
    callback.Frame (fun x => x = c) h
      { h with world := h.world.setSenders m ((h.world.messages m).Senders.erase c) } := by
  refine ⟨rfl, fun _ _ => rfl, fun i => by simp, fun i => ?_, fun i x hx hm => ?_,
    fun _ => rfl, fun _ => List.Sublist.refl _, fun _ _ _ hm => hm, rfl, rfl, rfl, rfl,
    fun _ _ => rfl, fun _ _ => rfl⟩
  · simp only [World.setSenders_Senders]
    split
    · next hi => subst hi; exact List.erase_sublist _ _
    · exact List.Sublist.refl _
  · simp only [World.setSenders_Senders]
    split
    · next hi => subst hi; exact (List.mem_erase_of_ne hx).2 hm
    · exact hm

theorem frame_setContacts (c p : Nat) (h : callback.Heap) :
    callback.Frame (fun x => x = c) h
      { h with world := h.world.setContacts p ((h.world.pigeons p).contacts.erase c) } := by
  refine ⟨rfl, fun _ _ => rfl, fun _ => rfl, fun _ => List.Sublist.refl _,
    fun _ _ _ hm => hm, fun i => by simp, fun i => ?_, fun i x hx hm => ?_, rfl, rfl, rfl,
    rfl, fun _ _ => rfl, fun _ _ => rfl⟩
  · simp only [World.setContacts_contacts]
    split
    · next hi => subst hi; exact List.erase_sublist _ _
    · exact List.Sublist.refl _
  · simp only [World.setContacts_contacts]
    split
    · next hi => subst hi; exact (List.mem_erase_of_ne hx).2 hm
    · exact hm

/-- The body of `message::drop` touches only the token's node, when the
`contact::drop` it calls does. -/
theorem message_drop_body_frame (drop : Nat → who → callback.Heap → callback.Result Unit)
    (c : Nat)
    (hdrop : ∀ s h r h1, drop c s h = some (r, h1) → callback.Frame (fun x => x = c) h h1)
    (m : Nat) (h : callback.Heap) (r : Except logic_error Bool) (h1 : callback.Heap)
    (hr : callback.message.drop_body drop m c h = some (r, h1)) :
    callback.Frame (fun x => x = c) h h1 := by
  unfold callback.message.drop_body at hr
  split at hr
  · simp only [Option.some.injEq, Prod.mk.injEq] at hr
    rw [← hr.2]; exact frame_refl _ _
  · cases hu : unlink c (h.world.messages m).Senders with
    | none =>
      simp only [hu, Option.some.injEq, Prod.mk.injEq] at hr
      rw [← hr.2]; exact frame_refl _ _
    | some rest =>
      obtain ⟨_, rfl⟩ := unlink_eq_some hu
      simp only [hu] at hr
      cases hd : drop c .message
          { h with world := h.world.setSenders m ((h.world.messages m).Senders.erase c) } with
      | none => simp [hd] at hr
      | some v =>
        obtain ⟨r2, h2⟩ := v
        have hf := frame_trans (frame_setSenders c m h) (hdrop _ _ _ _ hd)
        cases r2 with
        | error e =>
          simp only [hd, Option.some.injEq, Prod.mk.injEq] at hr
          rw [← hr.2]; exact hf
        | ok u =>
          simp only [hd, Option.some.injEq, Prod.mk.injEq] at hr
          rw [← hr.2]; exact hf

theorem pigeon_drop_body_frame (drop : Nat → who → callback.Heap → callback.Result Unit)
    (c : Nat)
    (hdrop : ∀ s h r h1, drop c s h = some (r, h1) → callback.Frame (fun x => x = c) h h1)
    (p : Nat) (h : callback.Heap) (r : Except logic_error Bool) (h1 : callback.Heap)
    (hr : callback.pigeon.drop_body drop p c h = some (r, h1)) :
    callback.Frame (fun x => x = c) h h1 := by
  unfold callback.pigeon.drop_body at hr
  cases hu : unlink c (h.world.pigeons p).contacts with
  | none =>
    simp only [hu, Option.some.injEq, Prod.mk.injEq] at hr
    rw [← hr.2]; exact frame_refl _ _
  | some rest =>
    obtain ⟨_, rfl⟩ := unlink_eq_some hu
    simp only [hu] at hr
    cases hd : drop c .pigeon
        { h with world := h.world.setContacts p ((h.world.pigeons p).contacts.erase c) } with
    | none => simp [hd] at hr
    | some v =>
      obtain ⟨r2, h2⟩ := v
      have hf := frame_trans (frame_setContacts c p h) (hdrop _ _ _ _ hd)
      cases r2 with
      | error e =>
        simp only [hd, Option.some.injEq, Prod.mk.injEq] at hr
        rw [← hr.2]; exact hf
      | ok u =>
        simp only [hd, Option.some.injEq, Prod.mk.injEq] at hr
        rw [← hr.2]; exact hf

theorem discard_some {α : Type} {x : callback.Result α} {r : Except logic_error Unit}
    {h1 : callback.Heap} (h : callback.discard x = some (r, h1)) :
    ∃ r0, x = some (r0, h1) := by
  unfold callback.discard at h
  split at h
  · cases h
  · simp only [Option.some.injEq, Prod.mk.injEq] at h
    rw [← h.2]; exact ⟨_, rfl⟩
  · simp only [Option.some.injEq, Prod.mk.injEq] at h
    rw [← h.2]; exact ⟨_, rfl⟩

theorem on_drop_call_frame (drop : Nat → who → callback.Heap → callback.Result Unit)
    (c : Nat)
    (hdrop : ∀ s h r h1, drop c s h = some (r, h1) → callback.Frame (fun x => x = c) h h1)
    (f : callback.on_drop) (s : who) (h : callback.Heap) (r : Except logic_error Unit)
    (h1 : callback.Heap) (hr : callback.on_drop.call drop f c s h = some (r, h1)) :
    callback.Frame (fun x => x = c) h h1 := by
  have hM := message_drop_body_frame drop c hdrop
  have hP := pigeon_drop_body_frame drop c hdrop
  have hrefl : ∀ {r : Except logic_error Unit} {h1 : callback.Heap},
      (some (Except.ok (), h) : callback.Result Unit) = some (r, h1) →
      callback.Frame (fun x => x = c) h h1 := by
    intro r h1 e
    simp only [Option.some.injEq, Prod.mk.injEq] at e
    rw [← e.2]; exact frame_refl _ _
  cases f with
  | noop => exact hrefl hr
  | onDrop_handler M =>
    cases s with
    | pigeon =>
      obtain ⟨r0, h0⟩ := discard_some hr
      exact hM _ _ _ _ h0
    | message => exact hrefl hr
  | drop_message M =>
    obtain ⟨r0, h0⟩ := discard_some hr
    exact hM _ _ _ _ h0
  | drop_pigeon P =>
    obtain ⟨r0, h0⟩ := discard_some hr
    exact hP _ _ _ _ h0
  | drop_other P M =>
    cases s with
    | pigeon =>
      obtain ⟨r0, h0⟩ := discard_some hr
      exact hM _ _ _ _ h0
    | message =>
      obtain ⟨r0, h0⟩ := discard_some hr
      exact hP _ _ _ _ h0

/-- Whatever the callbacks, `contact::drop` of a node touches only that node:
no other node, no flag, and the lists only lose this node. -/
theorem callback_drop_frame (fuel c : Nat) :
    ∀ (s : who) (h : callback.Heap) (r : Except logic_error Unit) (h1 : callback.Heap),
      callback.contact.drop fuel c s h = some (r, h1) →
      callback.Frame (fun x => x = c) h h1 := by
  induction fuel with
  | zero => intro s h r h1 hr; cases hr
  | succ fuel ih =>
    intro s h r h1 hr
    rw [callback_drop_succ] at hr
    split at hr
    · simp only [Option.some.injEq, Prod.mk.injEq] at hr
      rw [← hr.2]; exact frame_destruct c h
    · exact frame_trans (frame_flag c s h) (on_drop_call_frame _ c ih _ _ _ _ _ hr)

/-- The clear loop touches only the nodes of its chain. -/
theorem callback_drop_chain_frame (fuel : Nat) (s : who) :
    ∀ (l : List Nat) (h : callback.Heap) (r : Except logic_error Unit) (h1 : callback.Heap),
      callback.drop_chain fuel s l h = some (r, h1) →
      callback.Frame (fun x => x ∈ l) h h1 := by
  intro l
  induction l with
  | nil =>
    intro h r h1 hr
    simp only [callback.drop_chain, Option.some.injEq, Prod.mk.injEq] at hr
    rw [← hr.2]; exact frame_refl _ _
  | cons c next ih =>
    intro h r h1 hr
    unfold callback.drop_chain at hr
    cases hd : callback.contact.drop fuel c s h with
    | none => simp [hd] at hr
    | some v =>
      obtain ⟨r2, h2⟩ := v
      have hf : callback.Frame (fun x => x ∈ c :: next) h h2 :=
        frame_mono (fun x hx => by simp [hx]) (callback_drop_frame fuel c s h r2 h2 hd)
      cases r2 with
      | error e =>
        simp only [hd, Option.some.injEq, Prod.mk.injEq] at hr
        rw [← hr.2]; exact hf
      | ok u =>
        simp only [hd] at hr
        exact frame_trans hf (frame_mono (fun x hx => List.mem_cons_of_mem _ hx)
          (ih h2 r h1 hr))

/-- The drop of a live node whose callback is `onDrop_handler<M>{m}`, issued by
the pigeon side while `m` is not dispatching: the flag is set, the callback
calls `m.drop(token)`, which unlinks the node and drops it again, and this
second drop destructs it. -/
theorem callback_drop_forwarded (fuel c m : Nat) (h : callback.Heap)
    (hcb : h.on_drop c = .onDrop_handler m)
    (hlive : (h.world.arena c).dropped = false)
    (hs : message.isSending m h.world = false)
    (hm : c ∈ (h.world.messages m).Senders) :
    callback.contact.drop (fuel + 2) c .pigeon h =
      some (.ok (), callback.contact.destruct c
        { h with
          world := (h.world.setContact c { h.world.arena c with dropped := true }).setSenders m
            ((h.world.messages m).Senders.erase c)
          on_drop_calls := (c, .pigeon) :: h.on_drop_calls }) := by
  have hs1 : message.isSending m
      (h.world.setContact c { h.world.arena c with dropped := true }) = false := hs
  rw [callback_drop_succ]
  simp only [contact.isDropped, hlive, Bool.false_eq_true, if_false, hcb]
  unfold callback.on_drop.call callback.message.drop_body
  simp only [hs1, Bool.false_eq_true, if_false, World.setContact_messages, unlink_of_mem hm]
  rw [callback_drop_flagged fuel c .message _ (by simp)]
  rfl

/-- The heap after a forwarded drop, field by field. -/
theorem callback_drop_forwarded_spec (fuel c m a : Nat) (h : callback.Heap)
    (hcb : h.on_drop c = .onDrop_handler m) (hal : h.Alloc c = some a)
    (hlive : (h.world.arena c).dropped = false)
    (hs : message.isSending m h.world = false)
    (hm : c ∈ (h.world.messages m).Senders) :
    ∃ h1, callback.contact.drop (fuel + 2) c .pigeon h = some (.ok (), h1) ∧
      (h1.world.messages m).Senders = (h.world.messages m).Senders.erase c ∧
      h1.world.pigeons = h.world.pigeons ∧
      (h1.world.arena c).dropped = true ∧
      (h1.world.arena c).destructs = (h.world.arena c).destructs + 1 ∧
      h1.deallocate_calls = ⟨a, c, h.node_size c⟩ :: h.deallocate_calls ∧
      h1.on_drop_calls = (c, .pigeon) :: h.on_drop_calls := by
  refine ⟨_, callback_drop_forwarded fuel c m h hcb hlive hs hm, ?_⟩
  refine ⟨?_, ?_, ?_, ?_, ?_, ?_⟩ <;>
    simp [callback.contact.destruct, contact.destruct, hal]

theorem filter_storage_cons (a c size : Nat) (l : List callback.alloc_call) :
    (((⟨a, c, size⟩ : callback.alloc_call) :: l).filter (fun r => decide (r.storage = c))) =
      ⟨a, c, size⟩ :: l.filter (fun r => decide (r.storage = c)) := by
  simp [List.filter_cons]

theorem filter_token_cons (c : Nat) (s : who) (l : List (contact_token × who)) :
    (((c, s) :: l).filter (fun r => decide (r.1 = c))) =
      (c, s) :: l.filter (fun r => decide (r.1 = c)) := by
  simp [List.filter_cons]

/-- The clear loop of a pigeon forwards the drop of every live node of its
chain whose callback is `onDrop_handler`, when the loop runs to its end. -/
theorem callback_drop_chain_forwards (fuel c m a : Nat) :
    ∀ (l : List Nat) (h h1 : callback.Heap),
      callback.drop_chain (fuel + 2) .pigeon l h = some (.ok (), h1) →
      c ∈ l → l.Nodup →
      h.on_drop c = .onDrop_handler m → h.Alloc c = some a →
      (h.world.arena c).dropped = false →
      message.isSending m h.world = false →
      c ∈ (h.world.messages m).Senders → (h.world.messages m).Senders.Nodup →
      c ∉ (h1.world.messages m).Senders ∧
      (h1.world.arena c).destructs = (h.world.arena c).destructs + 1 ∧
      h1.deallocate_calls.filter (fun r => decide (r.storage = c)) =
        ⟨a, c, h.node_size c⟩ :: h.deallocate_calls.filter (fun r => decide (r.storage = c)) ∧
      h1.on_drop_calls.filter (fun r => decide (r.1 = c)) =
        (c, .pigeon) :: h.on_drop_calls.filter (fun r => decide (r.1 = c)) := by
  intro l
  induction l with
  | nil => intro h h1 _ hc; cases hc
  | cons d rest ih =>
    intro h h1 hr hc hnd hcb hal hlive hs hm hndm
    obtain ⟨hdr, hndr⟩ := List.nodup_cons.1 hnd
    unfold callback.drop_chain at hr
    cases hd : callback.contact.drop (fuel + 2) d .pigeon h with
    | none => simp [hd] at hr
    | some v =>
      obtain ⟨r2, h2⟩ := v
      cases r2 with
      | error e => simp [hd] at hr
      | ok u =>
        simp only [hd] at hr
        by_cases hdc : d = c
        · subst hdc
          obtain ⟨h3, he, hS, _, _, hD, hA, hO⟩ :=
            callback_drop_forwarded_spec fuel d m a h hcb hal hlive hs hm
          rw [he] at hd
          simp only [Option.some.injEq, Prod.mk.injEq, true_and] at hd
          subst hd
          have hf := callback_drop_chain_frame (fuel + 2) .pigeon rest h3 _ h1 hr
          refine ⟨fun hx => ?_, ?_, ?_, ?_⟩
          · have hx2 := (hf.Senders_sub m).subset hx
            rw [hS] at hx2
            exact ((mem_erase_nodup hndm d d).1 hx2).2 rfl
          · rw [hf.arena d hdr, hD]
          · rw [hf.deallocate_calls d hdr, hA, filter_storage_cons]
          · rw [hf.on_drop_calls d hdr, hO, filter_token_cons]
        · have hne : ¬ c = d := fun e => hdc e.symm
          have hf := callback_drop_frame (fuel + 2) d .pigeon h _ h2 hd
          have hc2 : c ∈ rest := by
            rcases List.mem_cons.1 hc with e | e
            · exact absurd e hne
            · exact e
          have key := ih h2 h1 hr hc2 hndr (by rw [hf.on_drop]; exact hcb)
            (by rw [hf.Alloc]; exact hal) (by rw [hf.arena c hne]; exact hlive)
            (by unfold message.isSending; rw [hf.Senders_flag]; exact hs)
            (hf.Senders_mem m c hne hm) ((hf.Senders_sub m).nodup hndm)
          rw [hf.arena c hne, hf.deallocate_calls c hne, hf.on_drop_calls c hne,
            hf.node_size] at key
          exact key

/-- A flagged token: the body of `message::drop` returns or throws. -/
theorem message_drop_body_returns (fuel m c : Nat) (h : callback.Heap)
    (hd : (h.world.arena c).dropped = true) :
    ∃ r h1, callback.message.drop_body (callback.contact.drop (fuel + 1)) m c h = some (r, h1) ∧
      (message.isSending m h.world = false → ∃ b, r = .ok b) := by
  unfold callback.message.drop_body
  cases hs : message.isSending m h.world
  · simp only [Bool.false_eq_true, if_false]
    cases hu : unlink c (h.world.messages m).Senders with
    | none => exact ⟨_, _, rfl, fun _ => ⟨_, rfl⟩⟩
    | some rest =>
      simp only []
      rw [callback_drop_flagged fuel c .message _ (by simpa using hd)]
      exact ⟨_, _, rfl, fun _ => ⟨_, rfl⟩⟩
  · simp only [if_true]
    exact ⟨_, _, rfl, fun e => by cases e⟩

theorem pigeon_drop_body_returns (fuel p c : Nat) (h : callback.Heap)
    (hd : (h.world.arena c).dropped = true) :
    ∃ b h1, callback.pigeon.drop_body (callback.contact.drop (fuel + 1)) p c h =
      some (.ok b, h1) := by
  unfold callback.pigeon.drop_body
  cases hu : unlink c (h.world.pigeons p).contacts with
  | none => exact ⟨_, _, rfl⟩
  | some rest =>
    simp only []
    rw [callback_drop_flagged fuel c .pigeon _ (by simpa using hd)]
    exact ⟨_, _, rfl⟩

/-- With fuel for two levels `contact::drop` returns or throws, whatever the
callback, and it does not throw when no message is dispatching. -/
theorem callback_drop_returns (fuel c : Nat) (s : who) (h : callback.Heap) :
    ∃ r h1, callback.contact.drop (fuel + 2) c s h = some (r, h1) ∧
      ((∀ i, message.isSending i h.world = false) → r = .ok ()) := by
  rw [callback_drop_succ]
  cases hdr : contact.isDropped c h.world
  swap
  · exact ⟨_, _, rfl, fun _ => rfl⟩
  simp only [Bool.false_eq_true, if_false]
  have hM : ∀ m, ∃ r h1, callback.discard (callback.message.drop_body
      (callback.contact.drop (fuel + 1)) m c
      { h with
        world := h.world.setContact c { h.world.arena c with dropped := true }
        on_drop_calls := (c, s) :: h.on_drop_calls }) = some (r, h1) ∧
      ((∀ i, message.isSending i h.world = false) → r = .ok ()) := by
    intro m
    obtain ⟨r, h1, he, hq⟩ := message_drop_body_returns fuel m c
      { h with
        world := h.world.setContact c { h.world.arena c with dropped := true }
        on_drop_calls := (c, s) :: h.on_drop_calls } (by simp)
    rw [he]
    cases r with
    | error e =>
      refine ⟨_, _, rfl, fun hq2 => ?_⟩
      obtain ⟨b, hb⟩ := hq (hq2 m)
      cases hb
    | ok b => exact ⟨_, _, rfl, fun _ => rfl⟩
  have hP : ∀ p, ∃ r h1, callback.discard (callback.pigeon.drop_body
      (callback.contact.drop (fuel + 1)) p c
      { h with
        world := h.world.setContact c { h.world.arena c with dropped := true }
        on_drop_calls := (c, s) :: h.on_drop_calls }) = some (r, h1) ∧
      ((∀ i, message.isSending i h.world = false) → r = .ok ()) := by
    intro p
    obtain ⟨b, h1, he⟩ := pigeon_drop_body_returns fuel p c
      { h with
        world := h.world.setContact c { h.world.arena c with dropped := true }
        on_drop_calls := (c, s) :: h.on_drop_calls } (by simp)
    rw [he]
    exact ⟨_, _, rfl, fun _ => rfl⟩
  unfold callback.on_drop.call
  cases h.on_drop c with
  | noop => exact ⟨_, _, rfl, fun _ => rfl⟩
  | onDrop_handler M =>
    cases s with
    | pigeon => exact hM M
    | message => exact ⟨_, _, rfl, fun _ => rfl⟩
  | drop_message M => exact hM M
  | drop_pigeon P => exact hP P
  | drop_other P M =>
    cases s with
    | pigeon => exact hM M
    | message => exact hP P

/-- With fuel for two levels the clear loop returns or throws, and it does not
throw when no message is dispatching. -/
theorem callback_drop_chain_returns (fuel : Nat) (s : who) :
    ∀ (l : List Nat) (h : callback.Heap),
      ∃ r h1, callback.drop_chain (fuel + 2) s l h = some (r, h1) ∧
        ((∀ i, message.isSending i h.world = false) → r = .ok ()) := by
  intro l
  induction l with
  | nil => intro h; exact ⟨_, _, rfl, fun _ => rfl⟩
  | cons c next ih =>
    intro h
    obtain ⟨r, h1, he, hq⟩ := callback_drop_returns fuel c s h
    unfold callback.drop_chain
    rw [he]
    cases r with
    | error e => exact ⟨_, _, rfl, fun hq2 => by cases hq hq2⟩
    | ok u =>
      obtain ⟨r2, h2, he2, hq2⟩ := ih h1
      refine ⟨r2, h2, he2, fun hq3 => hq2 (fun i => ?_)⟩
      have hf := callback_drop_frame (fuel + 2) c s h _ h1 he
      unfold message.isSending
      rw [hf.Senders_flag]
      exact hq3 i

/-- What a successful `deliver` of an allocator_pigeon sets up. -/
theorem allocator_pigeon_deliver_ok {p m size_bytes c : Nat} {h h1 : callback.Heap}
    (hr : callback.allocator_pigeon.deliver p m size_bytes h = (.ok c, h1)) :
    c = h.world.next ∧
    h1.on_drop c = .onDrop_handler m ∧ h1.Alloc c = some p ∧ h1.node_size c = size_bytes ∧
    (h1.world.messages m).Senders = c :: (h.world.messages m).Senders ∧
    (h1.world.pigeons p).contacts = c :: (h.world.pigeons p).contacts ∧
    h1.world.arena c = ⟨false, 0, false, m, p⟩ ∧
    message.isSending m h1.world = false ∧
    h1.allocate_calls = ⟨p, c, size_bytes⟩ :: h.allocate_calls ∧
    h1.deallocate_calls = h.deallocate_calls := by
  unfold callback.allocator_pigeon.deliver callback.pigeon.deliver at hr
  cases hflag : (h.world.pigeons p).contacts_flag
  swap
  · simp [hflag] at hr
  simp only [hflag, Bool.false_eq_true, if_false] at hr
  unfold callback.message.make_contact at hr
  cases hs : message.isSending m h.world
  swap
  · simp [hs] at hr
  simp only [hs, Bool.false_eq_true, if_false] at hr
  cases ha : (h.allocators p).allocate size_bytes with
  | mk r a1 =>
    cases r with
    | error e => simp [ha] at hr
    | ok u =>
      simp only [ha, Prod.mk.injEq, Except.ok.injEq] at hr
      obtain ⟨rfl, rfl⟩ := hr
      refine ⟨rfl, by simp, by simp, by simp, by simp, by simp, by simp, ?_, rfl, rfl⟩
      unfold message.isSending at hs ⊢
      simpa using hs

/-- With the default callback and no allocator the second model computes the
heap of the first one. -/
theorem callback_drop_noop (fuel c : Nat) (s : who) (h : callback.Heap)
    (hcb : h.on_drop c = .noop) (hal : h.Alloc c = none) :
    ∃ h1, callback.contact.drop (fuel + 1) c s h = some (.ok (), h1) ∧
      h1.world = contact.drop c s h.world := by
  rw [callback_drop_succ]
  unfold contact.drop contact.setDropped contact.callOnDrop noop
  cases hd : contact.isDropped c h.world
  · simp only [Bool.false_eq_true, if_false, hcb]
    exact ⟨_, rfl, rfl⟩
  · simp only [if_true]
    refine ⟨_, rfl, ?_⟩
    unfold callback.contact.destruct
    simp [hal]

/-! ## The static check and the endless loop -/

theorem argument_checker_iff : ∀ (n : Nat) (Args : List arg_type), Args.length ≤ n →
    (argument_checker Args = true ↔ spec_accepts Args) := by
  intro n
  induction n with
  | zero =>
    intro Args hl
    have : Args = [] := List.length_eq_zero.1 (by omega)
    subst this
    simp [argument_checker, spec_accepts, spec_unpaired]
  | succ n ih =>
    intro Args hl
    match Args, hl with
    | [], _ => simp [argument_checker, spec_accepts, spec_unpaired]
    | [a], _ =>
      cases a with
      | mk vs c r =>
        cases r <;> cases c <;>
          simp [argument_checker, argument_checker.asserts, spec_accepts, spec_unpaired,
            arg_type.is_rvalue_reference, arg_type.is_lvalue_reference]
    | a :: b :: rest, hl =>
      by_cases hb : b = value_state_ref
      · have h1 := ih rest (by simp at hl; omega)
        simp only [argument_checker, hb, if_true, spec_accepts, spec_unpaired] at h1 ⊢
        exact h1
      · have h1 := ih (b :: rest) (by simp at hl ⊢; omega)
        simp only [argument_checker, hb, if_false, spec_accepts, spec_unpaired,
          Bool.and_eq_true, List.mem_cons, forall_eq_or_imp] at h1 ⊢
        rw [h1]
        apply and_congr_left
        intro _
        cases a with
        | mk vs c r =>
          cases r <;> cases c <;>
            simp [argument_checker.asserts, arg_type.is_rvalue_reference,
              arg_type.is_lvalue_reference]

/-- With a response handler that always answers `repeat` and handlers that do
not throw, `try_send` answers `dead` for a flagged entry and `repeat` for
every other. -/
theorem try_send_always_repeat {σ ρ : Type} (send : World → Nat → σ → σ × Option ρ)
    (h : ρ → σ → σ × Option iteration_state)
    (hsend : ∀ w i s, ((send w i s).2).isSome = true)
    (hh : ∀ r s, (h r s).2 = some .repeat_) (c : Nat) (w : World) (a : σ) :
    (contact.isDropped c w = true ∧ sender.try_send send h c w a = (a, some .dead)) ∨
    (contact.isDropped c w = false ∧ ∃ a1, sender.try_send send h c w a = (a1, some .repeat_)) := by
  unfold sender.try_send
  cases hd : contact.isDropped c w
  · right
    refine ⟨rfl, ?_⟩
    simp only [Bool.false_eq_true, if_false]
    unfold sender.do_send
    obtain ⟨r1, hr1⟩ := Option.isSome_iff_exists.1 (hsend w c a)
    have hs : send w c a = ((send w c a).1, some r1) := Prod.ext rfl hr1
    rw [hs]
    exact ⟨(h r1 (send w c a).1).1, Prod.ext rfl (hh _ _)⟩
  · left
    exact ⟨rfl, by simp⟩

/-- While at least two entries of the list are not flagged dropped, a loop
whose response handler always answers `repeat` never reaches the end of the
list: it uses up any amount of fuel. -/
theorem walk_always_repeat {σ ρ : Type} (send : World → Nat → σ → σ × Option ρ)
    (h : ρ → σ → σ × Option iteration_state) (m : Nat)
    (hsend : ∀ w i s, ((send w i s).2).isSome = true)
    (hh : ∀ r s, (h r s).2 = some .repeat_) :
    ∀ (fuel : Nat) (visited chain : List Nat) (a : σ) (tr : List Nat) (w : World),
      1 ≤ (chain.filter (fun c => !contact.isDropped c w)).length →
      2 ≤ (visited.filter (fun c => !contact.isDropped c w)).length +
        (chain.filter (fun c => !contact.isDropped c w)).length →
      message.response.walk send h m fuel visited chain a tr w = none := by
  intro fuel
  induction fuel with
  | zero => intro visited chain a tr w _ _; rfl
  | succ fuel ih =>
    intro visited chain a tr w h1 h2
    cases chain with
    | nil => simp at h1
    | cons c next =>
      rw [message.response.walk]
      rcases try_send_always_repeat send h hsend hh c w a with ⟨hd, he⟩ | ⟨hd, a1, he⟩
      · rw [he]
        simp only []
        have hsame : ∀ x, contact.isDropped x
            (contact.drop c .message (w.setSenders m (visited ++ next))) =
            contact.isDropped x w := by
          intro x
          rw [contact_drop_isDropped_of_dropped c .message _ (by simpa [contact.isDropped] using hd)]
          rfl
        have hc : (!contact.isDropped c w) = false := by simp [hd]
        rw [filter_length_cons_neg _ _ _ hc] at h1 h2
        apply ih
        · simpa only [hsame] using h1
        · simpa only [hsame] using h2
      · rw [he]
        simp only []
        have hsame : ∀ x, contact.isDropped x (w.setSenders m (c :: (next ++ visited))) =
            contact.isDropped x w := fun x => rfl
        have hc : (!contact.isDropped c w) = true := by simp [hd]
        rw [filter_length_cons_pos _ _ _ hc] at h1 h2
        apply ih
        · simp only [hsame, List.filter_append, List.length_append]
          omega
        · simp only [hsame, List.filter_append, List.length_append]
          rw [filter_length_cons_pos _ _ _ hc]
          simp only [List.filter_nil, List.length_nil]
          omega

/-! ## The invariant of the second model -/

@[simp] theorem Heap.setSenders_world (h : callback.Heap) (m : Nat) (l : List Nat) :
    (h.setSenders m l).world = h.world.setSenders m l := rfl
@[simp] theorem Heap.setContacts_world (h : callback.Heap) (p : Nat) (l : List Nat) :
    (h.setContacts p l).world = h.world.setContacts p l := rfl
@[simp] theorem Heap.setDropped_world (h : callback.Heap) (c : Nat) (s : who) :
    (h.setDropped c s).world = h.world.setContact c { h.world.arena c with dropped := true } :=
  rfl
@[simp] theorem Heap.setDropped_calls (h : callback.Heap) (c : Nat) (s : who) :
    (h.setDropped c s).on_drop_calls = (c, s) :: h.on_drop_calls := rfl

/-- The body of `message::drop` for a token whose node is flagged: the call
throws or does not find the node and leaves the heap, or it unlinks the node
and destructs it. -/
theorem message_drop_body_flagged (fuel m c : Nat) (g : callback.Heap)
    (hd : (g.world.arena c).dropped = true) (r : Except logic_error Bool) (h1 : callback.Heap)
    (hr : callback.message.drop_body (callback.contact.drop fuel) m c g = some (r, h1)) :
    (h1 = g ∧ ((r = .error .while_delivering ∧ message.isSending m g.world = true) ∨
        (r = .ok false ∧ message.isSending m g.world = false ∧
          c ∉ (g.world.messages m).Senders))) ∨
    (message.isSending m g.world = false ∧ c ∈ (g.world.messages m).Senders ∧ r = .ok true ∧
      h1 = callback.contact.destruct c
        (g.setSenders m ((g.world.messages m).Senders.erase c))) := by
  unfold callback.message.drop_body at hr
  cases hs : message.isSending m g.world
  · simp only [hs, Bool.false_eq_true, if_false] at hr
    cases hu : unlink c (g.world.messages m).Senders with
    | none =>
      simp only [hu, Option.some.injEq, Prod.mk.injEq] at hr
      exact Or.inl ⟨hr.2.symm, Or.inr ⟨hr.1.symm, rfl, unlink_eq_none.1 hu⟩⟩
    | some rest =>
      obtain ⟨hm, rfl⟩ := unlink_eq_some hu
      simp only [hu] at hr
      cases fuel with
      | zero => simp [callback.contact.drop] at hr
      | succ k =>
        rw [callback_drop_flagged k c .message _ (by simpa using hd)] at hr
        simp only [Option.some.injEq, Prod.mk.injEq] at hr
        exact Or.inr ⟨rfl, hm, hr.1.symm, hr.2.symm⟩
  · simp only [hs, if_true, Option.some.injEq, Prod.mk.injEq] at hr
    exact Or.inl ⟨hr.2.symm, Or.inl ⟨hr.1.symm, rfl⟩⟩

/-- The body of `pigeon::drop` for a token whose node is flagged. -/
theorem pigeon_drop_body_flagged (fuel p c : Nat) (g : callback.Heap)
    (hd : (g.world.arena c).dropped = true) (r : Except logic_error Bool) (h1 : callback.Heap)
    (hr : callback.pigeon.drop_body (callback.contact.drop fuel) p c g = some (r, h1)) :
    (h1 = g ∧ r = .ok false ∧ c ∉ (g.world.pigeons p).contacts) ∨
    (c ∈ (g.world.pigeons p).contacts ∧ r = .ok true ∧
      h1 = callback.contact.destruct c
        (g.setContacts p ((g.world.pigeons p).contacts.erase c))) := by
  unfold callback.pigeon.drop_body at hr
  cases hu : unlink c (g.world.pigeons p).contacts with
  | none =>
    simp only [hu, Option.some.injEq, Prod.mk.injEq] at hr
    exact Or.inl ⟨hr.2.symm, hr.1.symm, unlink_eq_none.1 hu⟩
  | some rest =>
    obtain ⟨hm, rfl⟩ := unlink_eq_some hu
    simp only [hu] at hr
    cases fuel with
    | zero => simp [callback.contact.drop] at hr
    | succ k =>
      rw [callback_drop_flagged k c .pigeon _ (by simpa using hd)] at hr
      simp only [Option.some.injEq, Prod.mk.injEq] at hr
      exact Or.inr ⟨hm, hr.1.symm, hr.2.symm⟩

/-- The outcomes of a callback on a flagged node: nothing further happens
(the callback does nothing, does not find the node, or the `drop` it calls
throws), or the node is unlinked from one list and destructed. -/
theorem on_drop_call_flagged (fuel c : Nat) (f : callback.on_drop) (s : who)
    (g : callback.Heap) (hd : (g.world.arena c).dropped = true)
    (r : Except logic_error Unit) (h1 : callback.Heap)
    (hr : callback.on_drop.call (callback.contact.drop fuel) f c s g = some (r, h1)) :
    (h1 = g ∧ (r = .ok () ∨
        (r = .error .while_delivering ∧ ∃ i, message.isSending i g.world = true))) ∨
    (∃ m, message.isSending m g.world = false ∧ c ∈ (g.world.messages m).Senders ∧ r = .ok () ∧
      h1 = callback.contact.destruct c
        (g.setSenders m ((g.world.messages m).Senders.erase c))) ∨
    (∃ p, c ∈ (g.world.pigeons p).contacts ∧ r = .ok () ∧
      h1 = callback.contact.destruct c
        (g.setContacts p ((g.world.pigeons p).contacts.erase c))) := by
  have hM : ∀ M, callback.discard (callback.message.drop_body (callback.contact.drop fuel) M c g)
      = some (r, h1) →
      (h1 = g ∧ (r = .ok () ∨
        (r = .error .while_delivering ∧ ∃ i, message.isSending i g.world = true))) ∨
      (∃ m, message.isSending m g.world = false ∧ c ∈ (g.world.messages m).Senders ∧
        r = .ok () ∧ h1 = callback.contact.destruct c
          (g.setSenders m ((g.world.messages m).Senders.erase c))) ∨
      (∃ p, c ∈ (g.world.pigeons p).contacts ∧ r = .ok () ∧
        h1 = callback.contact.destruct c
          (g.setContacts p ((g.world.pigeons p).contacts.erase c))) := by
    intro M hdis
    obtain ⟨r0, h0⟩ := discard_some hdis
    rw [h0] at hdis
    rcases message_drop_body_flagged fuel M c g hd r0 h1 h0 with
      ⟨e, ⟨e1, _⟩ | ⟨e1, _, _⟩⟩ | ⟨e1, e2, e3, e4⟩
    · next hsend =>
      subst e1
      simp only [callback.discard, Option.some.injEq, Prod.mk.injEq] at hdis
      exact Or.inl ⟨e, Or.inr ⟨hdis.1.symm, M, hsend⟩⟩
    · subst e1
      simp only [callback.discard, Option.some.injEq, Prod.mk.injEq] at hdis
      exact Or.inl ⟨e, Or.inl hdis.1.symm⟩
    · subst e3
      simp only [callback.discard, Option.some.injEq, Prod.mk.injEq] at hdis
      exact Or.inr (Or.inl ⟨M, e1, e2, hdis.1.symm, e4⟩)
  have hP : ∀ P, callback.discard (callback.pigeon.drop_body (callback.contact.drop fuel) P c g)
      = some (r, h1) →
      (h1 = g ∧ (r = .ok () ∨
        (r = .error .while_delivering ∧ ∃ i, message.isSending i g.world = true))) ∨
      (∃ m, message.isSending m g.world = false ∧ c ∈ (g.world.messages m).Senders ∧
        r = .ok () ∧ h1 = callback.contact.destruct c
          (g.setSenders m ((g.world.messages m).Senders.erase c))) ∨
      (∃ p, c ∈ (g.world.pigeons p).contacts ∧ r = .ok () ∧
        h1 = callback.contact.destruct c
          (g.setContacts p ((g.world.pigeons p).contacts.erase c))) := by
    intro P hdis
    obtain ⟨r0, h0⟩ := discard_some hdis
    rw [h0] at hdis
    rcases pigeon_drop_body_flagged fuel P c g hd r0 h1 h0 with ⟨e, e1, _⟩ | ⟨e2, e3, e4⟩
    · subst e1
      simp only [callback.discard, Option.some.injEq, Prod.mk.injEq] at hdis
      exact Or.inl ⟨e, Or.inl hdis.1.symm⟩
    · subst e3
      simp only [callback.discard, Option.some.injEq, Prod.mk.injEq] at hdis
      exact Or.inr (Or.inr ⟨P, e2, hdis.1.symm, e4⟩)
  have hrefl : (some (Except.ok (), g) : callback.Result Unit) = some (r, h1) →
      (h1 = g ∧ (r = .ok () ∨
        (r = .error .while_delivering ∧ ∃ i, message.isSending i g.world = true))) := by
    intro e
    simp only [Option.some.injEq, Prod.mk.injEq] at e
    exact ⟨e.2.symm, Or.inl e.1.symm⟩
  cases f with
  | noop => exact Or.inl (hrefl hr)
  | onDrop_handler M =>
    cases s with
    | pigeon => exact hM M hr
    | message => exact Or.inl (hrefl hr)
  | drop_message M => exact hM M hr
  | drop_pigeon P => exact hP P hr
  | drop_other P M =>
    cases s with
    | pigeon => exact hM M hr
    | message => exact hP P hr

/-- Every way `contact::drop` can go.  A flagged node is destructed.  A live
node is flagged and its callback is called; then nothing further happens, or
the callback has made the other side unlink and destruct the node. -/
theorem callback_drop_cases (fuel c : Nat) (s : who) (h : callback.Heap)
    (r : Except logic_error Unit) (h1 : callback.Heap)
    (hr : callback.contact.drop fuel c s h = some (r, h1)) :
    ((h.world.arena c).dropped = true ∧ r = .ok () ∧ h1 = callback.contact.destruct c h) ∨
    ((h.world.arena c).dropped = false ∧
      ((h1 = h.setDropped c s ∧ (r = .ok () ∨
          (r = .error .while_delivering ∧ ∃ i, message.isSending i h.world = true))) ∨
       (∃ m, message.isSending m h.world = false ∧ c ∈ (h.world.messages m).Senders ∧
          r = .ok () ∧ h1 = callback.contact.destruct c
            ((h.setDropped c s).setSenders m ((h.world.messages m).Senders.erase c))) ∨
       (∃ p, c ∈ (h.world.pigeons p).contacts ∧ r = .ok () ∧
          h1 = callback.contact.destruct c
            ((h.setDropped c s).setContacts p ((h.world.pigeons p).contacts.erase c))))) := by
  cases fuel with
  | zero => simp [callback.contact.drop] at hr
  | succ k =>
    rw [callback_drop_succ] at hr
    cases hd : (h.world.arena c).dropped
    · right
      refine ⟨rfl, ?_⟩
      simp only [contact.isDropped, hd, Bool.false_eq_true, if_false] at hr
      exact on_drop_call_flagged k c (h.on_drop c) s (h.setDropped c s) (by simp) r h1 hr
    · left
      simp only [contact.isDropped, hd, if_true, Option.some.injEq, Prod.mk.injEq] at hr
      exact ⟨rfl, hr.1.symm, hr.2.symm⟩

theorem World.setSenders_self (w : World) (m : Nat) :
    w.setSenders m (w.messages m).Senders = w := by
  ext1
  · rfl
  · rfl
  · funext i
    by_cases hi : i = m <;> simp [World.setSenders, hi]
  · rfl

theorem World.setContacts_self (w : World) (p : Nat) :
    w.setContacts p (w.pigeons p).contacts = w := by
  ext1
  · rfl
  · rfl
  · rfl
  · funext i
    by_cases hi : i = p <;> simp [World.setContacts, hi]

theorem World.setSenders_setSenders (w : World) (m : Nat) (l l1 : List Nat) :
    (w.setSenders m l).setSenders m l1 = w.setSenders m l1 := by
  ext1
  · rfl
  · rfl
  · funext i
    by_cases hi : i = m <;> simp [World.setSenders, hi]
  · rfl

theorem World.setContacts_setContacts (w : World) (p : Nat) (l l1 : List Nat) :
    (w.setContacts p l).setContacts p l1 = w.setContacts p l1 := by
  ext1
  · rfl
  · rfl
  · rfl
  · funext i
    by_cases hi : i = p <;> simp [World.setContacts, hi]

theorem World.setSenders_setContacts (w : World) (m p : Nat) (l l1 : List Nat) :
    (w.setSenders m l).setContacts p l1 = (w.setContacts p l1).setSenders m l := rfl

theorem World.setContacts_setSenders_swap (w : World) (m p : Nat) (l l1 : List Nat) :
    (w.setContacts p l1).setSenders m l = (w.setSenders m l).setContacts p l1 := rfl

theorem linked_setSenders (w : World) (m c : Nat) (l : List Nat)
    (h1 : c ∉ l) (h2 : c ∉ (w.messages m).Senders) :
    (w.setSenders m l).linked c = w.linked c := by
  unfold World.linked
  simp only [World.setSenders_arena, World.setSenders_Senders, World.setSenders_pigeons]
  by_cases hi : (w.arena c).owner_message = m
  · simp [hi, h1, h2]
  · simp [hi]

theorem linked_setContacts (w : World) (p c : Nat) (l : List Nat)
    (h1 : c ∉ l) (h2 : c ∉ (w.pigeons p).contacts) :
    (w.setContacts p l).linked c = w.linked c := by
  unfold World.linked
  simp only [World.setContacts_arena, World.setContacts_contacts, World.setContacts_messages]
  by_cases hi : (w.arena c).owner_pigeon = p
  · simp [hi, h1, h2]
  · simp [hi]

/-- Dropping a node and relinking a list that does not hold it, in either order. -/
theorem contact_drop_setSenders (c : Nat) (s : who) (w : World) (m : Nat) (l : List Nat)
    (h1 : c ∉ l) (h2 : c ∉ (w.messages m).Senders) :
    (contact.drop c s w).setSenders m l = contact.drop c s (w.setSenders m l) := by
  have := contact_drop_setSenders_comm c s w m l (w.messages m).Senders
    (by rw [linked_setSenders w m c l h1 h2, World.setSenders_self])
  rw [this, World.setSenders_self]

theorem contact_drop_setContacts (c : Nat) (s : who) (w : World) (p : Nat) (l : List Nat)
    (h1 : c ∉ l) (h2 : c ∉ (w.pigeons p).contacts) :
    (contact.drop c s w).setContacts p l = contact.drop c s (w.setContacts p l) := by
  have := contact_drop_setContacts_comm c s w p l (w.pigeons p).contacts
    (by rw [linked_setContacts w p c l h1 h2, World.setContacts_self])
  rw [this, World.setContacts_self]

theorem callback_destruct_world (c : Nat) (h : callback.Heap) :
    (callback.contact.destruct c h).world = contact.destruct c h.world := by
  unfold callback.contact.destruct
  cases h.Alloc c <;> rfl

theorem contact_drop_of_flagged (c : Nat) (s : who) (w : World)
    (hd : (w.arena c).dropped = true) : contact.drop c s w = contact.destruct c w := by
  unfold contact.drop contact.isDropped
  simp [hd]

theorem contact_drop_of_live (c : Nat) (s : who) (w : World)
    (hd : (w.arena c).dropped = false) :
    contact.drop c s w = w.setContact c { w.arena c with dropped := true } := by
  unfold contact.drop contact.isDropped contact.setDropped contact.callOnDrop noop
  simp [hd]

/-- The nodes and lists after `contact::drop` of the second model are those
after one `contact::drop` of the first model, or after two when the callback
has made the other side drop the node as well. -/
theorem callback_drop_world (fuel c : Nat) (s : who) (h : callback.Heap)
    (r : Except logic_error Unit) (h1 : callback.Heap)
    (hr : callback.contact.drop fuel c s h = some (r, h1)) :
    h1.world = contact.drop c s h.world ∨
    (∃ m, c ∈ (h.world.messages m).Senders ∧ h1.world = contact.drop c .message
      ((contact.drop c s h.world).setSenders m ((h.world.messages m).Senders.erase c))) ∨
    (∃ p, c ∈ (h.world.pigeons p).contacts ∧ h1.world = contact.drop c .pigeon
      ((contact.drop c s h.world).setContacts p ((h.world.pigeons p).contacts.erase c))) := by
  rcases callback_drop_cases fuel c s h r h1 hr with ⟨hd, _, rfl⟩ |
    ⟨hd, ⟨rfl, _⟩ | ⟨m, _, hm, _, rfl⟩ | ⟨p, hp, _, rfl⟩⟩
  · left
    rw [callback_destruct_world, contact_drop_of_flagged c s _ hd]
  · left
    rw [contact_drop_of_live c s _ hd]; rfl
  · right; left
    refine ⟨m, hm, ?_⟩
    rw [callback_destruct_world, contact_drop_of_live c s _ hd,
      contact_drop_of_flagged c .message _ (by simp)]
    rfl
  · right; right
    refine ⟨p, hp, ?_⟩
    rw [callback_destruct_world, contact_drop_of_live c s _ hd,
      contact_drop_of_flagged c .pigeon _ (by simp)]
    rfl

/-- The message side unlinks a node and drops it, callbacks included: the
structural invariant is kept. -/
theorem inv_callback_drop_message {w0 : World} (hw : Inv w0) (m c : Nat)
    (hc : c ∈ (w0.messages m).Senders) (l : List Nat) (hnd : l.Nodup)
    (hmem : ∀ x, x ∈ l ↔ x ∈ (w0.messages m).Senders ∧ x ≠ c)
    (fuel : Nat) (s : who) (h : callback.Heap) (hh : h.world = w0.setSenders m l)
    (r : Except logic_error Unit) (h1 : callback.Heap)
    (hr : callback.contact.drop fuel c s h = some (r, h1)) : Inv h1.world := by
  have hI1 : Inv (contact.drop c s (w0.setSenders m l)) :=
    inv_drop_message hw s m c hc l hnd hmem
  rcases callback_drop_world fuel c s h r h1 hr with e | ⟨m1, hm1, e⟩ | ⟨p, hp, e⟩
  · rw [e, hh]; exact hI1
  · exfalso
    rw [hh] at hm1
    simp only [World.setSenders_Senders] at hm1
    split at hm1
    · exact ((hmem c).1 hm1).2 rfl
    · next hne => exact hne (inv_sender_unique hw hc hm1)
  · rw [e, hh]
    rw [hh] at hp
    have hp1 : c ∈ ((contact.drop c s (w0.setSenders m l)).pigeons p).contacts := by
      simpa using hp
    have := inv_drop_pigeon hI1 .pigeon p c hp1 _ ((hI1.contacts_nodup p).erase c)
      (mem_erase_nodup (hI1.contacts_nodup p) c)
    simpa using this

/-- The pigeon side unlinks a node and drops it, callbacks included: the
structural invariant is kept. -/
theorem inv_callback_drop_pigeon {w0 : World} (hw : Inv w0) (p c : Nat)
    (hc : c ∈ (w0.pigeons p).contacts) (l : List Nat) (hnd : l.Nodup)
    (hmem : ∀ x, x ∈ l ↔ x ∈ (w0.pigeons p).contacts ∧ x ≠ c)
    (fuel : Nat) (s : who) (h : callback.Heap) (hh : h.world = w0.setContacts p l)
    (r : Except logic_error Unit) (h1 : callback.Heap)
    (hr : callback.contact.drop fuel c s h = some (r, h1)) : Inv h1.world := by
  have hI1 : Inv (contact.drop c s (w0.setContacts p l)) :=
    inv_drop_pigeon hw s p c hc l hnd hmem
  rcases callback_drop_world fuel c s h r h1 hr with e | ⟨m, hm, e⟩ | ⟨p1, hp1, e⟩
  · rw [e, hh]; exact hI1
  · rw [e, hh]
    rw [hh] at hm
    have hm1 : c ∈ ((contact.drop c s (w0.setContacts p l)).messages m).Senders := by
      simpa using hm
    have := inv_drop_message hI1 .message m c hm1 _ ((hI1.senders_nodup m).erase c)
      (mem_erase_nodup (hI1.senders_nodup m) c)
    simpa using this
  · exfalso
    rw [hh] at hp1
    simp only [World.setContacts_contacts] at hp1
    split at hp1
    · exact ((hmem c).1 hp1).2 rfl
    · next hne => exact hne (inv_contact_unique hw hc hp1)

/-- What `contact::drop` does to its own node and to the logs: the node is
flagged afterwards; the callback was called exactly when the node was not
flagged before, once, with this token and this side; the node was destructed
at most once, and each destruct of a node with an allocator is one
`deallocate` call on that allocator with the node's address and size. -/
theorem callback_drop_effect (fuel c : Nat) (s : who) (h : callback.Heap)
    (r : Except logic_error Unit) (h1 : callback.Heap)
    (hr : callback.contact.drop fuel c s h = some (r, h1)) :
    (h1.world.arena c).dropped = true ∧
    h1.on_drop_calls =
      (if (h.world.arena c).dropped then h.on_drop_calls else (c, s) :: h.on_drop_calls) ∧
    ∃ k, k ≤ 1 ∧ ((h.world.arena c).dropped = true → k = 1) ∧
      (h1.world.arena c).destructs = (h.world.arena c).destructs + k ∧
      h1.deallocate_calls =
        (match h.Alloc c with
          | some a => List.replicate k (⟨a, c, h.node_size c⟩ : callback.alloc_call)
          | none => []) ++ h.deallocate_calls := by
  have hdes : ∀ g : callback.Heap, g.Alloc = h.Alloc → g.node_size = h.node_size →
      ((callback.contact.destruct c g).world.arena c).dropped = (g.world.arena c).dropped ∧
      ((callback.contact.destruct c g).world.arena c).destructs =
        (g.world.arena c).destructs + 1 ∧
      (callback.contact.destruct c g).on_drop_calls = g.on_drop_calls ∧
      (callback.contact.destruct c g).deallocate_calls =
        (match h.Alloc c with
          | some a => List.replicate 1 (⟨a, c, h.node_size c⟩ : callback.alloc_call)
          | none => []) ++ g.deallocate_calls := by
    intro g hA hN
    unfold callback.contact.destruct
    rw [hA, hN]
    cases h.Alloc c <;> simp [contact.destruct]
  rcases callback_drop_cases fuel c s h r h1 hr with ⟨hd, _, rfl⟩ |
    ⟨hd, ⟨rfl, _⟩ | ⟨m, _, hm, _, rfl⟩ | ⟨p, hp, _, rfl⟩⟩
  · obtain ⟨a1, a2, a3, a4⟩ := hdes h rfl rfl
    exact ⟨by rw [a1, hd], by rw [a3, hd]; rfl, 1, le_refl _, fun _ => rfl, a2, a4⟩
  · refine ⟨by simp, by simp [hd], 0, by omega, ?_, by simp, ?_⟩
    · intro e; rw [hd] at e; cases e
    · cases h.Alloc c <;> rfl
  · obtain ⟨a1, a2, a3, a4⟩ := hdes
      ((h.setDropped c s).setSenders m ((h.world.messages m).Senders.erase c)) rfl rfl
    refine ⟨by rw [a1]; simp, by rw [a3]; simp [hd, callback.Heap.setSenders], 1, le_refl _,
      fun _ => rfl, by rw [a2]; simp, a4⟩
  · obtain ⟨a1, a2, a3, a4⟩ := hdes
      ((h.setDropped c s).setContacts p ((h.world.pigeons p).contacts.erase c)) rfl rfl
    refine ⟨by rw [a1]; simp, by rw [a3]; simp [hd, callback.Heap.setContacts], 1, le_refl _,
      fun _ => rfl, by rw [a2]; simp, a4⟩

/-- A list that does not hold the node is not changed by `contact::drop`. -/
theorem callback_drop_lists (fuel c : Nat) (s : who) (h : callback.Heap)
    (r : Except logic_error Unit) (h1 : callback.Heap)
    (hr : callback.contact.drop fuel c s h = some (r, h1)) :
    (∀ m, c ∉ (h.world.messages m).Senders →
      (h1.world.messages m).Senders = (h.world.messages m).Senders) ∧
    (∀ p, c ∉ (h.world.pigeons p).contacts →
      (h1.world.pigeons p).contacts = (h.world.pigeons p).contacts) := by
  rcases callback_drop_cases fuel c s h r h1 hr with ⟨hd, _, rfl⟩ |
    ⟨hd, ⟨rfl, _⟩ | ⟨m, _, hm, _, rfl⟩ | ⟨p, hp, _, rfl⟩⟩
  · rw [callback_destruct_world]
    exact ⟨fun _ _ => by simp [contact.destruct], fun _ _ => by simp [contact.destruct]⟩
  · exact ⟨fun _ _ => rfl, fun _ _ => rfl⟩
  · rw [callback_destruct_world]
    refine ⟨fun i hi => ?_, fun _ _ => by simp [contact.destruct]⟩
    simp only [contact.destruct, World.setContact_messages, Heap.setSenders_world,
      World.setSenders_Senders, Heap.setDropped_world]
    split
    · next e => subst e; exact List.erase_of_not_mem hi
    · rfl
  · rw [callback_destruct_world]
    refine ⟨fun _ _ => by simp [contact.destruct], fun i hi => ?_⟩
    simp only [contact.destruct, World.setContact_pigeons, Heap.setContacts_world,
      World.setContacts_contacts, Heap.setDropped_world]
    split
    · next e => subst e; exact List.erase_of_not_mem hi
    · rfl

/-- The logs stay in step under a change that touches neither the nodes nor
the logs. -/
theorem logs_congr {h h1 : callback.Heap} (hl : callback.Logs h)
    (ha : h1.world.arena = h.world.arena) (hn : h1.world.next = h.world.next)
    (h2 : h1.on_drop_calls = h.on_drop_calls) (h3 : h1.allocate_calls = h.allocate_calls)
    (h4 : h1.deallocate_calls = h.deallocate_calls) (h5 : h1.Alloc = h.Alloc)
    (h6 : h1.node_size = h.node_size) : callback.Logs h1 := by
  constructor
  · intro c; rw [h2, ha]; exact hl.calls c
  · intro c; rw [h3, hn, h5, h6]; exact hl.allocated c
  · intro c; rw [h4, hn, h5, h6, ha]; exact hl.deallocated c

/-- `contact::drop` of a created node keeps the logs in step. -/
theorem logs_callback_drop {h : callback.Heap} (hl : callback.Logs h) (fuel c : Nat) (s : who)
    (hc : c < h.world.next) (r : Except logic_error Unit) (h1 : callback.Heap)
    (hr : callback.contact.drop fuel c s h = some (r, h1)) : callback.Logs h1 := by
  have hf := callback_drop_frame fuel c s h r h1 hr
  obtain ⟨e1, e2, k, hk, _, e3, e4⟩ := callback_drop_effect fuel c s h r h1 hr
  constructor
  · intro x
    by_cases hx : x = c
    · subst hx
      rw [e1, e2]
      have := hl.calls x
      cases hd : (h.world.arena x).dropped
      · rw [hd] at this
        simp only [Bool.false_eq_true, if_false] at this ⊢
        rw [filter_token_cons, List.length_cons, this]
        rfl
      · rw [hd] at this
        simpa using this
    · rw [hf.on_drop_calls x hx, hf.arena x hx]
      exact hl.calls x
  · intro x
    rw [hf.allocate_calls, hf.next, hf.Alloc, hf.node_size]
    exact hl.allocated x
  · intro x
    rw [hf.next, hf.Alloc, hf.node_size]
    by_cases hx : x = c
    · subst hx
      have := hl.deallocated x
      rw [if_pos hc] at this ⊢
      rw [e4, e3, List.filter_append, this]
      cases hA : h.Alloc x with
      | none => rfl
      | some a =>
        simp only []
        rcases Nat.le_one_iff_eq_zero_or_eq_one.1 hk with rfl | rfl
        · rfl
        · rw [List.replicate_succ, List.replicate_succ]
          simp [List.filter_cons]
    · rw [hf.deallocate_calls x hx, hf.arena x hx]
      exact hl.deallocated x

/-- While no message is dispatching, `contact::drop` does not throw. -/
theorem callback_drop_quiet (fuel c : Nat) (s : who) (h : callback.Heap)
    (hq : ∀ i, message.isSending i h.world = false)
    (r : Except logic_error Unit) (h1 : callback.Heap)
    (hr : callback.contact.drop fuel c s h = some (r, h1)) : r = .ok () := by
  rcases callback_drop_cases fuel c s h r h1 hr with ⟨_, e, _⟩ |
    ⟨_, ⟨_, e | ⟨_, i, hi⟩⟩ | ⟨_, _, _, e, _⟩ | ⟨_, _, e, _⟩⟩
  · exact e
  · exact e
  · rw [hq i] at hi; cases hi
  · exact e
  · exact e

/-- One step of the loop of `message::clear`, seen on the heap in which the
entries not yet dropped are still linked. -/
theorem inv_callback_chain_message_step {w : World} (m c : Nat) (next : List Nat)
    (hw : Inv (w.setSenders m (c :: next))) (hl : (w.messages m).Senders = [])
    (fuel : Nat) (s : who) (h : callback.Heap) (hh : h.world = w)
    (r : Except logic_error Unit) (h2 : callback.Heap)
    (hr : callback.contact.drop fuel c s h = some (r, h2)) :
    Inv (h2.world.setSenders m next) ∧ (h2.world.messages m).Senders = [] := by
  subst hh
  have hnd : (c :: next).Nodup := by simpa using hw.senders_nodup m
  have hcn : c ∉ next := (List.nodup_cons.1 hnd).1
  have hc0 : c ∈ ((h.world.setSenders m (c :: next)).messages m).Senders := by simp
  have hmem : ∀ x, x ∈ next ↔
      x ∈ ((h.world.setSenders m (c :: next)).messages m).Senders ∧ x ≠ c := by
    intro x
    simp only [World.setSenders_Senders, if_true, List.mem_cons]
    constructor
    · intro hx; exact ⟨Or.inr hx, fun e => hcn (e ▸ hx)⟩
    · rintro ⟨e | e, ne⟩
      · exact absurd e ne
      · exact e
  have hI1 : Inv (contact.drop c s (h.world.setSenders m next)) := by
    have := inv_drop_message hw s m c hc0 next (List.nodup_cons.1 hnd).2 hmem
    rwa [World.setSenders_setSenders] at this
  have hce : c ∉ (h.world.messages m).Senders := by rw [hl]; exact List.not_mem_nil _
  refine ⟨?_, ?_⟩
  swap
  · rw [(callback_drop_lists fuel c s h r h2 hr).1 m hce, hl]
  rcases callback_drop_world fuel c s h r h2 hr with e | ⟨m1, hm1, e⟩ | ⟨p, hp, e⟩
  · rw [e, contact_drop_setSenders c s _ m next hcn hce]
    exact hI1
  · exfalso
    have hne : m1 ≠ m := by
      intro e1; subst e1; exact hce hm1
    have hm2 : c ∈ ((h.world.setSenders m (c :: next)).messages m1).Senders := by
      simpa [hne] using hm1
    exact hne (inv_sender_unique hw hc0 hm2)
  · rw [e, contact_drop_setSenders c .pigeon _ m next hcn (by simpa using hce),
      World.setContacts_setSenders_swap, contact_drop_setSenders c s _ m next hcn hce]
    have hp1 : c ∈ ((contact.drop c s (h.world.setSenders m next)).pigeons p).contacts := by
      simpa using hp
    have := inv_drop_pigeon hI1 .pigeon p c hp1 _ ((hI1.contacts_nodup p).erase c)
      (mem_erase_nodup (hI1.contacts_nodup p) c)
    simpa using this

/-- One step of the loop of `pigeon::clear`, seen on the heap in which the
entries not yet dropped are still linked. -/
theorem inv_callback_chain_pigeon_step {w : World} (p c : Nat) (next : List Nat)
    (hw : Inv (w.setContacts p (c :: next))) (hl : (w.pigeons p).contacts = [])
    (fuel : Nat) (s : who) (h : callback.Heap) (hh : h.world = w)
    (r : Except logic_error Unit) (h2 : callback.Heap)
    (hr : callback.contact.drop fuel c s h = some (r, h2)) :
    Inv (h2.world.setContacts p next) ∧ (h2.world.pigeons p).contacts = [] := by
  subst hh
  have hnd : (c :: next).Nodup := by simpa using hw.contacts_nodup p
  have hcn : c ∉ next := (List.nodup_cons.1 hnd).1
  have hc0 : c ∈ ((h.world.setContacts p (c :: next)).pigeons p).contacts := by simp
  have hmem : ∀ x, x ∈ next ↔
      x ∈ ((h.world.setContacts p (c :: next)).pigeons p).contacts ∧ x ≠ c := by
    intro x
    simp only [World.setContacts_contacts, if_true, List.mem_cons]
    constructor
    · intro hx; exact ⟨Or.inr hx, fun e => hcn (e ▸ hx)⟩
    · rintro ⟨e | e, ne⟩
      · exact absurd e ne
      · exact e
  have hI1 : Inv (contact.drop c s (h.world.setContacts p next)) := by
    have := inv_drop_pigeon hw s p c hc0 next (List.nodup_cons.1 hnd).2 hmem
    rwa [World.setContacts_setContacts] at this
  have hce : c ∉ (h.world.pigeons p).contacts := by rw [hl]; exact List.not_mem_nil _
  refine ⟨?_, ?_⟩
  swap
  · rw [(callback_drop_lists fuel c s h r h2 hr).2 p hce, hl]
  rcases callback_drop_world fuel c s h r h2 hr with e | ⟨m, hm, e⟩ | ⟨p1, hp1, e⟩
  · rw [e, contact_drop_setContacts c s _ p next hcn hce]
    exact hI1
  · rw [e, contact_drop_setContacts c .message _ p next hcn (by simpa using hce),
      World.setSenders_setContacts, contact_drop_setContacts c s _ p next hcn hce]
    have hm1 : c ∈ ((contact.drop c s (h.world.setContacts p next)).messages m).Senders := by
      simpa using hm
    have := inv_drop_message hI1 .message m c hm1 _ ((hI1.senders_nodup m).erase c)
      (mem_erase_nodup (hI1.senders_nodup m) c)
    simpa using this
  · exfalso
    have hne : p1 ≠ p := by
      intro e1; subst e1; exact hce hp1
    have hp2 : c ∈ ((h.world.setContacts p (c :: next)).pigeons p1).contacts := by
      simpa [hne] using hp1
    exact hne (inv_contact_unique hw hc0 hp2)

/-- The part of the invariant that also holds while a message is dispatching
or a clear loop is under way, on the heap in which the entries that the loop
has not dropped yet are still linked. -/
theorem callback_chain_message (fuel m : Nat) (s : who) :
    ∀ (l : List Nat) (h : callback.Heap) (r : Except logic_error Unit) (h1 : callback.Heap),
      Inv (h.world.setSenders m l) → (h.world.messages m).Senders = [] →
      (∀ i, message.isSending i h.world = false) → callback.Logs h →
      callback.drop_chain fuel s l h = some (r, h1) →
      r = .ok () ∧ Inv h1.world ∧ (∀ i, message.isSending i h1.world = false) ∧
        callback.Logs h1 := by
  intro l
  induction l with
  | nil =>
    intro h r h1 hI hl hq hL hr
    simp only [callback.drop_chain, Option.some.injEq, Prod.mk.injEq] at hr
    obtain ⟨rfl, rfl⟩ := hr
    rw [← hl, World.setSenders_self] at hI
    exact ⟨rfl, hI, hq, hL⟩
  | cons c next ih =>
    intro h r h1 hI hl hq hL hr
    unfold callback.drop_chain at hr
    cases hd : callback.contact.drop fuel c s h with
    | none => simp [hd] at hr
    | some v =>
      obtain ⟨r2, h2⟩ := v
      have hok := callback_drop_quiet fuel c s h hq r2 h2 hd
      subst hok
      simp only [hd] at hr
      obtain ⟨hI2, hl2⟩ := inv_callback_chain_message_step m c next hI hl fuel s h rfl _ h2 hd
      have hf := callback_drop_frame fuel c s h _ h2 hd
      have hc : c < h.world.next := by
        have := (hI.sender_owner m c (by simp)).2
        simpa using this
      refine ih h2 r h1 hI2 hl2 (fun i => ?_) (logs_callback_drop hL fuel c s hc _ h2 hd) hr
      unfold message.isSending
      rw [hf.Senders_flag]
      exact hq i

theorem callback_chain_pigeon (fuel p : Nat) (s : who) :
    ∀ (l : List Nat) (h : callback.Heap) (r : Except logic_error Unit) (h1 : callback.Heap),
      Inv (h.world.setContacts p l) → (h.world.pigeons p).contacts = [] →
      (∀ i, message.isSending i h.world = false) → callback.Logs h →
      callback.drop_chain fuel s l h = some (r, h1) →
      r = .ok () ∧ Inv h1.world ∧ (∀ i, message.isSending i h1.world = false) ∧
        callback.Logs h1 := by
  intro l
  induction l with
  | nil =>
    intro h r h1 hI hl hq hL hr
    simp only [callback.drop_chain, Option.some.injEq, Prod.mk.injEq] at hr
    obtain ⟨rfl, rfl⟩ := hr
    rw [← hl, World.setContacts_self] at hI
    exact ⟨rfl, hI, hq, hL⟩
  | cons c next ih =>
    intro h r h1 hI hl hq hL hr
    unfold callback.drop_chain at hr
    cases hd : callback.contact.drop fuel c s h with
    | none => simp [hd] at hr
    | some v =>
      obtain ⟨r2, h2⟩ := v
      have hok := callback_drop_quiet fuel c s h hq r2 h2 hd
      subst hok
      simp only [hd] at hr
      obtain ⟨hI2, hl2⟩ := inv_callback_chain_pigeon_step p c next hI hl fuel s h rfl _ h2 hd
      have hf := callback_drop_frame fuel c s h _ h2 hd
      have hc : c < h.world.next := by
        have := (hI.contact_owner p c (by simp)).2
        simpa using this
      refine ih h2 r h1 hI2 hl2 (fun i => ?_) (logs_callback_drop hL fuel c s hc _ h2 hd) hr
      unfold message.isSending
      rw [hf.Senders_flag]
      exact hq i

theorem callback_inv_message_clear {h : callback.Heap} (hI : callback.Inv h) (fuel m : Nat)
    (r : Except logic_error Unit) (h1 : callback.Heap)
    (hr : callback.message.clear fuel m h = some (r, h1)) : r = .ok () ∧ callback.Inv h1 := by
  unfold callback.message.clear at hr
  simp only [hI.quiet m, Bool.false_eq_true, if_false] at hr
  obtain ⟨e, a, b, c⟩ := callback_chain_message fuel m .message _
    { h with world := h.world.setSenders m [] } r h1
    (by simp only [World.setSenders_setSenders, World.setSenders_self]; exact hI.world)
    (by simp) (fun i => by simpa [message.isSending] using hI.quiet i)
    (logs_congr hI.logs rfl rfl rfl rfl rfl rfl rfl) hr
  exact ⟨e, a, b, c⟩

theorem callback_inv_pigeon_clear {h : callback.Heap} (hI : callback.Inv h) (fuel p : Nat)
    (r : Except logic_error Unit) (h1 : callback.Heap)
    (hr : callback.pigeon.clear fuel p h = some (r, h1)) : r = .ok () ∧ callback.Inv h1 := by
  unfold callback.pigeon.clear at hr
  obtain ⟨e, a, b, c⟩ := callback_chain_pigeon fuel p .pigeon _
    { h with world := h.world.setContacts p [] } r h1
    (by simp only [World.setContacts_setContacts, World.setContacts_self]; exact hI.world)
    (by simp) (fun i => hI.quiet i)
    (logs_congr hI.logs rfl rfl rfl rfl rfl rfl rfl) hr
  exact ⟨e, a, b, c⟩

theorem callback_inv_pigeon_destructor {h : callback.Heap} (hI : callback.Inv h)
    (fuel p : Nat) (r : Except logic_error Unit) (h1 : callback.Heap)
    (hr : callback.pigeon.destructor fuel p h = some (r, h1)) :
    r = .ok () ∧ callback.Inv h1 := by
  unfold callback.pigeon.destructor at hr
  have hI2 : callback.Inv { h with world := h.world.setDestructing p } :=
    ⟨inv_setDestructing hI.world p, fun i => hI.quiet i,
      logs_congr hI.logs rfl rfl rfl rfl rfl rfl rfl⟩
  exact callback_inv_pigeon_clear hI2 fuel p r h1 hr

theorem callback_inv_message_drop {h : callback.Heap} (hI : callback.Inv h)
    (fuel m token : Nat) (r : Except logic_error Bool) (h1 : callback.Heap)
    (hr : callback.message.drop fuel m token h = some (r, h1)) :
    (∃ b, r = .ok b) ∧ callback.Inv h1 := by
  unfold callback.message.drop callback.message.drop_body at hr
  simp only [hI.quiet m, Bool.false_eq_true, if_false] at hr
  cases hu : unlink token (h.world.messages m).Senders with
  | none =>
    simp only [hu, Option.some.injEq, Prod.mk.injEq] at hr
    obtain ⟨rfl, rfl⟩ := hr
    exact ⟨⟨_, rfl⟩, hI⟩
  | some rest =>
    obtain ⟨hm, rfl⟩ := unlink_eq_some hu
    simp only [hu] at hr
    cases hd : callback.contact.drop fuel token .message
        { h with world := h.world.setSenders m ((h.world.messages m).Senders.erase token) } with
    | none => simp [hd] at hr
    | some v =>
      obtain ⟨r2, h2⟩ := v
      have hq : ∀ i, message.isSending i (h.world.setSenders m
          ((h.world.messages m).Senders.erase token)) = false := fun i => by
        simpa [message.isSending] using hI.quiet i
      have hok := callback_drop_quiet fuel token .message _ hq r2 h2 hd
      subst hok
      simp only [hd, Option.some.injEq, Prod.mk.injEq] at hr
      obtain ⟨rfl, rfl⟩ := hr
      have hf := callback_drop_frame fuel token .message _ _ h2 hd
      refine ⟨⟨_, rfl⟩, ?_, ?_, ?_⟩
      · exact inv_callback_drop_message hI.world m token hm _
          ((hI.world.senders_nodup m).erase token)
          (mem_erase_nodup (hI.world.senders_nodup m) token) fuel .message _ rfl _ h2 hd
      · intro i
        unfold message.isSending
        rw [hf.Senders_flag]
        exact hq i
      · have hL : callback.Logs (h.setSenders m ((h.world.messages m).Senders.erase token)) :=
          logs_congr hI.logs rfl rfl rfl rfl rfl rfl rfl
        exact logs_callback_drop hL fuel token .message
          (hI.world.sender_owner m token hm).2 _ h2 hd

theorem callback_inv_pigeon_drop {h : callback.Heap} (hI : callback.Inv h)
    (fuel p token : Nat) (r : Except logic_error Bool) (h1 : callback.Heap)
    (hr : callback.pigeon.drop fuel p token h = some (r, h1)) :
    (∃ b, r = .ok b) ∧ callback.Inv h1 := by
  unfold callback.pigeon.drop callback.pigeon.drop_body at hr
  cases hu : unlink token (h.world.pigeons p).contacts with
  | none =>
    simp only [hu, Option.some.injEq, Prod.mk.injEq] at hr
    obtain ⟨rfl, rfl⟩ := hr
    exact ⟨⟨_, rfl⟩, hI⟩
  | some rest =>
    obtain ⟨hm, rfl⟩ := unlink_eq_some hu
    simp only [hu] at hr
    cases hd : callback.contact.drop fuel token .pigeon
        { h with world := h.world.setContacts p ((h.world.pigeons p).contacts.erase token) } with
    | none => simp [hd] at hr
    | some v =>
      obtain ⟨r2, h2⟩ := v
      have hq : ∀ i, message.isSending i (h.world.setContacts p
          ((h.world.pigeons p).contacts.erase token)) = false := fun i => hI.quiet i
      have hok := callback_drop_quiet fuel token .pigeon
        (h.setContacts p ((h.world.pigeons p).contacts.erase token)) hq r2 h2 hd
      subst hok
      simp only [hd, Option.some.injEq, Prod.mk.injEq] at hr
      obtain ⟨rfl, rfl⟩ := hr
      have hf := callback_drop_frame fuel token .pigeon _ _ h2 hd
      refine ⟨⟨_, rfl⟩, ?_, ?_, ?_⟩
      · exact inv_callback_drop_pigeon hI.world p token hm _
          ((hI.world.contacts_nodup p).erase token)
          (mem_erase_nodup (hI.world.contacts_nodup p) token) fuel .pigeon _ rfl _ h2 hd
      · intro i
        unfold message.isSending
        rw [hf.Senders_flag]
        exact hq i
      · have hL : callback.Logs (h.setContacts p ((h.world.pigeons p).contacts.erase token)) :=
          logs_congr hI.logs rfl rfl rfl rfl rfl rfl rfl
        exact logs_callback_drop hL fuel token .pigeon
          (hI.world.contact_owner p token hm).2 _ h2 hd

/-- What `pigeon::deliver` of the second model computes: it throws and links
nothing (only the state of the allocator may have changed), or it has made
the node of the first model's `deliver`, with the callback, the allocator
and the size recorded, and one `allocate` record when an allocator was
passed. -/
theorem callback_deliver_cases (p m : Nat) (alloc : Option Nat) (f : callback.on_drop)
    (size_bytes : Nat) (h : callback.Heap) :
    ((∃ e, (callback.pigeon.deliver p m alloc f size_bytes h).1 = .error e) ∧
      (callback.pigeon.deliver p m alloc f size_bytes h).2.world = h.world ∧
      (callback.pigeon.deliver p m alloc f size_bytes h).2.on_drop = h.on_drop ∧
      (callback.pigeon.deliver p m alloc f size_bytes h).2.Alloc = h.Alloc ∧
      (callback.pigeon.deliver p m alloc f size_bytes h).2.node_size = h.node_size ∧
      (callback.pigeon.deliver p m alloc f size_bytes h).2.allocate_calls = h.allocate_calls ∧
      (callback.pigeon.deliver p m alloc f size_bytes h).2.deallocate_calls =
        h.deallocate_calls ∧
      (callback.pigeon.deliver p m alloc f size_bytes h).2.on_drop_calls = h.on_drop_calls) ∨
    ((callback.pigeon.deliver p m alloc f size_bytes h).1 = .ok h.world.next ∧
      pigeon.deliver p m h.world =
        .ok (h.world.next, (callback.pigeon.deliver p m alloc f size_bytes h).2.world) ∧
      (callback.pigeon.deliver p m alloc f size_bytes h).2.on_drop =
        (fun i => if i = h.world.next then f else h.on_drop i) ∧
      (callback.pigeon.deliver p m alloc f size_bytes h).2.Alloc =
        (fun i => if i = h.world.next then alloc else h.Alloc i) ∧
      (callback.pigeon.deliver p m alloc f size_bytes h).2.node_size =
        (fun i => if i = h.world.next then size_bytes else h.node_size i) ∧
      (callback.pigeon.deliver p m alloc f size_bytes h).2.allocate_calls =
        (match alloc with
          | some a => [(⟨a, h.world.next, size_bytes⟩ : callback.alloc_call)]
          | none => []) ++ h.allocate_calls ∧
      (callback.pigeon.deliver p m alloc f size_bytes h).2.deallocate_calls =
        h.deallocate_calls ∧
      (callback.pigeon.deliver p m alloc f size_bytes h).2.on_drop_calls = h.on_drop_calls) := by
  unfold callback.pigeon.deliver callback.message.make_contact pigeon.deliver
    pigeon.ensureNotDestructing message.make_contact message.ensureNotSending
  cases hflag : (h.world.pigeons p).contacts_flag
  swap
  · left
    simp
  cases hs : message.isSending m h.world
  swap
  · left
    simp
  cases alloc with
  | none =>
    right
    simp
  | some a =>
    cases ha : (h.allocators a).allocate size_bytes with
    | mk r a1 =>
      cases r with
      | error e =>
        left
        simp [ha]
      | ok u =>
        right
        simp [ha]

theorem callback_inv_deliver {h : callback.Heap} (hI : callback.Inv h) (p m : Nat)
    (alloc : Option Nat) (f : callback.on_drop) (size_bytes : Nat) :
    callback.Inv (callback.pigeon.deliver p m alloc f size_bytes h).2 := by
  rcases callback_deliver_cases p m alloc f size_bytes h with
    ⟨_, e1, e2, e3, e4, e5, e6, e7⟩ | ⟨_, hd, e2, e3, e4, e5, e6, e7⟩
  · refine ⟨by rw [e1]; exact hI.world, by rw [e1]; exact hI.quiet, ?_⟩
    exact logs_congr hI.logs (by rw [e1]) (by rw [e1]) e7 e5 e6 e3 e4
  · obtain ⟨_, _, _, hn, ha, _, hF, _, _⟩ := pigeon_deliver_ok hd
    have hfresh : (h.world.arena h.world.next).dropped = false := by
      cases hx : (h.world.arena h.world.next).dropped
      · rfl
      · exact absurd ((hI.world.dropped_iff _).1 hx).1 (lt_irrefl _)
    refine ⟨inv_pigeon_deliver hI.world hd, ?_, ?_, ?_, ?_⟩
    · intro i
      unfold message.isSending
      rw [hF]
      exact hI.quiet i
    · intro c
      rw [e7, ha]
      have := hI.logs.calls c
      by_cases hc : c = h.world.next
      · subst hc
        rw [hfresh] at this
        simpa using this
      · simpa [hc] using this
    · intro c
      rw [e5, hn, e3, e4, List.filter_append]
      have := hI.logs.allocated c
      by_cases hc : c = h.world.next
      · subst hc
        rw [if_neg (lt_irrefl _)] at this
        rw [this]
        cases alloc <;> simp
      · have hlt : c < h.world.next + 1 ↔ c < h.world.next := by omega
        rw [this]
        have hc2 : ¬ h.world.next = c := fun e => hc e.symm
        cases alloc <;> simp [hc, hc2, hlt, List.filter_cons]
    · intro c
      rw [e6, hn, e3, e4, ha]
      have := hI.logs.deallocated c
      by_cases hc : c = h.world.next
      · subst hc
        rw [if_neg (lt_irrefl _)] at this
        rw [this]
        cases alloc <;> simp
      · rw [this]
        simp only [hc, if_false]
        by_cases hlt : c < h.world.next
        · simp [hlt, Nat.lt_succ_of_lt hlt]
        · have : ¬ c < h.world.next + 1 := by omega
          simp [hlt, this]

/-- The dispatch loop of the second model keeps the structural invariant and
the logs, and changes no flag of a list head. -/
theorem callback_walk_inv {σ ρ : Type} (nest : Nat) (send : World → Nat → σ → σ × Option ρ)
    (hd : ρ → σ → σ × Option iteration_state) (m : Nat) :
    ∀ (fuel : Nat) (visited chain : List Nat) (a : σ) (tr : List Nat) (h : callback.Heap)
      (out : callback.Outcome σ), Inv h.world →
      (h.world.messages m).Senders = visited ++ chain → callback.Logs h →
      callback.message.response.walk nest send hd m fuel visited chain a tr h = some out →
      Inv out.heap.world ∧ callback.Logs out.heap ∧
      (∀ i, (out.heap.world.messages i).Senders_flag = (h.world.messages i).Senders_flag) := by
  intro fuel
  induction fuel with
  | zero =>
    intro visited chain a tr h out _ _ _ hr
    simp [callback.message.response.walk] at hr
  | succ fuel ih =>
    intro visited chain a tr h out hI hl hL hr
    cases chain with
    | nil =>
      simp only [callback.message.response.walk, Option.some.injEq] at hr
      subst hr
      exact ⟨hI, hL, fun _ => rfl⟩
    | cons c next =>
      rw [callback.message.response.walk] at hr
      generalize sender.try_send send hd c h.world a = t at hr
      obtain ⟨a1, d⟩ := t
      cases d with
      | none =>
        simp only [Option.some.injEq] at hr
        subst hr
        exact ⟨hI, hL, fun _ => rfl⟩
      | some d =>
        have hnd : (visited ++ c :: next).Nodup := hl ▸ hI.senders_nodup m
        have hperm : (visited ++ c :: next).Perm (c :: (visited ++ next)) := List.perm_middle
        have hnd2 := List.nodup_cons.1 (hperm.nodup_iff.1 hnd)
        have hcm : c ∈ (h.world.messages m).Senders := by rw [hl]; simp
        cases d with
        | dead =>
          simp only [] at hr
          have hmem : ∀ x, x ∈ visited ++ next ↔ x ∈ (h.world.messages m).Senders ∧ x ≠ c := by
            intro x
            rw [hl, hperm.mem_iff, List.mem_cons]
            constructor
            · intro hx
              exact ⟨Or.inr hx, fun e => hnd2.1 (e ▸ hx)⟩
            · rintro ⟨e | e, ne⟩
              · exact absurd e ne
              · exact e
          cases hdr : callback.contact.drop nest c .message (h.setSenders m (visited ++ next)) with
          | none => simp [hdr] at hr
          | some v =>
            obtain ⟨r2, h2⟩ := v
            have hI2 : Inv h2.world :=
              inv_callback_drop_message hI m c hcm _ hnd2.2 hmem nest .message _ rfl _ h2 hdr
            have hL0 : callback.Logs (h.setSenders m (visited ++ next)) :=
              logs_congr hL rfl rfl rfl rfl rfl rfl rfl
            have hL2 : callback.Logs h2 :=
              logs_callback_drop hL0 nest c .message (hI.sender_owner m c hcm).2 _ h2 hdr
            have hf := callback_drop_frame nest c .message _ _ h2 hdr
            have hfl : ∀ i, (h2.world.messages i).Senders_flag =
                (h.world.messages i).Senders_flag := by
              intro i
              rw [hf.Senders_flag]
              simp
            cases r2 with
            | error e =>
              simp only [hdr, Option.some.injEq] at hr
              subst hr
              exact ⟨hI2, hL2, hfl⟩
            | ok u =>
              simp only [hdr] at hr
              have hl2 : (h2.world.messages m).Senders = visited ++ next := by
                rw [(callback_drop_lists nest c .message _ _ h2 hdr).1 m (by simpa using hnd2.1)]
                simp
              obtain ⟨b1, b2, b3⟩ := ih visited next a1 _ h2 out hI2 hl2 hL2 hr
              exact ⟨b1, b2, fun i => (b3 i).trans (hfl i)⟩
        | progress =>
          exact ih (visited ++ [c]) next a1 _ h out hI (by rw [hl]; simp) hL hr
        | repeat_ =>
          simp only [] at hr
          have hI2 : Inv (h.world.setSenders m (c :: (next ++ visited))) := by
            refine inv_setSenders_perm hI m _ ?_ ?_
            · exact (List.Perm.nodup_iff (by
                refine List.Perm.trans ?_ hperm.symm
                exact List.Perm.cons c List.perm_append_comm)).2 hnd
            · intro x
              rw [hl]
              simp only [List.mem_cons, List.mem_append]
              tauto
          obtain ⟨b1, b2, b3⟩ := ih [c] (next ++ visited) a1 _
            (h.setSenders m (c :: (next ++ visited))) out hI2 (by simp)
            (logs_congr hL rfl rfl rfl rfl rfl rfl rfl) hr
          exact ⟨b1, b2, fun i => (b3 i).trans (by simp)⟩
        | finish =>
          simp only [Option.some.injEq] at hr
          subst hr
          exact ⟨hI, hL, fun _ => rfl⟩

theorem callback_inv_response {σ ρ : Type} {h : callback.Heap} (hI : callback.Inv h)
    (nest fuel : Nat) (send : World → Nat → σ → σ × Option ρ)
    (hd : ρ → σ → σ × Option iteration_state) (m : Nat) (a : σ) (out : callback.Outcome σ)
    (hr : callback.message.response nest fuel send hd m a h = some out) :
    callback.Inv out.heap := by
  unfold callback.message.response at hr
  simp only [hI.quiet m, Bool.false_eq_true, if_false] at hr
  cases hw : callback.message.response.walk nest send hd m fuel [] (h.world.messages m).Senders
      a [] { h with world := h.world.setSending m true } with
  | none => simp [hw] at hr
  | some out1 =>
    simp only [hw, Option.some.injEq] at hr
    subst hr
    obtain ⟨b1, b2, b3⟩ := callback_walk_inv nest send hd m fuel []
      (h.world.messages m).Senders a [] { h with world := h.world.setSending m true } out1
      (inv_setSending hI.world m true) (by simp)
      (logs_congr hI.logs rfl rfl rfl rfl rfl rfl rfl) hw
    refine ⟨inv_setSending b1 m false, ?_, logs_congr b2 rfl rfl rfl rfl rfl rfl rfl⟩
    intro i
    have hq := hI.quiet i
    unfold message.isSending at hq ⊢
    simp only [World.setSending_flag]
    split
    · rfl
    · next hne =>
      rw [b3 i]
      simpa [hne] using hq

theorem callback_step_inv {h h1 : callback.Heap} (hs : callback.Step h h1)
    (hI : callback.Inv h) : callback.Inv h1 := by
  cases hs with
  | deliver p m alloc f size_bytes => exact callback_inv_deliver hI p m alloc f size_bytes
  | message_drop fuel m token hr => exact (callback_inv_message_drop hI fuel m token _ _ hr).2
  | pigeon_drop fuel p token hr => exact (callback_inv_pigeon_drop hI fuel p token _ _ hr).2
  | message_clear fuel m hr => exact (callback_inv_message_clear hI fuel m _ _ hr).2
  | pigeon_clear fuel p hr => exact (callback_inv_pigeon_clear hI fuel p _ _ hr).2
  | response nest fuel send hd m a hr => exact callback_inv_response hI nest fuel send hd m a _ hr
  | pigeon_destructor fuel p hr => exact (callback_inv_pigeon_destructor hI fuel p _ _ hr).2

theorem callback_steps_inv {h h1 : callback.Heap} (hs : callback.Steps h h1)
    (hI : callback.Inv h) : callback.Inv h1 := by
  induction hs with
  | refl => exact hI
  | tail _ hstep ih => exact callback_step_inv hstep ih

theorem callback_inv_init (allocators : Nat → callback.allocator) :
    callback.Inv (callback.Heap.init allocators) :=
  ⟨inv_init, fun _ => rfl,
    ⟨fun _ => rfl, fun c => by simp [callback.Heap.init, World.init],
      fun c => by simp [callback.Heap.init, World.init]⟩⟩

/-- Every heap that a program of the second model can reach satisfies the
invariant. -/
theorem callback_reachable_inv {h : callback.Heap} (hr : callback.Reachable h) :
    callback.Inv h := by
  obtain ⟨allocators, hs⟩ := hr
  exact callback_steps_inv hs (callback_inv_init allocators)

/-! ## Callback and allocator records -/

/-- The callback records that a clear loop adds carry the side of the loop and
the token of an entry of the chain. -/
theorem callback_chain_calls (fuel : Nat) (s : who) :
    ∀ (l : List Nat) (h : callback.Heap) (r : Except logic_error Unit) (h1 : callback.Heap),
      callback.drop_chain fuel s l h = some (r, h1) →
      ∃ new, h1.on_drop_calls = new ++ h.on_drop_calls ∧ ∀ e ∈ new, e.2 = s ∧ e.1 ∈ l := by
  intro l
  induction l with
  | nil =>
    intro h r h1 hr
    simp only [callback.drop_chain, Option.some.injEq, Prod.mk.injEq] at hr
    obtain ⟨_, rfl⟩ := hr
    exact ⟨[], rfl, fun e he => by cases he⟩
  | cons c next ih =>
    intro h r h1 hr
    unfold callback.drop_chain at hr
    cases hd : callback.contact.drop fuel c s h with
    | none => simp [hd] at hr
    | some v =>
      obtain ⟨r2, h2⟩ := v
      obtain ⟨_, e2, _⟩ := callback_drop_effect fuel c s h r2 h2 hd
      have h2new : ∃ new, h2.on_drop_calls = new ++ h.on_drop_calls ∧
          ∀ e ∈ new, e.2 = s ∧ e.1 ∈ c :: next := by
        cases hdr : (h.world.arena c).dropped
        · rw [hdr] at e2
          refine ⟨[(c, s)], by simpa using e2, ?_⟩
          intro e he
          simp only [List.mem_singleton] at he
          subst he
          exact ⟨rfl, List.mem_cons_self _ _⟩
        · rw [hdr] at e2
          exact ⟨[], by simpa using e2, fun e he => by cases he⟩
      cases r2 with
      | error e =>
        simp only [hd, Option.some.injEq, Prod.mk.injEq] at hr
        obtain ⟨_, rfl⟩ := hr
        exact h2new
      | ok u =>
        simp only [hd] at hr
        obtain ⟨new1, a1, a2⟩ := h2new
        obtain ⟨new2, b1, b2⟩ := ih h2 r h1 hr
        refine ⟨new2 ++ new1, by rw [b1, a1, List.append_assoc], ?_⟩
        intro e he
        rcases List.mem_append.1 he with he | he
        · exact ⟨(b2 e he).1, List.mem_cons_of_mem _ (b2 e he).2⟩
        · exact a2 e he

/-- The callback records that a dispatch loop adds carry `who::message` and
the token of an entry of the list. -/
theorem callback_walk_calls {σ ρ : Type} (nest : Nat) (send : World → Nat → σ → σ × Option ρ)
    (hd : ρ → σ → σ × Option iteration_state) (m : Nat) :
    ∀ (fuel : Nat) (visited chain : List Nat) (a : σ) (tr : List Nat) (h : callback.Heap)
      (out : callback.Outcome σ),
      callback.message.response.walk nest send hd m fuel visited chain a tr h = some out →
      ∃ new, out.heap.on_drop_calls = new ++ h.on_drop_calls ∧
        ∀ e ∈ new, e.2 = who.message ∧ e.1 ∈ visited ++ chain := by
  intro fuel
  induction fuel with
  | zero =>
    intro visited chain a tr h out hr
    simp [callback.message.response.walk] at hr
  | succ fuel ih =>
    intro visited chain a tr h out hr
    have hnil : ∀ g : callback.Heap, ∃ new : List (contact_token × who),
        g.on_drop_calls = new ++ g.on_drop_calls ∧
        ∀ e ∈ new, e.2 = who.message ∧ e.1 ∈ visited ++ chain :=
      fun g => ⟨[], rfl, fun e he => by cases he⟩
    cases chain with
    | nil =>
      simp only [callback.message.response.walk, Option.some.injEq] at hr
      subst hr
      exact hnil h
    | cons c next =>
      rw [callback.message.response.walk] at hr
      generalize sender.try_send send hd c h.world a = t at hr
      obtain ⟨a1, d⟩ := t
      cases d with
      | none =>
        simp only [Option.some.injEq] at hr
        subst hr
        exact hnil h
      | some d =>
        cases d with
        | dead =>
          simp only [] at hr
          cases hdr : callback.contact.drop nest c .message (h.setSenders m (visited ++ next)) with
          | none => simp [hdr] at hr
          | some v =>
            obtain ⟨r2, h2⟩ := v
            obtain ⟨_, e2, _⟩ := callback_drop_effect nest c .message _ r2 h2 hdr
            have h2new : ∃ new, h2.on_drop_calls = new ++ h.on_drop_calls ∧
                ∀ e ∈ new, e.2 = who.message ∧ e.1 ∈ visited ++ c :: next := by
              cases hfl : ((h.setSenders m (visited ++ next)).world.arena c).dropped
              · rw [hfl] at e2
                refine ⟨[(c, .message)], by simpa using e2, ?_⟩
                intro e he
                simp only [List.mem_singleton] at he
                subst he
                exact ⟨rfl, by simp⟩
              · rw [hfl] at e2
                exact ⟨[], by simpa using e2, fun e he => by cases he⟩
            cases r2 with
            | error e =>
              simp only [hdr, Option.some.injEq] at hr
              subst hr
              exact h2new
            | ok u =>
              simp only [hdr] at hr
              obtain ⟨new1, a1, a2⟩ := h2new
              obtain ⟨new2, b1, b2⟩ := ih visited next _ _ h2 out hr
              refine ⟨new2 ++ new1, by rw [b1, a1, List.append_assoc], ?_⟩
              intro e he
              rcases List.mem_append.1 he with he | he
              · refine ⟨(b2 e he).1, ?_⟩
                have := (b2 e he).2
                simp only [List.mem_append, List.mem_cons] at this ⊢
                tauto
              · exact a2 e he
        | progress =>
          obtain ⟨new, b1, b2⟩ := ih (visited ++ [c]) next _ _ h out hr
          refine ⟨new, b1, fun e he => ⟨(b2 e he).1, ?_⟩⟩
          have := (b2 e he).2
          simp only [List.mem_append, List.mem_cons, List.mem_singleton] at this ⊢
          tauto
        | repeat_ =>
          obtain ⟨new, b1, b2⟩ := ih [c] (next ++ visited) _ _
            (h.setSenders m (c :: (next ++ visited))) out hr
          refine ⟨new, b1, fun e he => ⟨(b2 e he).1, ?_⟩⟩
          have := (b2 e he).2
          simp only [List.mem_append, List.mem_cons, List.mem_singleton] at this ⊢
          tauto
        | finish =>
          simp only [Option.some.injEq] at hr
          subst hr
          exact hnil h

theorem demo_stack_two_reachable : callback.Reachable callback.Demo.stack_two :=
  ⟨fun _ => .arena ⟨100, 8, 64, 0⟩,
    (Relation.ReflTransGen.single
      (callback.Step.deliver 0 0 (some 0) (.onDrop_handler 0) 40)).tail
      (callback.Step.deliver 0 0 (some 0) (.onDrop_handler 0) 40)⟩

/-- With a response handler that always answers `progress`, the answer `dead`
comes from a flagged entry. -/
theorem try_send_dead_flagged {σ ρ : Type} (send : World → Nat → σ → σ × Option ρ)
    (h : ρ → σ → σ × Option iteration_state) (hh : ∀ r s, (h r s).2 = some .progress)
    (c : Nat) (w : World) (a : σ)
    (hd : (sender.try_send send h c w a).2 = some .dead) : (w.arena c).dropped = true := by
  unfold sender.try_send at hd
  cases hfl : (w.arena c).dropped
  · simp only [contact.isDropped, hfl, Bool.false_eq_true, if_false] at hd
    unfold sender.do_send at hd
    generalize send w c a = r at hd
    obtain ⟨a1, o⟩ := r
    cases o with
    | none => simp at hd
    | some r1 =>
      simp only [hh r1 a1] at hd
      cases hd
  · rfl

/-- A dispatch loop whose response handler always answers `progress` only
drops entries that are flagged already, so it flags no node. -/
theorem callback_walk_progress_flags {σ ρ : Type} (nest : Nat)
    (send : World → Nat → σ → σ × Option ρ) (hd : ρ → σ → σ × Option iteration_state)
    (hh : ∀ r s, (hd r s).2 = some .progress) (m : Nat) :
    ∀ (fuel : Nat) (visited chain : List Nat) (a : σ) (tr : List Nat) (h : callback.Heap)
      (out : callback.Outcome σ),
      callback.message.response.walk nest send hd m fuel visited chain a tr h = some out →
      ∀ x, (out.heap.world.arena x).dropped = (h.world.arena x).dropped := by
  intro fuel
  induction fuel with
  | zero =>
    intro visited chain a tr h out hr
    simp [callback.message.response.walk] at hr
  | succ fuel ih =>
    intro visited chain a tr h out hr
    cases chain with
    | nil =>
      simp only [callback.message.response.walk, Option.some.injEq] at hr
      subst hr
      exact fun _ => rfl
    | cons c next =>
      rw [callback.message.response.walk] at hr
      obtain ⟨h1, h2, h3⟩ := try_send_progress_only send hd hh c h.world a
      have h4 := try_send_dead_flagged send hd hh c h.world a
      generalize sender.try_send send hd c h.world a = t at hr h1 h2 h3 h4
      obtain ⟨a1, d⟩ := t
      cases d with
      | none =>
        simp only [Option.some.injEq] at hr
        subst hr
        exact fun _ => rfl
      | some d =>
        cases d with
        | dead =>
          simp only [] at hr
          have hfl : (h.world.arena c).dropped = true := h4 rfl
          cases hdr : callback.contact.drop nest c .message (h.setSenders m (visited ++ next)) with
          | none => simp [hdr] at hr
          | some v =>
            obtain ⟨r2, h2⟩ := v
            have hsame : ∀ x, (h2.world.arena x).dropped = (h.world.arena x).dropped := by
              intro x
              by_cases hx : x = c
              · subst hx
                rw [(callback_drop_effect nest x .message _ r2 h2 hdr).1, hfl]
              · rw [(callback_drop_frame nest c .message _ r2 h2 hdr).arena x hx]
                rfl
            cases r2 with
            | error e =>
              simp only [hdr, Option.some.injEq] at hr
              subst hr
              exact hsame
            | ok u =>
              simp only [hdr] at hr
              intro x
              rw [ih visited next a1 _ h2 out hr x, hsame x]
        | progress => exact ih (visited ++ [c]) next a1 _ h out hr
        | repeat_ => exact absurd rfl h1
        | finish => exact absurd rfl h2

/-! ## Drops from the message side with `onDrop_handler` -/

/-- A drop issued by a message leaves a contact whose callback is
`onDrop_handler` in the list of its pigeon: the handler only acts on
`who::pigeon`. -/
theorem callback_drop_message_keeps (fuel c M p : Nat) (x : Nat) (g : callback.Heap)
    (r : Except logic_error Unit) (g1 : callback.Heap)
    (hcb : g.on_drop c = .onDrop_handler M) (hp : c ∈ (g.world.pigeons p).contacts)
    (hd : callback.contact.drop fuel x .message g = some (r, g1)) :
    g1.on_drop c = .onDrop_handler M ∧ c ∈ (g1.world.pigeons p).contacts ∧
    (g1.world.arena c).owner_message = (g.world.arena c).owner_message := by
  by_cases hx : c = x
  · subst hx
    cases fuel with
    | zero => simp [callback.contact.drop] at hd
    | succ k =>
      rw [callback_drop_succ] at hd
      split at hd
      · simp only [Option.some.injEq, Prod.mk.injEq] at hd
        obtain ⟨_, rfl⟩ := hd
        refine ⟨?_, ?_, ?_⟩
        · unfold callback.contact.destruct; cases g.Alloc c <;> exact hcb
        · rw [callback_destruct_world]; simpa [contact.destruct] using hp
        · rw [callback_destruct_world]; simp [contact.destruct]
      · rw [hcb] at hd
        simp only [callback.on_drop.call, Option.some.injEq, Prod.mk.injEq] at hd
        obtain ⟨_, rfl⟩ := hd
        exact ⟨hcb, hp, by simp⟩
  · have hf := callback_drop_frame fuel x .message g r g1 hd
    exact ⟨by rw [hf.on_drop]; exact hcb, hf.contacts_mem p c hx hp, by rw [hf.arena c hx]⟩

theorem callback_chain_message_keeps (fuel c M p : Nat) :
    ∀ (l : List Nat) (g : callback.Heap) (r : Except logic_error Unit) (g1 : callback.Heap),
      g.on_drop c = .onDrop_handler M → c ∈ (g.world.pigeons p).contacts →
      callback.drop_chain fuel .message l g = some (r, g1) →
      g1.on_drop c = .onDrop_handler M ∧ c ∈ (g1.world.pigeons p).contacts ∧
      (g1.world.arena c).owner_message = (g.world.arena c).owner_message := by
  intro l
  induction l with
  | nil =>
    intro g r g1 hcb hp hr
    simp only [callback.drop_chain, Option.some.injEq, Prod.mk.injEq] at hr
    obtain ⟨_, rfl⟩ := hr
    exact ⟨hcb, hp, rfl⟩
  | cons x next ih =>
    intro g r g1 hcb hp hr
    unfold callback.drop_chain at hr
    cases hd : callback.contact.drop fuel x .message g with
    | none => simp [hd] at hr
    | some v =>
      obtain ⟨r2, g2⟩ := v
      obtain ⟨a1, a2, a3⟩ := callback_drop_message_keeps fuel c M p x g r2 g2 hcb hp hd
      cases r2 with
      | error e =>
        simp only [hd, Option.some.injEq, Prod.mk.injEq] at hr
        obtain ⟨_, rfl⟩ := hr
        exact ⟨a1, a2, a3⟩
      | ok u =>
        simp only [hd] at hr
        obtain ⟨b1, b2, b3⟩ := ih g2 r g1 a1 a2 hr
        exact ⟨b1, b2, b3.trans a3⟩

theorem callback_walk_keeps {σ ρ : Type} (nest : Nat) (send : World → Nat → σ → σ × Option ρ)
    (hd : ρ → σ → σ × Option iteration_state) (m c M p : Nat) :
    ∀ (fuel : Nat) (visited chain : List Nat) (a : σ) (tr : List Nat) (g : callback.Heap)
      (out : callback.Outcome σ),
      g.on_drop c = .onDrop_handler M → c ∈ (g.world.pigeons p).contacts →
      callback.message.response.walk nest send hd m fuel visited chain a tr g = some out →
      out.heap.on_drop c = .onDrop_handler M ∧ c ∈ (out.heap.world.pigeons p).contacts ∧
      (out.heap.world.arena c).owner_message = (g.world.arena c).owner_message := by
  intro fuel
  induction fuel with
  | zero =>
    intro visited chain a tr g out _ _ hr
    simp [callback.message.response.walk] at hr
  | succ fuel ih =>
    intro visited chain a tr g out hcb hp hr
    cases chain with
    | nil =>
      simp only [callback.message.response.walk, Option.some.injEq] at hr
      subst hr
      exact ⟨hcb, hp, rfl⟩
    | cons x next =>
      rw [callback.message.response.walk] at hr
      generalize sender.try_send send hd x g.world a = t at hr
      obtain ⟨a1, d⟩ := t
      cases d with
      | none =>
        simp only [Option.some.injEq] at hr
        subst hr
        exact ⟨hcb, hp, rfl⟩
      | some d =>
        cases d with
        | dead =>
          simp only [] at hr
          cases hdr : callback.contact.drop nest x .message (g.setSenders m (visited ++ next)) with
          | none => simp [hdr] at hr
          | some v =>
            obtain ⟨r2, g2⟩ := v
            obtain ⟨a1, a2, a3⟩ := callback_drop_message_keeps nest c M p x
              (g.setSenders m (visited ++ next)) r2 g2 hcb hp hdr
            cases r2 with
            | error e =>
              simp only [hdr, Option.some.injEq] at hr
              subst hr
              exact ⟨a1, a2, a3⟩
            | ok u =>
              simp only [hdr] at hr
              obtain ⟨b1, b2, b3⟩ := ih visited next _ _ g2 out a1 a2 hr
              exact ⟨b1, b2, b3.trans a3⟩
        | progress => exact ih (visited ++ [x]) next _ _ g out hcb hp hr
        | repeat_ =>
          exact ih [x] (next ++ visited) _ _ (g.setSenders m (x :: (next ++ visited))) out
            hcb hp hr
        | finish =>
          simp only [Option.some.injEq] at hr
          subst hr
          exact ⟨hcb, hp, rfl⟩

/-- In a heap that satisfies the invariant, a contact in the list of a pigeon
is not destructed and nothing was deallocated for it. -/
theorem callback_listed_not_destructed {g : callback.Heap} (hI : callback.Inv g) {c p : Nat}
    (hp : c ∈ (g.world.pigeons p).contacts) :
    (g.world.arena c).destructs = 0 ∧
    g.deallocate_calls.filter (fun r => decide (r.storage = c)) = [] := by
  have hlt := (hI.world.contact_owner p c hp).2
  have hP : g.world.inPigeon c := by
    unfold World.inPigeon; rw [(hI.world.contact_owner p c hp).1]; exact hp
  have hz := hI.world.destructs_zero c (Or.inr (Or.inr hP))
  refine ⟨hz, ?_⟩
  rw [hI.logs.deallocated c, if_pos hlt, hz]
  cases g.Alloc c <;> rfl

/-- In a heap that satisfies the invariant, a contact that is in the list of
a pigeon but no longer in the list of its message is flagged. -/
theorem callback_half_dropped {g : callback.Heap} (hI : callback.Inv g) {c m p : Nat}
    (hp : c ∈ (g.world.pigeons p).contacts) (hown : (g.world.arena c).owner_message = m)
    (hm : c ∉ (g.world.messages m).Senders) : (g.world.arena c).dropped = true := by
  refine (hI.world.dropped_iff c).2 ⟨(hI.world.contact_owner p c hp).2, fun hb => hm ?_⟩
  have := hb.1
  unfold World.inMessage at this
  rwa [hown] at this

/-! ## Callbacks that forward the drop to the other side -/

theorem demo_either_reachable : callback.Reachable callback.Demo.either :=
  ⟨fun _ => .recording false false,
    Relation.ReflTransGen.single (callback.Step.deliver 0 0 (some 0) (.drop_other 0 0) 48)⟩

/-- The drop of a live node whose callback forwards to the other side, issued
by the pigeon while the message is not dispatching: the callback calls
`m.drop(token)`, which unlinks the node and drops it again, and this second
drop destructs it. -/
theorem callback_drop_other_pigeon (fuel c p m : Nat) (h : callback.Heap)
    (hcb : h.on_drop c = .drop_other p m)
    (hlive : (h.world.arena c).dropped = false)
    (hs : message.isSending m h.world = false)
    (hm : c ∈ (h.world.messages m).Senders) :
    callback.contact.drop (fuel + 2) c .pigeon h =
      some (.ok (), callback.contact.destruct c
        ((h.setDropped c .pigeon).setSenders m ((h.world.messages m).Senders.erase c))) := by
  have hs1 : message.isSending m
      (h.world.setContact c { h.world.arena c with dropped := true }) = false := hs
  rw [callback_drop_succ]
  simp only [contact.isDropped, hlive, Bool.false_eq_true, if_false, hcb]
  unfold callback.on_drop.call callback.message.drop_body
  simp only [hs1, Bool.false_eq_true, if_false, World.setContact_messages, unlink_of_mem hm]
  rw [callback_drop_flagged fuel c .message _ (by simp)]
  rfl

/-- The same drop issued by the message: the callback calls `p.drop(token)`. -/
theorem callback_drop_other_message (fuel c p m : Nat) (h : callback.Heap)
    (hcb : h.on_drop c = .drop_other p m)
    (hlive : (h.world.arena c).dropped = false)
    (hp : c ∈ (h.world.pigeons p).contacts) :
    callback.contact.drop (fuel + 2) c .message h =
      some (.ok (), callback.contact.destruct c
        ((h.setDropped c .message).setContacts p ((h.world.pigeons p).contacts.erase c))) := by
  rw [callback_drop_succ]
  simp only [contact.isDropped, hlive, Bool.false_eq_true, if_false, hcb]
  unfold callback.on_drop.call callback.pigeon.drop_body
  simp only [World.setContact_pigeons, unlink_of_mem hp]
  rw [callback_drop_flagged fuel c .pigeon _ (by simp)]
  rfl

/-! ## The arena allocators -/

/-- The rounding of `allocate` without wrap-around: the least multiple of
`MinAlignment` that is not below the size. -/
theorem arena_rounded (size_bytes al bits : Nat) (hal : 0 < al)
    (hsize : size_bytes + al ≤ 2 ^ bits) :
    ((size_bytes + al + (2 ^ bits - 1)) % 2 ^ bits / al * al) % 2 ^ bits =
      (size_bytes + al - 1) / al * al ∧
    al ∣ (size_bytes + al - 1) / al * al ∧
    size_bytes ≤ (size_bytes + al - 1) / al * al ∧
    (size_bytes + al - 1) / al * al < size_bytes + al := by
  have hpos : 0 < 2 ^ bits := Nat.two_pow_pos bits
  have e1 : size_bytes + al + (2 ^ bits - 1) = (size_bytes + al - 1) + 2 ^ bits := by omega
  have e2 : (size_bytes + al + (2 ^ bits - 1)) % 2 ^ bits = size_bytes + al - 1 := by
    rw [e1, Nat.add_mod_right, Nat.mod_eq_of_lt (by omega)]
  have h1 := Nat.div_add_mod (size_bytes + al - 1) al
  have h2 := Nat.mod_lt (size_bytes + al - 1) hal
  have h3 : (size_bytes + al - 1) / al * al = al * ((size_bytes + al - 1) / al) :=
    Nat.mul_comm _ _
  refine ⟨?_, ?_, ?_, ?_⟩
  · rw [e2, Nat.mod_eq_of_lt]
    rw [h3]; omega
  · exact Dvd.intro_left _ rfl
  · rw [h3]; omega
  · rw [h3]; omega

/-- The two outcomes of `allocate` of an arena allocator without wrap-around. -/
theorem arena_allocate_eq (a : callback.arena_allocator) (size_bytes : Nat)
    (hal : 0 < a.MinAlignment) (hsize : size_bytes + a.MinAlignment ≤ 2 ^ a.size_bits)
    (hw : a.ByteIndex + (size_bytes + a.MinAlignment - 1) / a.MinAlignment * a.MinAlignment
      < 2 ^ a.size_bits) :
    a.allocate size_bytes =
      (if a.N ≤ a.ByteIndex + (size_bytes + a.MinAlignment - 1) / a.MinAlignment * a.MinAlignment
        then .error .not_enough_memory else .ok a.ByteIndex,
       { a with ByteIndex :=
          a.ByteIndex + (size_bytes + a.MinAlignment - 1) / a.MinAlignment * a.MinAlignment }) := by
  unfold callback.arena_allocator.allocate
  simp only [(arena_rounded size_bytes a.MinAlignment a.size_bits hal hsize).1,
    Nat.mod_eq_of_lt hw, ge_iff_le]
  split <;> rfl

theorem arena_available (a : callback.arena_allocator) (hN : a.N < 2 ^ a.size_bits)
    (hb : a.ByteIndex ≤ a.N) :
    callback.allocator_pigeon.available_memory a = a.N - a.ByteIndex := by
  unfold callback.allocator_pigeon.available_memory callback.allocator_pigeon.total_memory
    callback.allocator_pigeon.used_memory callback.arena_allocator.capacity
  rw [Nat.mod_eq_of_lt (show a.ByteIndex < 2 ^ a.size_bits by omega)]
  have e : a.N + 2 ^ a.size_bits - a.ByteIndex = (a.N - a.ByteIndex) + 2 ^ a.size_bits := by
    omega
  rw [e, Nat.add_mod_right, Nat.mod_eq_of_lt (by omega)]

/-! ## Lists only lose existing nodes -/

/-- With an address never used before, `deliver_at` is `deliver`. -/
theorem deliver_at_fresh (p m : Nat) (w : World) :
    pigeon.deliver_at w.next p m w = some (pigeon.deliver p m w) := by
  unfold pigeon.deliver_at pigeon.deliver message.make_contact_at message.make_contact
    World.free
  simp

theorem shrinks_refl (h : callback.Heap) : callback.Shrinks h h :=
  ⟨Nat.le_refl _, fun _ _ _ hx => hx, fun _ _ _ hx => hx⟩

theorem shrinks_trans {h h1 h2 : callback.Heap} (a : callback.Shrinks h h1)
    (b : callback.Shrinks h1 h2) : callback.Shrinks h h2 :=
  ⟨Nat.le_trans a.next b.next,
    fun c i hc hx => a.Senders c i hc (b.Senders c i (Nat.lt_of_lt_of_le hc a.next) hx),
    fun c i hc hx => a.contacts c i hc (b.contacts c i (Nat.lt_of_lt_of_le hc a.next) hx)⟩

theorem shrinks_of_frame {D : Nat → Prop} {h h1 : callback.Heap} (f : callback.Frame D h h1) :
    callback.Shrinks h h1 :=
  ⟨Nat.le_of_eq f.next.symm, fun _ i _ hx => (f.Senders_sub i).subset hx,
    fun _ i _ hx => (f.contacts_sub i).subset hx⟩

theorem shrinks_of_world {h h1 : callback.Heap}
    (hn : h.world.next ≤ h1.world.next)
    (hm : ∀ i, (h1.world.messages i).Senders ⊆ (h.world.messages i).Senders)
    (hp : ∀ i, (h1.world.pigeons i).contacts ⊆ (h.world.pigeons i).contacts) :
    callback.Shrinks h h1 :=
  ⟨hn, fun _ i _ hx => hm i hx, fun _ i _ hx => hp i hx⟩

theorem shrinks_setSenders (h : callback.Heap) (m : Nat) (l : List Nat)
    (hl : l ⊆ (h.world.messages m).Senders) : callback.Shrinks h (h.setSenders m l) := by
  refine shrinks_of_world (Nat.le_refl _) (fun i => ?_) (fun i => by simp)
  simp only [Heap.setSenders_world, World.setSenders_Senders]
  split
  · next hi => subst hi; exact hl
  · exact fun _ hx => hx

theorem shrinks_setContacts (h : callback.Heap) (p : Nat) (l : List Nat)
    (hl : l ⊆ (h.world.pigeons p).contacts) : callback.Shrinks h (h.setContacts p l) := by
  refine shrinks_of_world (Nat.le_refl _) (fun i => by simp) (fun i => ?_)
  simp only [Heap.setContacts_world, World.setContacts_contacts]
  split
  · next hi => subst hi; exact hl
  · exact fun _ hx => hx

theorem shrinks_drop_chain (fuel : Nat) (s : who) (l : List Nat) (h : callback.Heap)
    (r : Except logic_error Unit) (h1 : callback.Heap)
    (hr : callback.drop_chain fuel s l h = some (r, h1)) : callback.Shrinks h h1 :=
  shrinks_of_frame (callback_drop_chain_frame fuel s l h r h1 hr)

theorem shrinks_message_drop (fuel m token : Nat) (h : callback.Heap)
    (r : Except logic_error Bool) (h1 : callback.Heap)
    (hr : callback.message.drop fuel m token h = some (r, h1)) : callback.Shrinks h h1 := by
  unfold callback.message.drop callback.message.drop_body at hr
  split at hr
  · simp only [Option.some.injEq, Prod.mk.injEq] at hr
    rw [← hr.2]; exact shrinks_refl h
  · cases hu : unlink token (h.world.messages m).Senders with
    | none =>
      simp only [hu, Option.some.injEq, Prod.mk.injEq] at hr
      rw [← hr.2]; exact shrinks_refl h
    | some rest =>
      simp only [hu] at hr
      have hrest := (unlink_eq_some hu).2
      cases hd : callback.contact.drop fuel token .message
          (h.setSenders m rest) with
      | none =>
        have : callback.contact.drop fuel token .message
          { h with world := h.world.setSenders m rest } = none := hd
        simp [this] at hr
      | some v =>
        have hd2 : callback.contact.drop fuel token .message
          { h with world := h.world.setSenders m rest } = some v := hd
        obtain ⟨r2, g⟩ := v
        have hs := shrinks_trans
          (shrinks_setSenders h m rest (by rw [hrest]; exact List.erase_subset _ _))
          (shrinks_of_frame (callback_drop_frame fuel token .message _ r2 g hd))
        cases r2 with
        | error e =>
          simp only [hd2, Option.some.injEq, Prod.mk.injEq] at hr
          rw [← hr.2]; exact hs
        | ok u =>
          simp only [hd2, Option.some.injEq, Prod.mk.injEq] at hr
          rw [← hr.2]; exact hs

theorem shrinks_pigeon_drop (fuel p token : Nat) (h : callback.Heap)
    (r : Except logic_error Bool) (h1 : callback.Heap)
    (hr : callback.pigeon.drop fuel p token h = some (r, h1)) : callback.Shrinks h h1 := by
  unfold callback.pigeon.drop callback.pigeon.drop_body at hr
  cases hu : unlink token (h.world.pigeons p).contacts with
  | none =>
    simp only [hu, Option.some.injEq, Prod.mk.injEq] at hr
    rw [← hr.2]; exact shrinks_refl h
  | some rest =>
    simp only [hu] at hr
    have hrest := (unlink_eq_some hu).2
    cases hd : callback.contact.drop fuel token .pigeon
        (h.setContacts p rest) with
    | none =>
      have : callback.contact.drop fuel token .pigeon
        { h with world := h.world.setContacts p rest } = none := hd
      simp [this] at hr
    | some v =>
      have hd2 : callback.contact.drop fuel token .pigeon
        { h with world := h.world.setContacts p rest } = some v := hd
      obtain ⟨r2, g⟩ := v
      have hs := shrinks_trans
        (shrinks_setContacts h p rest (by rw [hrest]; exact List.erase_subset _ _))
        (shrinks_of_frame (callback_drop_frame fuel token .pigeon _ r2 g hd))
      cases r2 with
      | error e =>
        simp only [hd2, Option.some.injEq, Prod.mk.injEq] at hr
        rw [← hr.2]; exact hs
      | ok u =>
        simp only [hd2, Option.some.injEq, Prod.mk.injEq] at hr
        rw [← hr.2]; exact hs

theorem shrinks_message_clear (fuel m : Nat) (h : callback.Heap)
    (r : Except logic_error Unit) (h1 : callback.Heap)
    (hr : callback.message.clear fuel m h = some (r, h1)) : callback.Shrinks h h1 := by
  unfold callback.message.clear at hr
  split at hr
  · simp only [Option.some.injEq, Prod.mk.injEq] at hr
    rw [← hr.2]; exact shrinks_refl h
  · exact shrinks_trans (shrinks_setSenders h m [] (by simp))
      (shrinks_drop_chain fuel .message _ (h.setSenders m []) r h1 hr)

theorem shrinks_pigeon_clear (fuel p : Nat) (h : callback.Heap)
    (r : Except logic_error Unit) (h1 : callback.Heap)
    (hr : callback.pigeon.clear fuel p h = some (r, h1)) : callback.Shrinks h h1 := by
  unfold callback.pigeon.clear at hr
  exact shrinks_trans (shrinks_setContacts h p [] (by simp))
    (shrinks_drop_chain fuel .pigeon _ (h.setContacts p []) r h1 hr)

theorem shrinks_walk {σ ρ : Type} (nest : Nat) (send : World → Nat → σ → σ × Option ρ)
    (hd : ρ → σ → σ × Option iteration_state) (m : Nat) (h0 : callback.Heap) :
    ∀ (fuel : Nat) (visited chain : List Nat) (a : σ) (tr : List Nat) (h : callback.Heap)
      (out : callback.Outcome σ), callback.Shrinks h0 h →
      (∀ c ∈ visited ++ chain, c ∈ (h0.world.messages m).Senders) →
      callback.message.response.walk nest send hd m fuel visited chain a tr h = some out →
      callback.Shrinks h0 out.heap := by
  intro fuel
  induction fuel with
  | zero =>
    intro visited chain a tr h out _ _ hr
    simp [callback.message.response.walk] at hr
  | succ fuel ih =>
    intro visited chain a tr h out hs hl hr
    cases chain with
    | nil =>
      simp only [callback.message.response.walk, Option.some.injEq] at hr
      subst hr
      exact hs
    | cons x next =>
      rw [callback.message.response.walk] at hr
      generalize sender.try_send send hd x h.world a = t at hr
      obtain ⟨a1, d⟩ := t
      have hset : ∀ l : List Nat, (∀ c ∈ l, c ∈ (h0.world.messages m).Senders) →
          callback.Shrinks h0 (h.setSenders m l) := by
        intro l hl2
        refine ⟨hs.next, fun c i hc hx => ?_, fun c i hc hx => hs.contacts c i hc hx⟩
        simp only [Heap.setSenders_world, World.setSenders_Senders] at hx
        split at hx
        · next hi => subst hi; exact hl2 c hx
        · exact hs.Senders c i hc hx
      cases d with
      | none =>
        simp only [Option.some.injEq] at hr
        subst hr
        exact hs
      | some d =>
        cases d with
        | dead =>
          simp only [] at hr
          have hl2 : ∀ c ∈ visited ++ next, c ∈ (h0.world.messages m).Senders := by
            intro c hc
            apply hl c
            simp only [List.mem_append, List.mem_cons] at hc ⊢
            tauto
          cases hdr : callback.contact.drop nest x .message (h.setSenders m (visited ++ next)) with
          | none => simp [hdr] at hr
          | some v =>
            obtain ⟨r2, g2⟩ := v
            have hs2 := shrinks_trans (hset _ hl2)
              (shrinks_of_frame (callback_drop_frame nest x .message _ r2 g2 hdr))
            cases r2 with
            | error e =>
              simp only [hdr, Option.some.injEq] at hr
              subst hr
              exact hs2
            | ok u =>
              simp only [hdr] at hr
              exact ih visited next _ _ g2 out hs2 hl2 hr
        | progress =>
          refine ih (visited ++ [x]) next _ _ h out hs (fun c hc => hl c ?_) hr
          simp only [List.mem_append, List.mem_cons, List.mem_singleton] at hc ⊢
          tauto
        | repeat_ =>
          have hl2 : ∀ c ∈ x :: (next ++ visited), c ∈ (h0.world.messages m).Senders := by
            intro c hc
            apply hl c
            simp only [List.mem_append, List.mem_cons] at hc ⊢
            tauto
          refine ih [x] (next ++ visited) _ _ (h.setSenders m (x :: (next ++ visited))) out
            (hset _ hl2) (fun c hc => hl2 c (by simpa using hc)) hr
        | finish =>
          simp only [Option.some.injEq] at hr
          subst hr
          exact hs

theorem shrinks_response {σ ρ : Type} (nest fuel : Nat) (send : World → Nat → σ → σ × Option ρ)
    (hd : ρ → σ → σ × Option iteration_state) (m : Nat) (a : σ) (h : callback.Heap)
    (out : callback.Outcome σ)
    (hr : callback.message.response nest fuel send hd m a h = some out) :
    callback.Shrinks h out.heap := by
  unfold callback.message.response at hr
  split at hr
  · simp only [Option.some.injEq] at hr
    subst hr
    exact shrinks_refl h
  · cases hw : callback.message.response.walk nest send hd m fuel [] (h.world.messages m).Senders
        a [] { h with world := h.world.setSending m true } with
    | none => simp [hw] at hr
    | some out1 =>
      simp only [hw, Option.some.injEq] at hr
      have h1 : callback.Shrinks h { h with world := h.world.setSending m true } :=
        shrinks_of_world (Nat.le_refl _) (fun i => by simp) (fun i => by simp)
      have h2 := shrinks_walk nest send hd m h fuel [] _ a []
        { h with world := h.world.setSending m true } out1 h1 (fun c hc => by simpa using hc) hw
      rw [← hr]
      exact ⟨h2.next, fun c i hc hx => h2.Senders c i hc (by simpa using hx),
        fun c i hc hx => h2.contacts c i hc (by simpa using hx)⟩

theorem shrinks_deliver (p m : Nat) (alloc : Option Nat) (f : callback.on_drop)
    (size_bytes : Nat) (h : callback.Heap) :
    callback.Shrinks h (callback.pigeon.deliver p m alloc f size_bytes h).2 := by
  rcases callback_deliver_cases p m alloc f size_bytes h with ⟨_, hw, _⟩ | ⟨_, hw, _⟩
  · exact ⟨by rw [hw], fun c i _ hx => by rwa [hw] at hx, fun c i _ hx => by rwa [hw] at hx⟩
  · have := step_mono (Step.deliver p m h.world.next hw)
    exact ⟨this.1, this.2.1, this.2.2⟩

theorem callback_step_shrinks {h h1 : callback.Heap} (hs : callback.Step h h1) :
    callback.Shrinks h h1 := by
  cases hs with
  | deliver p m alloc f size_bytes => exact shrinks_deliver p m alloc f size_bytes h
  | message_drop fuel m token hr => exact shrinks_message_drop fuel m token h _ h1 hr
  | pigeon_drop fuel p token hr => exact shrinks_pigeon_drop fuel p token h _ h1 hr
  | message_clear fuel m hr => exact shrinks_message_clear fuel m h _ h1 hr
  | pigeon_clear fuel p hr => exact shrinks_pigeon_clear fuel p h _ h1 hr
  | response nest fuel send hd m a hr => exact shrinks_response nest fuel send hd m a h _ hr
  | pigeon_destructor fuel p hr =>
    unfold callback.pigeon.destructor at hr
    have h0 : callback.Shrinks h { h with world := h.world.setDestructing p } :=
      shrinks_of_world (Nat.le_refl _) (fun i => by simp) (fun i => by simp)
    exact shrinks_trans h0 (shrinks_pigeon_clear fuel p _ _ h1 hr)

theorem callback_steps_shrinks {h h1 : callback.Heap} (hs : callback.Steps h h1) :
    callback.Shrinks h h1 := by
  induction hs with
  | refl => exact shrinks_refl h
  | tail _ hstep ih => exact shrinks_trans ih (callback_step_shrinks hstep)

theorem callback_steps_reachable {h h1 : callback.Heap} (hr : callback.Reachable h)
    (hs : callback.Steps h h1) : callback.Reachable h1 := by
  obtain ⟨al, h0⟩ := hr
  exact ⟨al, Relation.ReflTransGen.trans h0 hs⟩

/-- A token that is in no list is not found by `pigeon::drop`, which then
changes nothing. -/
theorem callback_pigeon_drop_not_found (fuel p token : Nat) (h : callback.Heap)
    (hn : token ∉ (h.world.pigeons p).contacts) :
    callback.pigeon.drop fuel p token h = some (.ok false, h) := by
  unfold callback.pigeon.drop callback.pigeon.drop_body
  rw [unlink_eq_none.2 hn]

/-- A token that is in no list is not found by `message::drop` of a message
that is not dispatching, which then changes nothing. -/
theorem callback_message_drop_not_found (fuel m token : Nat) (h : callback.Heap)
    (hs : message.isSending m h.world = false)
    (hn : token ∉ (h.world.messages m).Senders) :
    callback.message.drop fuel m token h = some (.ok false, h) := by
  unfold callback.message.drop callback.message.drop_body
  rw [if_neg (by simp [hs]), unlink_eq_none.2 hn]

/-- After `pigeon::drop` has returned true the token is in no list of a
pigeon. -/
theorem callback_pigeon_drop_true_unlisted {h : callback.Heap} (hI : callback.Inv h)
    (fuel p token : Nat) (h1 : callback.Heap)
    (hr : callback.pigeon.drop fuel p token h = some (.ok true, h1)) :
    token < h1.world.next ∧ ∀ q, token ∉ (h1.world.pigeons q).contacts := by
  unfold callback.pigeon.drop callback.pigeon.drop_body at hr
  cases hu : unlink token (h.world.pigeons p).contacts with
  | none => simp [hu] at hr
  | some rest =>
    simp only [hu] at hr
    obtain ⟨hmem, hrest⟩ := unlink_eq_some hu
    cases hd : callback.contact.drop fuel token .pigeon (h.setContacts p rest) with
    | none =>
      have : callback.contact.drop fuel token .pigeon
        { h with world := h.world.setContacts p rest } = none := hd
      simp [this] at hr
    | some v =>
      have hd2 : callback.contact.drop fuel token .pigeon
        { h with world := h.world.setContacts p rest } = some v := hd
      obtain ⟨r2, g⟩ := v
      have hf := callback_drop_frame fuel token .pigeon _ r2 g hd
      cases r2 with
      | error e => simp [hd2] at hr
      | ok u =>
        simp only [hd2, Option.some.injEq, Prod.mk.injEq, true_and] at hr
        subst hr
        refine ⟨?_, fun q hq => ?_⟩
        · rw [hf.next]; exact (hI.world.contact_owner p token hmem).2
        · have hq2 := (hf.contacts_sub q).subset hq
          simp only [Heap.setContacts_world, World.setContacts_contacts] at hq2
          split at hq2
          · rw [hrest] at hq2
            exact ((List.Nodup.mem_erase_iff (hI.world.contacts_nodup p)).1 hq2).1 rfl
          · next hne => exact hne (inv_contact_unique hI.world hmem hq2)

/-- After `message::drop` has returned true the token is in no list of a
message. -/
theorem callback_message_drop_true_unlisted {h : callback.Heap} (hI : callback.Inv h)
    (fuel m token : Nat) (h1 : callback.Heap)
    (hr : callback.message.drop fuel m token h = some (.ok true, h1)) :
    token < h1.world.next ∧ ∀ i, token ∉ (h1.world.messages i).Senders := by
  unfold callback.message.drop callback.message.drop_body at hr
  rw [if_neg (by simp [hI.quiet m])] at hr
  cases hu : unlink token (h.world.messages m).Senders with
  | none => simp [hu] at hr
  | some rest =>
    simp only [hu] at hr
    obtain ⟨hmem, hrest⟩ := unlink_eq_some hu
    cases hd : callback.contact.drop fuel token .message (h.setSenders m rest) with
    | none =>
      have : callback.contact.drop fuel token .message
        { h with world := h.world.setSenders m rest } = none := hd
      simp [this] at hr
    | some v =>
      have hd2 : callback.contact.drop fuel token .message
        { h with world := h.world.setSenders m rest } = some v := hd
      obtain ⟨r2, g⟩ := v
      have hf := callback_drop_frame fuel token .message _ r2 g hd
      cases r2 with
      | error e => simp [hd2] at hr
      | ok u =>
        simp only [hd2, Option.some.injEq, Prod.mk.injEq, true_and] at hr
        subst hr
        refine ⟨?_, fun q hq => ?_⟩
        · rw [hf.next]; exact (hI.world.sender_owner m token hmem).2
        · have hq2 := (hf.Senders_sub q).subset hq
          simp only [Heap.setSenders_world, World.setSenders_Senders] at hq2
          split at hq2
          · rw [hrest] at hq2
            exact ((List.Nodup.mem_erase_iff (hI.world.senders_nodup m)).1 hq2).1 rfl
          · next hne => exact hne (inv_sender_unique hI.world hmem hq2)

/-! ## The calls that `response` makes -/

theorem spec_paired_cons {ρ : Type} (c : Nat) (f : Bool) (r : ρ) (d : Option iteration_state)
    (rest : List (call_event ρ)) :
    spec_paired (.handler c f (some r) :: .controller r d :: rest) ↔ spec_paired rest := by
  simp [spec_paired]

/-- What `try_send` does with the logged handlers: nothing for a flagged
sender; otherwise one handler call and, when it returned, one call of the
response handler with the value returned. -/
theorem try_send_logged {σ ρ : Type} (send : World → Nat → σ → σ × Option ρ)
    (h : ρ → σ → σ × Option iteration_state) (c : Nat) (w : World) (a : σ)
    (log : List (call_event ρ)) :
    (contact.isDropped c w = true ∧
      sender.try_send (logged_send send) (logged_controller h) c w (a, log) =
        ((a, log), some .dead) ∧
      sender.try_send send h c w a = (a, some .dead)) ∨
    (contact.isDropped c w = false ∧ (send w c a).2 = none ∧
      sender.try_send (logged_send send) (logged_controller h) c w (a, log) =
        (((send w c a).1, log ++ [.handler c false none]), none) ∧
      sender.try_send send h c w a = ((send w c a).1, none)) ∨
    (∃ r, contact.isDropped c w = false ∧ (send w c a).2 = some r ∧
      sender.try_send (logged_send send) (logged_controller h) c w (a, log) =
        (((h r (send w c a).1).1,
          log ++ [.handler c false (some r), .controller r (h r (send w c a).1).2]),
          (h r (send w c a).1).2) ∧
      sender.try_send send h c w a = h r (send w c a).1) := by
  cases hf : contact.isDropped c w with
  | true =>
    left
    simp [sender.try_send, hf]
  | false =>
    right
    cases hs : send w c a with
    | mk a1 r =>
      cases r with
      | none =>
        left
        simp [sender.try_send, sender.do_send, logged_send, hf, hs]
      | some r =>
        right
        refine ⟨r, rfl, rfl, ?_, ?_⟩
        · simp [sender.try_send, sender.do_send, logged_send, logged_controller, hf, hs]
        · simp [sender.try_send, sender.do_send, hf, hs]

/-- The loop of `response` with the logged handlers: the log grows by
well-paired calls, made for entries of the list that were not flagged, and
without the log the result is that of the loop with the plain handlers. -/
theorem walk_logged {σ ρ : Type} (send : World → Nat → σ → σ × Option ρ)
    (h : ρ → σ → σ × Option iteration_state) (m : Nat) :
    ∀ (fuel : Nat) (visited chain : List Nat) (a : σ) (log : List (call_event ρ))
      (tr : List Nat) (w : World),
      (message.response.walk (logged_send send) (logged_controller h) m fuel visited chain
          (a, log) tr w).map Outcome.unlogged =
        message.response.walk send h m fuel visited chain a tr w ∧
      ∀ out, message.response.walk (logged_send send) (logged_controller h) m fuel visited chain
          (a, log) tr w = some out →
        ∃ new, out.user.2 = log ++ new ∧ spec_paired new ∧
          (∀ c f r, call_event.handler c f r ∈ new → f = false ∧ c ∈ visited ++ chain) ∧
          out.trace = tr ++ new.filterMap call_event.handler_of ∧
          (∀ r d, call_event.controller r d ∈ new → ∃ s, d = (h r s).2) := by
  intro fuel
  induction fuel with
  | zero =>
    intro visited chain a log tr w
    simp [message.response.walk]
  | succ fuel ih =>
    intro visited chain a log tr w
    cases chain with
    | nil =>
      simp only [message.response.walk, Option.map_some', Option.some.injEq]
      refine ⟨rfl, fun out ho => ?_⟩
      subst ho
      exact ⟨[], by simp, trivial, by simp, by simp, by simp⟩
    | cons x next =>
      rw [message.response.walk, message.response.walk]
      rcases try_send_logged send h x w a log with ⟨hf, e1, e2⟩ | ⟨hf, hs, e1, e2⟩ |
        ⟨r, hf, hs, e1, e2⟩
      · rw [e1, e2]
        simp only [hf, if_true]
        obtain ⟨i1, i2⟩ := ih visited next a log tr
          (contact.drop x .message (w.setSenders m (visited ++ next)))
        refine ⟨i1, fun out ho => ?_⟩
        obtain ⟨new, n1, n2, n3, n4, n5⟩ := i2 out ho
        refine ⟨new, n1, n2, fun c f r hc => ⟨(n3 c f r hc).1, ?_⟩, n4, n5⟩
        have := (n3 c f r hc).2
        simp only [List.mem_append, List.mem_cons] at this ⊢
        tauto
      · rw [e1, e2]
        simp only [hf, Bool.false_eq_true, if_false, Option.map_some', Option.some.injEq]
        refine ⟨rfl, fun out ho => ?_⟩
        subst ho
        refine ⟨[.handler x false none], rfl, trivial, fun c f r hc => ?_, by
          simp [call_event.handler_of], by simp⟩
        simp only [List.mem_singleton, call_event.handler.injEq] at hc
        obtain ⟨rfl, rfl, _⟩ := hc
        exact ⟨rfl, by simp⟩
      · rw [e1, e2]
        have hmem : ∀ (new : List (call_event ρ)) (l : List Nat),
            (∀ y, y ∈ l → y ∈ visited ++ x :: next) →
            (∀ c f r0, call_event.handler c f r0 ∈ new → f = false ∧ c ∈ l) →
            ∀ c f r0, call_event.handler c f r0 ∈
              (.handler x false (some r) :: .controller r (h r (send w x a).1).2 :: new) →
              f = false ∧ c ∈ visited ++ x :: next := by
          intro new l hl hn c f r0 hc
          simp only [List.mem_cons, call_event.handler.injEq, false_or] at hc
          rcases hc with ⟨rfl, rfl, _⟩ | hc | hc
          · exact ⟨rfl, by simp⟩
          · cases hc
          · exact ⟨(hn c f r0 hc).1, hl c (hn c f r0 hc).2⟩
        have hctl : ∀ (new : List (call_event ρ)),
            (∀ r0 d, call_event.controller r0 d ∈ new → ∃ s, d = (h r0 s).2) →
            ∀ r0 d, call_event.controller r0 d ∈
              (.handler x false (some r) :: .controller r (h r (send w x a).1).2 :: new) →
              ∃ s, d = (h r0 s).2 := by
          intro new hn r0 d hc
          simp only [List.mem_cons, call_event.controller.injEq, false_or] at hc
          rcases hc with hc | ⟨rfl, rfl⟩ | hc
          · cases hc
          · exact ⟨_, rfl⟩
          · exact hn r0 d hc
        cases hd : h r (send w x a).1 with
        | mk a2 d =>
          simp only [hf, Bool.false_eq_true, if_false]
          rw [hd] at hmem hctl
          cases d with
          | none =>
            simp only [Option.map_some', Option.some.injEq]
            refine ⟨rfl, fun out ho => ?_⟩
            subst ho
            refine ⟨[.handler x false (some r), .controller r none], rfl,
              (spec_paired_cons x false r none []).2 trivial,
              hmem [] [] (by simp) (by simp), by simp [call_event.handler_of],
              hctl [] (by simp)⟩
          | some d =>
            have step : ∀ (visited2 chain2 : List Nat) (w2 : World),
                (∀ y, y ∈ visited2 ++ chain2 → y ∈ visited ++ x :: next) →
                ((message.response.walk (logged_send send) (logged_controller h) m fuel
                    visited2 chain2
                    (a2, log ++ [.handler x false (some r), .controller r (some d)])
                    (tr ++ [x]) w2).map Outcome.unlogged =
                  message.response.walk send h m fuel visited2 chain2 a2 (tr ++ [x]) w2 ∧
                ∀ out, message.response.walk (logged_send send) (logged_controller h) m fuel
                    visited2 chain2
                    (a2, log ++ [.handler x false (some r), .controller r (some d)])
                    (tr ++ [x]) w2 = some out →
                  ∃ new, out.user.2 = log ++ new ∧ spec_paired new ∧
                    (∀ c f r0, call_event.handler c f r0 ∈ new →
                      f = false ∧ c ∈ visited ++ x :: next) ∧
                    out.trace = tr ++ new.filterMap call_event.handler_of ∧
                    (∀ r0 d0, call_event.controller r0 d0 ∈ new → ∃ s, d0 = (h r0 s).2)) := by
              intro visited2 chain2 w2 hl
              obtain ⟨i1, i2⟩ := ih visited2 chain2 a2
                (log ++ [.handler x false (some r), .controller r (some d)]) (tr ++ [x]) w2
              refine ⟨i1, fun out ho => ?_⟩
              obtain ⟨new, n1, n2, n3, n4, n5⟩ := i2 out ho
              refine ⟨.handler x false (some r) :: .controller r (some d) :: new, ?_,
                (spec_paired_cons x false r (some d) new).2 n2,
                hmem new (visited2 ++ chain2) hl n3, ?_, hctl new n5⟩
              · rw [n1]; simp
              · rw [n4]; simp [call_event.handler_of]
            cases d with
            | dead =>
              exact step visited next _ (fun y hy => by
                simp only [List.mem_append, List.mem_cons] at hy ⊢; tauto)
            | progress =>
              exact step (visited ++ [x]) next _ (fun y hy => by
                simp only [List.mem_append, List.mem_cons, List.mem_singleton] at hy ⊢; tauto)
            | repeat_ =>
              exact step [x] (next ++ visited) _ (fun y hy => by
                simp only [List.mem_append, List.mem_cons, List.mem_singleton] at hy ⊢; tauto)
            | finish =>
              simp only [Option.map_some', Option.some.injEq]
              refine ⟨rfl, fun out ho => ?_⟩
              subst ho
              refine ⟨[.handler x false (some r), .controller r (some .finish)], rfl,
                (spec_paired_cons x false r _ []).2 trivial,
                hmem [] [] (by simp) (by simp), by simp [call_event.handler_of],
                hctl [] (by simp)⟩

/-- The facts of `walk_logged` for a whole `response` call. -/
theorem response_logged {σ ρ : Type} (fuel : Nat) (send : World → Nat → σ → σ × Option ρ)
    (h : ρ → σ → σ × Option iteration_state) (m : Nat) (a : σ) (w : World) :
    (message.response fuel (logged_send send) (logged_controller h) m (a, []) w).map
        Outcome.unlogged = message.response fuel send h m a w ∧
    ∀ out, message.response fuel (logged_send send) (logged_controller h) m (a, []) w =
        some out →
      spec_paired out.user.2 ∧
      (∀ c f r, call_event.handler c f r ∈ out.user.2 →
        f = false ∧ c ∈ (w.messages m).Senders) ∧
      out.trace = out.user.2.filterMap call_event.handler_of ∧
      (∀ r d, call_event.controller r d ∈ out.user.2 → ∃ s, d = (h r s).2) := by
  unfold message.response
  cases hs : message.isSending m w with
  | true =>
    simp only [if_true, Option.map_some', Option.some.injEq]
    refine ⟨rfl, fun out ho => ?_⟩
    subst ho
    exact ⟨trivial, by simp, by simp, by simp⟩
  | false =>
    simp only [Bool.false_eq_true, if_false]
    obtain ⟨i1, i2⟩ := walk_logged send h m fuel [] (w.messages m).Senders a [] []
      (w.setSending m true)
    cases hw : message.response.walk (logged_send send) (logged_controller h) m fuel []
        (w.messages m).Senders (a, []) [] (w.setSending m true) with
    | none =>
      rw [hw] at i1
      simp only [Option.map_none'] at i1
      rw [← i1]
      exact ⟨rfl, fun out ho => by cases ho⟩
    | some out1 =>
      rw [hw] at i1
      simp only [Option.map_some'] at i1
      rw [← i1]
      refine ⟨rfl, fun out ho => ?_⟩
      simp only [Option.some.injEq] at ho
      subst ho
      obtain ⟨new, n1, n2, n3, n4, n5⟩ := i2 out1 hw
      simp only [List.nil_append] at n1 n3 n4
      simp only []
      rw [n1]
      exact ⟨n2, by simpa using n3, n4, n5⟩

/-! ## The bit-packed cell -/

theorem testBit_not_one (bits i : Nat) :
    (flag_pointer.not_one bits).testBit i = (decide (i < bits) != decide (i = 0)) := by
  unfold flag_pointer.not_one
  rw [Nat.testBit_xor, Nat.testBit_two_pow_sub_one]
  cases i with
  | zero => simp
  | succ i => simp [Nat.testBit_succ]

theorem not_one_mod_two (bits : Nat) (hb : 0 < bits) : flag_pointer.not_one bits % 2 = 0 := by
  have h : (flag_pointer.not_one bits).testBit 0 = false := by
    rw [testBit_not_one]; simp [hb]
  rw [Nat.testBit_zero, decide_eq_false_iff_not] at h
  omega

theorem land_not_one_mod_two (x bits : Nat) (hb : 0 < bits) :
    (x &&& flag_pointer.not_one bits) % 2 = 0 := by
  have h : (x &&& flag_pointer.not_one bits).testBit 0 = false := by
    rw [Nat.testBit_and, testBit_not_one]; simp [hb]
  rw [Nat.testBit_zero, decide_eq_false_iff_not] at h
  omega

theorem lor_one_land_not_one (x bits : Nat) (hb : 0 < bits) :
    (x ||| 1) &&& flag_pointer.not_one bits = x &&& flag_pointer.not_one bits := by
  apply Nat.eq_of_testBit_eq
  intro i
  rw [Nat.testBit_and, Nat.testBit_and, Nat.testBit_or, testBit_not_one]
  cases i with
  | zero => simp [hb]
  | succ i => simp [Nat.testBit_succ]

theorem land_not_one_idem (x bits : Nat) :
    (x &&& flag_pointer.not_one bits) &&& flag_pointer.not_one bits =
      x &&& flag_pointer.not_one bits := by
  apply Nat.eq_of_testBit_eq
  intro i
  simp [Nat.testBit_and]

theorem land_not_one_even (p bits : Nat) (hp : p < 2 ^ bits) (he : p % 2 = 0) :
    p &&& flag_pointer.not_one bits = p := by
  apply Nat.eq_of_testBit_eq
  intro i
  rw [Nat.testBit_and, testBit_not_one]
  cases i with
  | zero => simp [he]
  | succ i =>
    by_cases hi : i + 1 < bits
    · simp [hi]
    · have : p.testBit (i + 1) = false :=
        Nat.testBit_lt_two_pow (Nat.lt_of_lt_of_le hp (Nat.pow_le_pow_right (by decide) (by omega)))
      simp [this]

theorem land_not_one_odd (p bits : Nat) (hp : p < 2 ^ bits) (he : p % 2 = 1) :
    p &&& flag_pointer.not_one bits = p - 1 := by
  have h1 : p = (p - 1) ||| 1 := by
    apply Nat.eq_of_testBit_eq
    intro i
    rw [Nat.testBit_or]
    cases i with
    | zero => simp [he]
    | succ i =>
      simp only [Nat.testBit_succ]
      have : (p - 1) / 2 = p / 2 := by omega
      rw [this]; simp
  by_cases hb : 0 < bits
  · rw [h1, lor_one_land_not_one _ _ hb, ← h1]
    exact land_not_one_even (p - 1) bits (by omega) (by omega)
  · have : bits = 0 := by omega
    subst this
    have : p = 0 := by simpa using hp
    omega

theorem flag_pointer_test_eq (c : flag_pointer) :
    c.test = decide (c.PointerWithFlag % 2 = 1) := by
  unfold flag_pointer.test
  rw [Nat.and_one_is_mod]
  rcases Nat.mod_two_eq_zero_or_one c.PointerWithFlag with h | h <;> simp [h]

theorem flag_pointer_set_spec (c : flag_pointer) (hb : 0 < c.bits) :
    c.set.get = c.get ∧ c.set.test = true ∧ c.set.bits = c.bits := by
  refine ⟨lor_one_land_not_one _ _ hb, ?_, rfl⟩
  rw [flag_pointer_test_eq]
  simp [flag_pointer.set]

theorem flag_pointer_reset_spec (c : flag_pointer) (hb : 0 < c.bits) :
    c.reset.get = c.get ∧ c.reset.test = false ∧ c.reset.bits = c.bits := by
  refine ⟨land_not_one_idem _ _, ?_, rfl⟩
  rw [flag_pointer_test_eq]
  simp [flag_pointer.reset, land_not_one_mod_two _ _ hb]

theorem flag_pointer_keep_spec (c rhs : flag_pointer) (hb : 0 < c.bits)
    (hbits : rhs.bits = c.bits) :
    (c.keep_flag_assign_pointer rhs).get = rhs.get ∧
    (c.keep_flag_assign_pointer rhs).test = c.test ∧
    (c.keep_flag_assign_pointer rhs).bits = c.bits := by
  have hg : (⟨c.bits, rhs.PointerWithFlag⟩ : flag_pointer).get = rhs.get := by
    unfold flag_pointer.get; rw [hbits]
  unfold flag_pointer.keep_flag_assign_pointer
  cases ht : c.test with
  | true =>
    simp only [if_true]
    obtain ⟨a1, a2, a3⟩ := flag_pointer_set_spec ⟨c.bits, rhs.PointerWithFlag⟩ hb
    exact ⟨a1.trans hg, a2, a3⟩
  | false =>
    simp only [Bool.false_eq_true, if_false]
    obtain ⟨a1, a2, a3⟩ := flag_pointer_reset_spec ⟨c.bits, rhs.PointerWithFlag⟩ hb
    exact ⟨a1.trans hg, a2, a3⟩

theorem flag_pointer_of_ptr_spec (bits p : Nat) (hp : p < 2 ^ bits) (he : p % 2 = 0) :
    (flag_pointer.of_ptr bits p).get = p ∧ (flag_pointer.of_ptr bits p).test = false := by
  unfold flag_pointer.of_ptr
  rw [flag_pointer_test_eq]
  simp only [Nat.mod_eq_of_lt hp]
  exact ⟨land_not_one_even p bits hp he, by simp [he]⟩

/-! ## The index of the arena allocators -/

/-- Whatever the outcome, `allocate` has advanced the index; when it throws,
the index is at or past the capacity. -/
theorem arena_allocate_index (a : callback.arena_allocator) (size_bytes : Nat) :
    (a.allocate size_bytes).2.ByteIndex =
      (a.ByteIndex + ((size_bytes + a.MinAlignment + (2 ^ a.size_bits - 1)) % 2 ^ a.size_bits
        / a.MinAlignment * a.MinAlignment) % 2 ^ a.size_bits) % 2 ^ a.size_bits ∧
    (∀ e a1, a.allocate size_bytes = (.error e, a1) → a.N ≤ a1.ByteIndex) ∧
    (∀ offset a1, a.allocate size_bytes = (.ok offset, a1) →
      offset = a.ByteIndex ∧ a1.ByteIndex < a.N) ∧
    (a.allocate size_bytes).2.N = a.N := by
  unfold callback.arena_allocator.allocate
  refine ⟨?_, ?_, ?_, ?_⟩
  · simp only []
    split <;> rfl
  · intro e a1 h
    simp only [] at h
    split at h
    · next hge =>
      have := (Prod.mk.inj h).2
      rw [← this]
      exact hge
    · cases (Prod.mk.inj h).1
  · intro offset a1 h
    simp only [] at h
    split at h
    · cases (Prod.mk.inj h).1
    · next hlt =>
      obtain ⟨h1, h2⟩ := Prod.mk.inj h
      rw [← h2]
      refine ⟨?_, by simpa using hlt⟩
      injection h1 with h1
      exact h1.symm
  · simp only []
    split <;> rfl

/-! ## Termination of the dispatch loop -/

theorem walk_fuel_le {σ ρ : Type} (send : World → Nat → σ → σ × Option ρ)
    (h : ρ → σ → σ × Option iteration_state) (m : Nat)
    (fuel fuel2 : Nat) (hle : fuel ≤ fuel2) (visited chain : List Nat) (a : σ) (tr : List Nat)
    (w : World) (out : Outcome σ)
    (hw : message.response.walk send h m fuel visited chain a tr w = some out) :
    message.response.walk send h m fuel2 visited chain a tr w = some out := by
  have := walk_fuel_mono send h m fuel (fuel2 - fuel) visited chain a tr w out hw
  rwa [show fuel + (fuel2 - fuel) = fuel2 by omega] at this

/-- The loop of `response` with the logged handlers needs no more loop tests
than the entries of the chain, plus for every `repeat` noted the entries of
the list but one; the handlers are not called more often. -/
theorem walk_logged_bound {σ ρ : Type} (send : World → Nat → σ → σ × Option ρ)
    (h : ρ → σ → σ × Option iteration_state) (m : Nat) :
    ∀ (fuel : Nat) (visited chain : List Nat) (a : σ) (log : List (call_event ρ))
      (tr : List Nat) (w : World) (out : Outcome (σ × List (call_event ρ))),
      message.response.walk (logged_send send) (logged_controller h) m fuel visited chain
          (a, log) tr w = some out →
      ∃ new, out.user.2 = log ++ new ∧
        message.response.walk (logged_send send) (logged_controller h) m
          (chain.length + (new.filter call_event.is_repeat).length *
            (visited.length + chain.length - 1) + 1) visited chain (a, log) tr w = some out ∧
        out.trace.length ≤ tr.length + chain.length +
          (new.filter call_event.is_repeat).length * (visited.length + chain.length - 1) := by
  intro fuel
  induction fuel with
  | zero =>
    intro visited chain a log tr w out hw
    simp [message.response.walk] at hw
  | succ fuel ih =>
    intro visited chain a log tr w out hw
    cases chain with
    | nil =>
      simp only [message.response.walk, Option.some.injEq] at hw
      subst hw
      exact ⟨[], by simp, by simp [message.response.walk], by simp⟩
    | cons x next =>
      rw [message.response.walk] at hw
      -- what the recursive call gives, for the three ways the loop goes on
      have step : ∀ (visited2 chain2 : List Nat) (a2 : σ) (ev : List (call_event ρ))
          (tr2 : List Nat) (w2 : World) (k : Nat),
          message.response.walk (logged_send send) (logged_controller h) m fuel visited2 chain2
            (a2, log ++ ev) tr2 w2 = some out →
          (ev.filter call_event.is_repeat).length = k →
          tr2.length ≤ tr.length + 1 →
          (∀ r : Nat, chain2.length + r * (visited2.length + chain2.length - 1) + k * 0 ≤
            next.length + (r + k) * (visited.length + (next.length + 1) - 1)) →
          ∃ new, out.user.2 = log ++ new ∧
            (∃ F, F ≤ next.length + (new.filter call_event.is_repeat).length *
                (visited.length + (next.length + 1) - 1) + 1 ∧
              message.response.walk (logged_send send) (logged_controller h) m F visited2 chain2
                (a2, log ++ ev) tr2 w2 = some out) ∧
            out.trace.length ≤ tr.length + (next.length + 1) +
              (new.filter call_event.is_repeat).length *
                (visited.length + (next.length + 1) - 1) := by
        intro visited2 chain2 a2 ev tr2 w2 k hrec hk htr hB
        obtain ⟨new, n1, n2, n3⟩ := ih visited2 chain2 a2 (log ++ ev) tr2 w2 out hrec
        have hc : ((ev ++ new).filter call_event.is_repeat).length =
            (new.filter call_event.is_repeat).length + k := by
          rw [List.filter_append, List.length_append, hk]; omega
        have hb := hB (new.filter call_event.is_repeat).length
        refine ⟨ev ++ new, by rw [n1, List.append_assoc], ⟨_, ?_, n2⟩, ?_⟩
        · rw [hc]; omega
        · rw [hc]; omega
      have finish : ∀ (visited2 chain2 : List Nat) (a2 : σ) (ev : List (call_event ρ))
          (tr2 : List Nat) (w2 : World) (r : Option (Outcome (σ × List (call_event ρ)))),
          (∀ F, message.response.walk (logged_send send) (logged_controller h) m (F + 1) visited
            (x :: next) (a, log) tr w =
            message.response.walk (logged_send send) (logged_controller h) m F visited2 chain2
              (a2, log ++ ev) tr2 w2) →
          (∃ new, out.user.2 = log ++ new ∧
            (∃ F, F ≤ next.length + (new.filter call_event.is_repeat).length *
                (visited.length + (next.length + 1) - 1) + 1 ∧
              message.response.walk (logged_send send) (logged_controller h) m F visited2 chain2
                (a2, log ++ ev) tr2 w2 = some out) ∧
            out.trace.length ≤ tr.length + (next.length + 1) +
              (new.filter call_event.is_repeat).length *
                (visited.length + (next.length + 1) - 1)) →
          ∃ new, out.user.2 = log ++ new ∧
            message.response.walk (logged_send send) (logged_controller h) m
              ((x :: next).length + (new.filter call_event.is_repeat).length *
                (visited.length + (x :: next).length - 1) + 1) visited (x :: next) (a, log) tr w =
              some out ∧
            out.trace.length ≤ tr.length + (x :: next).length +
              (new.filter call_event.is_repeat).length *
                (visited.length + (x :: next).length - 1) := by
        intro visited2 chain2 a2 ev tr2 w2 r hstep hex
        obtain ⟨new, n1, ⟨F, hF, hwF⟩, n3⟩ := hex
        refine ⟨new, n1, ?_, by simpa using n3⟩
        simp only [List.length_cons]
        rw [show next.length + 1 + (new.filter call_event.is_repeat).length *
            (visited.length + (next.length + 1) - 1) + 1 =
          (next.length + (new.filter call_event.is_repeat).length *
            (visited.length + (next.length + 1) - 1) + 1) + 1 by omega, hstep]
        exact walk_fuel_le _ _ m F _ hF _ _ _ _ _ out hwF
      have hmul : ∀ r : Nat, r * (visited.length + next.length - 1) ≤
          r * (visited.length + (next.length + 1) - 1) :=
        fun r => Nat.mul_le_mul_left r (by omega)
      rcases try_send_logged send h x w a log with ⟨hf, e1, _⟩ | ⟨hf, hs, e1, _⟩ |
        ⟨r0, hf, hs, e1, _⟩
      · -- a flagged entry
        rw [e1] at hw
        simp only [hf, if_true] at hw
        refine finish visited next a [] tr _ none (fun F => ?_)
          (step visited next a [] tr _ 0 (by simpa using hw) rfl (by omega)
            (fun r => by have := hmul r; simp only [Nat.add_zero, Nat.mul_zero]; omega))
        rw [message.response.walk, e1]
        simp [hf]
      · -- the handler threw
        rw [e1] at hw
        simp only [hf, Bool.false_eq_true, if_false, Option.some.injEq] at hw
        subst hw
        refine ⟨[.handler x false none], rfl, ?_, by simp; omega⟩
        rw [message.response.walk, e1]
        simp [hf]
      · rw [e1] at hw
        simp only [hf, Bool.false_eq_true, if_false] at hw
        cases hd : h r0 (send w x a).1 with
        | mk a2 d =>
          rw [hd] at hw e1
          simp only [] at hw e1
          cases d with
          | none =>
            simp only [Option.some.injEq] at hw
            subst hw
            refine ⟨[.handler x false (some r0), .controller r0 none], rfl, ?_, by
              simp; omega⟩
            rw [message.response.walk, e1]
            simp [hf]
          | some d =>
            cases d with
            | dead =>
              refine finish visited next a2
                [.handler x false (some r0), .controller r0 (some .dead)] (tr ++ [x]) _ none
                (fun F => ?_)
                (step visited next a2 _ (tr ++ [x]) _ 0 hw (by simp [call_event.is_repeat])
                  (by simp)
                  (fun r => by
                    have := hmul r; simp only [Nat.add_zero, Nat.mul_zero]; omega))
              rw [message.response.walk, e1]
              simp [hf]
            | progress =>
              refine finish (visited ++ [x]) next a2
                [.handler x false (some r0), .controller r0 (some .progress)] (tr ++ [x]) _ none
                (fun F => ?_)
                (step (visited ++ [x]) next a2 _ (tr ++ [x]) _ 0 hw
                  (by simp [call_event.is_repeat]) (by simp)
                  (fun r => by
                    simp only [List.length_append, List.length_singleton, Nat.add_zero,
                      Nat.mul_zero]
                    have e : visited.length + 1 + next.length - 1 =
                      visited.length + (next.length + 1) - 1 := by omega
                    rw [e]))
              rw [message.response.walk, e1]
              simp [hf]
            | repeat_ =>
              refine finish [x] (next ++ visited) a2
                [.handler x false (some r0), .controller r0 (some .repeat_)] (tr ++ [x]) _ none
                (fun F => ?_)
                (step [x] (next ++ visited) a2 _ (tr ++ [x]) _ 1 hw
                  (by simp [call_event.is_repeat]) (by simp)
                  (fun r => by
                    simp only [List.length_append, List.length_singleton, Nat.mul_zero,
                      Nat.add_zero]
                    have e1 : 1 + (next.length + visited.length) - 1 =
                      visited.length + next.length := by omega
                    have e2 : visited.length + (next.length + 1) - 1 =
                      visited.length + next.length := by omega
                    rw [e1, e2, Nat.add_mul, Nat.one_mul]; omega))
              rw [message.response.walk, e1]
              simp [hf]
            | finish =>
              simp only [Option.some.injEq] at hw
              subst hw
              refine ⟨[.handler x false (some r0), .controller r0 (some .finish)], rfl, ?_,
                by simp; omega⟩
              rw [message.response.walk, e1]
              simp [hf]

/-- What one `try_send` does to a budget that the handlers never raise and
that the response handler lowers with every `repeat`. -/
theorem try_send_budget {σ ρ : Type} (send : World → Nat → σ → σ × Option ρ)
    (h : ρ → σ → σ × Option iteration_state) (budget : σ → Nat)
    (hsend : ∀ w c s, budget (send w c s).1 ≤ budget s)
    (hrep : ∀ r s, (h r s).2 = some .repeat_ → budget (h r s).1 < budget s)
    (hother : ∀ r s, budget (h r s).1 ≤ budget s) (c : Nat) (w : World) (a : σ) :
    budget (sender.try_send send h c w a).1 ≤ budget a ∧
    ((sender.try_send send h c w a).2 = some .repeat_ →
      budget (sender.try_send send h c w a).1 < budget a) := by
  unfold sender.try_send
  cases hf : contact.isDropped c w with
  | true => simp
  | false =>
    simp only [Bool.false_eq_true, if_false]
    unfold sender.do_send
    have h1 := hsend w c a
    cases hs : send w c a with
    | mk s1 r =>
      rw [hs] at h1
      cases r with
      | none => exact ⟨h1, by simp⟩
      | some r =>
        simp only []
        exact ⟨Nat.le_trans (hother r s1) h1,
          fun hd => Nat.lt_of_lt_of_le (hrep r s1 hd) h1⟩

/-- With such a budget the loop of `response` returns: one loop test per
entry of the chain, and for every unit of the budget the entries of the list
but one. -/
theorem walk_terminates {σ ρ : Type} (send : World → Nat → σ → σ × Option ρ)
    (h : ρ → σ → σ × Option iteration_state) (m : Nat) (budget : σ → Nat)
    (hsend : ∀ w c s, budget (send w c s).1 ≤ budget s)
    (hrep : ∀ r s, (h r s).2 = some .repeat_ → budget (h r s).1 < budget s)
    (hother : ∀ r s, budget (h r s).1 ≤ budget s) :
    ∀ (fuel : Nat) (visited chain : List Nat) (a : σ) (tr : List Nat) (w : World),
      chain.length + budget a * (visited.length + chain.length - 1) + 1 ≤ fuel →
      ∃ out, message.response.walk send h m fuel visited chain a tr w = some out := by
  intro fuel
  induction fuel with
  | zero =>
    intro visited chain a tr w hle
    omega
  | succ fuel ih =>
    intro visited chain a tr w hle
    cases chain with
    | nil => exact ⟨⟨w, a, tr, false⟩, by simp [message.response.walk]⟩
    | cons x next =>
      rw [message.response.walk]
      obtain ⟨hb1, hb2⟩ := try_send_budget send h budget hsend hrep hother x w a
      cases htry : sender.try_send send h x w a with
      | mk a1 d =>
        rw [htry] at hb1 hb2
        simp only [] at hb1 hb2
        simp only [List.length_cons] at hle
        cases d with
        | none => exact ⟨_, rfl⟩
        | some d =>
          cases d with
          | dead =>
            refine ih visited next a1 _ _ ?_
            have := Nat.mul_le_mul hb1
              (show visited.length + next.length - 1 ≤ visited.length + (next.length + 1) - 1
                by omega)
            omega
          | progress =>
            refine ih (visited ++ [x]) next a1 _ _ ?_
            have := Nat.mul_le_mul hb1
              (show (visited ++ [x]).length + next.length - 1 ≤
                visited.length + (next.length + 1) - 1 by simp)
            omega
          | repeat_ =>
            refine ih [x] (next ++ visited) a1 _ _ ?_
            have hlt := hb2 rfl
            have e1 : [x].length + (next ++ visited).length - 1 =
                visited.length + next.length := by simp; omega
            have e2 : visited.length + (next.length + 1) - 1 = visited.length + next.length := by
              omega
            have := Nat.mul_le_mul_right (visited.length + next.length)
              (show budget a1 + 1 ≤ budget a by omega)
            rw [Nat.add_mul, Nat.one_mul] at this
            rw [e2] at hle
            rw [e1]
            simp only [List.length_append]
            omega
          | finish => exact ⟨_, rfl⟩

theorem repeat_bound_le (r n : Nat) : n + r * (n - 1) + 1 ≤ (r + 1) * n + 1 := by
  have := Nat.mul_le_mul_left r (show n - 1 ≤ n by omega)
  rw [Nat.add_mul, Nat.one_mul]
  omega

/-! ## The cells of the sender list -/

@[simp] theorem cells_write_Senders_NextSender (c : cells) (v : flag_pointer) :
    (c.write .Senders v).NextSender = c.NextSender := rfl
@[simp] theorem cells_write_Senders_Senders (c : cells) (v : flag_pointer) :
    (c.write .Senders v).Senders = v := rfl
@[simp] theorem cells_write_NextSender_Senders (c : cells) (z : Nat) (v : flag_pointer) :
    (c.write (.NextSender z) v).Senders = c.Senders := rfl
@[simp] theorem cells_write_NextSender_NextSender (c : cells) (z : Nat) (v : flag_pointer)
    (i : Nat) :
    (c.write (.NextSender z) v).NextSender i = if i = z then v else c.NextSender i := rfl

theorem segment_congr (c c2 : cells) :
    ∀ (l : List Nat) (p q : Nat), (∀ x ∈ l, c2.NextSender x = c.NextSender x) →
      c.segment p l q → c2.segment p l q := by
  intro l
  induction l with
  | nil => intro p q _ h; exact h
  | cons x l ih =>
    intro p q hc h
    obtain ⟨h1, h2, h3⟩ := h
    refine ⟨h1, h2, ?_⟩
    rw [hc x (by simp)]
    exact ih _ _ (fun y hy => hc y (by simp [hy])) h3

theorem segment_append (c : cells) :
    ∀ (l1 l2 : List Nat) (p q : Nat),
      c.segment p (l1 ++ l2) q ↔ ∃ r, c.segment p l1 r ∧ c.segment r l2 q := by
  intro l1
  induction l1 with
  | nil =>
    intro l2 p q
    constructor
    · intro h; exact ⟨p, rfl, h⟩
    · rintro ⟨r, h1, h2⟩
      have : p = r := h1
      subst this; exact h2
  | cons x l ih =>
    intro l2 p q
    constructor
    · rintro ⟨h1, h2, h3⟩
      obtain ⟨r, a, b⟩ := (ih l2 _ q).1 h3
      exact ⟨r, ⟨h1, h2, a⟩, b⟩
    · rintro ⟨r, ⟨h1, h2, a⟩, b⟩
      exact ⟨h1, h2, (ih l2 _ q).2 ⟨r, a, b⟩⟩

/-- The start of a segment that is not empty is its first entry. -/
theorem segment_head (c : cells) (p q x : Nat) (l : List Nat) (h : c.segment p (x :: l) q) :
    p = x ∧ x ≠ 0 := ⟨h.1, h.2.1⟩

/-- Writing the `NextSender` of the last entry of a segment makes the segment
end with the address written. -/
theorem segment_redirect (c : cells) (v : flag_pointer) (z : Nat) :
    ∀ (l : List Nat) (p q : Nat), (l ++ [z]).Nodup → c.segment p (l ++ [z]) q →
      (c.write (.NextSender z) v).segment p (l ++ [z]) v.get := by
  intro l
  induction l with
  | nil =>
    intro p q _ h
    obtain ⟨h1, h2, _⟩ := h
    exact ⟨h1, h2, by simp [cells.segment]⟩
  | cons x l ih =>
    intro p q hnd h
    obtain ⟨h1, h2, h3⟩ := h
    have hxz : x ≠ z := by
      intro e
      simp [e] at hnd
    refine ⟨h1, h2, ?_⟩
    rw [cells_write_NextSender_NextSender, if_neg hxz]
    exact ih _ q (List.Nodup.of_cons (by simpa using hnd)) h3

/-- The loop that finds `lastSender` returns the last entry of the chain. -/
theorem lastSender_spec (c : cells) :
    ∀ (l : List Nat) (x k : Nat), c.segment x (x :: l) 0 →
      ∃ z l0, x :: l = l0 ++ [z] ∧ c.lastSender (l.length + k + 1) x = some z := by
  intro l
  induction l with
  | nil =>
    intro x k h
    obtain ⟨_, _, h3⟩ := h
    have h3 : (c.NextSender x).get = 0 := h3
    refine ⟨x, [], rfl, ?_⟩
    simp [cells.lastSender, flag_pointer.toBool, h3]
  | cons y l ih =>
    intro x k h
    obtain ⟨_, _, h3⟩ := h
    obtain ⟨hy, hy0⟩ := segment_head c _ _ _ _ h3
    obtain ⟨z, l0, e, hl⟩ := ih y k (by rw [hy] at h3; exact h3)
    refine ⟨z, x :: l0, by rw [e]; rfl, ?_⟩
    have e2 : (y :: l).length + k + 1 = (l.length + k + 1) + 1 := by simp; omega
    rw [e2, cells.lastSender]
    have : (c.NextSender x).toBool = true := by
      simp [flag_pointer.toBool, hy, hy0]
    rw [if_pos this, hy]
    exact hl

/-- The word of an assignment: the address of `rhs`, the flag of the cell. -/
theorem cells_assign_spec (c : cells) (bits : Nat) (l : List Nat) (hv : c.valid bits l)
    (r : cell_ref) (rhs : flag_pointer) (hr : rhs.bits = bits) :
    ((c.assign r rhs).read r).get = rhs.get ∧
    ((c.assign r rhs).read r).test = (c.read r).test ∧
    (∀ r2, r2 ≠ r → (c.assign r rhs).read r2 = c.read r2) ∧
    (c.assign r rhs).valid bits l := by
  obtain ⟨hb, hbits, hl⟩ := hv
  obtain ⟨k1, k2, k3⟩ := flag_pointer_keep_spec (c.read r) rhs (by rw [hbits r]; exact hb)
    (by rw [hbits r]; exact hr)
  have hread : (c.assign r rhs).read r = (c.read r).keep_flag_assign_pointer rhs := by
    unfold cells.assign
    cases r with
    | Senders => rfl
    | NextSender z => simp [cells.read, cells.write]
  have hother : ∀ r2, r2 ≠ r → (c.assign r rhs).read r2 = c.read r2 := by
    intro r2 hne
    unfold cells.assign
    cases r with
    | Senders =>
      cases r2 with
      | Senders => exact absurd rfl hne
      | NextSender y => rfl
    | NextSender z =>
      cases r2 with
      | Senders => rfl
      | NextSender y =>
        have : y ≠ z := fun e => hne (by rw [e])
        simp [cells.read, cells.write, this]
  refine ⟨by rw [hread]; exact k1, by rw [hread]; exact k2, hother, hb, fun r2 => ?_, hl⟩
  by_cases e : r2 = r
  · rw [e, hread, k3]; exact hbits r
  · rw [hother r2 e]; exact hbits r2

theorem cell_ref_after_nil : cell_ref.after [] = .Senders := rfl

theorem cell_ref_after_concat (l : List Nat) (p : Nat) :
    cell_ref.after (l ++ [p]) = .NextSender p := by
  unfold cell_ref.after
  rw [List.getLast?_concat]

/-- Writing the cell behind `visited` makes the chain from `Senders` through
`visited` end with the address written; no other `NextSender` changes. -/
theorem segment_write_after (c : cells) (v : flag_pointer) (visited : List Nat) (q : Nat)
    (hnd : visited.Nodup) (h : c.segment c.Senders.get visited q) :
    (c.write (cell_ref.after visited) v).segment
      (c.write (cell_ref.after visited) v).Senders.get visited v.get ∧
    (∀ y, y ∉ visited → (c.write (cell_ref.after visited) v).NextSender y = c.NextSender y) := by
  rcases List.eq_nil_or_concat visited with e | ⟨l, p, e⟩
  · subst e
    rw [cell_ref_after_nil]
    exact ⟨rfl, fun _ _ => rfl⟩
  · rw [List.concat_eq_append] at e
    subst e
    rw [cell_ref_after_concat]
    refine ⟨segment_redirect c v p l _ q hnd h, fun y hy => ?_⟩
    rw [cells_write_NextSender_NextSender, if_neg]
    intro e
    exact hy (by simp [e])

/-- The flag of `Senders` after an assignment to any cell. -/
theorem cells_assign_Senders_test (c : cells) (bits : Nat) (l : List Nat) (hv : c.valid bits l)
    (r : cell_ref) (rhs : flag_pointer) (hr : rhs.bits = bits) :
    (c.assign r rhs).Senders.test = c.Senders.test := by
  obtain ⟨_, k2, k3, _⟩ := cells_assign_spec c bits l hv r rhs hr
  by_cases e : r = .Senders
  · subst e; exact k2
  · have := k3 .Senders (fun e2 => e e2.symm)
    exact congrArg flag_pointer.test this

theorem of_ptr_zero_get (bits : Nat) : (flag_pointer.of_ptr bits 0).get = 0 := by
  simp [flag_pointer.of_ptr, flag_pointer.get]

/-- The case `progress` on the cells is the case `progress` of the first
model. -/
theorem progress_case_represents (s : cursor) (visited : List Nat) (x : Nat) (next : List Nat)
    (hrep : s.represents visited (x :: next)) :
    (message.response.progress_case s).represents (visited ++ [x]) next ∧
    (message.response.progress_case s).cells = s.cells := by
  obtain ⟨a, b, _⟩ := hrep
  obtain ⟨b1, b2, b3⟩ := b
  refine ⟨⟨?_, ?_, ?_⟩, rfl⟩
  · refine (segment_append s.cells visited [x] _ _).2 ⟨s.sender, a, b1, b2, ?_⟩
    show (s.cells.NextSender x).get = (s.cells.NextSender s.sender).get
    rw [b1]
  · show s.cells.segment (s.cells.NextSender s.sender).get next 0
    rw [b1]; exact b3
  · show cell_ref.NextSender s.sender = _
    rw [cell_ref_after_concat, b1]

/-- The case `repeat` on the cells rotates the list so that the entry at the
cursor is the first: it is the case `repeat` of the first model. -/
theorem repeat_case_represents (s : cursor) (visited : List Nat) (x : Nat) (next : List Nat)
    (bits fuel : Nat) (hrep : s.represents visited (x :: next))
    (hnd : (visited ++ x :: next).Nodup) (hv : s.cells.valid bits (visited ++ x :: next))
    (hfuel : next.length + 1 ≤ fuel) :
    ∃ s2, message.response.repeat_case fuel s = some s2 ∧
      s2.represents [x] (next ++ visited) ∧
      s2.cells.is_list (x :: (next ++ visited)) ∧
      s2.cells.Senders.test = s.cells.Senders.test ∧
      s2.cells.valid bits (x :: (next ++ visited)) ∧
      s2.sender = (next ++ visited).headD 0 ∧
      s2.previous_sender = .NextSender x := by
  cases s with
  | mk c prev sd =>
  obtain ⟨a, ⟨b1, b2, b3⟩, hp⟩ := hrep
  have b1 : sd = x := b1
  have hp : prev = cell_ref.after visited := hp
  subst b1
  subst hp
  have a : c.segment c.Senders.get visited sd := a
  have b3 : c.segment (c.NextSender sd).get next 0 := b3
  have hv : c.valid bits (visited ++ sd :: next) := hv
  have hbS : c.Senders.bits = bits := hv.2.1 .Senders
  subst hbS
  obtain ⟨k, hk⟩ : ∃ k, fuel = next.length + k + 1 := ⟨fuel - (next.length + 1), by omega⟩
  subst hk
  obtain ⟨z, l0, e, hl⟩ := lastSender_spec c next sd k ⟨rfl, b2, b3⟩
  have hndv : visited.Nodup := (List.nodup_append.1 hnd).1
  have hndc : (sd :: next).Nodup := (List.nodup_append.1 hnd).2.1
  have hdisj : ∀ y, y ∈ sd :: next → y ∉ visited := fun y hy hyv =>
    (List.nodup_append.1 hnd).2.2 hyv hy
  have hz : z ∈ sd :: next := by rw [e]; simp
  have hsd := hv.2.2 sd (by simp)
  -- the first assignment: the cell behind `visited` becomes null
  obtain ⟨g1, _, _⟩ := flag_pointer_keep_spec (c.read (cell_ref.after visited))
    (flag_pointer.of_ptr c.Senders.bits 0) (by rw [hv.2.1]; exact hv.1) (by rw [hv.2.1]; rfl)
  rw [of_ptr_zero_get] at g1
  obtain ⟨w1, w2⟩ := segment_write_after c
    ((c.read (cell_ref.after visited)).keep_flag_assign_pointer
      (flag_pointer.of_ptr c.Senders.bits 0)) visited sd hndv a
  rw [g1] at w1
  have hv1 := (cells_assign_spec c c.Senders.bits _ hv (cell_ref.after visited)
    (flag_pointer.of_ptr c.Senders.bits 0) rfl).2.2.2
  have ht1 := cells_assign_Senders_test c c.Senders.bits _ hv (cell_ref.after visited)
    (flag_pointer.of_ptr c.Senders.bits 0) rfl
  generalize hc1 : c.assign (cell_ref.after visited) (flag_pointer.of_ptr c.Senders.bits 0) = c1
    at hv1 ht1
  have hc1w : c.write (cell_ref.after visited)
      ((c.read (cell_ref.after visited)).keep_flag_assign_pointer
        (flag_pointer.of_ptr c.Senders.bits 0)) = c1 := hc1
  rw [hc1w] at w1 w2
  have seg1 : c1.segment sd (sd :: next) 0 :=
    segment_congr c c1 (sd :: next) sd 0 (fun y hy => w2 y (hdisj y hy)) ⟨rfl, b2, b3⟩
  -- the second assignment: the last entry points to what `Senders` holds
  obtain ⟨g2, _, _⟩ := flag_pointer_keep_spec (c1.read (.NextSender z)) c1.Senders
    (by rw [hv1.2.1]; exact hv1.1) (by rw [hv1.2.1]; exact hv1.2.1 .Senders)
  have hv2 := (cells_assign_spec c1 c.Senders.bits _ hv1 (.NextSender z) c1.Senders
    (hv1.2.1 .Senders)).2.2.2
  have ht2 := cells_assign_Senders_test c1 c.Senders.bits _ hv1 (.NextSender z) c1.Senders
    (hv1.2.1 .Senders)
  have r2 := segment_redirect c1 ((c1.read (.NextSender z)).keep_flag_assign_pointer c1.Senders)
    z l0 sd 0 (by rw [← e]; exact hndc) (by rw [← e]; exact seg1)
  rw [g2, ← e] at r2
  have seg2v : (c1.write (.NextSender z)
      ((c1.read (.NextSender z)).keep_flag_assign_pointer c1.Senders)).segment
      c1.Senders.get visited 0 := by
    refine segment_congr c1 _ visited _ _ (fun y hy => ?_) w1
    rw [cells_write_NextSender_NextSender, if_neg]
    intro e2
    exact hdisj z hz (by rw [← e2]; exact hy)
  generalize hc2 : c1.assign (.NextSender z) c1.Senders = c2 at hv2 ht2
  have hc2w : c1.write (.NextSender z)
      ((c1.read (.NextSender z)).keep_flag_assign_pointer c1.Senders) = c2 := hc2
  rw [hc2w] at r2 seg2v
  have seg2 : c2.segment sd ((sd :: next) ++ visited) 0 :=
    (segment_append c2 (sd :: next) visited sd 0).2 ⟨_, r2, seg2v⟩
  -- the third assignment: `Senders` points to the entry at the cursor
  obtain ⟨g3, t3, _⟩ := flag_pointer_keep_spec (c2.read .Senders)
    (flag_pointer.of_ptr c.Senders.bits sd) (by rw [hv2.2.1]; exact hv2.1)
    (by rw [hv2.2.1]; rfl)
  rw [(flag_pointer_of_ptr_spec c.Senders.bits sd hsd.2 hsd.1).1] at g3
  have hv3 := (cells_assign_spec c2 c.Senders.bits _ hv2 .Senders
    (flag_pointer.of_ptr c.Senders.bits sd) rfl).2.2.2
  have ht3 := cells_assign_Senders_test c2 c.Senders.bits _ hv2 .Senders
    (flag_pointer.of_ptr c.Senders.bits sd) rfl
  generalize hc3 : c2.assign .Senders (flag_pointer.of_ptr c.Senders.bits sd) = c3 at hv3 ht3
  have hc3w : c2.write .Senders
      ((c2.read .Senders).keep_flag_assign_pointer (flag_pointer.of_ptr c.Senders.bits sd)) =
      c3 := hc3
  have hS3 : c3.Senders.get = sd := by rw [← hc3w]; exact g3
  have hN3 : c3.NextSender = c2.NextSender := by rw [← hc3w]; rfl
  have seg3 : c3.segment sd (sd :: (next ++ visited)) 0 :=
    segment_congr c2 c3 _ _ _ (fun y _ => by rw [hN3]) seg2
  have hres : message.response.repeat_case (next.length + k + 1) ⟨c, cell_ref.after visited, sd⟩ =
      some ⟨c3, .NextSender sd, (c3.NextSender sd).get⟩ := by
    unfold message.response.repeat_case
    simp only [hl, hc1, hc2, hc3]
  refine ⟨_, hres, ⟨?_, seg3.2.2, rfl⟩, ⟨?_, ?_⟩, ?_, ?_, ?_, rfl⟩
  · show c3.segment c3.Senders.get [sd] (c3.NextSender sd).get
    rw [hS3]
    exact ⟨rfl, b2, rfl⟩
  · show c3.segment c3.Senders.get (sd :: (next ++ visited)) 0
    rw [hS3]; exact seg3
  · have : (sd :: (next ++ visited)) = (sd :: next) ++ visited := rfl
    rw [this]
    exact List.nodup_append_comm.1 hnd
  · show c3.Senders.test = c.Senders.test
    rw [ht3, ht2, ht1]
  · exact ⟨hv3.1, hv3.2.1, fun y hy => hv3.2.2 y (by
      simp only [List.mem_append, List.mem_cons] at hy ⊢; tauto)⟩
  · show (c3.NextSender sd).get = (next ++ visited).headD 0
    have h3 := seg3.2.2
    cases hnv : next ++ visited with
    | nil => rw [hnv] at h3; exact h3
    | cons y l => rw [hnv] at h3; exact (segment_head _ _ _ _ _ h3).1

theorem demo_cursor_represents :
    Demo.cursor.represents [4096] [8192, 12288] ∧
    ([4096] ++ [8192, 12288] : List Nat).Nodup ∧
    Demo.cursor.cells.valid 64 ([4096] ++ [8192, 12288]) := by
  have e1 : (Demo.cursor.cells.NextSender 4096).get = Demo.cursor.sender := by decide
  have e2 : (Demo.cursor.cells.NextSender 12288).get = 0 := by decide
  refine ⟨⟨⟨by decide, by decide, e1⟩,
    ⟨rfl, by decide, by decide, by decide, e2⟩, rfl⟩, by decide, by decide, ?_, ?_⟩
  · intro r
    cases r with
    | Senders => rfl
    | NextSender i =>
      show (Demo.cells.NextSender i).bits = 64
      unfold Demo.cells
      simp only []
      split_ifs <;> rfl
  · intro x hx
    simp only [List.cons_append, List.nil_append, List.mem_cons, List.mem_singleton,
      List.not_mem_nil, or_false] at hx
    rcases hx with rfl | rfl | rfl <;> decide

/-- The adapter for a response handler that returns nothing runs the handler
once, on the value and the environment it is given, and answers `progress`
when the handler returned. -/
theorem call_handler_void_eq {σ ρ : Type} (hv : ρ → σ → σ × Option Unit) (r : ρ) (s : σ) :
    call_handler_void hv r s = ((hv r s).1, (hv r s).2.map (fun _ => iteration_state.progress)) := by
  unfold call_handler_void
  rcases hv r s with ⟨a1, _ | u⟩ <;> rfl

/-- A log entry written by the response handler inside the adapter is the
entry that a log around the adapter writes. -/
theorem call_handler_void_logged {σ ρ : Type} (hv : ρ → σ → σ × Option Unit) :
    call_handler_void (logged_void hv) = logged_controller (call_handler_void hv) := by
  funext r a
  simp only [call_handler_void, logged_void, logged_controller]
  rcases hv r a.1 with ⟨a1, _ | u⟩ <;> rfl

/-- With the guard constructed in place, `response_guarded` is `response`. -/
theorem response_guarded_in_place {σ ρ : Type} (fuel : Nat)
    (send : World → Nat → σ → σ × Option ρ) (h : ρ → σ → σ × Option iteration_state)
    (m : Nat) (a : σ) (w : World) :
    message.response_guarded true fuel send h m a w = message.response fuel send h m a w := by
  rfl

/-- Handlers that agree on every heap in which the flag of the message has
the value `b` give the same run of the loop from such a heap: the loop does
not write the flag. -/
theorem walk_congr_flag {σ ρ : Type} (send send1 : World → Nat → σ → σ × Option ρ)
    (h : ρ → σ → σ × Option iteration_state) (m : Nat) (b : Bool)
    (hag : ∀ w i s, message.isSending m w = b → send1 w i s = send w i s) :
    ∀ (fuel : Nat) (visited chain : List Nat) (a : σ) (tr : List Nat) (w : World),
      message.isSending m w = b →
      message.response.walk send1 h m fuel visited chain a tr w =
        message.response.walk send h m fuel visited chain a tr w := by
  intro fuel
  induction fuel with
  | zero => intro visited chain a tr w _; rfl
  | succ fuel ih =>
    intro visited chain a tr w hs
    cases chain with
    | nil => rfl
    | cons c next =>
      have hts : sender.try_send send1 h c w a = sender.try_send send h c w a := by
        unfold sender.try_send sender.do_send
        rw [hag w c a hs]
      rw [message.response.walk, message.response.walk, hts]
      generalize sender.try_send send h c w a = r
      obtain ⟨a1, d⟩ := r
      cases d with
      | none => rfl
      | some d =>
        cases d with
        | dead =>
          exact ih _ _ _ _ _ (by simpa [message.isSending] using hs)
        | progress => exact ih _ _ _ _ _ hs
        | repeat_ =>
          exact ih _ _ _ _ _ (by simpa [message.isSending] using hs)
        | finish => rfl

/-! ## Handlers that call the library -/

theorem keeps_refl (D : Nat → Prop) (g : callback.Heap) : callback.reentrant.Keeps D g g :=
  ⟨le_refl _, fun _ _ h => h, fun _ _ h => ⟨h, rfl⟩⟩

theorem keeps_trans {D : Nat → Prop} {g g1 g2 : callback.Heap}
    (a : callback.reentrant.Keeps D g g1) (b : callback.reentrant.Keeps D g1 g2) :
    callback.reentrant.Keeps D g g2 where
  next := le_trans a.next b.next
  dropped := fun c hc hd => b.dropped c (lt_of_lt_of_le hc a.next) (a.dropped c hc hd)
  sending := fun m hm hs =>
    ⟨(b.sending m hm (a.sending m hm hs).1).1,
      ((b.sending m hm (a.sending m hm hs).1).2).trans (a.sending m hm hs).2⟩

theorem keeps_mono {D E : Nat → Prop} {g g1 : callback.Heap} (hDE : ∀ m, D m → E m)
    (a : callback.reentrant.Keeps D g g1) : callback.reentrant.Keeps E g g1 :=
  ⟨a.next, a.dropped, fun m hm hs => a.sending m (fun hd => hm (hDE m hd)) hs⟩

/-- A heap that differs in the list and the flag of the messages in `D` only. -/
theorem keeps_of_eq {D : Nat → Prop} {g g1 : callback.Heap}
    (hn : g1.world.next = g.world.next) (ha : g1.world.arena = g.world.arena)
    (hm : ∀ m, ¬ D m → g1.world.messages m = g.world.messages m) :
    callback.reentrant.Keeps D g g1 :=
  ⟨by rw [hn], fun c _ hd => by rw [ha]; exact hd,
    fun m hD hs => by unfold message.isSending at *; rw [hm m hD]; exact ⟨hs, rfl⟩⟩

theorem keeps_destruct (D : Nat → Prop) (c : Nat) (g : callback.Heap) :
    callback.reentrant.Keeps D g (callback.contact.destruct c g) := by
  refine ⟨?_, ?_, ?_⟩
  · rw [callback_destruct_world]; simp [contact.destruct]
  · intro x _ hd
    rw [callback_destruct_world]
    simp only [contact.destruct, World.setContact_arena]
    by_cases hx : x = c
    · subst hx; simpa using hd
    · simpa [hx] using hd
  · intro m _ hs
    rw [callback_destruct_world]
    simpa [contact.destruct, message.isSending] using hs

theorem keeps_setDropped (D : Nat → Prop) (c : Nat) (s : who) (g : callback.Heap) :
    callback.reentrant.Keeps D g (g.setDropped c s) := by
  refine ⟨by simp, ?_, ?_⟩
  · intro x _ hd
    simp only [Heap.setDropped_world, World.setContact_arena]
    by_cases hx : x = c
    · simp [hx]
    · simpa [hx] using hd
  · intro m _ hs
    simpa [message.isSending] using hs

/-- Relinking the list of a message that is not dispatching. -/
theorem keeps_setSenders (D : Nat → Prop) (m : Nat) (l : List Nat) (g : callback.Heap)
    (hs : message.isSending m g.world = false) :
    callback.reentrant.Keeps D g (g.setSenders m l) := by
  refine ⟨by simp, fun x _ hd => by simpa using hd, ?_⟩
  intro i _ hi
  have hne : i ≠ m := by rintro rfl; rw [hs] at hi; cases hi
  simpa [message.isSending, hne] using hi

theorem keeps_setContacts (D : Nat → Prop) (p : Nat) (l : List Nat) (g : callback.Heap) :
    callback.reentrant.Keeps D g (g.setContacts p l) := by
  refine ⟨by simp, fun x _ hd => by simpa using hd, ?_⟩
  intro i _ hi
  simpa [message.isSending] using hi

/-- `contact::drop`, whatever its callback does, keeps every dropped flag that
is set and the list of every message that is dispatching. -/
theorem keeps_contact_drop (D : Nat → Prop) (fuel c : Nat) (s : who) (g : callback.Heap)
    (r : Except logic_error Unit) (g1 : callback.Heap)
    (hr : callback.contact.drop fuel c s g = some (r, g1)) :
    callback.reentrant.Keeps D g g1 := by
  rcases callback_drop_cases fuel c s g r g1 hr with ⟨_, _, rfl⟩ | ⟨_, h2⟩
  · exact keeps_destruct D c g
  · rcases h2 with ⟨rfl, _⟩ | ⟨m, hm, _, _, rfl⟩ | ⟨p, _, _, rfl⟩
    · exact keeps_setDropped D c s g
    · exact keeps_trans (keeps_trans (keeps_setDropped D c s g)
        (keeps_setSenders D m _ _ (by simpa [message.isSending] using hm)))
        (keeps_destruct D c _)
    · exact keeps_trans (keeps_trans (keeps_setDropped D c s g) (keeps_setContacts D p _ _))
        (keeps_destruct D c _)

theorem keeps_drop_chain (D : Nat → Prop) (fuel : Nat) (s : who) :
    ∀ (l : List Nat) (g : callback.Heap) (r : Except logic_error Unit) (g1 : callback.Heap),
      callback.drop_chain fuel s l g = some (r, g1) → callback.reentrant.Keeps D g g1 := by
  intro l
  induction l with
  | nil =>
    intro g r g1 hr
    simp only [callback.drop_chain, Option.some.injEq, Prod.mk.injEq] at hr
    rw [← hr.2]; exact keeps_refl _ _
  | cons c next ih =>
    intro g r g1 hr
    unfold callback.drop_chain at hr
    cases hd : callback.contact.drop fuel c s g with
    | none => simp [hd] at hr
    | some v =>
      obtain ⟨r2, g2⟩ := v
      have hf := keeps_contact_drop D fuel c s g r2 g2 hd
      cases r2 with
      | error e =>
        simp only [hd, Option.some.injEq, Prod.mk.injEq] at hr
        rw [← hr.2]; exact hf
      | ok u =>
        simp only [hd] at hr
        exact keeps_trans hf (ih g2 r g1 hr)

theorem keeps_message_drop (D : Nat → Prop) (fuel m token : Nat) (g : callback.Heap)
    (r : Except logic_error Bool) (g1 : callback.Heap)
    (hr : callback.message.drop fuel m token g = some (r, g1)) :
    callback.reentrant.Keeps D g g1 := by
  unfold callback.message.drop callback.message.drop_body at hr
  by_cases hs : message.isSending m g.world = true
  · rw [if_pos hs] at hr
    simp only [Option.some.injEq, Prod.mk.injEq] at hr
    rw [← hr.2]; exact keeps_refl _ _
  · rw [if_neg hs] at hr
    cases hu : unlink token (g.world.messages m).Senders with
    | none =>
      simp only [hu, Option.some.injEq, Prod.mk.injEq] at hr
      rw [← hr.2]; exact keeps_refl _ _
    | some rest =>
      simp only [hu] at hr
      have h1 : callback.reentrant.Keeps D g (g.setSenders m rest) :=
        keeps_setSenders D m rest g (by simpa using hs)
      cases hd : callback.contact.drop fuel token .message
          { g with world := g.world.setSenders m rest } with
      | none => simp [hd] at hr
      | some v =>
        obtain ⟨r2, g2⟩ := v
        have h2 := keeps_contact_drop D fuel token .message _ r2 g2 hd
        cases r2 with
        | error e =>
          simp only [hd, Option.some.injEq, Prod.mk.injEq] at hr
          rw [← hr.2]; exact keeps_trans h1 h2
        | ok u =>
          simp only [hd, Option.some.injEq, Prod.mk.injEq] at hr
          rw [← hr.2]; exact keeps_trans h1 h2

theorem keeps_pigeon_drop (D : Nat → Prop) (fuel p token : Nat) (g : callback.Heap)
    (r : Except logic_error Bool) (g1 : callback.Heap)
    (hr : callback.pigeon.drop fuel p token g = some (r, g1)) :
    callback.reentrant.Keeps D g g1 := by
  unfold callback.pigeon.drop callback.pigeon.drop_body at hr
  cases hu : unlink token (g.world.pigeons p).contacts with
  | none =>
    simp only [hu, Option.some.injEq, Prod.mk.injEq] at hr
    rw [← hr.2]; exact keeps_refl _ _
  | some rest =>
    simp only [hu] at hr
    have h1 : callback.reentrant.Keeps D g (g.setContacts p rest) :=
      keeps_setContacts D p rest g
    cases hd : callback.contact.drop fuel token .pigeon
        { g with world := g.world.setContacts p rest } with
    | none => simp [hd] at hr
    | some v =>
      obtain ⟨r2, g2⟩ := v
      have h2 := keeps_contact_drop D fuel token .pigeon _ r2 g2 hd
      cases r2 with
      | error e =>
        simp only [hd, Option.some.injEq, Prod.mk.injEq] at hr
        rw [← hr.2]; exact keeps_trans h1 h2
      | ok u =>
        simp only [hd, Option.some.injEq, Prod.mk.injEq] at hr
        rw [← hr.2]; exact keeps_trans h1 h2

theorem keeps_message_clear (D : Nat → Prop) (fuel m : Nat) (g : callback.Heap)
    (r : Except logic_error Unit) (g1 : callback.Heap)
    (hr : callback.message.clear fuel m g = some (r, g1)) :
    callback.reentrant.Keeps D g g1 := by
  unfold callback.message.clear at hr
  by_cases hs : message.isSending m g.world = true
  · rw [if_pos hs] at hr
    simp only [Option.some.injEq, Prod.mk.injEq] at hr
    rw [← hr.2]; exact keeps_refl _ _
  · rw [if_neg hs] at hr
    exact keeps_trans (keeps_setSenders D m [] g (by simpa using hs))
      (keeps_drop_chain D fuel .message _ _ r g1 hr)

theorem keeps_pigeon_clear (D : Nat → Prop) (fuel p : Nat) (g : callback.Heap)
    (r : Except logic_error Unit) (g1 : callback.Heap)
    (hr : callback.pigeon.clear fuel p g = some (r, g1)) :
    callback.reentrant.Keeps D g g1 := by
  unfold callback.pigeon.clear at hr
  exact keeps_trans (keeps_setContacts D p [] g) (keeps_drop_chain D fuel .pigeon _ _ r g1 hr)

theorem keeps_pigeon_destructor (D : Nat → Prop) (fuel p : Nat) (g : callback.Heap)
    (r : Except logic_error Unit) (g1 : callback.Heap)
    (hr : callback.pigeon.destructor fuel p g = some (r, g1)) :
    callback.reentrant.Keeps D g g1 := by
  unfold callback.pigeon.destructor at hr
  refine keeps_trans ?_ (keeps_pigeon_clear D fuel p _ r g1 hr)
  exact keeps_of_eq rfl rfl (fun m _ => rfl)

theorem keeps_deliver (D : Nat → Prop) (p m : Nat) (alloc : Option Nat) (f : callback.on_drop)
    (size_bytes : Nat) (g : callback.Heap) :
    callback.reentrant.Keeps D g (callback.pigeon.deliver p m alloc f size_bytes g).2 := by
  rcases callback_deliver_cases p m alloc f size_bytes g with ⟨_, hw, _⟩ | ⟨_, hd, _⟩
  · exact keeps_of_eq (by rw [hw]) (by rw [hw]) (fun i _ => by rw [hw])
  · obtain ⟨_, hs, _, hn, ha, hS, hF, _, _⟩ := pigeon_deliver_ok hd
    refine ⟨by omega, ?_, ?_⟩
    · intro c hc hdr
      rw [ha c, if_neg (Nat.ne_of_lt hc)]; exact hdr
    · intro i _ hi
      have hne : i ≠ m := by rintro rfl; rw [hs] at hi; cases hi
      unfold message.isSending at hi ⊢
      rw [hF i, hS i, if_neg hne]
      exact ⟨hi, rfl⟩

theorem keeps_all {D : Nat → Prop} {g g1 : callback.Heap} (a : callback.reentrant.Keeps D g g1)
    (hD : ∀ i, D i → message.isSending i g.world = false) :
    callback.reentrant.Keeps (fun _ => False) g g1 :=
  ⟨a.next, a.dropped, fun i _ hs => a.sending i (fun hd => by rw [hD i hd] at hs; cases hs) hs⟩

theorem keeps_setSenders_self (m : Nat) (l : List Nat) (g : callback.Heap) :
    callback.reentrant.Keeps (fun i => i = m) g (g.setSenders m l) :=
  keeps_of_eq rfl rfl (fun i hi => by simp [callback.Heap.setSenders, World.setSenders, hi])

theorem keeps_setSending_self (m : Nat) (b : Bool) (g : callback.Heap) :
    callback.reentrant.Keeps (fun i => i = m) g { g with world := g.world.setSending m b } :=
  keeps_of_eq rfl rfl (fun i hi => by simp [World.setSending, hi])

/-- The loop of `response` in the second model keeps what library calls keep,
but for the list of its own message. -/
theorem keeps_callback_walk {σ ρ : Type} (nest : Nat) (send : World → Nat → σ → σ × Option ρ)
    (hd : ρ → σ → σ × Option iteration_state) (m : Nat) :
    ∀ (fuel : Nat) (visited chain : List Nat) (a : σ) (tr : List Nat) (g : callback.Heap)
      (out : callback.Outcome σ),
      callback.message.response.walk nest send hd m fuel visited chain a tr g = some out →
      callback.reentrant.Keeps (fun i => i = m) g out.heap := by
  intro fuel
  induction fuel with
  | zero =>
    intro visited chain a tr g out hr
    simp [callback.message.response.walk] at hr
  | succ fuel ih =>
    intro visited chain a tr g out hr
    cases chain with
    | nil =>
      simp only [callback.message.response.walk, Option.some.injEq] at hr
      subst hr
      exact keeps_refl _ _
    | cons x next =>
      rw [callback.message.response.walk] at hr
      generalize sender.try_send send hd x g.world a = t at hr
      obtain ⟨a1, d⟩ := t
      cases d with
      | none =>
        simp only [Option.some.injEq] at hr
        subst hr
        exact keeps_refl _ _
      | some d =>
        cases d with
        | dead =>
          simp only at hr
          cases hq : callback.contact.drop nest x .message (g.setSenders m (visited ++ next)) with
          | none => simp [hq] at hr
          | some v =>
            obtain ⟨r2, g2⟩ := v
            have h2 := keeps_trans (keeps_setSenders_self m (visited ++ next) g)
              (keeps_contact_drop _ nest x .message _ r2 g2 hq)
            cases r2 with
            | error e =>
              simp only [hq, Option.some.injEq] at hr
              subst hr
              exact h2
            | ok u =>
              simp only [hq] at hr
              exact keeps_trans h2 (ih _ _ _ _ _ _ hr)
        | progress =>
          simp only at hr
          exact ih _ _ _ _ _ _ hr
        | repeat_ =>
          simp only at hr
          exact keeps_trans (keeps_setSenders_self m _ g) (ih _ _ _ _ _ _ hr)
        | finish =>
          simp only [Option.some.injEq] at hr
          subst hr
          exact keeps_refl _ _

theorem keeps_callback_response {σ ρ : Type} (nest fuel : Nat)
    (send : World → Nat → σ → σ × Option ρ) (hd : ρ → σ → σ × Option iteration_state)
    (m : Nat) (a : σ) (g : callback.Heap) (out : callback.Outcome σ)
    (hr : callback.message.response nest fuel send hd m a g = some out) :
    callback.reentrant.Keeps (fun _ => False) g out.heap := by
  unfold callback.message.response at hr
  by_cases hs : message.isSending m g.world = true
  · rw [if_pos hs] at hr
    simp only [Option.some.injEq] at hr
    subst hr
    exact keeps_refl _ _
  · rw [if_neg hs] at hr
    cases hq : callback.message.response.walk nest send hd m fuel []
        (g.world.messages m).Senders a [] { g with world := g.world.setSending m true } with
    | none => simp [hq] at hr
    | some out1 =>
      simp only [hq, Option.some.injEq] at hr
      subst hr
      refine keeps_all (keeps_trans (keeps_trans (keeps_setSending_self m true g)
        (keeps_callback_walk nest send hd m fuel _ _ _ _ _ out1 hq))
        (keeps_setSending_self m false out1.heap)) ?_
      intro i hi
      subst hi
      simpa using hs

/-- Every call of the interface of the second model keeps what `Keeps` says. -/
theorem keeps_step {g g1 : callback.Heap} (h : callback.Step g g1) :
    callback.reentrant.Keeps (fun _ => False) g g1 := by
  cases h with
  | deliver p m alloc f size_bytes => exact keeps_deliver _ p m alloc f size_bytes g
  | message_drop fuel m token hr => exact keeps_message_drop _ fuel m token g _ g1 hr
  | pigeon_drop fuel p token hr => exact keeps_pigeon_drop _ fuel p token g _ g1 hr
  | message_clear fuel m hr => exact keeps_message_clear _ fuel m g _ g1 hr
  | pigeon_clear fuel p hr => exact keeps_pigeon_clear _ fuel p g _ g1 hr
  | response nest fuel send hd m a hr => exact keeps_callback_response nest fuel send hd m a g _ hr
  | pigeon_destructor fuel p hr => exact keeps_pigeon_destructor _ fuel p g _ g1 hr

theorem reentrant_do_send_eq {σ ρ : Type}
    (send : callback.Heap → Nat → σ → callback.Heap × σ × Option ρ)
    (hd : callback.Heap → ρ → σ → callback.Heap × σ × Option iteration_state)
    (self : Nat) (g : callback.Heap) (a : σ) (tr : List Nat) :
    ((send g self a).2.2 = none ∧
      callback.reentrant.sender.do_send send hd self g a tr =
        ((send g self a).1, (send g self a).2.1, tr ++ [self], none)) ∨
    (∃ r, (send g self a).2.2 = some r ∧
      callback.reentrant.sender.do_send send hd self g a tr =
        ((hd (send g self a).1 r (send g self a).2.1).1,
          (hd (send g self a).1 r (send g self a).2.1).2.1, tr ++ [self],
          (hd (send g self a).1 r (send g self a).2.1).2.2)) := by
  unfold callback.reentrant.sender.do_send
  rcases send g self a with ⟨g1, a1, _ | r⟩
  · exact Or.inl ⟨rfl, rfl⟩
  · exact Or.inr ⟨r, rfl, rfl⟩

theorem keeps_try_send {σ ρ : Type}
    (send : callback.Heap → Nat → σ → callback.Heap × σ × Option ρ)
    (hd : callback.Heap → ρ → σ → callback.Heap × σ × Option iteration_state)
    (hsend : ∀ g c s, callback.reentrant.Keeps (fun _ => False) g (send g c s).1)
    (hhd : ∀ g r s, callback.reentrant.Keeps (fun _ => False) g (hd g r s).1)
    (self : Nat) (g : callback.Heap) (a : σ) (tr : List Nat) :
    callback.reentrant.Keeps (fun _ => False) g
      (callback.reentrant.sender.try_send send hd self g a tr).1 := by
  unfold callback.reentrant.sender.try_send
  split
  · exact keeps_refl _ _
  · rcases reentrant_do_send_eq send hd self g a tr with ⟨_, e⟩ | ⟨r, _, e⟩
    · rw [e]; exact hsend g self a
    · rw [e]; exact keeps_trans (hsend g self a) (hhd _ _ _)

/-- The loop of `response` with handlers that call the library keeps what
library calls keep, but for the list of its own message, when its handlers
do. -/
theorem keeps_walk {σ ρ : Type} (nest : Nat)
    (send : callback.Heap → Nat → σ → callback.Heap × σ × Option ρ)
    (hd : callback.Heap → ρ → σ → callback.Heap × σ × Option iteration_state) (m : Nat)
    (hsend : ∀ g c s, callback.reentrant.Keeps (fun _ => False) g (send g c s).1)
    (hhd : ∀ g r s, callback.reentrant.Keeps (fun _ => False) g (hd g r s).1) :
    ∀ (fuel : Nat) (visited chain : List Nat) (a : σ) (tr : List Nat) (g : callback.Heap)
      (out : callback.Outcome σ),
      callback.reentrant.message.response.walk nest send hd m fuel visited chain a tr g =
        some out →
      callback.reentrant.Keeps (fun i => i = m) g out.heap := by
  intro fuel
  induction fuel with
  | zero =>
    intro visited chain a tr g out hr
    simp [callback.reentrant.message.response.walk] at hr
  | succ fuel ih =>
    intro visited chain a tr g out hr
    cases chain with
    | nil =>
      simp only [callback.reentrant.message.response.walk, Option.some.injEq] at hr
      subst hr
      exact keeps_refl _ _
    | cons x next =>
      rw [callback.reentrant.message.response.walk] at hr
      have hk : callback.reentrant.Keeps (fun i => i = m) g
          (callback.reentrant.sender.try_send send hd x g a tr).1 :=
        keeps_mono (fun _ hf => hf.elim) (keeps_try_send send hd hsend hhd x g a tr)
      generalize callback.reentrant.sender.try_send send hd x g a tr = t at hr hk
      obtain ⟨g1, a1, tr1, d⟩ := t
      cases d with
      | none =>
        simp only [Option.some.injEq] at hr
        subst hr
        exact hk
      | some d =>
        cases d with
        | dead =>
          simp only at hr
          cases hq : callback.contact.drop nest x .message (g1.setSenders m (visited ++ next)) with
          | none => simp [hq] at hr
          | some v =>
            obtain ⟨r2, g2⟩ := v
            have h2 := keeps_trans hk (keeps_trans (keeps_setSenders_self m (visited ++ next) g1)
              (keeps_contact_drop _ nest x .message _ r2 g2 hq))
            cases r2 with
            | error e =>
              simp only [hq, Option.some.injEq] at hr
              subst hr
              exact h2
            | ok u =>
              simp only [hq] at hr
              exact keeps_trans h2 (ih _ _ _ _ _ _ hr)
        | progress =>
          simp only at hr
          exact keeps_trans hk (ih _ _ _ _ _ _ hr)
        | repeat_ =>
          simp only at hr
          exact keeps_trans hk (keeps_trans (keeps_setSenders_self m _ g1) (ih _ _ _ _ _ _ hr))
        | finish =>
          simp only [Option.some.injEq] at hr
          subst hr
          exact hk

theorem keeps_response {σ ρ : Type} (nest fuel : Nat)
    (send : callback.Heap → Nat → σ → callback.Heap × σ × Option ρ)
    (hd : callback.Heap → ρ → σ → callback.Heap × σ × Option iteration_state)
    (hsend : ∀ g c s, callback.reentrant.Keeps (fun _ => False) g (send g c s).1)
    (hhd : ∀ g r s, callback.reentrant.Keeps (fun _ => False) g (hd g r s).1)
    (m : Nat) (a : σ) (g : callback.Heap) (out : callback.Outcome σ)
    (hr : callback.reentrant.message.response nest fuel send hd m a g = some out) :
    callback.reentrant.Keeps (fun _ => False) g out.heap := by
  unfold callback.reentrant.message.response at hr
  by_cases hs : message.isSending m g.world = true
  · rw [if_pos hs] at hr
    simp only [Option.some.injEq] at hr
    subst hr
    exact keeps_refl _ _
  · rw [if_neg hs] at hr
    cases hq : callback.reentrant.message.response.walk nest send hd m fuel []
        (g.world.messages m).Senders a [] { g with world := g.world.setSending m true } with
    | none => simp [hq] at hr
    | some out1 =>
      simp only [hq, Option.some.injEq] at hr
      subst hr
      refine keeps_all (keeps_trans (keeps_trans (keeps_setSending_self m true g)
        (keeps_walk nest send hd m hsend hhd fuel _ _ _ _ _ out1 hq))
        (keeps_setSending_self m false out1.heap)) ?_
      intro i hi
      subst hi
      simpa using hs

/-- Whatever a handler calls, a dropped flag that is set stays set, and a
message that is dispatching stays so, with its list as it is. -/
theorem calls_keeps {g g1 : callback.Heap} (h : callback.reentrant.Calls g g1) :
    callback.reentrant.Keeps (fun _ => False) g g1 := by
  induction h with
  | done g => exact keeps_refl _ _
  | call _ hs ih => exact keeps_trans ih (keeps_step hs)
  | response nest fuel send hd m a _ _ _ hr ih ihs ihd =>
    exact keeps_trans ih (keeps_response nest fuel send hd ihs ihd m a _ _ hr)

theorem drop_chain_flags (fuel : Nat) (s : who) (c : Nat) :
    ∀ (l : List Nat) (g g1 : callback.Heap), c ∈ l → c < g.world.next →
      callback.drop_chain fuel s l g = some (.ok (), g1) →
      (g1.world.arena c).dropped = true := by
  intro l
  induction l with
  | nil => intro g g1 hc; simp at hc
  | cons x next ih =>
    intro g g1 hc hlt hr
    unfold callback.drop_chain at hr
    cases hd : callback.contact.drop fuel x s g with
    | none => simp [hd] at hr
    | some v =>
      obtain ⟨r2, g2⟩ := v
      have hk := keeps_contact_drop (fun _ => False) fuel x s g r2 g2 hd
      cases r2 with
      | error e => simp [hd] at hr
      | ok u =>
        simp only [hd] at hr
        by_cases hx : c = x
        · subst hx
          exact (keeps_drop_chain (fun _ => False) fuel s next g2 _ g1 hr).dropped c
            (lt_of_lt_of_le hlt hk.next) (callback_drop_effect fuel c s g _ g2 hd).1
        · have hm : c ∈ next := by
            rcases List.mem_cons.1 hc with h | h
            · exact absurd h hx
            · exact h
          exact ih g2 g1 hm (lt_of_lt_of_le hlt hk.next) hr

/-- After a drop request by either side the contact is flagged. -/
theorem callback_drop_requested {c : Nat} {g g1 : callback.Heap}
    (h : callback.DropRequested c g g1) (hc : c < g.world.next) :
    (g1.world.arena c).dropped = true ∧ c < g1.world.next := by
  cases h with
  | pigeon_drop fuel p hr =>
    refine ⟨?_, lt_of_lt_of_le hc (keeps_pigeon_drop (fun _ => False) fuel p c g _ g1 hr).next⟩
    unfold callback.pigeon.drop callback.pigeon.drop_body at hr
    cases hu : unlink c (g.world.pigeons p).contacts with
    | none => simp [hu] at hr
    | some rest =>
      simp only [hu] at hr
      cases hd : callback.contact.drop fuel c .pigeon
          { g with world := g.world.setContacts p rest } with
      | none => simp [hd] at hr
      | some v =>
        obtain ⟨r2, g2⟩ := v
        cases r2 with
        | error e => simp [hd] at hr
        | ok u =>
          simp only [hd, Option.some.injEq, Prod.mk.injEq] at hr
          rw [← hr.2]
          exact (callback_drop_effect fuel c .pigeon _ _ g2 hd).1
  | pigeon_clear fuel p hm hr =>
    refine ⟨?_, lt_of_lt_of_le hc (keeps_pigeon_clear (fun _ => False) fuel p g _ g1 hr).next⟩
    unfold callback.pigeon.clear at hr
    exact drop_chain_flags fuel .pigeon c _ (g.setContacts p []) g1 hm hc hr
  | message_drop fuel m hr =>
    refine ⟨?_, lt_of_lt_of_le hc (keeps_message_drop (fun _ => False) fuel m c g _ g1 hr).next⟩
    unfold callback.message.drop callback.message.drop_body at hr
    by_cases hs : message.isSending m g.world = true
    · simp [hs] at hr
    · rw [if_neg hs] at hr
      cases hu : unlink c (g.world.messages m).Senders with
      | none => simp [hu] at hr
      | some rest =>
        simp only [hu] at hr
        cases hd : callback.contact.drop fuel c .message
            { g with world := g.world.setSenders m rest } with
        | none => simp [hd] at hr
        | some v =>
          obtain ⟨r2, g2⟩ := v
          cases r2 with
          | error e => simp [hd] at hr
          | ok u =>
            simp only [hd, Option.some.injEq, Prod.mk.injEq] at hr
            rw [← hr.2]
            exact (callback_drop_effect fuel c .message _ _ g2 hd).1
  | message_clear fuel m hm hr =>
    refine ⟨?_, lt_of_lt_of_le hc (keeps_message_clear (fun _ => False) fuel m g _ g1 hr).next⟩
    unfold callback.message.clear at hr
    by_cases hs : message.isSending m g.world = true
    · simp [hs] at hr
    · rw [if_neg hs] at hr
      exact drop_chain_flags fuel .message c _ (g.setSenders m []) g1 hm hc hr

theorem reentrant_try_send_dropped {σ ρ : Type}
    (send : callback.Heap → Nat → σ → callback.Heap × σ × Option ρ)
    (hd : callback.Heap → ρ → σ → callback.Heap × σ × Option iteration_state)
    (self : Nat) (g : callback.Heap) (a : σ) (tr : List Nat)
    (h : contact.isDropped self g.world = true) :
    callback.reentrant.sender.try_send send hd self g a tr = (g, a, tr, some .dead) := by
  unfold callback.reentrant.sender.try_send
  rw [if_pos h]

theorem reentrant_try_send_live {σ ρ : Type}
    (send : callback.Heap → Nat → σ → callback.Heap × σ × Option ρ)
    (hd : callback.Heap → ρ → σ → callback.Heap × σ × Option iteration_state)
    (self : Nat) (g : callback.Heap) (a : σ) (tr : List Nat)
    (h : contact.isDropped self g.world = false) :
    callback.reentrant.sender.try_send send hd self g a tr =
      callback.reentrant.sender.do_send send hd self g a tr := by
  unfold callback.reentrant.sender.try_send
  rw [if_neg (by simp [h])]

/-- The ghost trace after `try_send`: as before, or with the sender added. -/
theorem reentrant_try_send_trace {σ ρ : Type}
    (send : callback.Heap → Nat → σ → callback.Heap × σ × Option ρ)
    (hd : callback.Heap → ρ → σ → callback.Heap × σ × Option iteration_state)
    (self : Nat) (g : callback.Heap) (a : σ) (tr : List Nat) :
    (contact.isDropped self g.world = true ∧
      (callback.reentrant.sender.try_send send hd self g a tr).2.2.1 = tr) ∨
    (contact.isDropped self g.world = false ∧
      (callback.reentrant.sender.try_send send hd self g a tr).2.2.1 = tr ++ [self]) := by
  cases h : contact.isDropped self g.world
  · right
    refine ⟨rfl, ?_⟩
    rw [reentrant_try_send_live send hd self g a tr h]
    rcases reentrant_do_send_eq send hd self g a tr with ⟨_, e⟩ | ⟨r, _, e⟩ <;> rw [e]
  · left
    exact ⟨rfl, by rw [reentrant_try_send_dropped send hd self g a tr h]⟩

/-- A flagged contact: the loop never calls its handler.  Whatever handler is
put in its place, the loop runs the same, and the sender is not noted. -/
theorem reentrant_walk_skips_dropped {σ ρ : Type} (nest : Nat)
    (send send1 : callback.Heap → Nat → σ → callback.Heap × σ × Option ρ)
    (hd : callback.Heap → ρ → σ → callback.Heap × σ × Option iteration_state) (m c : Nat)
    (hsend : ∀ g i s, callback.reentrant.Keeps (fun _ => False) g (send g i s).1)
    (hhd : ∀ g r s, callback.reentrant.Keeps (fun _ => False) g (hd g r s).1)
    (hag : ∀ g i s, i ≠ c → send1 g i s = send g i s) :
    ∀ (fuel : Nat) (visited chain : List Nat) (a : σ) (tr : List Nat) (g : callback.Heap),
      c < g.world.next → (g.world.arena c).dropped = true → c ∉ tr →
      callback.reentrant.message.response.walk nest send1 hd m fuel visited chain a tr g =
        callback.reentrant.message.response.walk nest send hd m fuel visited chain a tr g ∧
      ∀ out, callback.reentrant.message.response.walk nest send hd m fuel visited chain a tr g =
        some out → c ∉ out.trace := by
  intro fuel
  induction fuel with
  | zero =>
    intro visited chain a tr g _ _ _
    exact ⟨rfl, fun out ho => by simp [callback.reentrant.message.response.walk] at ho⟩
  | succ fuel ih =>
    intro visited chain a tr g hlt hdr htr
    cases chain with
    | nil =>
      refine ⟨rfl, fun out ho => ?_⟩
      simp only [callback.reentrant.message.response.walk, Option.some.injEq] at ho
      subst ho
      exact htr
    | cons x next =>
      have hts : callback.reentrant.sender.try_send send1 hd x g a tr =
          callback.reentrant.sender.try_send send hd x g a tr := by
        by_cases hx : x = c
        · subst hx
          rw [reentrant_try_send_dropped send1 hd x g a tr hdr,
            reentrant_try_send_dropped send hd x g a tr hdr]
        · unfold callback.reentrant.sender.try_send callback.reentrant.sender.do_send
          rw [hag g x a hx]
      have hk := keeps_try_send send hd hsend hhd x g a tr
      have htr1 : c ∉ (callback.reentrant.sender.try_send send hd x g a tr).2.2.1 := by
        rcases reentrant_try_send_trace send hd x g a tr with ⟨_, e⟩ | ⟨hl, e⟩
        · rw [e]; exact htr
        · rw [e]
          have hx : x ≠ c := by
            rintro rfl
            unfold contact.isDropped at hl
            rw [hdr] at hl; cases hl
          simp [htr, Ne.symm hx]
      rw [callback.reentrant.message.response.walk, callback.reentrant.message.response.walk,
        hts]
      generalize callback.reentrant.sender.try_send send hd x g a tr = t at hk htr1
      obtain ⟨g1, a1, tr1, d⟩ := t
      have hlt1 : c < g1.world.next := lt_of_lt_of_le hlt hk.next
      have hdr1 : (g1.world.arena c).dropped = true := hk.dropped c hlt hdr
      cases d with
      | none =>
        refine ⟨rfl, fun out ho => ?_⟩
        simp only [Option.some.injEq] at ho
        subst ho
        exact htr1
      | some d =>
        cases d with
        | dead =>
          simp only
          cases hq : callback.contact.drop nest x .message (g1.setSenders m (visited ++ next)) with
          | none => exact ⟨rfl, fun out ho => by simp at ho⟩
          | some v =>
            obtain ⟨r2, g2⟩ := v
            have h2 := keeps_contact_drop (fun _ => False) nest x .message _ r2 g2 hq
            cases r2 with
            | error e =>
              refine ⟨rfl, fun out ho => ?_⟩
              simp only [Option.some.injEq] at ho
              subst ho
              exact htr1
            | ok u =>
              simp only
              exact ih _ _ _ _ _ (lt_of_lt_of_le (by simpa using hlt1) h2.next)
                (h2.dropped c (by simpa using hlt1) (by simpa using hdr1)) htr1
        | progress =>
          simp only
          exact ih _ _ _ _ _ hlt1 hdr1 htr1
        | repeat_ =>
          simp only
          exact ih _ _ _ _ _ (by simpa using hlt1) (by simpa using hdr1) htr1
        | finish =>
          refine ⟨rfl, fun out ho => ?_⟩
          simp only [Option.some.injEq] at ho
          subst ho
          exact htr1

theorem filter_length_mono (p q : Nat → Bool) :
    ∀ l : List Nat, (∀ x ∈ l, p x = true → q x = true) →
      (l.filter p).length ≤ (l.filter q).length := by
  intro l
  induction l with
  | nil => intro _; simp
  | cons x l ih =>
    intro h
    have ih1 := ih (fun y hy => h y (List.mem_cons_of_mem _ hy))
    cases hp : p x
    · rw [List.filter_cons_of_neg (by simp [hp])]
      cases hq : q x
      · rw [List.filter_cons_of_neg (by simp [hq])]; exact ih1
      · rw [List.filter_cons_of_pos (by simp [hq])]
        simp only [List.length_cons]; omega
    · have hq := h x (List.mem_cons_self _ _) hp
      rw [List.filter_cons_of_pos (by simp [hp]), List.filter_cons_of_pos (by simp [hq])]
      simp only [List.length_cons]; omega

/-- What `do_send` gives when the handler returns. -/
theorem reentrant_try_send_returned {σ ρ : Type}
    (send : callback.Heap → Nat → σ → callback.Heap × σ × Option ρ)
    (hd : callback.Heap → ρ → σ → callback.Heap × σ × Option iteration_state)
    (self : Nat) (g : callback.Heap) (a : σ) (tr : List Nat)
    (hl : contact.isDropped self g.world = false) (r : ρ)
    (hr : (send g self a).2.2 = some r) :
    callback.reentrant.sender.try_send send hd self g a tr =
      ((hd (send g self a).1 r (send g self a).2.1).1,
        (hd (send g self a).1 r (send g self a).2.1).2.1, tr ++ [self],
        (hd (send g self a).1 r (send g self a).2.1).2.2) := by
  rw [reentrant_try_send_live send hd self g a tr hl]
  rcases reentrant_do_send_eq send hd self g a tr with ⟨hn, _⟩ | ⟨r1, h1, e⟩
  · rw [hn] at hr; cases hr
  · rw [h1] at hr
    cases hr
    exact e

/-- While at least two entries of the list are not flagged dropped and the
handlers flag none, a loop whose response handler always answers `repeat`
never reaches the end of the list: it uses up any amount of fuel. -/
theorem reentrant_walk_always_repeat {σ ρ : Type} (nest : Nat)
    (send : callback.Heap → Nat → σ → callback.Heap × σ × Option ρ)
    (hd : callback.Heap → ρ → σ → callback.Heap × σ × Option iteration_state) (m : Nat)
    (hsendk : ∀ g c s, callback.reentrant.Keeps (fun _ => False) g (send g c s).1)
    (hhdk : ∀ g r s, callback.reentrant.Keeps (fun _ => False) g (hd g r s).1)
    (hsend : ∀ g c s, ((send g c s).2.2).isSome = true)
    (hh : ∀ g r s, (hd g r s).2.2 = some .repeat_)
    (hkeep : ∀ g c s x, x ∈ (g.world.messages m).Senders → contact.isDropped x g.world = false →
      contact.isDropped x (send g c s).1.world = false)
    (hkeepd : ∀ g r s x, x ∈ (g.world.messages m).Senders →
      contact.isDropped x g.world = false → contact.isDropped x (hd g r s).1.world = false) :
    ∀ (fuel : Nat) (visited chain : List Nat) (a : σ) (tr : List Nat) (g : callback.Heap),
      message.isSending m g.world = true →
      (g.world.messages m).Senders = visited ++ chain →
      1 ≤ (chain.filter (fun c => !contact.isDropped c g.world)).length →
      2 ≤ (visited.filter (fun c => !contact.isDropped c g.world)).length +
        (chain.filter (fun c => !contact.isDropped c g.world)).length →
      callback.reentrant.message.response.walk nest send hd m fuel visited chain a tr g =
        none := by
  intro fuel
  induction fuel with
  | zero => intro visited chain a tr g _ _ _ _; rfl
  | succ fuel ih =>
    intro visited chain a tr g hs hl h1 h2
    cases chain with
    | nil => simp at h1
    | cons c next =>
      rw [callback.reentrant.message.response.walk]
      cases hdr : contact.isDropped c g.world with
      | true =>
        rw [reentrant_try_send_dropped send hd c g a tr hdr]
        simp only
        cases nest with
        | zero => rfl
        | succ nest =>
          rw [callback_drop_flagged nest c .message _
            (by simpa [contact.isDropped] using hdr)]
          simp only
          have hsame : ∀ x, contact.isDropped x
              (callback.contact.destruct c (g.setSenders m (visited ++ next))).world =
              contact.isDropped x g.world := by
            intro x
            rw [callback_destruct_world]
            unfold contact.isDropped contact.destruct
            simp only [World.setContact_arena, Heap.setSenders_world, World.setSenders_arena]
            by_cases hx : x = c
            · subst hx; simp
            · simp [hx]
          have hc : (!contact.isDropped c g.world) = false := by simp [hdr]
          rw [filter_length_cons_neg _ _ _ hc] at h1 h2
          apply ih
          · rw [callback_destruct_world]
            simpa [contact.destruct, message.isSending] using hs
          · rw [callback_destruct_world]
            simp [contact.destruct]
          · simpa only [hsame] using h1
          · simpa only [hsame] using h2
      | false =>
        obtain ⟨r, hr⟩ := Option.isSome_iff_exists.1 (hsend g c a)
        rw [reentrant_try_send_returned send hd c g a tr hdr r hr]
        have k1 := hsendk g c a
        have k2 := hhdk (send g c a).1 r (send g c a).2.1
        have hs1 := (k1.sending m (fun h => h) hs)
        have hs2 := (k2.sending m (fun h => h) hs1.1)
        have hkp : ∀ y ∈ visited ++ c :: next, contact.isDropped y g.world = false →
            contact.isDropped y (hd (send g c a).1 r (send g c a).2.1).1.world = false := by
          intro y hy hyl
          have h1 := hkeep g c a y (by rw [hl]; exact hy) hyl
          exact hkeepd _ r _ y (by rw [hs1.2, hl]; exact hy) h1
        have hpr := hh (send g c a).1 r (send g c a).2.1
        generalize hd (send g c a).1 r (send g c a).2.1 = t at *
        obtain ⟨g2, a2, d⟩ := t
        simp only at hpr
        subst hpr
        simp only
        have hc : (!contact.isDropped c g.world) = true := by simp [hdr]
        rw [filter_length_cons_pos _ _ _ hc] at h1 h2
        have hmono : ∀ l : List Nat, (∀ y ∈ l, y ∈ visited ++ c :: next) →
            (l.filter (fun y => !contact.isDropped y g.world)).length ≤
            (l.filter (fun y => !contact.isDropped y
              (g2.setSenders m (c :: (next ++ visited))).world)).length := by
          intro l hsub
          apply filter_length_mono
          intro y hy hyl
          have := hkp y (hsub y hy) (by simpa using hyl)
          simpa [contact.isDropped] using this
        have hc2 : (!contact.isDropped c (g2.setSenders m (c :: (next ++ visited))).world) =
            true := by
          have := hkp c (by simp) hdr
          simpa [contact.isDropped] using this
        apply ih
        · simpa [message.isSending] using hs2.1
        · simp
        · have := hmono (next ++ visited) (fun y hy => by
            rcases List.mem_append.1 hy with h | h
            · simp [h]
            · simp [h])
          simp only [List.filter_append, List.length_append] at this ⊢
          omega
        · rw [filter_length_cons_pos _ _ _ hc2]
          have := hmono (next ++ visited) (fun y hy => by
            rcases List.mem_append.1 hy with h | h
            · simp [h]
            · simp [h])
          simp only [List.filter_append, List.length_append, List.filter_nil,
            List.length_nil] at this ⊢
          omega

theorem reentrant_try_send_quiet {σ ρ : Type} (send : World → Nat → σ → σ × Option ρ)
    (hd : ρ → σ → σ × Option iteration_state) (self : Nat) (g : callback.Heap) (a : σ)
    (tr : List Nat) :
    callback.reentrant.sender.try_send (callback.reentrant.quiet_handler send)
        (callback.reentrant.quiet_controller hd) self g a tr =
      (g, (sender.try_send send hd self g.world a).1,
        (if contact.isDropped self g.world then tr else tr ++ [self]),
        (sender.try_send send hd self g.world a).2) := by
  unfold callback.reentrant.sender.try_send sender.try_send
  cases hq : contact.isDropped self g.world
  · simp only [Bool.false_eq_true, if_false]
    unfold callback.reentrant.sender.do_send sender.do_send callback.reentrant.quiet_handler
      callback.reentrant.quiet_controller
    rcases send g.world self a with ⟨a1, _ | r⟩
    · rfl
    · rfl
  · simp

/-- With handlers that make no call of the library, the loop is the loop of
the second model. -/
theorem reentrant_walk_quiet {σ ρ : Type} (nest : Nat) (send : World → Nat → σ → σ × Option ρ)
    (hd : ρ → σ → σ × Option iteration_state) (m : Nat) :
    ∀ (fuel : Nat) (visited chain : List Nat) (a : σ) (tr : List Nat) (g : callback.Heap),
      callback.reentrant.message.response.walk nest (callback.reentrant.quiet_handler send)
          (callback.reentrant.quiet_controller hd) m fuel visited chain a tr g =
        callback.message.response.walk nest send hd m fuel visited chain a tr g := by
  intro fuel
  induction fuel with
  | zero => intro visited chain a tr g; rfl
  | succ fuel ih =>
    intro visited chain a tr g
    cases chain with
    | nil => rfl
    | cons x next =>
      rw [callback.reentrant.message.response.walk, callback.message.response.walk,
        reentrant_try_send_quiet]
      generalize sender.try_send send hd x g.world a = t
      obtain ⟨a1, d⟩ := t
      cases d with
      | none => rfl
      | some d =>
        cases d with
        | dead =>
          simp only
          cases callback.contact.drop nest x .message (g.setSenders m (visited ++ next)) with
          | none => rfl
          | some v =>
            obtain ⟨r2, g2⟩ := v
            cases r2 with
            | error e => rfl
            | ok u => exact ih _ _ _ _ _
        | progress => exact ih _ _ _ _ _
        | repeat_ => exact ih _ _ _ _ _
        | finish => rfl

/-- With handlers that make no call of the library, `response` and `send`
are those of the second model. -/
theorem reentrant_response_quiet {σ ρ : Type} (nest fuel : Nat)
    (send : World → Nat → σ → σ × Option ρ) (hd : ρ → σ → σ × Option iteration_state)
    (m : Nat) (a : σ) (g : callback.Heap) :
    callback.reentrant.message.response nest fuel (callback.reentrant.quiet_handler send)
        (callback.reentrant.quiet_controller hd) m a g =
      callback.message.response nest fuel send hd m a g ∧
    callback.reentrant.message.send nest fuel (callback.reentrant.quiet_handler send) m a g =
      @callback.message.send σ ρ nest fuel send m a g := by
  unfold callback.reentrant.message.send callback.message.send
    callback.reentrant.message.response callback.message.response
  refine ⟨?_, ?_⟩
  all_goals simp only [reentrant_walk_quiet]

/-- On a heap in which contact `c` is flagged, `response` and `send` never
call the handler of `c`: with any other handler in its place they run the
same, and `c` is not among the senders whose handler was called. -/
theorem reentrant_response_skips_dropped {σ ρ : Type} (nest fuel : Nat)
    (send send1 : callback.Heap → Nat → σ → callback.Heap × σ × Option ρ)
    (hd : callback.Heap → ρ → σ → callback.Heap × σ × Option iteration_state) (m c : Nat) (a : σ)
    (hsend : ∀ g i s, callback.reentrant.Keeps (fun _ => False) g (send g i s).1)
    (hhd : ∀ g r s, callback.reentrant.Keeps (fun _ => False) g (hd g r s).1)
    (hag : ∀ g i s, i ≠ c → send1 g i s = send g i s)
    (g : callback.Heap) (hlt : c < g.world.next) (hdr : (g.world.arena c).dropped = true) :
    callback.reentrant.message.response nest fuel send1 hd m a g =
      callback.reentrant.message.response nest fuel send hd m a g ∧
    ∀ out, callback.reentrant.message.response nest fuel send hd m a g = some out →
      c ∉ out.trace := by
  obtain ⟨e, ht⟩ := reentrant_walk_skips_dropped nest send send1 hd m c hsend hhd hag fuel []
    (g.world.messages m).Senders a [] { g with world := g.world.setSending m true }
    (by simpa using hlt) (by simpa using hdr) (by simp)
  unfold callback.reentrant.message.response
  rw [e]
  refine ⟨rfl, fun out ho => ?_⟩
  by_cases hs : message.isSending m g.world = true
  · rw [if_pos hs] at ho
    simp only [Option.some.injEq] at ho
    subst ho
    simp
  · rw [if_neg hs] at ho
    cases hq : callback.reentrant.message.response.walk nest send hd m fuel []
        (g.world.messages m).Senders a [] { g with world := g.world.setSending m true } with
    | none => simp [hq] at ho
    | some out1 =>
      simp only [hq, Option.some.injEq] at ho
      subst ho
      exact ht out1 hq

theorem keeps_quiet_controller {σ ρ : Type} (h : ρ → σ → σ × Option iteration_state)
    (g : callback.Heap) (r : ρ) (s : σ) :
    callback.reentrant.Keeps (fun _ => False) g (callback.reentrant.quiet_controller h g r s).1 :=
  keeps_refl _ _

theorem demo_appends_calls (g : callback.Heap) (c : Nat) (s : List Nat) :
    callback.reentrant.Calls g (callback.Demo.appends g c s).1 :=
  callback.reentrant.Calls.done g

theorem quiet_controller_calls {σ ρ : Type} (h : ρ → σ → σ × Option iteration_state)
    (g : callback.Heap) (r : ρ) (s : σ) :
    callback.reentrant.Calls g (callback.reentrant.quiet_controller h g r s).1 :=
  callback.reentrant.Calls.done g

theorem demo_drops_calls (token : Nat) (g : callback.Heap) (c : Nat) (s : List Nat) :
    callback.reentrant.Calls g (callback.Demo.drops token g c s).1 := by
  unfold callback.Demo.drops
  by_cases h : c = 1
  · rw [if_pos h]
    cases hq : callback.pigeon.drop 2 0 token g with
    | none => exact callback.reentrant.Calls.done g
    | some v =>
      obtain ⟨r, g1⟩ := v
      exact callback.reentrant.Calls.call (callback.reentrant.Calls.done g)
        (callback.Step.pigeon_drop 2 0 token hq)
  · rw [if_neg h]
    exact callback.reentrant.Calls.done g

/-- With a single entry, not flagged, and a response handler that answers
`repeat`, `response` returns after one call of the handler. -/
theorem reentrant_response_single_repeat {σ ρ : Type} (nest : Nat)
    (send : callback.Heap → Nat → σ → callback.Heap × σ × Option ρ)
    (hd : callback.Heap → ρ → σ → callback.Heap × σ × Option iteration_state) (m : Nat)
    (hsend : ∀ g c s, ((send g c s).2.2).isSome = true)
    (hh : ∀ g r s, (hd g r s).2.2 = some .repeat_)
    (a : σ) (g : callback.Heap) (hs : message.isSending m g.world = false) (c : Nat)
    (hl : (g.world.messages m).Senders = [c]) (hlive : contact.isDropped c g.world = false)
    (fuel : Nat) (hf : 2 ≤ fuel) :
    ∃ out, callback.reentrant.message.response nest fuel send hd m a g = some out ∧
      out.trace = [c] ∧ out.threw = false ∧
      out.user = (callback.reentrant.spec_in_turn send hd [c]
        { g with world := g.world.setSending m true } a).2 ∧
      (out.heap.world.messages m).Senders = [c] ∧
      message.isSending m out.heap.world = false := by
  obtain ⟨k, rfl⟩ : ∃ k, fuel = k + 2 := ⟨fuel - 2, by omega⟩
  obtain ⟨r, hr⟩ := Option.isSome_iff_exists.1
    (hsend { g with world := g.world.setSending m true } c a)
  have hspec : callback.reentrant.spec_in_turn send hd [c]
      { g with world := g.world.setSending m true } a =
      ((hd (send { g with world := g.world.setSending m true } c a).1 r
          (send { g with world := g.world.setSending m true } c a).2.1).1,
        (hd (send { g with world := g.world.setSending m true } c a).1 r
          (send { g with world := g.world.setSending m true } c a).2.1).2.1) := by
    rw [callback.reentrant.spec_in_turn]
    have e : send { g with world := g.world.setSending m true } c a =
        ((send { g with world := g.world.setSending m true } c a).1,
          (send { g with world := g.world.setSending m true } c a).2.1, some r) := by
      rw [← hr]
    rw [e]
    rfl
  unfold callback.reentrant.message.response
  rw [if_neg (by simp [hs]), hl, callback.reentrant.message.response.walk,
    reentrant_try_send_returned send hd c _ a [] (by simpa [contact.isDropped] using hlive) r hr,
    hspec]
  have hpr := hh (send { g with world := g.world.setSending m true } c a).1 r
    (send { g with world := g.world.setSending m true } c a).2.1
  generalize hd (send { g with world := g.world.setSending m true } c a).1 r
    (send { g with world := g.world.setSending m true } c a).2.1 = t at *
  obtain ⟨g2, a2, d⟩ := t
  simp only at hpr
  subst hpr
  simp only [List.append_nil, List.nil_append, callback.reentrant.message.response.walk]
  exact ⟨_, rfl, rfl, rfl, rfl, by simp, by simp [message.isSending]⟩

theorem deliver_at_ok {address p m token : Nat} {w w1 : World}
    (h : pigeon.deliver_at address p m w = some (.ok (token, w1))) :
    World.free w address = true ∧
    (w.pigeons p).contacts_flag = false ∧ message.isSending m w = false ∧ token = address ∧
    w1.next = max w.next (address + 1) ∧
    (∀ i, w1.arena i = if i = address then ⟨false, 0, false, m, p⟩ else w.arena i) ∧
    (∀ i, (w1.messages i).Senders =
      if i = m then address :: (w.messages m).Senders else (w.messages i).Senders) ∧
    (∀ i, (w1.messages i).Senders_flag = (w.messages i).Senders_flag) ∧
    (∀ i, (w1.pigeons i).contacts =
      if i = p then address :: (w.pigeons p).contacts else (w.pigeons i).contacts) ∧
    (∀ i, (w1.pigeons i).contacts_flag = (w.pigeons i).contacts_flag) := by
  unfold pigeon.deliver_at at h
  cases hf : World.free w address
  · simp [hf] at h
  · rw [if_pos hf] at h
    unfold pigeon.ensureNotDestructing message.make_contact_at message.ensureNotSending at h
    cases hd : (w.pigeons p).contacts_flag
    · cases hs : message.isSending m w
      · simp only [hd, hs, Bool.false_eq_true, if_false, Option.some.injEq, Except.ok.injEq,
          Prod.mk.injEq] at h
        obtain ⟨h1, h2⟩ := h
        subst h2
        refine ⟨rfl, rfl, rfl, h1.symm, rfl, fun i => rfl, fun i => ?_, fun i => ?_,
          fun i => ?_, fun i => ?_⟩
        · simp
        · simp
        · simp
        · simp
      · simp [hd, hs] at h
    · simp [hd] at h

/-- No contact lives at a free address: it is in no list. -/
theorem free_not_listed {w : World} (hw : Inv w) {address : Nat}
    (hf : World.free w address = true) :
    (∀ i, address ∉ (w.messages i).Senders) ∧ (∀ i, address ∉ (w.pigeons i).contacts) := by
  unfold World.free at hf
  simp only [Bool.or_eq_true, decide_eq_true_eq] at hf
  constructor
  · intro i hx
    have h3 := hw.sender_owner i address hx
    have hz := hw.destructs_zero address (Or.inr (Or.inl (by
      unfold World.inMessage; rw [h3.1]; exact hx)))
    omega
  · intro i hx
    have h4 := hw.contact_owner i address hx
    have hz := hw.destructs_zero address (Or.inr (Or.inr (by
      unfold World.inPigeon; rw [h4.1]; exact hx)))
    omega

theorem inv_deliver_at {address p m token : Nat} {w w1 : World} (hw : Inv w)
    (hle : address ≤ w.next)
    (h : pigeon.deliver_at address p m w = some (.ok (token, w1))) : Inv w1 := by
  obtain ⟨hf, _, _, _, hn, ha, hS, _, hC, _⟩ := deliver_at_ok h
  obtain ⟨fresh_m, fresh_p⟩ := free_not_listed hw hf
  obtain ⟨h1, h2, h3, h4, h5, h6, h7, h8⟩ := hw
  have hn1 : w.next ≤ w1.next := by rw [hn]; exact le_max_left _ _
  have hn2 : address < w1.next := by rw [hn]; exact lt_of_lt_of_le (Nat.lt_succ_self _) (le_max_right _ _)
  have hn3 : ∀ x, x < w1.next → x ≠ address → x < w.next := by
    intro x hx hxa
    rw [hn] at hx
    rcases Nat.lt_or_ge x w.next with h | h
    · exact h
    · have : x < address + 1 := by
        rcases le_max_iff.1 (le_refl (max w.next (address + 1))) with h' | h'
        · omega
        · omega
      omega
  have keyM : ∀ x, w1.inMessage x ↔ (x = address ∨ w.inMessage x) := by
    intro x
    unfold World.inMessage
    rw [ha x, hS]
    by_cases hx : x = address
    · subst hx; simp
    · simp only [hx, if_false, false_or]
      split
      · next hm => rw [List.mem_cons, hm]; simp [hx]
      · rfl
  have keyP : ∀ x, w1.inPigeon x ↔ (x = address ∨ w.inPigeon x) := by
    intro x
    unfold World.inPigeon
    rw [ha x, hC]
    by_cases hx : x = address
    · subst hx; simp
    · simp only [hx, if_false, false_or]
      split
      · next hm => rw [List.mem_cons, hm]; simp [hx]
      · rfl
  constructor
  · intro i
    rw [hS]
    split
    · exact List.nodup_cons.2 ⟨fresh_m m, h1 m⟩
    · exact h1 i
  · intro i
    rw [hC]
    split
    · exact List.nodup_cons.2 ⟨fresh_p p, h2 p⟩
    · exact h2 i
  · intro i x hx
    rw [hS] at hx
    rw [ha x]
    by_cases hxn : x = address
    · subst hxn
      simp only [if_true]
      split at hx
      · next hi => exact ⟨hi.symm, hn2⟩
      · exact absurd hx (fresh_m i)
    · simp only [hxn, if_false]
      have hx1 : x ∈ (w.messages i).Senders := by
        split at hx
        · next hi =>
          subst hi
          rcases List.mem_cons.1 hx with h | h
          · exact absurd h hxn
          · exact h
        · exact hx
      exact ⟨(h3 i x hx1).1, lt_of_lt_of_le (h3 i x hx1).2 hn1⟩
  · intro i x hx
    rw [hC] at hx
    rw [ha x]
    by_cases hxn : x = address
    · subst hxn
      simp only [if_true]
      split at hx
      · next hi => exact ⟨hi.symm, hn2⟩
      · exact absurd hx (fresh_p i)
    · simp only [hxn, if_false]
      have hx1 : x ∈ (w.pigeons i).contacts := by
        split at hx
        · next hi =>
          subst hi
          rcases List.mem_cons.1 hx with h | h
          · exact absurd h hxn
          · exact h
        · exact hx
      exact ⟨(h4 i x hx1).1, lt_of_lt_of_le (h4 i x hx1).2 hn1⟩
  · intro x
    rw [keyM, keyP, ha x]
    by_cases hxn : x = address
    · subst hxn; simp
    · simp only [hxn, if_false, false_or]
      rw [h5 x]
      constructor
      · exact fun hx => ⟨lt_of_lt_of_le hx.1 hn1, hx.2⟩
      · exact fun hx => ⟨hn3 x hx.1 hxn, hx.2⟩
  · intro x hx1 hx2 hx3
    rw [keyM] at hx2
    rw [keyP] at hx3
    have hxn : x ≠ address := fun h => hx2 (Or.inl h)
    rw [ha x]
    simp only [hxn, if_false]
    exact h6 x (hn3 x hx1 hxn) (fun h => hx2 (Or.inr h)) (fun h => hx3 (Or.inr h))
  · intro x hx
    rw [keyM, keyP] at hx
    rw [ha x]
    by_cases hxn : x = address
    · simp [hxn]
    · simp only [hxn, if_false]
      refine h7 x ?_
      rcases hx with h | h | h
      · exact Or.inl (le_trans hn1 h)
      · exact Or.inr (Or.inl (h.resolve_left hxn))
      · exact Or.inr (Or.inr (h.resolve_left hxn))
  · intro x
    rw [ha x]
    split
    · rfl
    · exact h8 x

/-- The structural invariant holds, and no message is dispatching, in every
heap that a program reaches in which released storage is handed out again. -/
theorem reachable_reusing_inv {w : World} (hr : Reachable_reusing w) : Inv w ∧ Quiet w := by
  unfold Reachable_reusing at hr
  induction hr with
  | refl => exact ⟨inv_init, fun _ => rfl⟩
  | tail _ hstep ih =>
    cases hstep with
    | call hs => exact ⟨step_inv hs ih.1, step_quiet hs ih.2⟩
    | deliver_at address p m token hle h =>
      refine ⟨inv_deliver_at ih.1 hle h, fun i => ?_⟩
      obtain ⟨_, _, _, _, _, _, _, hF, _, _⟩ := deliver_at_ok h
      have hi := ih.2 i
      unfold message.isSending at hi ⊢
      rw [hF]; exact hi

theorem reachable_reusing_of_reachable {w : World} (hr : Reachable w) : Reachable_reusing w := by
  unfold Reachable Steps at hr
  unfold Reachable_reusing
  induction hr with
  | refl => exact Relation.ReflTransGen.refl
  | tail _ hstep ih => exact ih.tail (Step_reusing.call hstep)

theorem demo_two_released_reachable : Reachable Demo.two_released :=
  (demo_two_reachable.tail (Step.message_drop 0 1 rfl)).tail (Step.pigeon_drop 0 1)

theorem demo_two_reused_reachable : Reachable_reusing Demo.two_reused :=
  (reachable_reusing_of_reachable demo_two_released_reachable).tail
    (Step_reusing.deliver_at 1 1 0 1 (by decide) rfl)

/-! # The claims -/

/-- C1: in every reachable heap each contact has been destructed at most once,
no execution of `destruct()` found the contact still linked into the list of
its message or of its pigeon, and a destructed contact is in no sender list
and in no contact list. -/
theorem destruct_once_and_only_unlinked (w : World) (hr : Reachable w) (c : Nat) :
    (w.arena c).destructs ≤ 1 ∧ (w.arena c).destructed_linked = false ∧
    (0 < (w.arena c).destructs →
      ∀ i, c ∉ (w.messages i).Senders ∧ c ∉ (w.pigeons i).contacts) := by
  obtain ⟨hI, _⟩ := reachable_inv hr
  have hM : (∃ i, c ∈ (w.messages i).Senders) → w.inMessage c := by
    rintro ⟨i, hi⟩
    unfold World.inMessage
    rw [(hI.sender_owner i c hi).1]; exact hi
  have hP : (∃ i, c ∈ (w.pigeons i).contacts) → w.inPigeon c := by
    rintro ⟨i, hi⟩
    unfold World.inPigeon
    rw [(hI.contact_owner i c hi).1]; exact hi
  refine ⟨?_, hI.never_linked c, ?_⟩
  · by_cases h : w.next ≤ c ∨ w.inMessage c ∨ w.inPigeon c
    · rw [hI.destructs_zero c h]; exact Nat.zero_le _
    · push_neg at h
      rw [hI.destructs_one c h.1 h.2.1 h.2.2]
  · intro hpos i
    constructor
    · intro hi
      rw [hI.destructs_zero c (Or.inr (Or.inl (hM ⟨i, hi⟩)))] at hpos
      exact lt_irrefl _ hpos
    · intro hi
      rw [hI.destructs_zero c (Or.inr (Or.inr (hP ⟨i, hi⟩)))] at hpos
      exact lt_irrefl _ hpos

theorem destruct_once_and_only_unlinked_witness :
    Reachable Demo.one_cleared ∧ (Demo.one_cleared.arena 0).destructs = 1 ∧
    ((Demo.one_cleared.arena 0).destructs ≤ 1 ∧
      (Demo.one_cleared.arena 0).destructed_linked = false ∧
      (0 < (Demo.one_cleared.arena 0).destructs →
        ∀ i, 0 ∉ (Demo.one_cleared.messages i).Senders ∧
          0 ∉ (Demo.one_cleared.pigeons i).contacts)) :=
  ⟨demo_one_cleared_reachable, by decide,
    destruct_once_and_only_unlinked Demo.one_cleared demo_one_cleared_reachable 0⟩

/-- C2: from a reachable heap, for a message `m` and a pigeon `p` that is not
destructing, `m.clear()` then `p.clear()` and `p.clear()` then `m.clear()`
both succeed and end in the same heap.  There both lists are empty, both sizes
are 0, every contact that was in both lists has been destructed exactly once
and was not destructed by the first clear alone, and a following `m.send()`
runs no handler. -/
theorem clear_either_order (w : World) (hr : Reachable w) (m p : Nat)
    (hp : (w.pigeons p).contacts_flag = false) :
    ∃ w1 w2, message.clear m w = .ok w1 ∧ message.clear m (pigeon.clear p w) = .ok w2 ∧
      pigeon.clear p w1 = w2 ∧
      (w2.messages m).Senders = [] ∧ (w2.pigeons p).contacts = [] ∧
      message.size m w2 = 0 ∧ pigeon.size p w2 = .ok 0 ∧
      (∀ c, c ∈ (w.messages m).Senders → c ∈ (w.pigeons p).contacts →
        (w1.arena c).destructs = 0 ∧ ((pigeon.clear p w).arena c).destructs = 0 ∧
        (w2.arena c).destructs = 1) ∧
      (∀ (σ ρ : Type) (send : World → Nat → σ → σ × Option ρ) (a : σ) (fuel : Nat),
        ∃ out, message.send (fuel + 1) send m a w2 = some out ∧ out.trace = []) := by
  obtain ⟨hI, hQ⟩ := reachable_inv hr
  have hc1 := message_clear_of_not_sending (hQ m)
  have hr1 : Reachable (drop_chain .message (w.messages m).Senders (w.setSenders m [])) :=
    hr.tail (Step.message_clear m hc1)
  have hrp : Reachable (pigeon.clear p w) := hr.tail (Step.pigeon_clear p)
  obtain ⟨hIp, hQp⟩ := reachable_inv hrp
  have hc2 := message_clear_of_not_sending (hQp m)
  have hr2 := hrp.tail (Step.message_clear m hc2)
  have hr12 := hr1.tail (Step.pigeon_clear p)
  obtain ⟨hI1, hQ1⟩ := reachable_inv hr1
  obtain ⟨hI2, hQ2⟩ := reachable_inv hr2
  obtain ⟨hI12, hQ12⟩ := reachable_inv hr12
  have hpm : (pigeon.clear p w).messages = w.messages := by simp [pigeon.clear]
  refine ⟨_, _, hc1, hc2, ?_, ?_, ?_, ?_, ?_, ?_, ?_⟩
  · refine inv_unique hI2 hI12 ?_ ?_ ?_ ?_ ?_
    · simp [pigeon.clear]
    · funext i
      simp [pigeon.clear, World.setSenders]
    · funext i
      simp [pigeon.clear, World.setContacts]
    · intro c; simp [pigeon.clear]
    · intro c; simp [pigeon.clear]
  · simp
  · simp [pigeon.clear]
  · simp [message.size]
  · unfold pigeon.size pigeon.ensureNotDestructing
    simp [pigeon.clear, hp]
  · intro c hcm hcp
    have hom := (hI.sender_owner m c hcm).1
    have hop := (hI.contact_owner p c hcp).1
    have hlt := (hI.sender_owner m c hcm).2
    refine ⟨hI1.destructs_zero c (Or.inr (Or.inr ?_)), hIp.destructs_zero c (Or.inr (Or.inl ?_)),
      hI2.destructs_one c ?_ ?_ ?_⟩
    · simp [World.inPigeon, hop, hcp]
    · simp [World.inMessage, pigeon.clear, hom, hcm]
    · simpa [pigeon.clear] using hlt
    · simp [World.inMessage, pigeon.clear, hom]
    · simp [World.inPigeon, pigeon.clear, hop]
  · intro σ ρ send a fuel
    exact send_empty send m a _ fuel (hQ2 m) (by simp)


theorem clear_either_order_witness :
    Reachable Demo.two ∧ (Demo.two.pigeons 0).contacts_flag = false ∧
    (Demo.two.messages 0).Senders = [1, 0] ∧ (Demo.two.pigeons 0).contacts = [1, 0] ∧
    ∃ w1 w2, message.clear 0 Demo.two = .ok w1 ∧
      message.clear 0 (pigeon.clear 0 Demo.two) = .ok w2 ∧
      pigeon.clear 0 w1 = w2 ∧
      (w2.messages 0).Senders = [] ∧ (w2.pigeons 0).contacts = [] ∧
      message.size 0 w2 = 0 ∧ pigeon.size 0 w2 = .ok 0 ∧
      (∀ c, c ∈ (Demo.two.messages 0).Senders → c ∈ (Demo.two.pigeons 0).contacts →
        (w1.arena c).destructs = 0 ∧ ((pigeon.clear 0 Demo.two).arena c).destructs = 0 ∧
        (w2.arena c).destructs = 1) ∧
      (∀ (σ ρ : Type) (send : World → Nat → σ → σ × Option ρ) (a : σ) (fuel : Nat),
        ∃ out, message.send (fuel + 1) send 0 a w2 = some out ∧ out.trace = []) :=
  ⟨demo_two_reachable, rfl, rfl, rfl, clear_either_order Demo.two demo_two_reachable 0 0 rfl⟩

/-- C4: once the drop of a subscription `c` has been requested by either
side (`drop(token)` of the pigeon or of the message returned true, or `clear()`
of the pigeon or of the message that lists it returned), then after any
further calls of the library, made between dispatches or by handlers during
one, no `response` and no `send` on any message calls the handler of `c`: the
call runs the same whatever handler is put in the place of that of `c`, and
`c` is not among the senders whose handler was called.  The handlers and the
response handler may themselves call the library.  In particular, when
`deliver` has returned the token `c` and the pigeon drops it at once, the
drop finds the contact (it returns true, or the callback of the contact
throws out of it), and no later `response` or `send` calls the handler.  The
same holds for the rest of a dispatch that is under way: from a state of the
loop in which `c` is flagged (a handler has dropped it through its pigeon),
the loop does not call the handler of `c`. -/
theorem no_handler_after_drop_request {σ ρ : Type} (nest fuel : Nat)
    (send send1 : callback.Heap → Nat → σ → callback.Heap × σ × Option ρ)
    (hd : callback.Heap → ρ → σ → callback.Heap × σ × Option iteration_state) (m c : Nat) (a : σ)
    (hsend : ∀ g i s, callback.reentrant.Calls g (send g i s).1)
    (hhd : ∀ g r s, callback.reentrant.Calls g (hd g r s).1)
    (hag : ∀ g i s, i ≠ c → send1 g i s = send g i s) (g : callback.Heap) :
    (∀ g1 g2, c < g.world.next → callback.DropRequested c g g1 →
      callback.reentrant.Calls g1 g2 →
      callback.reentrant.message.response nest fuel send1 hd m a g2 =
        callback.reentrant.message.response nest fuel send hd m a g2 ∧
      (∀ out, callback.reentrant.message.response nest fuel send hd m a g2 = some out →
        c ∉ out.trace) ∧
      callback.reentrant.message.send nest fuel send1 m a g2 =
        callback.reentrant.message.send nest fuel send m a g2 ∧
      (∀ out, callback.reentrant.message.send nest fuel send m a g2 = some out →
        c ∉ out.trace)) ∧
    (∀ p i alloc f size_bytes,
      (callback.pigeon.deliver p i alloc f size_bytes g).1 = .ok c →
      ∀ fuel1 r g1,
        callback.pigeon.drop fuel1 p c (callback.pigeon.deliver p i alloc f size_bytes g).2 =
          some (r, g1) →
        (r = .ok true ∨ ∃ e, r = .error e) ∧
        ∀ g2, callback.reentrant.Calls g1 g2 →
          callback.reentrant.message.response nest fuel send1 hd m a g2 =
            callback.reentrant.message.response nest fuel send hd m a g2 ∧
          (∀ out, callback.reentrant.message.response nest fuel send hd m a g2 = some out →
            c ∉ out.trace) ∧
          callback.reentrant.message.send nest fuel send1 m a g2 =
            callback.reentrant.message.send nest fuel send m a g2 ∧
          (∀ out, callback.reentrant.message.send nest fuel send m a g2 = some out →
            c ∉ out.trace)) ∧
    (∀ (fuel1 : Nat) (visited chain : List Nat) (a1 : σ) (tr : List Nat) (g0 : callback.Heap),
      c < g0.world.next → (g0.world.arena c).dropped = true → c ∉ tr →
      callback.reentrant.message.response.walk nest send1 hd m fuel1 visited chain a1 tr g0 =
        callback.reentrant.message.response.walk nest send hd m fuel1 visited chain a1 tr g0 ∧
      ∀ out, callback.reentrant.message.response.walk nest send hd m fuel1 visited chain a1 tr
        g0 = some out → c ∉ out.trace) := by
  have main : ∀ g2 : callback.Heap, c < g2.world.next → (g2.world.arena c).dropped = true →
      callback.reentrant.message.response nest fuel send1 hd m a g2 =
        callback.reentrant.message.response nest fuel send hd m a g2 ∧
      (∀ out, callback.reentrant.message.response nest fuel send hd m a g2 = some out →
        c ∉ out.trace) ∧
      callback.reentrant.message.send nest fuel send1 m a g2 =
        callback.reentrant.message.send nest fuel send m a g2 ∧
      (∀ out, callback.reentrant.message.send nest fuel send m a g2 = some out →
        c ∉ out.trace) := by
    intro g2 hlt hdr
    have k1 := reentrant_response_skips_dropped nest fuel send send1 hd m c a
      (fun g i s => calls_keeps (hsend g i s)) (fun g r s => calls_keeps (hhd g r s)) hag g2 hlt hdr
    have k2 := reentrant_response_skips_dropped nest fuel send send1
      (callback.reentrant.quiet_controller (call_handler_void (fun (_ : ρ) (s : σ) => (s, some ()))))
      m c a (fun g i s => calls_keeps (hsend g i s)) (keeps_quiet_controller _) hag g2 hlt hdr
    exact ⟨k1.1, k1.2, k2.1, k2.2⟩
  refine ⟨?_, ?_, fun fuel1 visited chain a1 tr g0 hlt hdr htr =>
    reentrant_walk_skips_dropped nest send send1 hd m c
      (fun g i s => calls_keeps (hsend g i s)) (fun g r s => calls_keeps (hhd g r s)) hag
      fuel1 visited chain a1 tr g0 hlt hdr htr⟩
  · intro g1 g2 hlt hreq hlater
    obtain ⟨hd1, hlt1⟩ := callback_drop_requested hreq hlt
    have hk := calls_keeps hlater
    exact main g2 (lt_of_lt_of_le hlt1 hk.next) (hk.dropped c hlt1 hd1)
  · intro p i alloc f size_bytes hdel fuel1 r g1 hdrop
    rcases callback_deliver_cases p i alloc f size_bytes g with ⟨⟨e, he⟩, _⟩ | ⟨hok, hd1, _⟩
    · rw [he] at hdel; cases hdel
    · rw [hok] at hdel
      have hc : c = g.world.next := by injection hdel with h; exact h.symm
      obtain ⟨_, _, _, hn, _, _, _, hC, _⟩ := pigeon_deliver_ok hd1
      have hlt : c < (callback.pigeon.deliver p i alloc f size_bytes g).2.world.next := by
        rw [hn, hc]; omega
      have hk := keeps_pigeon_drop (fun _ => False) fuel1 p c _ r g1 hdrop
      unfold callback.pigeon.drop callback.pigeon.drop_body at hdrop
      have hu : unlink c ((callback.pigeon.deliver p i alloc f size_bytes g).2.world.pigeons
          p).contacts = some (g.world.pigeons p).contacts := by
        rw [hC p, if_pos rfl, hc]
        simp [unlink]
      rw [hu] at hdrop
      simp only at hdrop
      cases hq : callback.contact.drop fuel1 c .pigeon
          { (callback.pigeon.deliver p i alloc f size_bytes g).2 with
            world := (callback.pigeon.deliver p i alloc f size_bytes g).2.world.setContacts p
              (g.world.pigeons p).contacts } with
      | none => simp [hq] at hdrop
      | some v =>
        obtain ⟨r2, g3⟩ := v
        have hfl := (callback_drop_effect fuel1 c .pigeon _ _ g3 hq).1
        cases r2 with
        | error e =>
          simp only [hq, Option.some.injEq, Prod.mk.injEq] at hdrop
          obtain ⟨rfl, rfl⟩ := hdrop
          refine ⟨Or.inr ⟨e, rfl⟩, fun g2 hlater => ?_⟩
          have hk2 := calls_keeps hlater
          exact main g2 (lt_of_lt_of_le (lt_of_lt_of_le hlt hk.next) hk2.next)
            (hk2.dropped c (lt_of_lt_of_le hlt hk.next) hfl)
        | ok u =>
          simp only [hq, Option.some.injEq, Prod.mk.injEq] at hdrop
          obtain ⟨rfl, rfl⟩ := hdrop
          refine ⟨Or.inl rfl, fun g2 hlater => ?_⟩
          have hk2 := calls_keeps hlater
          exact main g2 (lt_of_lt_of_le (lt_of_lt_of_le hlt hk.next) hk2.next)
            (hk2.dropped c (lt_of_lt_of_le hlt hk.next) hfl)

theorem no_handler_after_drop_request_witness :
    0 < callback.Demo.plain_two.world.next ∧
    callback.pigeon.drop 2 0 0 callback.Demo.plain_two =
      some (.ok true, callback.Demo.plain_two_dropped) ∧
    (callback.Demo.plain_two_dropped.world.messages 0).Senders = [1, 0] ∧
    callback.reentrant.message.response 2 5 callback.Demo.appends_or_throws
        (callback.reentrant.quiet_controller (fun _ l => (l, some iteration_state.progress)))
        0 [] callback.Demo.plain_two_dropped =
      callback.reentrant.message.response 2 5 callback.Demo.appends
        (callback.reentrant.quiet_controller (fun _ l => (l, some iteration_state.progress)))
        0 [] callback.Demo.plain_two_dropped ∧
    (∀ out, callback.reentrant.message.response 2 5 callback.Demo.appends
        (callback.reentrant.quiet_controller (fun _ l => (l, some iteration_state.progress)))
        0 [] callback.Demo.plain_two_dropped = some out → 0 ∉ out.trace) ∧
    (callback.reentrant.message.response 2 5 callback.Demo.appends
        (callback.reentrant.quiet_controller (fun _ l => (l, some iteration_state.progress)))
        0 [] callback.Demo.plain_two_dropped).map
      (fun o => (o.user, o.trace, o.threw, (o.heap.world.messages 0).Senders)) =
      some ([1], [1], false, [1]) :=
  have key := (no_handler_after_drop_request 2 5 callback.Demo.appends
    callback.Demo.appends_or_throws
    (callback.reentrant.quiet_controller (fun (_ : Unit) l => (l, some iteration_state.progress)))
    0 0 [] demo_appends_calls (quiet_controller_calls _)
    (fun g i s hi => by simp [callback.Demo.appends_or_throws, hi])
    callback.Demo.plain_two).1 callback.Demo.plain_two_dropped callback.Demo.plain_two_dropped
    (by decide) (callback.DropRequested.pigeon_drop 2 0 rfl) (callback.reentrant.Calls.done _)
  ⟨by decide, rfl, by decide, key.1, key.2.1, rfl⟩

/-- C5: on a message whose dispatching flag is set, `response` and `send`
return at once: the heap, and with it the sender list and the flag, and the
caller's environment are unchanged, no handler ran, nothing was thrown.  This
holds for any amount of fuel, so the call always returns. -/
theorem response_while_sending_is_noop {σ ρ : Type} (fuel : Nat)
    (send : World → Nat → σ → σ × Option ρ) (h : ρ → σ → σ × Option iteration_state)
    (m : Nat) (a : σ) (w : World) (hs : message.isSending m w = true) :
    message.response fuel send h m a w = some ⟨w, a, [], false⟩ ∧
    message.send fuel send m a w = some ⟨w, a, [], false⟩ := by
  unfold message.send message.response
  simp [hs]

theorem response_while_sending_is_noop_witness :
    message.isSending 0 (Demo.two.setSending 0 true) = true ∧
    (message.response 5 (fun _ _ (n : Nat) => (n + 1, some ()))
        (fun _ n => (n + 1, some iteration_state.repeat_)) 0 0 (Demo.two.setSending 0 true) =
      some ⟨Demo.two.setSending 0 true, 0, [], false⟩ ∧
    message.send 5 (fun _ _ (n : Nat) => (n + 1, some ())) 0 0 (Demo.two.setSending 0 true) =
      some ⟨Demo.two.setSending 0 true, 0, [], false⟩) :=
  ⟨rfl, response_while_sending_is_noop 5 _ _ 0 0 _ rfl⟩

/-- C6: the claim holds of the code only when the guard that `scoped_set()`
returns is constructed in place, which C++11 and C++14 permit but do not
require.  With the guard in place: a `response` call that starts with the flag
clear and exits, in whichever way (end of the list, `finish`, or an exception
of a handler or of the response handler), leaves the flag clear, and the
handlers only ever run on a heap in which the flag is set (replacing them by
handlers that differ only on heaps with the flag clear changes nothing).
With the guard copied from a temporary: the call still leaves the flag clear,
but the handlers only ever run on a heap in which the flag is clear.  In the
failing program pigeon 0 has subscribed once to message 0 with a handler that
stores `isSending()`, and `response` is called with a controller that answers
`progress`: the handler runs once and stores `false`; with the guard in place
it stores `true`. -/
theorem guard_copy_resets_the_flag_early :
    (∀ (σ ρ : Type) (fuel : Nat) (send : World → Nat → σ → σ × Option ρ)
        (h : ρ → σ → σ × Option iteration_state) (m : Nat) (a : σ) (w : World)
        (out : Outcome σ),
      message.isSending m w = false →
      message.response_guarded true fuel send h m a w = some out →
      message.isSending m out.world = false ∧
      ∀ send1 : World → Nat → σ → σ × Option ρ,
        (∀ w1 i s, message.isSending m w1 = true → send1 w1 i s = send w1 i s) →
        message.response_guarded true fuel send1 h m a w = some out) ∧
    (∀ (σ ρ : Type) (fuel : Nat) (send : World → Nat → σ → σ × Option ρ)
        (h : ρ → σ → σ × Option iteration_state) (m : Nat) (a : σ) (w : World)
        (out : Outcome σ),
      message.response_guarded false fuel send h m a w = some out →
      message.isSending m w = false →
      message.isSending m out.world = false ∧
      ∀ send1 : World → Nat → σ → σ × Option ρ,
        (∀ w1 i s, message.isSending m w1 = false → send1 w1 i s = send w1 i s) →
        message.response_guarded false fuel send1 h m a w = some out) ∧
    message.isSending 0 Demo.one = false ∧ (Demo.one.messages 0).Senders = [0] ∧
    (message.response_guarded false 2 Demo.store_isSending
        (fun _ s => (s, some iteration_state.progress)) 0 none Demo.one).map
      (fun o => (o.user, o.trace, o.threw, message.isSending 0 o.world)) =
      some (some false, [0], false, false) ∧
    (message.response_guarded true 2 Demo.store_isSending
        (fun _ s => (s, some iteration_state.progress)) 0 none Demo.one).map
      (fun o => (o.user, o.trace, o.threw, message.isSending 0 o.world)) =
      some (some true, [0], false, false) := by
  refine ⟨?_, ?_, rfl, rfl, by decide, by decide⟩
  · intro σ ρ fuel send h m a w out hs hr
    rw [response_guarded_in_place] at hr
    constructor
    · obtain ⟨out1, _, rfl⟩ := response_ok hs hr
      simp [message.isSending]
    · intro send1 hag
      rw [response_guarded_in_place, ← hr]
      unfold message.response
      rw [walk_congr send send1 h m hag fuel [] _ a [] _ (by simp [message.isSending])]
  · intro σ ρ fuel send h m a w out hr hs
    unfold message.response_guarded at hr
    rw [if_neg (by simp [hs])] at hr
    constructor
    · cases hq : message.response.walk send h m fuel [] (w.messages m).Senders a []
          (message.scoped_set false m w) with
      | none => rw [hq] at hr; cases hr
      | some out1 =>
        rw [hq] at hr
        cases hr
        simp [message.isSending]
    · intro send1 hag
      rw [← hr]
      unfold message.response_guarded
      rw [if_neg (by simp [hs])]
      rw [walk_congr_flag send send1 h m false hag fuel [] _ a [] _
        (by simp [message.isSending, message.scoped_set])]

/-- C8: when the response handler answers `finish` for the entry `c` under the
cursor, the loop returns at once: the handlers that ran are those that ran
before plus this one, nothing behind `c` in the list is visited, and the heap,
with the list, is the one the step found.  Hence a `response` call on a list
`pre ++ c :: next` of which `pre` and `c` are not dropped, with answers
`progress` for `pre` and `finish` for `c`, returns after running exactly the
handlers of `pre` and `c`, with the heap it was given and the flag clear. -/
theorem finish_stops_the_walk {σ ρ : Type} (send : World → Nat → σ → σ × Option ρ)
    (h : ρ → σ → σ × Option iteration_state) (m : Nat) (fuel : Nat)
    (visited : List Nat) (c : Nat) (next : List Nat) (a a1 a2 : σ) (r : ρ) (tr : List Nat)
    (w : World) (hlive : contact.isDropped c w = false)
    (hsend : send w c a = (a1, some r)) (hfin : h r a1 = (a2, some .finish)) :
    message.response.walk send h m (fuel + 1) visited (c :: next) a tr w =
      some ⟨w, a2, tr ++ [c], false⟩ ∧
    ∀ (w0 : World) (pre : List Nat) (P : σ → Prop) (a0 : σ),
      message.isSending m w0 = false → (w0.messages m).Senders = pre ++ c :: next →
      (∀ i ∈ pre ++ [c], contact.isDropped i w0 = false) →
      (∀ i s, i ∈ pre → P s → ∃ s1 r1 s2, send (w0.setSending m true) i s = (s1, some r1) ∧
        h r1 s1 = (s2, some .progress) ∧ P s2) →
      (∀ s, P s → ∃ s1 r1 s2, send (w0.setSending m true) c s = (s1, some r1) ∧
        h r1 s1 = (s2, some .finish)) →
      P a0 →
      ∃ out, message.response (fuel + 1 + pre.length) send h m a0 w0 = some out ∧
        out.trace = pre ++ [c] ∧ out.world = w0 ∧ out.threw = false ∧
        message.isSending m out.world = false := by
  refine ⟨walk_finish send h m fuel visited c next a a1 a2 r tr w hlive hsend hfin, ?_⟩
  intro w0 pre P a0 hq hS hlv hprog hfinish hP0
  obtain ⟨b, hPb, hpre⟩ := walk_prefix send h m P (w0.setSending m true) pre [] (c :: next) a0 []
    (fuel + 1) (fun i hi => hlv i (List.mem_append_left _ hi)) hprog hP0
  obtain ⟨s1, r1, s2, hs1, hs2⟩ := hfinish b hPb
  have hc : contact.isDropped c (w0.setSending m true) = false :=
    hlv c (List.mem_append_right _ (List.mem_singleton_self c))
  have hw := walk_finish send h m fuel ([] ++ pre) c next b s1 s2 r1 ([] ++ pre)
    (w0.setSending m true) hc hs1 hs2
  rw [← hpre, ← hS] at hw
  refine ⟨_, response_of_walk hq hw, by simp, ?_, rfl, ?_⟩
  · exact setSending_roundtrip w0 m hq
  · simp only
    rw [setSending_roundtrip w0 m hq]
    exact hq

theorem finish_stops_the_walk_witness :
    contact.isDropped 1 (Demo.three.setSending 0 true) = false ∧
    message.response.walk (fun _ i (n : Nat) => (n + 1, some i))
        (fun r n => (n, some (if r = 1 then iteration_state.finish else .progress)))
        0 (2 + 1) [2] (1 :: [0]) 1 [2] (Demo.three.setSending 0 true) =
      some ⟨Demo.three.setSending 0 true, 2, [2] ++ [1], false⟩ ∧
    ∃ out, message.response (2 + 1 + [2].length) (fun _ i (n : Nat) => (n + 1, some i))
        (fun r n => (n, some (if r = 1 then iteration_state.finish else .progress)))
        0 0 Demo.three = some out ∧
      out.trace = [2] ++ [1] ∧ out.world = Demo.three ∧ out.threw = false ∧
      message.isSending 0 out.world = false :=
  have key := finish_stops_the_walk (fun _ i (n : Nat) => (n + 1, some i))
    (fun r n => (n, some (if r = 1 then iteration_state.finish else .progress)))
    0 2 [2] 1 [0] 1 2 2 1 [2] (Demo.three.setSending 0 true) rfl rfl rfl
  ⟨rfl, key.1, key.2 Demo.three [2] (fun _ => True) 0 rfl rfl (by decide)
    (fun i s hi _ => by
      simp only [List.mem_singleton] at hi
      subst hi
      exact ⟨s + 1, 2, s + 1, rfl, rfl, trivial⟩)
    (fun s _ => ⟨s + 1, 1, s + 1, rfl, rfl⟩)
    trivial⟩

/-- C9: the test case `single value_state`.  With `modify1` (A), `modify2` (B)
and `nomodify` (C) delivered in this order the list is C, B, A.  The `response`
call returns for every fuel from 5 on; the handlers run in the order C, B, A
and then C once more; the value and every recorded observation are 43. -/
theorem single_value_state_converges :
    (iteration_test.subscribed.messages 0).Senders = [2, 1, 0] ∧
    ∀ k, ∃ out, message.response (5 + k) iteration_test.handlers iteration_test.controller 0
        iteration_test.arguments iteration_test.subscribed = some out ∧
      out.trace = [2, 1, 0, 2] ∧ out.threw = false ∧
      out.user.value = 43 ∧ out.user.check1 = some 43 ∧ out.user.check2 = some 43 ∧
      out.user.check3 = some 43 ∧ (out.world.messages 0).Senders = [1, 0, 2] := by
  refine ⟨rfl, fun k => ?_⟩
  have h5 : ∃ out, message.response 5 iteration_test.handlers iteration_test.controller 0
      iteration_test.arguments iteration_test.subscribed = some out ∧
      out.trace = [2, 1, 0, 2] ∧ out.threw = false ∧
      out.user.value = 43 ∧ out.user.check1 = some 43 ∧ out.user.check2 = some 43 ∧
      out.user.check3 = some 43 ∧ (out.world.messages 0).Senders = [1, 0, 2] :=
    ⟨_, rfl, rfl, rfl, rfl, rfl, rfl, rfl, rfl⟩
  obtain ⟨out, ho, hrest⟩ := h5
  exact ⟨out, response_fuel_mono _ _ 0 5 k _ _ out ho, hrest⟩

/-- C11, the claim as worded fails: a token is the address of its node, and
storage that was released can be handed out again.  Pigeon 0 has subscribed
twice to message 0 (tokens 0 and 1).  `message.drop(1)` and `pigeon.drop(1)`
return true and contact 1 is destructed: it no longer exists, and
`message.drop(1)` returns false and changes nothing.  Then pigeon 1 subscribes
to message 0 and `new` returns the address just released.  `message.drop` with
the old token, whose contact no longer exists, now returns true and unlinks
the subscription of pigeon 1. -/
theorem stale_token_unlinks_a_later_subscription :
    Reachable Demo.two ∧ message.isSending 0 Demo.two = false ∧
    message.drop 0 1 Demo.two = .ok (true, Demo.two.after_message_drop 0 1) ∧
    (pigeon.drop 0 1 (Demo.two.after_message_drop 0 1)).1 = true ∧
    (Demo.two_released.arena 1).destructs = 1 ∧
    message.drop 0 1 Demo.two_released = .ok (false, Demo.two_released) ∧
    World.free Demo.two_released 1 = true ∧
    pigeon.deliver_at 1 1 0 Demo.two_released = some (.ok (1, Demo.two_reused)) ∧
    Reachable_reusing Demo.two_reused ∧
    message.isSending 0 Demo.two_reused = false ∧
    (Demo.two_reused.messages 0).Senders = [1, 0] ∧
    (Demo.two_reused.pigeons 1).contacts = [1] ∧
    Demo.two_reused.arena 1 = ⟨false, 0, false, 0, 1⟩ ∧
    message.size 0 Demo.two_reused = 2 ∧
    ∃ w4, message.drop 0 1 Demo.two_reused = .ok (true, w4) ∧
      (w4.messages 0).Senders = [0] ∧ (w4.arena 1).dropped = true ∧
      message.size 0 w4 = 1 :=
  ⟨demo_two_reachable, rfl, rfl, by decide, by decide, rfl, by decide, rfl,
    demo_two_reused_reachable, by decide, by decide, by decide, by decide, by decide,
    _, rfl, by decide, by decide, by decide⟩

/-- C11 (as the code has it): on a message that is not dispatching,
`drop(token)` returns true when the address that the token holds is in the
list, unlinks exactly that entry (the entries before and behind it stay, in
their order), touches no other list and no other node, and applies
`contact::drop(who::message)` to the node: a live node is flagged, a flagged
node is destructed.  When the address is not in the list the call returns
false and the heap is unchanged.  In a heap reached by a program, also one in
which released storage is handed out again (`Reachable_reusing`), this is so
for every token whose address is free (the contact has been destructed and
its storage has not been handed out again, or the address was never handed
out) and for every token whose contact is in another message's list; without
reuse (`Reachable`) it is so for every token whose contact has been
destructed. -/
theorem message_drop_removes_exactly_the_entry (w : World) (m : Nat) (token : contact_token)
    (hs : message.isSending m w = false) :
    (token ∈ (w.messages m).Senders →
      ∃ pre post, (w.messages m).Senders = pre ++ token :: post ∧ token ∉ pre) ∧
    (∀ pre post, (w.messages m).Senders = pre ++ token :: post → token ∉ pre →
      ∃ w1, message.drop m token w = .ok (true, w1) ∧
      w1 = contact.drop token .message (w.setSenders m (pre ++ post)) ∧
      (w1.messages m).Senders = pre ++ post ∧ message.isSending m w1 = false ∧
      (∀ i, i ≠ m → w1.messages i = w.messages i) ∧ w1.pigeons = w.pigeons ∧
      (∀ x, x ≠ token → w1.arena x = w.arena x) ∧
      ((w.arena token).dropped = false →
        w1.arena token = { w.arena token with dropped := true }) ∧
      ((w.arena token).dropped = true →
        (w1.arena token).destructs = (w.arena token).destructs + 1)) ∧
    (token ∉ (w.messages m).Senders → message.drop m token w = .ok (false, w)) ∧
    (Reachable_reusing w →
      (World.free w token = true ∨ ∃ i, i ≠ m ∧ token ∈ (w.messages i).Senders) →
      message.drop m token w = .ok (false, w)) ∧
    (Reachable w →
      (0 < (w.arena token).destructs ∨ ∃ i, i ≠ m ∧ token ∈ (w.messages i).Senders) →
      message.drop m token w = .ok (false, w)) := by
  have part4 : Reachable_reusing w →
      (World.free w token = true ∨ ∃ i, i ≠ m ∧ token ∈ (w.messages i).Senders) →
      message.drop m token w = .ok (false, w) := by
    intro hr hcase
    apply message_drop_not_found hs
    obtain ⟨hI, _⟩ := reachable_reusing_inv hr
    intro hmem
    rcases hcase with hfree | ⟨i, hi, hmi⟩
    · exact (free_not_listed hI hfree).1 m hmem
    · exact hi ((hI.sender_owner i token hmi).1.symm.trans (hI.sender_owner m token hmem).1)
  refine ⟨split_at_first token _, ?_, message_drop_not_found hs, part4, ?_⟩
  · intro pre post hl hp
    refine ⟨_, message_drop_found hs pre post hl hp, rfl, by simp, ?_, ?_,
      by simp, ?_, ?_, ?_⟩
    · simpa [message.isSending] using hs
    · intro i hi
      simp [World.setSenders, hi]
    · intro x hx
      rw [contact_drop_arena_ne token _ _ x hx]; rfl
    · intro hd
      rw [contact_drop_arena_live token _ _ (by simpa using hd)]; rfl
    · intro hd
      rw [contact_drop_arena_dropped token _ _ (by simpa using hd)]; rfl
  · intro hr hcase
    apply part4 (reachable_reusing_of_reachable hr)
    rcases hcase with hpos | h
    · left
      unfold World.free
      simp [hpos]
    · exact Or.inr h

theorem message_drop_removes_exactly_the_entry_witness :
    message.isSending 0 Demo.three = false ∧ (Demo.three.messages 0).Senders = [2] ++ 1 :: [0] ∧
    (∃ w1, message.drop 0 1 Demo.three = .ok (true, w1) ∧
      (w1.messages 0).Senders = [2] ++ [0] ∧
      w1.arena 1 = { Demo.three.arena 1 with dropped := true }) ∧
    message.drop 0 7 Demo.three = .ok (false, Demo.three) ∧
    (message.isSending 0 Demo.two_released = false ∧ Reachable_reusing Demo.two_released ∧
      World.free Demo.two_released 1 = true ∧
      message.drop 0 1 Demo.two_released = .ok (false, Demo.two_released)) :=
  have key := message_drop_removes_exactly_the_entry Demo.three 0 1 rfl
  have key7 := message_drop_removes_exactly_the_entry Demo.three 0 7 rfl
  have keyr := message_drop_removes_exactly_the_entry Demo.two_released 0 1 rfl
  ⟨rfl, rfl,
    (let ⟨w1, h3, _, h5, _, _, _, _, h10, _⟩ := key.2.1 [2] [0] rfl (by decide)
     ⟨w1, h3, h5, h10 rfl⟩),
    key7.2.2.1 (by decide),
    ⟨rfl, reachable_reusing_of_reachable demo_two_released_reachable, by decide,
      keyr.2.2.2.1 (reachable_reusing_of_reachable demo_two_released_reachable)
        (Or.inl (by decide))⟩⟩

/-- C12: on a message whose dispatching flag is set, `clear()` and
`drop(token)` throw `std::logic_error` at their first statement, so the heap
after the call is the heap before it (list, dropped flags and dispatching flag
included), while `size()` has no such check and returns the number of entries
that are not flagged dropped. -/
theorem clear_and_drop_throw_while_sending (w : World) (m : Nat) (token : contact_token)
    (hs : message.isSending m w = true) :
    message.clear m w = .error .while_delivering ∧
    message.drop m token w = .error .while_delivering ∧
    w.after_message_clear m = w ∧ w.after_message_drop m token = w ∧
    message.isSending m (w.after_message_clear m) = true ∧
    message.size m w =
      ((w.messages m).Senders.filter (fun c => !(w.arena c).dropped)).length := by
  have h1 : message.clear m w = .error .while_delivering := by
    unfold message.clear message.ensureNotSending; simp [hs]
  have h2 : message.drop m token w = .error .while_delivering := by
    unfold message.drop message.ensureNotSending; simp [hs]
  have h3 : w.after_message_clear m = w := by unfold World.after_message_clear; rw [h1]
  have h4 : w.after_message_drop m token = w := by unfold World.after_message_drop; rw [h2]
  exact ⟨h1, h2, h3, h4, by rw [h3]; exact hs, rfl⟩

theorem clear_and_drop_throw_while_sending_witness :
    message.isSending 0 (Demo.three.setSending 0 true) = true ∧
    (message.clear 0 (Demo.three.setSending 0 true) = .error .while_delivering ∧
    message.drop 0 1 (Demo.three.setSending 0 true) = .error .while_delivering ∧
    (Demo.three.setSending 0 true).after_message_clear 0 = Demo.three.setSending 0 true ∧
    (Demo.three.setSending 0 true).after_message_drop 0 1 = Demo.three.setSending 0 true ∧
    message.isSending 0 ((Demo.three.setSending 0 true).after_message_clear 0) = true ∧
    message.size 0 (Demo.three.setSending 0 true) =
      (((Demo.three.setSending 0 true).messages 0).Senders.filter
        (fun c => !((Demo.three.setSending 0 true).arena c).dropped)).length) ∧
    message.size 0 (Demo.three.setSending 0 true) = 3 :=
  ⟨rfl, clear_and_drop_throw_while_sending (Demo.three.setSending 0 true) 0 1 rfl, by decide⟩

/-- C13: `deliver` to a message whose dispatching flag is set throws
`std::logic_error`: `make_contact` throws at its first statement, before a
node is allocated, so the heap after the call is the heap before it and
neither the sender list nor the contact list has changed.  With an allocator
passed, the allocator is not called: its state and the log of its calls are
as before. -/
theorem deliver_throws_while_sending (w : World) (p m : Nat)
    (hs : message.isSending m w = true) :
    message.make_contact m p w = .error .while_delivering ∧
    (∃ e, pigeon.deliver p m w = .error e) ∧
    ((w.pigeons p).contacts_flag = false → pigeon.deliver p m w = .error .while_delivering) ∧
    w.after_deliver p m = w ∧ (w.after_deliver p m).next = w.next ∧
    ((w.after_deliver p m).messages m).Senders = (w.messages m).Senders ∧
    ((w.after_deliver p m).pigeons p).contacts = (w.pigeons p).contacts ∧
    (∀ (h : callback.Heap) (alloc : Option Nat) (f : callback.on_drop) (size_bytes : Nat),
      h.world = w → ∃ e, callback.pigeon.deliver p m alloc f size_bytes h = (.error e, h)) := by
  have h1 : message.make_contact m p w = .error .while_delivering := by
    unfold message.make_contact message.ensureNotSending; simp [hs]
  have h2 : ∃ e, pigeon.deliver p m w = .error e := by
    unfold pigeon.deliver pigeon.ensureNotDestructing
    rw [h1]
    cases (w.pigeons p).contacts_flag <;> simp
  have h3 : (w.pigeons p).contacts_flag = false →
      pigeon.deliver p m w = .error .while_delivering := by
    intro hp
    unfold pigeon.deliver pigeon.ensureNotDestructing
    rw [h1]
    simp [hp]
  have h4 : w.after_deliver p m = w := by
    obtain ⟨e, he⟩ := h2
    unfold World.after_deliver; rw [he]
  refine ⟨h1, h2, h3, h4, by rw [h4], by rw [h4], by rw [h4], ?_⟩
  intro h alloc f size_bytes hw
  subst hw
  unfold callback.pigeon.deliver callback.message.make_contact
  cases (h.world.pigeons p).contacts_flag
  · exact ⟨.while_delivering, by simp [hs]⟩
  · exact ⟨.while_destructing, by simp⟩

theorem deliver_throws_while_sending_witness :
    message.isSending 0 (Demo.three.setSending 0 true) = true ∧
    pigeon.deliver 1 0 (Demo.three.setSending 0 true) = .error .while_delivering ∧
    (Demo.three.setSending 0 true).after_deliver 1 0 = Demo.three.setSending 0 true :=
  have key := deliver_throws_while_sending (Demo.three.setSending 0 true) 1 0 rfl
  ⟨rfl, key.2.2.1 rfl, key.2.2.2.1⟩

/-- C14: on a message that is not dispatching and whose list has no
duplicates, `clear()` returns, leaves the list empty, `size() == 0` and the
flag as it was, touches no other list, and has applied `contact::drop` with
`who::message` exactly once to every entry of the list and to no other node:
a live entry is now flagged dropped, an entry that was already flagged (dropped
by its pigeon) has been destructed. -/
theorem message_clear_drops_every_entry_once (w : World) (m : Nat)
    (hs : message.isSending m w = false) (hnd : (w.messages m).Senders.Nodup) :
    ∃ w1, message.clear m w = .ok w1 ∧
      w1 = drop_chain .message (w.messages m).Senders (w.setSenders m []) ∧
      (w1.messages m).Senders = [] ∧ message.size m w1 = 0 ∧
      message.isSending m w1 = false ∧
      (∀ i, i ≠ m → w1.messages i = w.messages i) ∧ w1.pigeons = w.pigeons ∧
      (∀ c, c ∈ (w.messages m).Senders → (w.arena c).dropped = false →
        w1.arena c = { w.arena c with dropped := true }) ∧
      (∀ c, c ∈ (w.messages m).Senders → (w.arena c).dropped = true →
        (w1.arena c).destructs = (w.arena c).destructs + 1 ∧ (w1.arena c).dropped = true) ∧
      (∀ c, c ∉ (w.messages m).Senders → w1.arena c = w.arena c) := by
  refine ⟨_, message_clear_of_not_sending hs, rfl, by simp, by simp [message.size], ?_, ?_,
    by simp, ?_, ?_, ?_⟩
  · simpa [message.isSending] using hs
  · intro i hi
    simp [World.setSenders, hi]
  · intro c hc hd
    exact drop_chain_arena_live _ _ _ c hnd hc hd
  · intro c hc hd
    exact drop_chain_arena_dropped _ _ _ c hnd hc hd
  · intro c hc
    exact drop_chain_arena_not_mem _ _ _ c hc

theorem message_clear_drops_every_entry_once_witness :
    message.isSending 0 (pigeon.drop 0 0 Demo.two).2 = false ∧
    ((pigeon.drop 0 0 Demo.two).2.messages 0).Senders = [1, 0] ∧
    ((pigeon.drop 0 0 Demo.two).2.arena 0).dropped = true ∧
    ((pigeon.drop 0 0 Demo.two).2.arena 1).dropped = false ∧
    ∃ w1, message.clear 0 (pigeon.drop 0 0 Demo.two).2 = .ok w1 ∧
      (w1.messages 0).Senders = [] ∧ message.size 0 w1 = 0 ∧
      (w1.arena 1).dropped = true ∧ (w1.arena 1).destructs = 0 ∧
      (w1.arena 0).destructs = 1 :=
  have ⟨w1, h1, h2, h3, h4, _, _, _, h8, h9, _⟩ :=
    message_clear_drops_every_entry_once (pigeon.drop 0 0 Demo.two).2 0 rfl (by decide)
  ⟨rfl, rfl, rfl, rfl, w1, h1, h3, h4, by rw [h8 1 (by decide) rfl],
    by rw [h8 1 (by decide) rfl]; rfl, (h9 0 (by decide) rfl).1⟩

/-- C15: from a heap that satisfies the structural invariant, with the pigeon
not destructing and the message not dispatching, `deliver` returns the token of
one new node that is not dropped and not destructed, linked at the head of the
message's list and of the pigeon's list; `size()` of the message and of the
pigeon grow by exactly one, the sizes of all other messages and pigeons are
unchanged, and both `message::drop` and `pigeon::drop` find the token. -/
theorem deliver_links_one_live_contact (w : World) (p m : Nat) (hI : Inv w)
    (hp : (w.pigeons p).contacts_flag = false) (hs : message.isSending m w = false) :
    ∃ w1, pigeon.deliver p m w = .ok (w.next, w1) ∧ w1.next = w.next + 1 ∧
      w1.arena w.next = ⟨false, 0, false, m, p⟩ ∧ (∀ x, x ≠ w.next → w1.arena x = w.arena x) ∧
      (∀ i, w.next ∉ (w.messages i).Senders ∧ w.next ∉ (w.pigeons i).contacts) ∧
      (w1.messages m).Senders = w.next :: (w.messages m).Senders ∧
      (w1.pigeons p).contacts = w.next :: (w.pigeons p).contacts ∧
      message.size m w1 = message.size m w + 1 ∧
      (∃ n, pigeon.size p w = .ok n ∧ pigeon.size p w1 = .ok (n + 1)) ∧
      (∀ i, i ≠ m → (w1.messages i).Senders = (w.messages i).Senders ∧
        message.size i w1 = message.size i w) ∧
      (∀ i, i ≠ p → (w1.pigeons i).contacts = (w.pigeons i).contacts ∧
        pigeon.size i w1 = pigeon.size i w) ∧
      (∃ w2, message.drop m w.next w1 = .ok (true, w2)) ∧
      (pigeon.drop p w.next w1).1 = true := by
  have hdel : ∃ w1, pigeon.deliver p m w = .ok (w.next, w1) := by
    unfold pigeon.deliver pigeon.ensureNotDestructing message.make_contact
      message.ensureNotSending
    simp [hp, hs]
  obtain ⟨w1, hdel⟩ := hdel
  obtain ⟨_, _, _, hn, ha, hS, hF, hC, hCF⟩ := pigeon_deliver_ok hdel
  have fresh_m : ∀ i, w.next ∉ (w.messages i).Senders := fun i hx =>
    absurd (hI.sender_owner i _ hx).2 (lt_irrefl _)
  have fresh_p : ∀ i, w.next ∉ (w.pigeons i).contacts := fun i hx =>
    absurd (hI.contact_owner i _ hx).2 (lt_irrefl _)
  have hsame_m : ∀ i, ∀ x ∈ (w.messages i).Senders,
      (!contact.isDropped x w1) = (!contact.isDropped x w) := by
    intro i x hx
    unfold contact.isDropped
    rw [ha x, if_neg (fun e => fresh_m i (by rw [← e]; exact hx))]
  have hsame_p : ∀ i, ∀ x ∈ (w.pigeons i).contacts,
      (!contact.isDropped x w1) = (!contact.isDropped x w) := by
    intro i x hx
    unfold contact.isDropped
    rw [ha x, if_neg (fun e => fresh_p i (by rw [← e]; exact hx))]
  have hnew : (!contact.isDropped w.next w1) = true := by
    unfold contact.isDropped
    rw [ha w.next]; simp
  refine ⟨w1, hdel, hn, by rw [ha]; simp, fun x hx => by rw [ha x, if_neg hx],
    fun i => ⟨fresh_m i, fresh_p i⟩, by rw [hS]; simp, by rw [hC]; simp, ?_, ?_, ?_, ?_, ?_, ?_⟩
  · unfold message.size
    rw [hS, if_pos rfl, filter_length_cons_pos _ _ _ hnew,
      filter_length_congr _ _ _ (hsame_m m)]
  · refine ⟨((w.pigeons p).contacts.filter (fun c => !contact.isDropped c w)).length, ?_, ?_⟩
    · unfold pigeon.size pigeon.ensureNotDestructing; simp [hp]
    · unfold pigeon.size pigeon.ensureNotDestructing
      rw [hCF, hC, if_pos rfl, filter_length_cons_pos _ _ _ hnew,
        filter_length_congr _ _ _ (hsame_p p)]
      simp [hp]
  · intro i hi
    refine ⟨by rw [hS, if_neg hi], ?_⟩
    unfold message.size
    rw [hS, if_neg hi, filter_length_congr _ _ _ (hsame_m i)]
  · intro i hi
    refine ⟨by rw [hC, if_neg hi], ?_⟩
    unfold pigeon.size pigeon.ensureNotDestructing
    rw [hCF, hC, if_neg hi, filter_length_congr _ _ _ (hsame_p i)]
  · have hs1 : message.isSending m w1 = false := by
      unfold message.isSending at hs ⊢; rw [hF]; exact hs
    exact ⟨_, message_drop_found hs1 [] (w.messages m).Senders (by rw [hS]; simp)
      (List.not_mem_nil _)⟩
  · rcases pigeon_drop_cases p w.next w1 with ⟨_, he⟩ | ⟨hn1, _⟩
    · rw [he]
    · exact absurd (by rw [hC]; simp) hn1

theorem deliver_links_one_live_contact_witness :
    Inv Demo.two ∧ (Demo.two.pigeons 1).contacts_flag = false ∧
    message.isSending 0 Demo.two = false ∧ Demo.two.next = 2 ∧
    ∃ w1, pigeon.deliver 1 0 Demo.two = .ok (2, w1) ∧
      (w1.messages 0).Senders = 2 :: (Demo.two.messages 0).Senders ∧
      (w1.pigeons 1).contacts = 2 :: (Demo.two.pigeons 1).contacts ∧
      message.size 0 w1 = message.size 0 Demo.two + 1 ∧
      (pigeon.drop 1 2 w1).1 = true :=
  have ⟨w1, h1, _, _, _, _, h6, h7, h8, _, _, _, _, h13⟩ :=
    deliver_links_one_live_contact Demo.two 1 0 (reachable_inv demo_two_reachable).1 rfl rfl
  ⟨(reachable_inv demo_two_reachable).1, rfl, rfl, rfl, w1, h1, h6, h7, h8, h13⟩

/-- The literal reading of C16 fails: after `pigeon.drop(token2)` the entry is
still in the message's list, the message has neither walked nor cleared, and
`message.size()` is 1, not 2 (the check of `tests/test.cpp`, section `drop`). -/
theorem size_skips_entry_dropped_by_pigeon :
    message.size 0 Demo.two = 2 ∧ (pigeon.drop 0 1 Demo.two).1 = true ∧
    ((pigeon.drop 0 1 Demo.two).2.messages 0).Senders = [1, 0] ∧
    ((pigeon.drop 0 1 Demo.two).2.arena 1).destructs = 0 ∧
    message.size 0 (pigeon.drop 0 1 Demo.two).2 = 1 ∧
    message.size 0 (pigeon.drop 0 1 Demo.two).2 ≠ message.size 0 Demo.two := by
  decide

/-- C16 (amended): when only the pigeon has dropped a subscription, the entry
stays linked in the message's list and is not destructed, but `message.size()`
no longer counts it: the size is one less at once.  After the message's
`clear()`, or after a `send` that returns without an exception, the entry is
out of the list and destructed exactly once; with handlers that do not throw
and enough fuel such a `send` does return. -/
theorem lazy_cleanup_after_pigeon_drop (w : World) (hr : Reachable w) (p m tok : Nat)
    (hp : tok ∈ (w.pigeons p).contacts) (hm : tok ∈ (w.messages m).Senders) :
    (pigeon.drop p tok w).1 = true ∧
    tok ∈ ((pigeon.drop p tok w).2.messages m).Senders ∧
    ((pigeon.drop p tok w).2.arena tok).dropped = true ∧
    ((pigeon.drop p tok w).2.arena tok).destructs = 0 ∧
    message.size m (pigeon.drop p tok w).2 + 1 = message.size m w ∧
    (∃ w2, message.clear m (pigeon.drop p tok w).2 = .ok w2 ∧
      tok ∉ (w2.messages m).Senders ∧ (w2.arena tok).destructs = 1) ∧
    (∀ (σ ρ : Type) (fuel : Nat) (send : World → Nat → σ → σ × Option ρ) (a : σ)
      (out : Outcome σ), message.send fuel send m a (pigeon.drop p tok w).2 = some out →
      out.threw = false →
      tok ∉ (out.world.messages m).Senders ∧ (out.world.arena tok).destructs = 1) ∧
    (∀ (σ ρ : Type) (fuel : Nat) (send : World → Nat → σ → σ × Option ρ) (a : σ),
      (∀ w0 i s, ((send w0 i s).2).isSome = true) → (w.messages m).Senders.length < fuel →
      ∃ out, message.send fuel send m a (pigeon.drop p tok w).2 = some out ∧
        out.threw = false) := by
  obtain ⟨hI, hQ⟩ := reachable_inv hr
  obtain ⟨hfound, hmsg, hnext, hat, hao, hnp⟩ := pigeon_drop_live hI hm hp
  have hstep : Step w (pigeon.drop p tok w).2 := Step.pigeon_drop p tok
  have hr1 : Reachable (pigeon.drop p tok w).2 := hr.tail hstep
  obtain ⟨hI1, hQ1⟩ := reachable_inv hr1
  have hd1 : ((pigeon.drop p tok w).2.arena tok).dropped = true := by rw [hat]
  refine ⟨hfound, by rw [hmsg]; exact hm, hd1, ?_, (pigeon_drop_live_size hI hm hp).1,
    ?_, ?_, ?_⟩
  · rw [hat]; exact (linked_both_live hI hm hp).2
  · have hc := message_clear_of_not_sending (hQ1 m)
    have hs2 : Steps w _ :=
      (Relation.ReflTransGen.single hstep).tail (Step.message_clear m hc)
    refine ⟨_, hc, by simp, destructed_once_unlinked hr hs2 hm hp (by simp) ?_⟩
    simpa using hnp
  · intro σ ρ fuel send a out hsend hth
    have hresp : message.response fuel send
        (call_handler_void (fun (_ : ρ) (s : σ) => (s, some ()))) m a
        (pigeon.drop p tok w).2 = some out := hsend
    obtain ⟨out1, hw1, rfl⟩ := response_ok (hQ1 m) hresp
    have hun := walk_progress_unlinks_flagged send _ (fun _ _ => rfl) m tok fuel [] _ a [] _
      out1 (by simp) (List.not_mem_nil _) (by simpa using hd1) hw1 hth
    have hs2 : Steps w (out1.world.setSending m false) :=
      (Relation.ReflTransGen.single hstep).tail (Step.response fuel send _ m a hresp)
    have hun2 : tok ∉ ((out1.world.setSending m false).messages m).Senders := by
      simpa using hun
    refine ⟨hun2, destructed_once_unlinked hr hs2 hm hp hun2 ?_⟩
    have hfr := (walk_frame send _ m fuel [] _ a [] _ out1 hw1).2.2.1
    simp only [World.setSending_pigeons, hfr]
    exact hnp
  · intro σ ρ fuel send a hsend hfuel
    have hlater : ∀ (w0 : World) (i : Nat) (s : σ), True → ∃ s1 r1 s2,
        send w0 i s = (s1, some r1) ∧
        call_handler_void (fun (_ : ρ) (s : σ) => (s, some ())) r1 s1 = (s2, some .progress) ∧
        True := by
      intro w0 i s _
      obtain ⟨r1, hr1⟩ := Option.isSome_iff_exists.1 (hsend w0 i s)
      exact ⟨(send w0 i s).1, r1, (send w0 i s).1, Prod.ext rfl hr1, rfl, trivial⟩
    obtain ⟨out1, ho, _, hth, _, _⟩ := walk_pass send _ m (fun _ => True) hlater
      ((pigeon.drop p tok w).2.messages m).Senders fuel [] a []
      ((pigeon.drop p tok w).2.setSending m true) trivial (by rw [hmsg]; omega)
    exact ⟨_, response_of_walk (hQ1 m) ho, hth⟩

theorem lazy_cleanup_after_pigeon_drop_witness :
    Reachable Demo.two ∧ 1 ∈ (Demo.two.pigeons 0).contacts ∧
    1 ∈ (Demo.two.messages 0).Senders ∧
    message.size 0 (pigeon.drop 0 1 Demo.two).2 + 1 = message.size 0 Demo.two ∧
    (∃ w2, message.clear 0 (pigeon.drop 0 1 Demo.two).2 = .ok w2 ∧
      1 ∉ (w2.messages 0).Senders ∧ (w2.arena 1).destructs = 1) ∧
    (∃ out, message.send 3 (fun _ _ (n : Nat) => (n + 1, some ())) 0 0
        (pigeon.drop 0 1 Demo.two).2 = some out ∧ out.threw = false) :=
  have key := lazy_cleanup_after_pigeon_drop Demo.two demo_two_reachable 0 0 1
    (by decide) (by decide)
  ⟨demo_two_reachable, by decide, by decide, key.2.2.2.2.1, key.2.2.2.2.2.1,
    key.2.2.2.2.2.2.2 Nat Unit 3 _ 0 (fun _ _ _ => rfl) (by decide)⟩

/-- The literal reading of C17 fails in its last part: when the pigeon has
dropped the subscription before, `message.drop(token)` still finds the entry
and returns true, but `pigeon.size()` is 0 before and after the call. -/
theorem message_drop_true_keeps_pigeon_size :
    (pigeon.drop 0 0 Demo.one).1 = true ∧
    ∃ w1, message.drop 0 0 (pigeon.drop 0 0 Demo.one).2 = .ok (true, w1) ∧
      pigeon.size 0 (pigeon.drop 0 0 Demo.one).2 = .ok 0 ∧ pigeon.size 0 w1 = .ok 0 :=
  ⟨by decide, _, rfl, rfl, rfl⟩

/-- C17 (amended): `size()` on either side is the number of entries of that
side's list that are not flagged dropped.  From a reachable heap:
`pigeon.drop(token)` returning true reduces the size of the message that holds
the token by one and leaves every other message's size; `pigeon.clear()`
reduces each message's size by the number of its entries that were in the
pigeon's list; `message.drop(token)` returning true reduces this message's
size by one unless the entry was already flagged dropped, leaves the other
messages' sizes, and reduces the size of a pigeon by one exactly when the
token is still in that pigeon's list (no change when the pigeon dropped it
before). -/
theorem size_counts_entries_not_flagged (w : World) (hr : Reachable w) (p m tok : Nat) :
    message.size m w =
      ((w.messages m).Senders.filter (fun c => !(w.arena c).dropped)).length ∧
    ((w.pigeons p).contacts_flag = false → pigeon.size p w =
      .ok ((w.pigeons p).contacts.filter (fun c => !(w.arena c).dropped)).length) ∧
    ((pigeon.drop p tok w).1 = true →
      message.size m (pigeon.drop p tok w).2 +
        (if tok ∈ (w.messages m).Senders then 1 else 0) = message.size m w) ∧
    message.size m (pigeon.clear p w) +
      ((w.messages m).Senders.filter (fun c => decide (c ∈ (w.pigeons p).contacts))).length =
      message.size m w ∧
    (∀ w1, message.drop m tok w = .ok (true, w1) →
      message.size m w1 + (if (w.arena tok).dropped = true then 0 else 1) = message.size m w ∧
      (∀ i, i ≠ m → message.size i w1 = message.size i w) ∧
      ((w.pigeons p).contacts_flag = false →
        ∃ n, pigeon.size p w1 = .ok n ∧
          pigeon.size p w = .ok (n + if tok ∈ (w.pigeons p).contacts then 1 else 0))) := by
  obtain ⟨hI, _⟩ := reachable_inv hr
  refine ⟨rfl, ?_, pigeon_drop_message_size hI p m tok, pigeon_clear_message_size hI p m,
    fun w1 h => message_drop_sizes hI p m tok h⟩
  intro hflag
  unfold pigeon.size pigeon.ensureNotDestructing
  simp only [hflag, Bool.false_eq_true, if_false]
  rfl

theorem size_counts_entries_not_flagged_witness :
    Reachable Demo.three ∧
    (message.size 0 Demo.three = 3 ∧ pigeon.size 0 Demo.three = .ok 2) ∧
    message.size 0 (pigeon.drop 0 2 Demo.three).2 + 1 = message.size 0 Demo.three ∧
    message.size 0 (pigeon.clear 0 Demo.three) + 2 = message.size 0 Demo.three ∧
    (∃ w1, message.drop 0 2 Demo.three = .ok (true, w1) ∧
      message.size 0 w1 + 1 = message.size 0 Demo.three ∧
      ∃ n, pigeon.size 0 w1 = .ok n ∧ pigeon.size 0 Demo.three = .ok (n + 1)) :=
  have key := size_counts_entries_not_flagged Demo.three demo_three_reachable 0 0 2
  ⟨demo_three_reachable, ⟨by decide, rfl⟩, key.2.2.1 (by decide), key.2.2.2.1,
    _, rfl, (key.2.2.2.2 _ rfl).1, (key.2.2.2.2 _ rfl).2.2 (by decide)⟩

/-- C18: while the destructing flag of a pigeon is set, `size()` and `deliver`
throw `std::logic_error` and leave the heap as it was.  The destructor is
`setDestructing()` followed by `clear()`: the flag is set on the uncleared
list, it is still set when the destructor is done, and no later sequence of
calls resets it. -/
theorem size_and_deliver_throw_while_destructing (w : World) (p m : Nat)
    (hd : (w.pigeons p).contacts_flag = true) :
    pigeon.size p w = .error .while_destructing ∧
    pigeon.deliver p m w = .error .while_destructing ∧
    w.after_deliver p m = w ∧
    (∀ w0 : World, pigeon.destructor p w0 = pigeon.clear p (pigeon.setDestructing p w0) ∧
      ((pigeon.setDestructing p w0).pigeons p).contacts_flag = true ∧
      ((pigeon.setDestructing p w0).pigeons p).contacts = (w0.pigeons p).contacts ∧
      (pigeon.setDestructing p w0).messages = w0.messages ∧
      (pigeon.setDestructing p w0).arena = w0.arena ∧
      ((pigeon.destructor p w0).pigeons p).contacts_flag = true) ∧
    (∀ w1, Steps w w1 → (w1.pigeons p).contacts_flag = true ∧
      pigeon.size p w1 = .error .while_destructing ∧
      pigeon.deliver p m w1 = .error .while_destructing) := by
  have key : ∀ w1 : World, (w1.pigeons p).contacts_flag = true →
      pigeon.size p w1 = .error .while_destructing ∧
      pigeon.deliver p m w1 = .error .while_destructing := by
    intro w1 h1
    unfold pigeon.size pigeon.deliver pigeon.ensureNotDestructing
    simp [h1]
  refine ⟨(key w hd).1, (key w hd).2, ?_, ?_, ?_⟩
  · unfold World.after_deliver
    rw [(key w hd).2]
  · intro w0
    refine ⟨rfl, ?_, ?_, rfl, rfl, (pigeon_destructor_flag_list p w0).1⟩
    · unfold pigeon.setDestructing; simp
    · unfold pigeon.setDestructing; simp
  · intro w1 hs
    have h1 := steps_destructing_mono hs p hd
    exact ⟨h1, key w1 h1⟩

theorem size_and_deliver_throw_while_destructing_witness :
    ((pigeon.destructor 0 Demo.two).pigeons 0).contacts_flag = true ∧
    pigeon.size 0 (pigeon.destructor 0 Demo.two) = .error .while_destructing ∧
    pigeon.deliver 0 0 (pigeon.destructor 0 Demo.two) = .error .while_destructing ∧
    (pigeon.destructor 0 Demo.two).after_deliver 0 0 = pigeon.destructor 0 Demo.two ∧
    pigeon.size 0 ((pigeon.destructor 0 Demo.two).after_message_clear 0) =
      .error .while_destructing :=
  have key := size_and_deliver_throw_while_destructing (pigeon.destructor 0 Demo.two) 0 0
    (by decide)
  ⟨by decide, key.1, key.2.1, key.2.2.1,
    (key.2.2.2.2 _ (Relation.ReflTransGen.single (Step.message_clear 0 rfl))).2.1⟩

/-- The literal reading of C19 fails: after the destructor of pigeon 0 the flag
is set and `size()` throws, but `drop(token)` does not throw: it searches the
(empty) list and returns false.  With the flag set on a list that still holds
the contact, `drop(token)` finds it, unlinks it and returns true. -/
theorem pigeon_drop_has_no_destructing_check :
    Reachable (pigeon.destructor 0 Demo.one) ∧
    ((pigeon.destructor 0 Demo.one).pigeons 0).contacts_flag = true ∧
    pigeon.size 0 (pigeon.destructor 0 Demo.one) = .error .while_destructing ∧
    pigeon.drop 0 0 (pigeon.destructor 0 Demo.one) = (false, pigeon.destructor 0 Demo.one) ∧
    ((pigeon.setDestructing 0 Demo.one).pigeons 0).contacts_flag = true ∧
    ((pigeon.setDestructing 0 Demo.one).pigeons 0).contacts = [0] ∧
    (pigeon.drop 0 0 (pigeon.setDestructing 0 Demo.one)).1 = true ∧
    ((pigeon.drop 0 0 (pigeon.setDestructing 0 Demo.one)).2.pigeons 0).contacts = [] :=
  ⟨demo_one_reachable.tail (Step.pigeon_destructor 0), by decide, rfl, rfl, by decide,
    by decide, by decide, by decide⟩

/-- C19 (amended): `pigeon::drop` has no destructing check.  With the flag set
it does not throw; it searches the list as always: when the token's contact is
in the list it is unlinked and dropped and the call returns true, otherwise the
call returns false and changes nothing.  The flag stays set.  After the
destructor the list is empty, so every token is reported as not found. -/
theorem pigeon_drop_ignores_the_destructing_flag (w : World) (p : Nat) (token : contact_token)
    (hd : (w.pigeons p).contacts_flag = true) :
    (token ∈ (w.pigeons p).contacts →
      pigeon.drop p token w = (true, contact.drop token .pigeon
        (w.setContacts p ((w.pigeons p).contacts.erase token)))) ∧
    (token ∉ (w.pigeons p).contacts → pigeon.drop p token w = (false, w)) ∧
    ((pigeon.drop p token w).2.pigeons p).contacts_flag = true ∧
    (∀ w0 : World, pigeon.drop p token (pigeon.destructor p w0) =
      (false, pigeon.destructor p w0)) := by
  refine ⟨fun h => ?_, fun h => ?_, step_destructing_mono (Step.pigeon_drop p token) p hd,
    fun w0 => ?_⟩
  · rcases pigeon_drop_cases p token w with ⟨_, he⟩ | ⟨hn, _⟩
    · exact he
    · exact absurd h hn
  · rcases pigeon_drop_cases p token w with ⟨hn, _⟩ | ⟨_, he⟩
    · exact absurd hn h
    · exact he
  · rcases pigeon_drop_cases p token (pigeon.destructor p w0) with ⟨hn, _⟩ | ⟨_, he⟩
    · rw [(pigeon_destructor_flag_list p w0).2] at hn
      cases hn
    · exact he

theorem pigeon_drop_ignores_the_destructing_flag_witness :
    ((pigeon.setDestructing 0 Demo.two).pigeons 0).contacts_flag = true ∧
    1 ∈ ((pigeon.setDestructing 0 Demo.two).pigeons 0).contacts ∧
    (pigeon.drop 0 1 (pigeon.setDestructing 0 Demo.two)).1 = true ∧
    ((pigeon.drop 0 1 (pigeon.setDestructing 0 Demo.two)).2.pigeons 0).contacts = [0] ∧
    ((pigeon.drop 0 1 (pigeon.setDestructing 0 Demo.two)).2.pigeons 0).contacts_flag = true ∧
    pigeon.drop 0 7 (pigeon.setDestructing 0 Demo.two) =
      (false, pigeon.setDestructing 0 Demo.two) :=
  have key := pigeon_drop_ignores_the_destructing_flag (pigeon.setDestructing 0 Demo.two) 0 1
    (by decide)
  have key7 := pigeon_drop_ignores_the_destructing_flag (pigeon.setDestructing 0 Demo.two) 0
    7 (by decide)
  ⟨by decide, by decide, by rw [key.1 (by decide)], by decide, key.2.2.1,
    key7.2.1 (by decide)⟩

/-- C20: a subscription made by `allocator_pigeon::deliver` carries the
callback `onDrop_handler<M>{message}` and the pigeon's own allocator.  While
it is live, linked on both sides, and its message is not dispatching:
`drop(token)` of the pigeon (given fuel for the two nested levels) returns
true, and in the heap it returns the contact is in neither list, was
destructed once, and `deallocate` was called once, for this contact on the
pigeon's allocator; the callback ran once, with `who::pigeon`.  A `clear()`
of the pigeon that returns has done the same for the contact, and `clear()`
does return when no message is dispatching. -/
theorem pigeon_side_drop_is_forwarded_at_once (h : callback.Heap) (p m c fuel : Nat)
    (hfuel : 2 ≤ fuel)
    (hcb : h.on_drop c = .onDrop_handler m) (hal : h.Alloc c = some p)
    (hm : c ∈ (h.world.messages m).Senders) (hndm : (h.world.messages m).Senders.Nodup)
    (hp : c ∈ (h.world.pigeons p).contacts) (hndp : (h.world.pigeons p).contacts.Nodup)
    (hlive : (h.world.arena c).dropped = false)
    (hs : message.isSending m h.world = false) :
    (∀ (h0 h2 : callback.Heap) (size_bytes c0 : Nat),
      callback.allocator_pigeon.deliver p m size_bytes h0 = (.ok c0, h2) →
      h2.on_drop c0 = .onDrop_handler m ∧ h2.Alloc c0 = some p ∧
      c0 ∈ (h2.world.messages m).Senders ∧ c0 ∈ (h2.world.pigeons p).contacts ∧
      (h2.world.arena c0).dropped = false ∧ (h2.world.arena c0).destructs = 0 ∧
      message.isSending m h2.world = false) ∧
    (∃ h1, callback.allocator_pigeon.drop fuel p c h = some (.ok true, h1) ∧
      c ∉ (h1.world.messages m).Senders ∧ c ∉ (h1.world.pigeons p).contacts ∧
      (h1.world.arena c).destructs = (h.world.arena c).destructs + 1 ∧
      h1.deallocate_calls = ⟨p, c, h.node_size c⟩ :: h.deallocate_calls ∧
      h1.on_drop_calls = (c, .pigeon) :: h.on_drop_calls) ∧
    (∀ h1, callback.allocator_pigeon.clear fuel p h = some (.ok (), h1) →
      c ∉ (h1.world.messages m).Senders ∧ (h1.world.pigeons p).contacts = [] ∧
      (h1.world.arena c).destructs = (h.world.arena c).destructs + 1 ∧
      h1.deallocate_calls.filter (fun r => decide (r.storage = c)) =
        ⟨p, c, h.node_size c⟩ ::
          h.deallocate_calls.filter (fun r => decide (r.storage = c)) ∧
      h1.on_drop_calls.filter (fun r => decide (r.1 = c)) =
        (c, .pigeon) :: h.on_drop_calls.filter (fun r => decide (r.1 = c))) ∧
    (∃ r h1, callback.allocator_pigeon.clear fuel p h = some (r, h1) ∧
      ((∀ i, message.isSending i h.world = false) → r = .ok ())) := by
  obtain ⟨k, rfl⟩ : ∃ k, fuel = k + 2 := ⟨fuel - 2, by omega⟩
  refine ⟨?_, ?_, ?_, ?_⟩
  · intro h0 h2 size_bytes c0 hd
    obtain ⟨_, h1, h2, _, h4, h5, h6, h7, _, _⟩ := allocator_pigeon_deliver_ok hd
    exact ⟨h1, h2, by rw [h4]; exact List.mem_cons_self _ _,
      by rw [h5]; exact List.mem_cons_self _ _, by rw [h6], by rw [h6], h7⟩
  · obtain ⟨h3, he, hS, hP, _, hD, hA, hO⟩ := callback_drop_forwarded_spec k c m p
      { h with world := h.world.setContacts p ((h.world.pigeons p).contacts.erase c) }
      hcb hal hlive hs hm
    refine ⟨h3, ?_, ?_, ?_, hD, hA, hO⟩
    · unfold callback.allocator_pigeon.drop callback.pigeon.drop callback.pigeon.drop_body
      simp only [unlink_of_mem hp, he]
    · rw [hS]
      exact fun hx => ((mem_erase_nodup hndm c c).1 hx).2 rfl
    · rw [hP]
      simp only [World.setContacts_contacts, if_true]
      exact fun hx => ((mem_erase_nodup hndp c c).1 hx).2 rfl
  · intro h1 hr
    unfold callback.allocator_pigeon.clear callback.pigeon.clear at hr
    obtain ⟨a1, a2, a3, a4⟩ := callback_drop_chain_forwards k c m p
      (h.world.pigeons p).contacts _ h1 hr hp hndp hcb hal hlive hs hm hndm
    have hf := callback_drop_chain_frame (k + 2) .pigeon _ _ _ h1 hr
    refine ⟨a1, ?_, a2, a3, a4⟩
    have hsub := hf.contacts_sub p
    simp only [World.setContacts_contacts, if_true] at hsub
    exact List.eq_nil_of_sublist_nil hsub
  · unfold callback.allocator_pigeon.clear callback.pigeon.clear
    obtain ⟨r, h1, he, hq⟩ := callback_drop_chain_returns k .pigeon (h.world.pigeons p).contacts
      { h with world := h.world.setContacts p [] }
    exact ⟨r, h1, he, fun hq2 => hq (fun i => hq2 i)⟩

theorem pigeon_side_drop_is_forwarded_at_once_witness :
    (callback.Demo.stack_two.on_drop 1 = .onDrop_handler 0 ∧
      callback.Demo.stack_two.Alloc 1 = some 0 ∧
      (callback.Demo.stack_two.world.messages 0).Senders = [1, 0] ∧
      (callback.Demo.stack_two.world.pigeons 0).contacts = [1, 0] ∧
      (callback.Demo.stack_two.world.arena 1).destructs = 0 ∧
      callback.Demo.stack_two.node_size 1 = 40 ∧
      callback.Demo.stack_two.deallocate_calls = []) ∧
    (∃ h1, callback.allocator_pigeon.drop 2 0 1 callback.Demo.stack_two = some (.ok true, h1) ∧
      1 ∉ (h1.world.messages 0).Senders ∧ 1 ∉ (h1.world.pigeons 0).contacts ∧
      (h1.world.arena 1).destructs = (callback.Demo.stack_two.world.arena 1).destructs + 1 ∧
      h1.deallocate_calls =
        ⟨0, 1, callback.Demo.stack_two.node_size 1⟩ ::
          callback.Demo.stack_two.deallocate_calls ∧
      h1.on_drop_calls = (1, .pigeon) :: callback.Demo.stack_two.on_drop_calls) ∧
    (∃ h1, callback.allocator_pigeon.clear 2 0 callback.Demo.stack_two = some (.ok (), h1) ∧
      1 ∉ (h1.world.messages 0).Senders ∧
      (h1.world.arena 1).destructs = (callback.Demo.stack_two.world.arena 1).destructs + 1) :=
  have key := pigeon_side_drop_is_forwarded_at_once callback.Demo.stack_two 0 0 1 2
    (by decide) (by decide) (by decide) (by decide) (by decide) (by decide) (by decide)
    (by decide) (by decide)
  ⟨⟨by decide, by decide, by decide, by decide, by decide, by decide, by decide⟩, key.2.1,
    _, rfl, (key.2.2.1 _ rfl).1, (key.2.2.1 _ rfl).2.2.1⟩

/-- C27: the static check `argument_checker<Args...>` of the message template
compiles exactly when, after taking away every argument that is immediately
followed by `value_state&` together with that `value_state&`, no argument
left over is an rvalue reference or a non-const lvalue reference.
`void(int&)` and `void(int&&)` are rejected; `void(int const&)`, `void(int)`,
`void()` and `void(int&, value_state&)` are accepted; a `value_state&` that
follows nothing is itself rejected. -/
theorem static_argument_check (Args : List arg_type) :
    (message.accepts_signature Args = true ↔ spec_accepts Args) ∧
    message.accepts_signature [Demo.int_ref] = false ∧
    message.accepts_signature [Demo.int_rvalue_ref] = false ∧
    message.accepts_signature [Demo.int_const_ref] = true ∧
    message.accepts_signature [Demo.int] = true ∧
    message.accepts_signature [] = true ∧
    message.accepts_signature [Demo.int_ref, value_state_ref] = true ∧
    message.accepts_signature [Demo.int_rvalue_ref, value_state_ref, Demo.int] = true ∧
    message.accepts_signature [Demo.int_ref, value_state_ref, Demo.int_ref] = false ∧
    message.accepts_signature [value_state_ref] = false :=
  ⟨argument_checker_iff Args.length Args (le_refl _), by decide, by decide, by decide,
    by decide, by decide, by decide, by decide, by decide, by decide⟩

/-- The literal reading of C29 fails for a single subscriber: the `repeat`
case repeats the other senders, of which there are none, so `response` with
a response handler that always answers `repeat` returns after one handler
call. -/
theorem always_repeat_returns_for_one_subscriber :
    message.size 0 Demo.one = 1 ∧
    ∃ out, message.response 2 (fun _ _ (n : Nat) => (n + 1, some ()))
        (fun _ n => (n, some .repeat_)) 0 0 Demo.one = some out ∧
      out.trace = [0] ∧ out.user = 1 ∧ out.threw = false ∧
      (out.world.messages 0).Senders = [0] :=
  ⟨by decide, _, rfl, rfl, rfl, rfl, rfl⟩

/-- C29 (as the code has it): on a message that is not dispatching, with
handlers that do not throw and a response handler that answers `repeat` on
every invocation (both may call the library).  If at least two subscribers
are not flagged dropped and neither the handlers nor the response handler drop
a subscription of the message, `response` never returns: whatever the fuel,
the loop does not reach the end of the list.  If the list holds exactly one
subscriber, not flagged, `response` returns after one call of its handler
followed by the response handler.  The condition on drops is needed: in the
example two subscribers are live and the handler of one drops its own
subscription through the pigeon; `response` returns after one call of each
handler, the dropped entry unlinked. -/
theorem always_repeat_never_returns {σ ρ : Type}
    (send : callback.Heap → Nat → σ → callback.Heap × σ × Option ρ)
    (hd : callback.Heap → ρ → σ → callback.Heap × σ × Option iteration_state)
    (m : Nat) (a : σ) (g : callback.Heap)
    (hs : message.isSending m g.world = false)
    (hcalls : ∀ g0 c s, callback.reentrant.Calls g0 (send g0 c s).1)
    (hcalld : ∀ g0 r s, callback.reentrant.Calls g0 (hd g0 r s).1)
    (hsend : ∀ g0 c s, ((send g0 c s).2.2).isSome = true)
    (hh : ∀ g0 r s, (hd g0 r s).2.2 = some .repeat_) :
    (2 ≤ message.size m g.world →
      (∀ g0 c s x, x ∈ (g0.world.messages m).Senders → contact.isDropped x g0.world = false →
        contact.isDropped x (send g0 c s).1.world = false) →
      (∀ g0 r s x, x ∈ (g0.world.messages m).Senders → contact.isDropped x g0.world = false →
        contact.isDropped x (hd g0 r s).1.world = false) →
      ∀ nest fuel, callback.reentrant.message.response nest fuel send hd m a g = none) ∧
    (∀ c, (g.world.messages m).Senders = [c] → contact.isDropped c g.world = false →
      ∀ nest fuel, 2 ≤ fuel →
      ∃ out, callback.reentrant.message.response nest fuel send hd m a g = some out ∧
        out.trace = [c] ∧ out.threw = false ∧
        out.user = (callback.reentrant.spec_in_turn send hd [c]
          { g with world := g.world.setSending m true } a).2 ∧
        (out.heap.world.messages m).Senders = [c] ∧
        message.isSending m out.heap.world = false) ∧
    (message.size 0 callback.Demo.plain_two.world = 2 ∧
      ∃ out, callback.reentrant.message.response 2 6 (callback.Demo.drops 1)
          (callback.reentrant.quiet_controller (fun _ l => (l, some iteration_state.repeat_)))
          0 [] callback.Demo.plain_two = some out ∧
        out.user = [1, 0] ∧ out.trace = [1, 0] ∧ out.threw = false ∧
        (out.heap.world.messages 0).Senders = [0]) := by
  refine ⟨?_, ?_, by decide, _, rfl, by decide, by decide, by decide, by decide⟩
  · intro hlive hkeep hkeepd nest fuel
    unfold callback.reentrant.message.response
    rw [if_neg (by simp [hs])]
    have hl : 2 ≤ ((g.world.messages m).Senders.filter
        (fun c => !contact.isDropped c
          ({ g with world := g.world.setSending m true } : callback.Heap).world)).length := by
      unfold message.size at hlive
      simpa [contact.isDropped] using hlive
    rw [reentrant_walk_always_repeat nest send hd m (fun g0 c s => calls_keeps (hcalls g0 c s))
      (fun g0 r s => calls_keeps (hcalld g0 r s)) hsend hh hkeep hkeepd fuel []
      (g.world.messages m).Senders a [] { g with world := g.world.setSending m true }
      (by simp [message.isSending]) (by simp) (le_trans (by decide) hl)
      (by simp only [List.filter_nil, List.length_nil, Nat.zero_add]; exact hl)]
  · intro c hl hlive nest fuel hf
    exact reentrant_response_single_repeat nest send hd m hsend hh a g hs c hl hlive fuel hf

theorem always_repeat_never_returns_witness :
    (message.isSending 0 callback.Demo.plain_two.world = false ∧
      message.size 0 callback.Demo.plain_two.world = 2 ∧
      ∀ nest fuel, callback.reentrant.message.response nest fuel callback.Demo.appends
        (callback.reentrant.quiet_controller (fun _ l => (l, some iteration_state.repeat_)))
        0 [] callback.Demo.plain_two = none) ∧
    (message.isSending 0 callback.Demo.plain_one.world = false ∧
      (callback.Demo.plain_one.world.messages 0).Senders = [0] ∧
      contact.isDropped 0 callback.Demo.plain_one.world = false ∧
      ∃ out, callback.reentrant.message.response 2 2 callback.Demo.appends
          (callback.reentrant.quiet_controller (fun _ l => (l, some iteration_state.repeat_)))
          0 [] callback.Demo.plain_one = some out ∧
        out.trace = [0] ∧ out.threw = false ∧ out.user = [0]) :=
  ⟨⟨rfl, by decide,
      (always_repeat_never_returns callback.Demo.appends
        (callback.reentrant.quiet_controller
          (fun (_ : Unit) l => (l, some iteration_state.repeat_)))
        0 [] callback.Demo.plain_two rfl demo_appends_calls (quiet_controller_calls _)
        (fun _ _ _ => rfl) (fun _ _ _ => rfl)).1 (by decide) (fun _ _ _ _ _ h => h)
        (fun _ _ _ _ _ h => h)⟩,
    ⟨rfl, by decide, by decide,
      (let ⟨out, h1, h2, h3, h4, _, _⟩ :=
        (always_repeat_never_returns callback.Demo.appends
          (callback.reentrant.quiet_controller
            (fun (_ : Unit) l => (l, some iteration_state.repeat_)))
          0 [] callback.Demo.plain_one rfl demo_appends_calls (quiet_controller_calls _)
          (fun _ _ _ => rfl) (fun _ _ _ => rfl)).2.1 0 (by decide) (by decide) 2 2 (by decide)
       ⟨out, h1, h2, h3, h4.trans rfl⟩)⟩⟩

/-- C23: in every heap that a program can reach, every contact has one
callback record if it is flagged dropped and none if it is live, and a
destructed contact is flagged: over its lifetime the callback ran exactly
once.  The drop of a live contact calls the callback once, with the
contact's own token and the side of the drop; the drop of a flagged contact
destructs it and calls no callback.  `drop` and `clear` of a pigeon only make
calls with `who::pigeon`; `drop`, `clear` and `response` of a message only
make calls with `who::message`. -/
theorem on_drop_runs_once_at_the_first_drop (h : callback.Heap) (hr : callback.Reachable h)
    (c : Nat) :
    (h.on_drop_calls.filter (fun r => decide (r.1 = c))).length =
      (if (h.world.arena c).dropped then 1 else 0) ∧
    (0 < (h.world.arena c).destructs → (h.world.arena c).dropped = true) ∧
    (∀ fuel s r h1, callback.contact.drop fuel c s h = some (r, h1) →
      h1.on_drop_calls =
        (if (h.world.arena c).dropped then h.on_drop_calls else (c, s) :: h.on_drop_calls) ∧
      ((h.world.arena c).dropped = true → h1 = callback.contact.destruct c h ∧
        (h1.world.arena c).destructs = (h.world.arena c).destructs + 1)) ∧
    (∀ fuel p r h1, callback.pigeon.drop fuel p c h = some (r, h1) →
      h1.on_drop_calls = h.on_drop_calls ∨ h1.on_drop_calls = (c, .pigeon) :: h.on_drop_calls) ∧
    (∀ fuel m r h1, callback.message.drop fuel m c h = some (r, h1) →
      h1.on_drop_calls = h.on_drop_calls ∨
        h1.on_drop_calls = (c, .message) :: h.on_drop_calls) ∧
    (∀ fuel p r h1, callback.pigeon.clear fuel p h = some (r, h1) →
      ∃ new, h1.on_drop_calls = new ++ h.on_drop_calls ∧
        ∀ e ∈ new, e.2 = who.pigeon ∧ e.1 ∈ (h.world.pigeons p).contacts) ∧
    (∀ fuel m r h1, callback.message.clear fuel m h = some (r, h1) →
      ∃ new, h1.on_drop_calls = new ++ h.on_drop_calls ∧
        ∀ e ∈ new, e.2 = who.message ∧ e.1 ∈ (h.world.messages m).Senders) ∧
    (∀ (σ ρ : Type) (nest fuel : Nat) (send : World → Nat → σ → σ × Option ρ)
      (hd : ρ → σ → σ × Option iteration_state) (m : Nat) (a : σ) (out : callback.Outcome σ),
      callback.message.response nest fuel send hd m a h = some out →
      ∃ new, out.heap.on_drop_calls = new ++ h.on_drop_calls ∧
        ∀ e ∈ new, e.2 = who.message ∧ e.1 ∈ (h.world.messages m).Senders) := by
  have hI := callback_reachable_inv hr
  have hside : ∀ (g : callback.Heap) (s : who) (fuel : Nat) (r : Except logic_error Unit)
      (h1 : callback.Heap), g.on_drop_calls = h.on_drop_calls →
      callback.contact.drop fuel c s g = some (r, h1) →
      h1.on_drop_calls = h.on_drop_calls ∨ h1.on_drop_calls = (c, s) :: h.on_drop_calls := by
    intro g s fuel r h1 hg hd
    obtain ⟨_, e2, _⟩ := callback_drop_effect fuel c s g r h1 hd
    rw [hg] at e2
    cases hfl : (g.world.arena c).dropped
    · rw [hfl] at e2; exact Or.inr (by simpa using e2)
    · rw [hfl] at e2; exact Or.inl (by simpa using e2)
  refine ⟨hI.logs.calls c, ?_, ?_, ?_, ?_, ?_, ?_, ?_⟩
  · intro hpos
    have hz := hI.world.destructs_zero c
    refine (hI.world.dropped_iff c).2 ⟨?_, fun hlink => ?_⟩
    · by_contra hge
      have := hz (Or.inl (by omega))
      omega
    · have := hz (Or.inr (Or.inl hlink.1))
      omega
  · intro fuel s r h1 hd
    obtain ⟨_, e2, _⟩ := callback_drop_effect fuel c s h r h1 hd
    refine ⟨e2, fun hfl => ?_⟩
    rcases callback_drop_cases fuel c s h r h1 hd with ⟨_, _, rfl⟩ | ⟨hl, _⟩
    · refine ⟨rfl, ?_⟩
      rw [callback_destruct_world]
      simp [contact.destruct]
    · rw [hfl] at hl; cases hl
  · intro fuel p r h1 hd
    unfold callback.pigeon.drop callback.pigeon.drop_body at hd
    cases hu : unlink c (h.world.pigeons p).contacts with
    | none =>
      simp only [hu, Option.some.injEq, Prod.mk.injEq] at hd
      rw [← hd.2]; exact Or.inl rfl
    | some rest =>
      simp only [hu] at hd
      cases hdr : callback.contact.drop fuel c .pigeon
          (h.setContacts p rest) with
      | none =>
        have : callback.contact.drop fuel c .pigeon
            { h with world := h.world.setContacts p rest } = none := hdr
        simp [this] at hd
      | some v =>
        obtain ⟨r2, h2⟩ := v
        have hdr2 : callback.contact.drop fuel c .pigeon
            { h with world := h.world.setContacts p rest } = some (r2, h2) := hdr
        have := hside (h.setContacts p rest) .pigeon fuel r2 h2 rfl hdr
        cases r2 <;>
        · simp only [hdr2, Option.some.injEq, Prod.mk.injEq] at hd
          rw [← hd.2]; exact this
  · intro fuel m r h1 hd
    unfold callback.message.drop callback.message.drop_body at hd
    simp only [hI.quiet m, Bool.false_eq_true, if_false] at hd
    cases hu : unlink c (h.world.messages m).Senders with
    | none =>
      simp only [hu, Option.some.injEq, Prod.mk.injEq] at hd
      rw [← hd.2]; exact Or.inl rfl
    | some rest =>
      simp only [hu] at hd
      cases hdr : callback.contact.drop fuel c .message
          (h.setSenders m rest) with
      | none =>
        have : callback.contact.drop fuel c .message
            { h with world := h.world.setSenders m rest } = none := hdr
        simp [this] at hd
      | some v =>
        obtain ⟨r2, h2⟩ := v
        have hdr2 : callback.contact.drop fuel c .message
            { h with world := h.world.setSenders m rest } = some (r2, h2) := hdr
        have := hside (h.setSenders m rest) .message fuel r2 h2 rfl hdr
        cases r2 <;>
        · simp only [hdr2, Option.some.injEq, Prod.mk.injEq] at hd
          rw [← hd.2]; exact this
  · intro fuel p r h1 hd
    unfold callback.pigeon.clear at hd
    exact callback_chain_calls fuel .pigeon _ (h.setContacts p []) r h1 hd
  · intro fuel m r h1 hd
    unfold callback.message.clear at hd
    simp only [hI.quiet m, Bool.false_eq_true, if_false] at hd
    exact callback_chain_calls fuel .message _ (h.setSenders m []) r h1 hd
  · intro σ ρ nest fuel send hd m a out hres
    unfold callback.message.response at hres
    simp only [hI.quiet m, Bool.false_eq_true, if_false] at hres
    cases hw : callback.message.response.walk nest send hd m fuel []
        (h.world.messages m).Senders a [] { h with world := h.world.setSending m true } with
    | none => simp [hw] at hres
    | some out1 =>
      simp only [hw, Option.some.injEq] at hres
      subst hres
      obtain ⟨new, b1, b2⟩ := callback_walk_calls nest send hd m fuel [] _ a [] _ out1 hw
      exact ⟨new, b1, fun e he => ⟨(b2 e he).1, by simpa using (b2 e he).2⟩⟩

theorem on_drop_runs_once_at_the_first_drop_witness :
    callback.Reachable callback.Demo.stack_two ∧
    (callback.Demo.stack_two.world.arena 1).dropped = false ∧
    callback.Demo.stack_two.on_drop_calls = [] ∧
    (∃ h1, callback.pigeon.drop 2 0 1 callback.Demo.stack_two = some (.ok true, h1) ∧
      h1.on_drop_calls = [(1, .pigeon)] ∧ (h1.world.arena 1).destructs = 1 ∧
      (h1.on_drop_calls = callback.Demo.stack_two.on_drop_calls ∨
        h1.on_drop_calls = (1, .pigeon) :: callback.Demo.stack_two.on_drop_calls)) ∧
    (∃ h1, callback.message.drop 2 0 1 callback.Demo.stack_two = some (.ok true, h1) ∧
      h1.on_drop_calls = [(1, .message)] ∧ (h1.world.arena 1).destructs = 0) :=
  have key := on_drop_runs_once_at_the_first_drop callback.Demo.stack_two
    demo_stack_two_reachable 1
  ⟨demo_stack_two_reachable, by decide, by decide,
    ⟨_, rfl, by decide, by decide, key.2.2.2.1 2 0 _ _ rfl⟩,
    ⟨_, rfl, by decide, by decide⟩⟩

/-- C30: `contact::drop(w)` on a live contact sets the dropped flag and calls
the callback with the contact's token and `w`, and does nothing else itself:
in the heap the callback is called in, only the flag of this node is new,
every list and every other node is as before, nothing was destructed or
deallocated; with the default callback this heap is the result.
`contact::drop(w)` on a flagged contact calls `destruct()` and nothing else:
no callback, no list changed, one destruct, one `deallocate` when the node
has an allocator.  So after any first drop, a second drop from any side, the
same side included, destructs the contact. -/
theorem contact_drop_state_machine (fuel c : Nat) (s : who) (h : callback.Heap) :
    ((h.world.arena c).dropped = false →
      callback.contact.drop (fuel + 1) c s h =
        callback.on_drop.call (callback.contact.drop fuel) (h.on_drop c) c s
          (h.setDropped c s) ∧
      (h.setDropped c s).world.arena c = { h.world.arena c with dropped := true } ∧
      (∀ x, x ≠ c → (h.setDropped c s).world.arena x = h.world.arena x) ∧
      (h.setDropped c s).world.messages = h.world.messages ∧
      (h.setDropped c s).world.pigeons = h.world.pigeons ∧
      (h.setDropped c s).deallocate_calls = h.deallocate_calls ∧
      (h.setDropped c s).allocators = h.allocators ∧
      (h.setDropped c s).on_drop_calls = (c, s) :: h.on_drop_calls ∧
      (h.on_drop c = .noop →
        callback.contact.drop (fuel + 1) c s h = some (.ok (), h.setDropped c s))) ∧
    ((h.world.arena c).dropped = true →
      callback.contact.drop (fuel + 1) c s h = some (.ok (), callback.contact.destruct c h) ∧
      (callback.contact.destruct c h).world.arena c =
        { h.world.arena c with
          destructs := (h.world.arena c).destructs + 1
          destructed_linked := (h.world.arena c).destructed_linked || h.world.linked c } ∧
      (∀ x, x ≠ c → (callback.contact.destruct c h).world.arena x = h.world.arena x) ∧
      (callback.contact.destruct c h).world.messages = h.world.messages ∧
      (callback.contact.destruct c h).world.pigeons = h.world.pigeons ∧
      (callback.contact.destruct c h).on_drop_calls = h.on_drop_calls ∧
      (callback.contact.destruct c h).deallocate_calls =
        (match h.Alloc c with
          | some a => [(⟨a, c, h.node_size c⟩ : callback.alloc_call)]
          | none => []) ++ h.deallocate_calls) ∧
    (∀ (k : Nat) (r : Except logic_error Unit) (h1 : callback.Heap),
      callback.contact.drop k c s h = some (r, h1) →
      ∀ (s2 : who) (k2 : Nat),
        callback.contact.drop (k2 + 1) c s2 h1 = some (.ok (), callback.contact.destruct c h1) ∧
        ((callback.contact.destruct c h1).world.arena c).destructs =
          (h1.world.arena c).destructs + 1) := by
  refine ⟨fun hl => ?_, fun hf => ?_, fun k r h1 hd s2 k2 => ?_⟩
  · have e : callback.contact.drop (fuel + 1) c s h =
        callback.on_drop.call (callback.contact.drop fuel) (h.on_drop c) c s
          (h.setDropped c s) := by
      rw [callback_drop_succ]
      simp only [contact.isDropped, hl, Bool.false_eq_true, if_false]
      rfl
    refine ⟨e, by simp, fun x hx => by simp [hx], rfl, rfl, rfl, rfl, rfl, fun hn => ?_⟩
    rw [e, hn]
    rfl
  · refine ⟨callback_drop_flagged fuel c s h hf, ?_, fun x hx => ?_, ?_, ?_, ?_, ?_⟩
    · rw [callback_destruct_world]; simp [contact.destruct]
    · rw [callback_destruct_world]; simp [contact.destruct, hx]
    · rw [callback_destruct_world]; simp [contact.destruct]
    · rw [callback_destruct_world]; simp [contact.destruct]
    · unfold callback.contact.destruct
      cases h.Alloc c <;> rfl
    · unfold callback.contact.destruct
      cases h.Alloc c <;> rfl
  · obtain ⟨e1, _⟩ := callback_drop_effect k c s h r h1 hd
    refine ⟨callback_drop_flagged k2 c s2 h1 e1, ?_⟩
    rw [callback_destruct_world]
    simp [contact.destruct]

/-- C25: in every heap that a program can reach, a contact made with an
allocator has exactly one `allocate` record, with its allocator, its address
and its size, and it has as many `deallocate` records as it was destructed,
at most one, with the same allocator, address and size; none while the
contact is still in a list.  `deliver` calls `allocate` once, with the node
size, and never `deallocate`; `send` flags no contact and calls no
`deallocate` for a live one.  The drop of a flagged contact (the second
drop) calls `deallocate` exactly once, with the values of the `allocate`
record; the drop of a live contact calls it only if the callback makes the
other side drop the contact, which is the second drop. -/
theorem allocate_once_deallocate_at_second_drop (h : callback.Heap)
    (hr : callback.Reachable h) (c a : Nat) (hc : c < h.world.next)
    (hal : h.Alloc c = some a) :
    h.allocate_calls.filter (fun r => decide (r.storage = c)) = [⟨a, c, h.node_size c⟩] ∧
    h.deallocate_calls.filter (fun r => decide (r.storage = c)) =
      List.replicate (h.world.arena c).destructs ⟨a, c, h.node_size c⟩ ∧
    (h.world.arena c).destructs ≤ 1 ∧
    ((∃ m, c ∈ (h.world.messages m).Senders) ∨ (∃ p, c ∈ (h.world.pigeons p).contacts) →
      h.deallocate_calls.filter (fun r => decide (r.storage = c)) = []) ∧
    (∀ (p m a2 : Nat) (f : callback.on_drop) (size_bytes : Nat),
      (callback.pigeon.deliver p m (some a2) f size_bytes h).2.deallocate_calls =
        h.deallocate_calls ∧
      ((callback.pigeon.deliver p m (some a2) f size_bytes h).1 = .ok h.world.next →
        (callback.pigeon.deliver p m (some a2) f size_bytes h).2.allocate_calls =
          ⟨a2, h.world.next, size_bytes⟩ :: h.allocate_calls ∧
        (callback.pigeon.deliver p m (some a2) f size_bytes h).2.node_size h.world.next =
          size_bytes ∧
        (callback.pigeon.deliver p m (some a2) f size_bytes h).2.Alloc h.world.next =
          some a2)) ∧
    (∀ (σ ρ : Type) (nest fuel : Nat) (send : World → Nat → σ → σ × Option ρ) (m : Nat) (a0 : σ)
      (out : callback.Outcome σ), callback.message.send nest fuel send m a0 h = some out →
      (∀ x, (out.heap.world.arena x).dropped = (h.world.arena x).dropped) ∧
      ((h.world.arena c).dropped = false →
        out.heap.deallocate_calls.filter (fun r => decide (r.storage = c)) = [])) ∧
    (∀ fuel s r h1, callback.contact.drop fuel c s h = some (r, h1) →
      ((h.world.arena c).dropped = true →
        h1.deallocate_calls = ⟨a, c, h.node_size c⟩ :: h.deallocate_calls) ∧
      ((h.world.arena c).dropped = false →
        (h1.deallocate_calls = h.deallocate_calls ∧
          (h1.world.arena c).destructs = (h.world.arena c).destructs) ∨
        (h1.deallocate_calls = ⟨a, c, h.node_size c⟩ :: h.deallocate_calls ∧
          (h1.world.arena c).destructs = (h.world.arena c).destructs + 1))) := by
  have hI := callback_reachable_inv hr
  have hdeal := hI.logs.deallocated c
  rw [if_pos hc, hal] at hdeal
  simp only [] at hdeal
  have hzero : ((∃ m, c ∈ (h.world.messages m).Senders) ∨
      (∃ p, c ∈ (h.world.pigeons p).contacts)) → (h.world.arena c).destructs = 0 := by
    rintro (⟨m, hm⟩ | ⟨p, hp⟩)
    · refine hI.world.destructs_zero c (Or.inr (Or.inl ?_))
      unfold World.inMessage
      rw [(hI.world.sender_owner m c hm).1]; exact hm
    · refine hI.world.destructs_zero c (Or.inr (Or.inr ?_))
      unfold World.inPigeon
      rw [(hI.world.contact_owner p c hp).1]; exact hp
  refine ⟨?_, hdeal, ?_, ?_, ?_, ?_, ?_⟩
  · have := hI.logs.allocated c
    rw [if_pos hc, hal] at this
    exact this
  · by_cases hM : h.world.inMessage c
    · rw [hI.world.destructs_zero c (Or.inr (Or.inl hM))]; omega
    · by_cases hP : h.world.inPigeon c
      · rw [hI.world.destructs_zero c (Or.inr (Or.inr hP))]; omega
      · rw [hI.world.destructs_one c hc hM hP]
  · intro hl
    rw [hdeal, hzero hl]
    rfl
  · intro p m a2 f size_bytes
    rcases callback_deliver_cases p m (some a2) f size_bytes h with
      ⟨⟨e, he⟩, _, _, _, _, _, e6, _⟩ | ⟨_, _, _, e3, e4, e5, e6, _⟩
    · refine ⟨e6, fun hok => ?_⟩
      rw [he] at hok; cases hok
    · refine ⟨e6, fun _ => ⟨e5, ?_, ?_⟩⟩
      · rw [e4]; simp
      · rw [e3]; simp
  · intro σ ρ nest fuel send m a0 out hs
    have hstep : callback.Step h out.heap := callback.Step.response nest fuel send _ m a0 hs
    have hI2 := callback_step_inv hstep hI
    unfold callback.message.send callback.message.response at hs
    simp only [hI.quiet m, Bool.false_eq_true, if_false] at hs
    cases hw : callback.message.response.walk nest send
        (call_handler_void (fun (_ : ρ) (s : σ) => (s, some ()))) m fuel []
        (h.world.messages m).Senders a0 [] { h with world := h.world.setSending m true } with
    | none => simp [hw] at hs
    | some out1 =>
      simp only [hw, Option.some.injEq] at hs
      subst hs
      have hfl := callback_walk_progress_flags nest send _ (fun _ _ => rfl) m fuel [] _ a0 [] _
        out1 hw
      have hfl2 : ∀ x, (out1.heap.world.arena x).dropped = (h.world.arena x).dropped :=
        fun x => hfl x
      refine ⟨hfl2, fun hlive => ?_⟩
      have hd2 := hI2.logs.deallocated c
      have hlive2 : (out1.heap.world.arena c).dropped = false := by rw [hfl2 c, hlive]
      have hlink := (not_iff_not.2 (hI2.world.dropped_iff c)).1 (by
        simp only [World.setSending_arena]; rw [hlive2]; simp)
      have hz := hI2.world.destructs_zero c
      by_cases hn : c < out1.heap.world.next
      · have hboth : (out1.heap.world.setSending m false).inMessage c := by
          by_contra hno
          exact hlink ⟨hn, fun hb => hno hb.1⟩
        have h0 := hz (Or.inr (Or.inl hboth))
        simp only [World.setSending_next, World.setSending_arena] at hd2 h0
        rw [hd2, if_pos hn, h0]
        cases out1.heap.Alloc c <;> rfl
      · simp only [World.setSending_next] at hd2
        rw [hd2, if_neg hn]
  · intro fuel s r h1 hd
    obtain ⟨_, _, k, hk, hk1, e3, e4⟩ := callback_drop_effect fuel c s h r h1 hd
    rw [hal] at e4
    simp only [] at e4
    refine ⟨fun hfl => ?_, fun hlive => ?_⟩
    · rw [e4, hk1 hfl]; rfl
    · rcases Nat.le_one_iff_eq_zero_or_eq_one.1 hk with rfl | rfl
      · exact Or.inl ⟨by rw [e4]; rfl, e3⟩
      · exact Or.inr ⟨by rw [e4]; rfl, e3⟩

theorem allocate_once_deallocate_at_second_drop_witness :
    callback.Reachable callback.Demo.stack_two ∧ 1 < callback.Demo.stack_two.world.next ∧
    callback.Demo.stack_two.Alloc 1 = some 0 ∧
    callback.Demo.stack_two.allocate_calls.filter (fun r => decide (r.storage = 1)) =
      [⟨0, 1, callback.Demo.stack_two.node_size 1⟩] ∧
    callback.Demo.stack_two.node_size 1 = 40 ∧
    callback.Demo.stack_two.deallocate_calls = [] ∧
    (∃ h1, callback.message.drop 2 0 1 callback.Demo.stack_two = some (.ok true, h1) ∧
      h1.deallocate_calls = [] ∧
      ∃ h2, callback.pigeon.drop 2 0 1 h1 = some (.ok true, h2) ∧
        h2.deallocate_calls = [⟨0, 1, 40⟩]) :=
  have key := allocate_once_deallocate_at_second_drop callback.Demo.stack_two
    demo_stack_two_reachable 1 0 (by decide) (by decide)
  ⟨demo_stack_two_reachable, by decide, by decide, key.1, by decide, by decide,
    _, rfl, by decide, _, rfl, by decide⟩

/-- C21, the claim as worded fails: in the heap of two subscriptions of an
allocator_pigeon, `message::drop` of the token 1 returns `true` and has called
the callback once with `who::message`, but the contact is still in the list
of the pigeon, it was not destructed and `deallocate` was not called:
`onDrop_handler` does nothing for `who::message`. -/
theorem message_side_drop_is_not_forwarded :
    callback.Reachable callback.Demo.stack_two ∧
    callback.Demo.stack_two.on_drop 1 = .onDrop_handler 0 ∧
    callback.Demo.stack_two.Alloc 1 = some 0 ∧
    (callback.Demo.stack_two.world.messages 0).Senders = [1, 0] ∧
    (callback.Demo.stack_two.world.pigeons 0).contacts = [1, 0] ∧
    ∃ h1, callback.message.drop 2 0 1 callback.Demo.stack_two = some (.ok true, h1) ∧
      (h1.world.messages 0).Senders = [0] ∧
      (h1.world.pigeons 0).contacts = [1, 0] ∧
      (h1.world.arena 1).dropped = true ∧
      (h1.world.arena 1).destructs = 0 ∧
      h1.on_drop_calls = [(1, .message)] ∧
      h1.deallocate_calls = [] :=
  ⟨demo_stack_two_reachable, by decide, by decide, by decide, by decide,
    _, rfl, by decide, by decide, by decide, by decide, by decide, by decide⟩

/-- C21 (as the code has it): for a subscription whose callback is
`onDrop_handler` (every subscription of an allocator_pigeon), linked on both
sides in a reachable heap, a drop from the message side is not forwarded.
`message::drop(token)` returns `true`, `message::clear()` returns, and when a
`response` returns: the contact is still in the list of the pigeon, it is not
destructed and nothing was deallocated for it; it is flagged once it has left
the list of the message.  It is the later `drop` of the pigeon that finds the
flagged contact, returns `true`, destructs it and calls `deallocate`. -/
theorem message_side_drop_waits_for_the_pigeon (h : callback.Heap)
    (hr : callback.Reachable h) (p m c : Nat) (hcb : h.on_drop c = .onDrop_handler m)
    (hm : c ∈ (h.world.messages m).Senders) (hp : c ∈ (h.world.pigeons p).contacts) :
    (∀ fuel, ∃ h1, callback.message.drop (fuel + 1) m c h = some (.ok true, h1) ∧
      c ∉ (h1.world.messages m).Senders ∧ c ∈ (h1.world.pigeons p).contacts ∧
      (h1.world.arena c).dropped = true ∧ (h1.world.arena c).destructs = 0 ∧
      h1.on_drop_calls = (c, .message) :: h.on_drop_calls ∧
      h1.deallocate_calls = h.deallocate_calls) ∧
    (∀ fuel, ∃ h1, callback.message.clear (fuel + 2) m h = some (.ok (), h1) ∧
      (h1.world.messages m).Senders = [] ∧ c ∈ (h1.world.pigeons p).contacts ∧
      (h1.world.arena c).dropped = true ∧ (h1.world.arena c).destructs = 0 ∧
      h1.deallocate_calls.filter (fun r => decide (r.storage = c)) = []) ∧
    (∀ (σ ρ : Type) (nest fuel : Nat) (send : World → Nat → σ → σ × Option ρ)
      (hd : ρ → σ → σ × Option iteration_state) (a : σ) (out : callback.Outcome σ),
      callback.message.response nest fuel send hd m a h = some out →
      c ∈ (out.heap.world.pigeons p).contacts ∧ (out.heap.world.arena c).destructs = 0 ∧
      out.heap.deallocate_calls.filter (fun r => decide (r.storage = c)) = [] ∧
      (c ∉ (out.heap.world.messages m).Senders → (out.heap.world.arena c).dropped = true)) ∧
    (∀ g : callback.Heap, callback.Reachable g → c ∈ (g.world.pigeons p).contacts →
      (g.world.arena c).dropped = true →
      ∀ fuel, ∃ g1, callback.allocator_pigeon.drop (fuel + 1) p c g = some (.ok true, g1) ∧
        c ∉ (g1.world.pigeons p).contacts ∧ (g1.world.arena c).destructs = 1 ∧
        g1.deallocate_calls =
          (match g.Alloc c with
            | some a => [(⟨a, c, g.node_size c⟩ : callback.alloc_call)]
            | none => []) ++ g.deallocate_calls) := by
  have hI := callback_reachable_inv hr
  have hlive := linked_both_live hI.world hm hp
  have hown := (hI.world.sender_owner m c hm).1
  refine ⟨fun fuel => ?_, fun fuel => ?_, ?_, ?_⟩
  · have e : callback.message.drop (fuel + 1) m c h =
        some (.ok true,
          (h.setSenders m ((h.world.messages m).Senders.erase c)).setDropped c .message) := by
      unfold callback.message.drop callback.message.drop_body
      rw [if_neg (by simp [hI.quiet m]), unlink_of_mem hm]
      simp only []
      have e2 : callback.contact.drop (fuel + 1) c .message
          (h.setSenders m ((h.world.messages m).Senders.erase c)) =
          some (.ok (),
            (h.setSenders m ((h.world.messages m).Senders.erase c)).setDropped c .message) := by
        rw [callback_drop_succ, if_neg (by simp [contact.isDropped, hlive.1])]
        show callback.on_drop.call _ (h.on_drop c) c .message _ = _
        rw [hcb]
        rfl
      show (match callback.contact.drop (fuel + 1) c .message
          (h.setSenders m ((h.world.messages m).Senders.erase c)) with
        | none => none
        | some (Except.error e, h1) => some (Except.error e, h1)
        | some (Except.ok (), h1) => some (Except.ok true, h1)) = _
      rw [e2]
    refine ⟨_, e, ?_, ?_, ?_, ?_, rfl, rfl⟩
    · simp [(List.Nodup.mem_erase_iff (hI.world.senders_nodup m))]
    · simpa using hp
    · simp
    · simpa using hlive.2
  · obtain ⟨r, h1, e, _⟩ := callback_drop_chain_returns fuel .message
      (h.world.messages m).Senders { h with world := h.world.setSenders m [] }
    have e2 : callback.message.clear (fuel + 2) m h = some (r, h1) := by
      unfold callback.message.clear
      rw [if_neg (by simp [hI.quiet m])]
      exact e
    obtain ⟨hrok, hI1⟩ := callback_inv_message_clear hI (fuel + 2) m r h1 e2
    subst hrok
    have hf := callback_drop_chain_frame (fuel + 2) .message _ _ _ _ e
    have hnil : (h1.world.messages m).Senders = [] := by
      have := hf.Senders_sub m
      simpa using this
    obtain ⟨_, k2, k3⟩ := callback_chain_message_keeps (fuel + 2) c m p _
      { h with world := h.world.setSenders m [] } _ h1 hcb (by simpa using hp) e
    have hnd := callback_listed_not_destructed hI1 k2
    refine ⟨h1, e2, hnil, k2, ?_, hnd.1, hnd.2⟩
    exact callback_half_dropped hI1 k2 (k3.trans (by simpa using hown)) (by simp [hnil])
  · intro σ ρ nest fuel send hd a out hres
    have hIo := callback_inv_response hI nest fuel send hd m a out hres
    unfold callback.message.response at hres
    rw [if_neg (by simp [hI.quiet m])] at hres
    cases hw : callback.message.response.walk nest send hd m fuel [] (h.world.messages m).Senders
        a [] { h with world := h.world.setSending m true } with
    | none => simp [hw] at hres
    | some out1 =>
      simp only [hw, Option.some.injEq] at hres
      obtain ⟨_, k2, k3⟩ := callback_walk_keeps nest send hd m c m p fuel [] _ a []
        { h with world := h.world.setSending m true } out1 hcb (by simpa using hp) hw
      have k2o : c ∈ (out.heap.world.pigeons p).contacts := by
        rw [← hres]; simpa using k2
      have k3o : (out.heap.world.arena c).owner_message = m := by
        rw [← hres]
        simpa using k3.trans (by simpa using hown)
      have hnd := callback_listed_not_destructed hIo k2o
      exact ⟨k2o, hnd.1, hnd.2, fun hn => callback_half_dropped hIo k2o k3o hn⟩
  · intro g hg hpg hfl fuel
    have hIg := callback_reachable_inv hg
    have hz := (callback_listed_not_destructed hIg hpg).1
    have e : callback.allocator_pigeon.drop (fuel + 1) p c g =
        some (.ok true, callback.contact.destruct c
          (g.setContacts p ((g.world.pigeons p).contacts.erase c))) := by
      unfold callback.allocator_pigeon.drop callback.pigeon.drop callback.pigeon.drop_body
      rw [unlink_of_mem hpg]
      have e2 : callback.contact.drop (fuel + 1) c .pigeon
          (g.setContacts p ((g.world.pigeons p).contacts.erase c)) =
          some (.ok (), callback.contact.destruct c
            (g.setContacts p ((g.world.pigeons p).contacts.erase c))) :=
        callback_drop_flagged fuel c .pigeon _ (by simpa using hfl)
      show (match callback.contact.drop (fuel + 1) c .pigeon
          (g.setContacts p ((g.world.pigeons p).contacts.erase c)) with
        | none => none
        | some (Except.error e, h1) => some (Except.error e, h1)
        | some (Except.ok (), h1) => some (Except.ok true, h1)) = _
      rw [e2]
    refine ⟨_, e, ?_, ?_, ?_⟩
    · rw [callback_destruct_world]
      simp [contact.destruct, (List.Nodup.mem_erase_iff (hIg.world.contacts_nodup p))]
    · rw [callback_destruct_world]
      simp [contact.destruct, hz]
    · cases ha : g.Alloc c <;>
        simp [callback.contact.destruct, callback.Heap.setContacts, ha]

theorem message_side_drop_waits_for_the_pigeon_witness :
    callback.Reachable callback.Demo.stack_two ∧
    callback.Demo.stack_two.on_drop 1 = .onDrop_handler 0 ∧
    1 ∈ (callback.Demo.stack_two.world.messages 0).Senders ∧
    1 ∈ (callback.Demo.stack_two.world.pigeons 0).contacts ∧
    (∃ h1, callback.message.clear 2 0 callback.Demo.stack_two = some (.ok (), h1) ∧
      (h1.world.messages 0).Senders = [] ∧ 1 ∈ (h1.world.pigeons 0).contacts ∧
      (h1.world.arena 1).dropped = true ∧ (h1.world.arena 1).destructs = 0 ∧
      h1.deallocate_calls.filter (fun r => decide (r.storage = 1)) = []) :=
  ⟨demo_stack_two_reachable, by decide, by decide, by decide,
    (message_side_drop_waits_for_the_pigeon callback.Demo.stack_two demo_stack_two_reachable
      0 0 1 (by decide) (by decide) (by decide)).2.1 0⟩

/-- C22, the claim as worded fails: in the program of the test case
`either drop first` the handler of the subscription calls `pigeon.drop(token)`
with its own token, in a `try` block.  During `send` the message is
dispatching, so the call does not return `true`: the callback calls
`message.drop(token)`, which throws `std::logic_error`, and the exception
leaves `pigeon::drop`.  When `send` has returned the contact is out of the
pigeon's list and flagged, but still in the list of the message; it is not
destructed and `deallocate` was not called. -/
theorem forwarded_drop_throws_while_dispatching :
    callback.Reachable callback.Demo.either_dropping ∧
    callback.Demo.either_dropping.on_drop 0 = .drop_other 0 0 ∧
    callback.Demo.either_dropping.Alloc 0 = some 0 ∧
    (callback.Demo.either_dropping.world.messages 0).Senders = [0] ∧
    (callback.Demo.either_dropping.world.pigeons 0).contacts = [0] ∧
    (callback.Demo.either_dropping.world.arena 0).dropped = false ∧
    message.isSending 0 callback.Demo.either_dropping.world = false ∧
    callback.Demo.either_dropping.deallocate_calls = [] ∧
    ∃ out, callback.reentrant.message.send 2 3 callback.Demo.drops_itself 0 none
        callback.Demo.either_dropping = some out ∧
      out.user = some (.error .while_delivering) ∧ out.trace = [0] ∧ out.threw = false ∧
      (out.heap.world.messages 0).Senders = [0] ∧
      (out.heap.world.pigeons 0).contacts = [] ∧
      (out.heap.world.arena 0).dropped = true ∧
      (out.heap.world.arena 0).destructs = 0 ∧
      out.heap.deallocate_calls = [] ∧
      out.heap.allocators 0 = .recording true false :=
  ⟨⟨fun _ => .recording false false,
      Relation.ReflTransGen.single (callback.Step.deliver 0 0 (some 0) (.drop_other 0 0) 72)⟩,
    by decide, by decide, by decide, by decide, by decide, by decide, by decide,
    _, rfl, rfl, by decide, by decide, by decide, by decide, by decide, by decide, by decide,
    by decide⟩

/-- C22 (as the code has it): for a subscription made with an allocator and
the callback that forwards the drop to the other side, linked on both sides
in a reachable heap (no message is dispatching): `deallocate` was not called
for the contact so far; `drop(token)` of the pigeon returns `true` and so does
`drop(token)` of the message, each given fuel for the two nested levels, and
in the heap either returns the contact is in neither list, it was destructed
once, and `deallocate` was called once, on the allocator of the contact, for
the contact and its size. -/
theorem forwarding_callback_completes_the_drop (h : callback.Heap)
    (hr : callback.Reachable h) (p m c a : Nat) (hcb : h.on_drop c = .drop_other p m)
    (hal : h.Alloc c = some a)
    (hm : c ∈ (h.world.messages m).Senders) (hp : c ∈ (h.world.pigeons p).contacts)
    (fuel : Nat) :
    h.deallocate_calls.filter (fun r => decide (r.storage = c)) = [] ∧
    h.allocate_calls.filter (fun r => decide (r.storage = c)) = [⟨a, c, h.node_size c⟩] ∧
    (∃ h1, callback.pigeon.drop (fuel + 2) p c h = some (.ok true, h1) ∧
      c ∉ (h1.world.messages m).Senders ∧ c ∉ (h1.world.pigeons p).contacts ∧
      (h1.world.arena c).destructs = 1 ∧
      h1.deallocate_calls = ⟨a, c, h.node_size c⟩ :: h.deallocate_calls ∧
      h1.allocators a = (h.allocators a).deallocate ∧
      h1.on_drop_calls = (c, .pigeon) :: h.on_drop_calls) ∧
    (∃ h1, callback.message.drop (fuel + 2) m c h = some (.ok true, h1) ∧
      c ∉ (h1.world.messages m).Senders ∧ c ∉ (h1.world.pigeons p).contacts ∧
      (h1.world.arena c).destructs = 1 ∧
      h1.deallocate_calls = ⟨a, c, h.node_size c⟩ :: h.deallocate_calls ∧
      h1.allocators a = (h.allocators a).deallocate ∧
      h1.on_drop_calls = (c, .message) :: h.on_drop_calls) := by
  have hI := callback_reachable_inv hr
  have hlive := linked_both_live hI.world hm hp
  have hlt := (hI.world.sender_owner m c hm).2
  have hndm := hI.world.senders_nodup m
  have hndp := hI.world.contacts_nodup p
  refine ⟨?_, ?_, ?_, ?_⟩
  · rw [hI.logs.deallocated c, if_pos hlt, hal, hlive.2]; rfl
  · rw [hI.logs.allocated c, if_pos hlt, hal]
  · have e2 := callback_drop_other_pigeon fuel c p m
      (h.setContacts p ((h.world.pigeons p).contacts.erase c)) hcb (by simpa using hlive.1)
      (by simpa [message.isSending] using hI.quiet m) (by simpa using hm)
    have e : callback.pigeon.drop (fuel + 2) p c h = some (.ok true,
        callback.contact.destruct c
          (((h.setContacts p ((h.world.pigeons p).contacts.erase c)).setDropped c .pigeon).setSenders
            m (((h.setContacts p ((h.world.pigeons p).contacts.erase c)).world.messages
              m).Senders.erase c))) := by
      unfold callback.pigeon.drop callback.pigeon.drop_body
      rw [unlink_of_mem hp]
      show (match callback.contact.drop (fuel + 2) c .pigeon
          (h.setContacts p ((h.world.pigeons p).contacts.erase c)) with
        | none => none
        | some (Except.error e, h1) => some (Except.error e, h1)
        | some (Except.ok (), h1) => some (Except.ok true, h1)) = _
      rw [e2]
    refine ⟨_, e, ?_, ?_, ?_, ?_, ?_, ?_⟩
    · rw [callback_destruct_world]
      simp [contact.destruct, callback.Heap.setSenders, callback.Heap.setContacts,
        callback.Heap.setDropped, (List.Nodup.mem_erase_iff hndm)]
    · rw [callback_destruct_world]
      simp [contact.destruct, callback.Heap.setSenders, callback.Heap.setContacts,
        callback.Heap.setDropped, (List.Nodup.mem_erase_iff hndp)]
    · rw [callback_destruct_world]
      simp [contact.destruct, callback.Heap.setSenders, callback.Heap.setContacts,
        callback.Heap.setDropped, hlive.2]
    · simp [callback.contact.destruct, callback.Heap.setSenders, callback.Heap.setContacts,
        callback.Heap.setDropped, hal]
    · simp [callback.contact.destruct, callback.Heap.setSenders, callback.Heap.setContacts,
        callback.Heap.setDropped, hal]
    · simp [callback.contact.destruct, callback.Heap.setSenders, callback.Heap.setContacts,
        callback.Heap.setDropped, hal]
  · have e2 := callback_drop_other_message fuel c p m
      (h.setSenders m ((h.world.messages m).Senders.erase c)) hcb (by simpa using hlive.1)
      (by simpa using hp)
    have e : callback.message.drop (fuel + 2) m c h = some (.ok true,
        callback.contact.destruct c
          (((h.setSenders m ((h.world.messages m).Senders.erase c)).setDropped c .message).setContacts
            p (((h.setSenders m ((h.world.messages m).Senders.erase c)).world.pigeons
              p).contacts.erase c))) := by
      unfold callback.message.drop callback.message.drop_body
      rw [if_neg (by simp [hI.quiet m]), unlink_of_mem hm]
      show (match callback.contact.drop (fuel + 2) c .message
          (h.setSenders m ((h.world.messages m).Senders.erase c)) with
        | none => none
        | some (Except.error e, h1) => some (Except.error e, h1)
        | some (Except.ok (), h1) => some (Except.ok true, h1)) = _
      rw [e2]
    refine ⟨_, e, ?_, ?_, ?_, ?_, ?_, ?_⟩
    · rw [callback_destruct_world]
      simp [contact.destruct, callback.Heap.setSenders, callback.Heap.setContacts,
        callback.Heap.setDropped, (List.Nodup.mem_erase_iff hndm)]
    · rw [callback_destruct_world]
      simp [contact.destruct, callback.Heap.setSenders, callback.Heap.setContacts,
        callback.Heap.setDropped, (List.Nodup.mem_erase_iff hndp)]
    · rw [callback_destruct_world]
      simp [contact.destruct, callback.Heap.setSenders, callback.Heap.setContacts,
        callback.Heap.setDropped, hlive.2]
    · simp [callback.contact.destruct, callback.Heap.setSenders, callback.Heap.setContacts,
        callback.Heap.setDropped, hal]
    · simp [callback.contact.destruct, callback.Heap.setSenders, callback.Heap.setContacts,
        callback.Heap.setDropped, hal]
    · simp [callback.contact.destruct, callback.Heap.setSenders, callback.Heap.setContacts,
        callback.Heap.setDropped, hal]

theorem forwarding_callback_completes_the_drop_witness :
    callback.Reachable callback.Demo.either ∧
    callback.Demo.either.on_drop 0 = .drop_other 0 0 ∧
    callback.Demo.either.Alloc 0 = some 0 ∧
    0 ∈ (callback.Demo.either.world.messages 0).Senders ∧
    0 ∈ (callback.Demo.either.world.pigeons 0).contacts ∧
    callback.Demo.either.allocators 0 = .recording true false ∧
    (∃ h1, callback.pigeon.drop 2 0 0 callback.Demo.either = some (.ok true, h1) ∧
      (h1.world.messages 0).Senders = [] ∧ (h1.world.pigeons 0).contacts = [] ∧
      h1.deallocate_calls = [⟨0, 0, 48⟩] ∧ h1.allocators 0 = .recording true true) ∧
    (∃ h1, callback.message.drop 2 0 0 callback.Demo.either = some (.ok true, h1) ∧
      (h1.world.messages 0).Senders = [] ∧ (h1.world.pigeons 0).contacts = [] ∧
      h1.deallocate_calls = [⟨0, 0, 48⟩] ∧ h1.allocators 0 = .recording true true) ∧
    callback.Demo.either.deallocate_calls.filter (fun r => decide (r.storage = 0)) = [] :=
  ⟨demo_either_reachable, by decide, by decide, by decide, by decide, by decide,
    ⟨_, rfl, by decide, by decide, by decide, by decide⟩,
    ⟨_, rfl, by decide, by decide, by decide, by decide⟩,
    (forwarding_callback_completes_the_drop callback.Demo.either demo_either_reachable
      0 0 0 0 (by decide) (by decide) (by decide) (by decide) 0).1⟩

/-- C26: arena accounting of an allocator_pigeon `p` over an arena allocator
`a` of capacity `N`, on a platform where `N` and the node size fit `size_t`,
for a `deliver` while the pigeon is not destructing and the message not
dispatching.  With `r` the node size rounded up to a multiple of
`MinAlignment = sizeof(void*)`: `available_memory()` is `N` while nothing was
allocated, and `N - ByteIndex` as long as no allocation has failed; if
`ByteIndex + r < N` the subscription succeeds, links the new contact in both
lists and reduces `available_memory()` by exactly `r`; if `ByteIndex + r ≥ N`
(so whenever `r` exceeds what is available, and also when it is equal) the
subscription throws `std::logic_error` (not enough memory), no node is made
and every list is as before.  In the test case `stackmemory` the values are
100, 60 and 20, and a third subscription fails. -/
theorem arena_accounting (h : callback.Heap) (p m size_bytes : Nat)
    (a : callback.arena_allocator) (ha : h.allocators p = .arena a)
    (hal : 0 < a.MinAlignment) (hN : a.N < 2 ^ a.size_bits)
    (hsize : size_bytes + a.MinAlignment ≤ 2 ^ a.size_bits)
    (hd : (h.world.pigeons p).contacts_flag = false)
    (hs : message.isSending m h.world = false) :
    ∃ r, r = (size_bytes + a.MinAlignment - 1) / a.MinAlignment * a.MinAlignment ∧
      a.MinAlignment ∣ r ∧ size_bytes ≤ r ∧ r < size_bytes + a.MinAlignment ∧
      (a.ByteIndex = 0 → callback.allocator_pigeon.available_memory a = a.N) ∧
      (a.ByteIndex ≤ a.N →
        callback.allocator_pigeon.available_memory a = a.N - a.ByteIndex) ∧
      (a.ByteIndex + r < a.N →
        ∃ h1, callback.allocator_pigeon.deliver p m size_bytes h = (.ok h.world.next, h1) ∧
          h1.allocators p = .arena { a with ByteIndex := a.ByteIndex + r } ∧
          callback.allocator_pigeon.available_memory { a with ByteIndex := a.ByteIndex + r } + r =
            callback.allocator_pigeon.available_memory a ∧
          (h1.world.messages m).Senders = h.world.next :: (h.world.messages m).Senders ∧
          (h1.world.pigeons p).contacts = h.world.next :: (h.world.pigeons p).contacts) ∧
      (a.N ≤ a.ByteIndex + r → a.ByteIndex + r < 2 ^ a.size_bits →
        ∃ h1, callback.allocator_pigeon.deliver p m size_bytes h =
            (.error .not_enough_memory, h1) ∧
          h1.world = h.world ∧ h1.allocate_calls = h.allocate_calls ∧
          h1.allocators p = .arena { a with ByteIndex := a.ByteIndex + r }) ∧
      (callback.Demo.stack.allocators 0 = .arena ⟨100, 8, 64, 0⟩ ∧
        callback.allocator_pigeon.available_memory ⟨100, 8, 64, 0⟩ = 100 ∧
        (callback.Demo.stack.after_deliver 0 0 40).allocators 0 = .arena ⟨100, 8, 64, 40⟩ ∧
        callback.allocator_pigeon.available_memory ⟨100, 8, 64, 40⟩ = 60 ∧
        callback.Demo.stack_two.allocators 0 = .arena ⟨100, 8, 64, 80⟩ ∧
        callback.allocator_pigeon.available_memory ⟨100, 8, 64, 80⟩ = 20 ∧
        ∃ h1, callback.allocator_pigeon.deliver 0 0 40 callback.Demo.stack_two =
          (.error .not_enough_memory, h1)) := by
  obtain ⟨r1, r2, r3, r4⟩ := arena_rounded size_bytes a.MinAlignment a.size_bits hal hsize
  refine ⟨_, rfl, r2, r3, r4, ?_, ?_, ?_, ?_, ?_⟩
  · intro hb
    rw [arena_available a hN (by omega), hb]; rfl
  · exact arena_available a hN
  · intro hlt
    have hw : a.ByteIndex + (size_bytes + a.MinAlignment - 1) / a.MinAlignment * a.MinAlignment
        < 2 ^ a.size_bits := by omega
    have hal2 := arena_allocate_eq a size_bytes hal hsize hw
    rw [if_neg (by omega)] at hal2
    have hav : callback.allocator_pigeon.available_memory
        { a with ByteIndex := a.ByteIndex +
          (size_bytes + a.MinAlignment - 1) / a.MinAlignment * a.MinAlignment } +
        (size_bytes + a.MinAlignment - 1) / a.MinAlignment * a.MinAlignment =
        callback.allocator_pigeon.available_memory a := by
      have e1 := arena_available a hN (by omega)
      have e2 := arena_available
        { a with ByteIndex := a.ByteIndex +
          (size_bytes + a.MinAlignment - 1) / a.MinAlignment * a.MinAlignment } hN
        (by simp only []; omega)
      simp only [] at e2
      rw [e1, e2]
      omega
    cases hq : callback.allocator_pigeon.deliver p m size_bytes h with
    | mk res h1 =>
      unfold callback.allocator_pigeon.deliver callback.pigeon.deliver
        callback.message.make_contact at hq
      simp only [hd, hs, Bool.false_eq_true, if_false, ha, callback.allocator.allocate, hal2]
        at hq
      obtain ⟨rfl, rfl⟩ := Prod.mk.inj hq
      refine ⟨_, rfl, ?_, ?_, ?_, ?_⟩
      · simp
      · exact hav
      · simp
      · simp
  · intro hge hw
    have hal2 := arena_allocate_eq a size_bytes hal hsize hw
    rw [if_pos hge] at hal2
    cases hq : callback.allocator_pigeon.deliver p m size_bytes h with
    | mk res h1 =>
      unfold callback.allocator_pigeon.deliver callback.pigeon.deliver
        callback.message.make_contact at hq
      simp only [hd, hs, Bool.false_eq_true, if_false, ha, callback.allocator.allocate, hal2]
        at hq
      obtain ⟨rfl, rfl⟩ := Prod.mk.inj hq
      exact ⟨_, rfl, rfl, rfl, by simp⟩
  · exact ⟨by decide, by decide, by decide, by decide, by decide, by decide, _, rfl⟩

theorem arena_accounting_witness :
    callback.Demo.stack_two.allocators 0 = .arena ⟨100, 8, 64, 80⟩ ∧
    (callback.Demo.stack_two.world.pigeons 0).contacts_flag = false ∧
    message.isSending 0 callback.Demo.stack_two.world = false ∧
    (∃ h1, callback.allocator_pigeon.deliver 0 0 40 callback.Demo.stack_two =
        (.error .not_enough_memory, h1) ∧
      h1.world = callback.Demo.stack_two.world ∧
      h1.allocators 0 = .arena ⟨100, 8, 64, 120⟩) := by
  obtain ⟨r, hr, _, _, _, _, _, _, k, _⟩ :=
    arena_accounting callback.Demo.stack_two 0 0 40 ⟨100, 8, 64, 80⟩ (by decide) (by decide)
      (by decide) (by decide) (by decide) (by decide)
  have hr40 : r = 40 := hr
  subst hr40
  obtain ⟨h1, e1, e2, _, e4⟩ := k (by decide) (by decide)
  exact ⟨by decide, by decide, by decide, h1, e1, e2, e4⟩

/-- C24, the claim as worded fails: a token is the address of its node, and
storage that was released can be handed out again.  Pigeon 0 subscribes to
message 0 (token 0); `pigeon.drop(token)` and `message.drop(token)` both
return true and the contact is destructed, after which both sides report the
token as not found; the pigeon subscribes again and `new` returns the address
just released; now `pigeon.drop` with the dead token returns true again (and
so would `message.drop`), and drops the later subscription. -/
theorem dead_token_finds_a_later_subscription :
    Reachable Demo.one ∧
    (pigeon.drop 0 0 Demo.one).1 = true ∧
    ∃ w2, message.drop 0 0 (pigeon.drop 0 0 Demo.one).2 = .ok (true, w2) ∧
      (w2.arena 0).destructs = 1 ∧
      (pigeon.drop 0 0 w2).1 = false ∧
      message.drop 0 0 w2 = .ok (false, w2) ∧
      World.free w2 0 = true ∧
      ∃ w3, pigeon.deliver_at 0 0 0 w2 = some (.ok (0, w3)) ∧
        (w3.messages 0).Senders = [0] ∧ (w3.pigeons 0).contacts = [0] ∧
        (w3.arena 0).dropped = false ∧
        (pigeon.drop 0 0 w3).1 = true ∧
        ((pigeon.drop 0 0 w3).2.pigeons 0).contacts = [] ∧
        ((pigeon.drop 0 0 w3).2.arena 0).dropped = true ∧
        ∃ w4, message.drop 0 0 w3 = .ok (true, w4) :=
  ⟨demo_one_reachable, by decide, _, rfl, by decide, by decide, rfl, by decide,
    _, rfl, by decide, by decide, by decide, by decide, by decide, by decide, _, rfl⟩

/-- C24 (as the code has it): when the address of a destructed contact is
never handed out again (every subscription gets a new address, as with the
arena allocators), redundant drops are no-ops.  In a reachable heap, for
every token: once `drop(token)` of a pigeon has returned true, after any
further calls (subscriptions included) `drop(token)` of every pigeon returns
false and leaves the whole heap as it is; once `drop(token)` of a message has
returned true, the same holds for `drop(token)` of every message; and a token
whose contact has been destructed is reported not found by every pigeon and
every message, after any further calls, the heap left as it is. -/
theorem redundant_drops_are_noops (h : callback.Heap) (hr : callback.Reachable h)
    (token : Nat) :
    (∀ fuel p h1, callback.pigeon.drop fuel p token h = some (.ok true, h1) →
      ∀ h2, callback.Steps h1 h2 →
        ∀ fuel2 q, callback.pigeon.drop fuel2 q token h2 = some (.ok false, h2)) ∧
    (∀ fuel m h1, callback.message.drop fuel m token h = some (.ok true, h1) →
      ∀ h2, callback.Steps h1 h2 →
        ∀ fuel2 i, callback.message.drop fuel2 i token h2 = some (.ok false, h2)) ∧
    (0 < (h.world.arena token).destructs →
      ∀ h2, callback.Steps h h2 →
        (∀ fuel2 q, callback.pigeon.drop fuel2 q token h2 = some (.ok false, h2)) ∧
        (∀ fuel2 i, callback.message.drop fuel2 i token h2 = some (.ok false, h2))) := by
  have hI := callback_reachable_inv hr
  refine ⟨?_, ?_, ?_⟩
  · intro fuel p h1 hd h2 hs fuel2 q
    obtain ⟨hlt, hno⟩ := callback_pigeon_drop_true_unlisted hI fuel p token h1 hd
    exact callback_pigeon_drop_not_found fuel2 q token h2
      (fun hq => hno q ((callback_steps_shrinks hs).contacts token q hlt hq))
  · intro fuel m h1 hd h2 hs fuel2 i
    obtain ⟨hlt, hno⟩ := callback_message_drop_true_unlisted hI fuel m token h1 hd
    have hr1 : callback.Reachable h1 :=
      callback_steps_reachable hr (Relation.ReflTransGen.single
        (callback.Step.message_drop fuel m token hd))
    have hI2 := callback_reachable_inv (callback_steps_reachable hr1 hs)
    exact callback_message_drop_not_found fuel2 i token h2 (hI2.quiet i)
      (fun hq => hno i ((callback_steps_shrinks hs).Senders token i hlt hq))
  · intro hpos h2 hs
    have hz := hI.world.destructs_zero token
    have hlt : token < h.world.next := by
      by_contra hge
      have := hz (Or.inl (by omega))
      omega
    have hnm : ∀ i, token ∉ (h.world.messages i).Senders := by
      intro i hi
      have hM : h.world.inMessage token := by
        unfold World.inMessage; rw [(hI.world.sender_owner i token hi).1]; exact hi
      have := hz (Or.inr (Or.inl hM))
      omega
    have hnp : ∀ q, token ∉ (h.world.pigeons q).contacts := by
      intro q hq
      have hP : h.world.inPigeon token := by
        unfold World.inPigeon; rw [(hI.world.contact_owner q token hq).1]; exact hq
      have := hz (Or.inr (Or.inr hP))
      omega
    have hI2 := callback_reachable_inv (callback_steps_reachable hr hs)
    exact ⟨fun fuel2 q => callback_pigeon_drop_not_found fuel2 q token h2
        (fun hq => hnp q ((callback_steps_shrinks hs).contacts token q hlt hq)),
      fun fuel2 i => callback_message_drop_not_found fuel2 i token h2 (hI2.quiet i)
        (fun hq => hnm i ((callback_steps_shrinks hs).Senders token i hlt hq))⟩

theorem redundant_drops_are_noops_witness :
    callback.Reachable callback.Demo.stack_two ∧
    ∃ h1, callback.pigeon.drop 2 0 1 callback.Demo.stack_two = some (.ok true, h1) ∧
      callback.pigeon.drop 2 0 1 h1 = some (.ok false, h1) ∧
      callback.pigeon.drop 2 0 1 (h1.after_deliver 0 0 8) =
        some (.ok false, h1.after_deliver 0 0 8) :=
  have key := (redundant_drops_are_noops callback.Demo.stack_two demo_stack_two_reachable 1).1
    2 0 _ rfl
  ⟨demo_stack_two_reachable, _, rfl, key _ Relation.ReflTransGen.refl 2 0,
    key _ (Relation.ReflTransGen.single
      (callback.Step.deliver 0 0 (some 0) (.onDrop_handler 0) 8)) 2 0⟩

/-- C28: a `response` call whose handlers and response handler note each of
their calls in a ghost log runs as with the plain ones, and when it returns
the log is well paired: every handler call that returned is followed at once
by exactly one call of the response handler (the controller), which is given
exactly the value the handler returned (for a message that returns `void` the
value is `()`: no argument); there is no other call of the response handler;
only a handler call that threw has none, and it is the last call.  Every
handler call is for an entry of the list whose dropped flag was clear at the
call, so neither is called for a dropped entry.  A response handler `hv` that
returns `void` goes through the adapter `call_handler<MR, void>`: the adapter
runs `hv` once on the value and the environment it is given, keeps what `hv`
did to the environment, and answers `progress` exactly when `hv` returned;
a log entry that `hv` writes itself, inside the adapter, is the entry that a
log around the adapter writes, so in a `response` call `hv` is called once
after each handler call that returned, with its value, and each of its calls
counts as `progress` (or `hv` threw).  In the first example one of two entries
was dropped by the pigeon: the calls are the handler of the other entry and the
controller with its result.  In the second the controller returns `void` and
appends the value it is given to the environment: both entries are visited,
newest first, each handler call followed by the controller's. -/
theorem controller_follows_each_handler {σ ρ : Type} (fuel : Nat)
    (send : World → Nat → σ → σ × Option ρ) (h : ρ → σ → σ × Option iteration_state)
    (m : Nat) (a : σ) (w : World) :
    ((message.response fuel (logged_send send) (logged_controller h) m (a, []) w).map
        Outcome.unlogged = message.response fuel send h m a w) ∧
    (∀ out, message.response fuel (logged_send send) (logged_controller h) m (a, []) w =
        some out →
      spec_paired out.user.2 ∧
      (∀ c f r, call_event.handler c f r ∈ out.user.2 →
        f = false ∧ c ∈ (w.messages m).Senders) ∧
      out.trace = out.user.2.filterMap call_event.handler_of ∧
      (∀ r d, call_event.controller r d ∈ out.user.2 → ∃ s, d = (h r s).2)) ∧
    (∀ (hv : ρ → σ → σ × Option Unit),
      (∀ r s, call_handler_void hv r s =
        ((hv r s).1, (hv r s).2.map (fun _ => iteration_state.progress))) ∧
      call_handler_void (logged_void hv) = logged_controller (call_handler_void hv) ∧
      ((message.response fuel (logged_send send) (call_handler_void (logged_void hv)) m
          (a, []) w).map Outcome.unlogged =
        message.response fuel send (call_handler_void hv) m a w) ∧
      ∀ out : Outcome (σ × List (call_event ρ)),
        message.response fuel (logged_send send) (call_handler_void (logged_void hv)) m
          (a, []) w = some out →
        spec_paired out.user.2 ∧
        ∀ r d, call_event.controller r d ∈ out.user.2 →
          ∃ s, d = (hv r s).2.map (fun _ => iteration_state.progress)) ∧
    ((message.response 5 (logged_send (fun _ c (s : List Nat) => (s, some (c + 10))))
        (logged_controller (fun r s => (s ++ [r], some .progress))) 0 ([], [])
        (pigeon.drop 0 1 Demo.two).2).map (fun o => (o.user, o.trace)) =
      some (([10], [.handler 0 false (some 10), .controller 10 (some .progress)]), [0])) ∧
    ((message.response 5 (logged_send (fun _ c (s : List Nat) => (s, some (c + 10))))
        (call_handler_void (logged_void (fun r s => (s ++ [r], some ())))) 0 ([], [])
        Demo.two).map (fun o => (o.user, o.trace)) =
      some (([11, 10], [.handler 1 false (some 11), .controller 11 (some .progress),
        .handler 0 false (some 10), .controller 10 (some .progress)]), [1, 0])) := by
  refine ⟨(response_logged fuel send h m a w).1, (response_logged fuel send h m a w).2, ?_, ?_, ?_⟩
  · intro hv
    refine ⟨call_handler_void_eq hv, call_handler_void_logged hv, ?_, ?_⟩
    · rw [call_handler_void_logged]
      exact (response_logged fuel send (call_handler_void hv) m a w).1
    · intro out ho
      rw [call_handler_void_logged] at ho
      obtain ⟨h1, _, _, h4⟩ := (response_logged fuel send (call_handler_void hv) m a w).2 out ho
      refine ⟨h1, fun r d hm => ?_⟩
      obtain ⟨s, hs⟩ := h4 r d hm
      exact ⟨s, by rw [hs, call_handler_void_eq]⟩
  · decide
  · decide

/-- C32: for every cell `c` and every `rhs` (of the same word size),
`c.keep_flag_assign_pointer(rhs)` leaves a cell with `get() == rhs.get()` and
with the value of `test()` that `c` had before, whatever the flag of `rhs`.
When `rhs` holds the even address `p`, with its flag clear (the word `p`) or
set (the word `p + 1`), `get()` is `p` afterwards. -/
theorem keep_flag_assign_pointer_keeps_the_flag (c rhs : flag_pointer) (hb : 0 < c.bits)
    (hbits : rhs.bits = c.bits) :
    (c.keep_flag_assign_pointer rhs).get = rhs.get ∧
    (c.keep_flag_assign_pointer rhs).test = c.test ∧
    (∀ p, p < 2 ^ c.bits → p % 2 = 0 →
      rhs.PointerWithFlag = p ∨ rhs.PointerWithFlag = p + 1 →
      rhs.get = p ∧ (c.keep_flag_assign_pointer rhs).get = p ∧
      (rhs.test = decide (rhs.PointerWithFlag = p + 1))) := by
  obtain ⟨k1, k2, _⟩ := flag_pointer_keep_spec c rhs hb hbits
  refine ⟨k1, k2, fun p hp he hr => ?_⟩
  have hpos : 2 ≤ 2 ^ c.bits := by
    calc 2 = 2 ^ 1 := rfl
      _ ≤ 2 ^ c.bits := Nat.pow_le_pow_right (by decide) hb
  have h2 : 2 ^ c.bits % 2 = 0 := by
    obtain ⟨k, hk⟩ : ∃ k, c.bits = k + 1 := ⟨c.bits - 1, by omega⟩
    rw [hk, Nat.pow_succ]; simp
  have hg : rhs.get = p := by
    unfold flag_pointer.get
    rw [hbits]
    rcases hr with hr | hr
    · rw [hr]; exact land_not_one_even p c.bits hp he
    · rw [hr, land_not_one_odd (p + 1) c.bits (by omega) (by omega)]; rfl
  refine ⟨hg, k1.trans hg, ?_⟩
  rw [flag_pointer_test_eq]
  rcases hr with hr | hr <;> rw [hr] <;> simp <;> omega

theorem keep_flag_assign_pointer_keeps_the_flag_witness :
    (0 < 64 ∧ (⟨64, 4097⟩ : flag_pointer).test = true ∧ (⟨64, 8193⟩ : flag_pointer).test = true) ∧
    ((⟨64, 4097⟩ : flag_pointer).keep_flag_assign_pointer ⟨64, 8192⟩).get = 8192 ∧
    ((⟨64, 4097⟩ : flag_pointer).keep_flag_assign_pointer ⟨64, 8192⟩).test = true ∧
    ((⟨64, 4096⟩ : flag_pointer).keep_flag_assign_pointer ⟨64, 8193⟩).get = 8192 ∧
    ((⟨64, 4096⟩ : flag_pointer).keep_flag_assign_pointer ⟨64, 8193⟩).test = false :=
  have k1 := keep_flag_assign_pointer_keeps_the_flag ⟨64, 4097⟩ ⟨64, 8192⟩ (by decide) rfl
  have k2 := keep_flag_assign_pointer_keeps_the_flag ⟨64, 4096⟩ ⟨64, 8193⟩ (by decide) rfl
  ⟨⟨by decide, by decide, by decide⟩,
    (k1.2.2 8192 (by decide) (by decide) (Or.inl rfl)).2.1, k1.2.1.trans (by decide),
    (k2.2.2 8192 (by decide) (by decide) (Or.inr rfl)).2.1, k2.2.1.trans (by decide)⟩

/-- C33: the cell stands for the record of its address and its flag
(`abs`), and its members act on that record as the members of a plain
(pointer, bool) pair: a cell made from an even address `p` is `(p, false)`;
`set()` and `reset()` keep the address and make the flag true and false;
`keep_flag_assign_pointer` takes the address of `rhs` and keeps the flag;
`get()` never has the lowest bit set; and the word is the address plus the
flag, so the cell holds nothing but the record. -/
theorem flag_pointer_is_a_pointer_and_a_flag (c : flag_pointer) (hb : 0 < c.bits)
    (hc : c.PointerWithFlag < 2 ^ c.bits) (p : Nat) (hp : p < 2 ^ c.bits) (he : p % 2 = 0) :
    (flag_pointer.of_ptr c.bits p).abs = ⟨p, false⟩ ∧
    (flag_pointer.of_ptr c.bits p).get = p ∧
    (flag_pointer.of_ptr c.bits p).test = false ∧
    c.set.get = c.get ∧ c.reset.get = c.get ∧
    c.set.test = true ∧ c.reset.test = false ∧
    c.set.abs = ⟨c.abs.pointer, true⟩ ∧
    c.reset.abs = ⟨c.abs.pointer, false⟩ ∧
    (∀ rhs : flag_pointer, rhs.bits = c.bits →
      (c.keep_flag_assign_pointer rhs).abs = ⟨rhs.abs.pointer, c.abs.flag⟩) ∧
    c.get % 2 = 0 ∧ c.set.get % 2 = 0 ∧ c.reset.get % 2 = 0 ∧
    c.PointerWithFlag = c.abs.pointer + (if c.abs.flag then 1 else 0) ∧
    c.set.PointerWithFlag < 2 ^ c.bits ∧ c.reset.PointerWithFlag < 2 ^ c.bits := by
  obtain ⟨o1, o2⟩ := flag_pointer_of_ptr_spec c.bits p hp he
  obtain ⟨s1, s2, _⟩ := flag_pointer_set_spec c hb
  obtain ⟨r1, r2, _⟩ := flag_pointer_reset_spec c hb
  have hpos : 2 ≤ 2 ^ c.bits := by
    calc 2 = 2 ^ 1 := rfl
      _ ≤ 2 ^ c.bits := Nat.pow_le_pow_right (by decide) hb
  refine ⟨?_, o1, o2, s1, r1, s2, r2, ?_, ?_, ?_, land_not_one_mod_two _ _ hb, ?_, ?_, ?_, ?_, ?_⟩
  · simp only [flag_pointer.abs, o1, o2]
  · simp only [flag_pointer.abs, s1, s2]
  · simp only [flag_pointer.abs, r1, r2]
  · intro rhs hr
    obtain ⟨k1, k2, _⟩ := flag_pointer_keep_spec c rhs hb hr
    simp only [flag_pointer.abs, k1, k2]
  · rw [s1]; exact land_not_one_mod_two _ _ hb
  · rw [r1]; exact land_not_one_mod_two _ _ hb
  · simp only [flag_pointer.abs]
    have ht := flag_pointer_test_eq c
    have hg : c.get = c.PointerWithFlag &&& flag_pointer.not_one c.bits := rfl
    rcases Nat.mod_two_eq_zero_or_one c.PointerWithFlag with h | h
    · rw [land_not_one_even _ _ hc h] at hg
      have ht2 : c.test = false := by rw [ht]; simp [h]
      simp [hg, ht2]
    · rw [land_not_one_odd _ _ hc h] at hg
      have ht2 : c.test = true := by rw [ht]; simp [h]
      simp only [hg, ht2, if_true]; omega
  · exact Nat.or_lt_two_pow hc (by omega)
  · exact Nat.lt_of_le_of_lt Nat.and_le_left hc

theorem flag_pointer_is_a_pointer_and_a_flag_witness :
    (0 < 64 ∧ 4097 < 2 ^ 64 ∧ 8192 < 2 ^ 64 ∧ 8192 % 2 = 0) ∧
    (flag_pointer.of_ptr 64 8192).abs = ⟨8192, false⟩ ∧
    (⟨64, 4097⟩ : flag_pointer).abs = ⟨4096, true⟩ ∧
    (⟨64, 4097⟩ : flag_pointer).reset.abs = ⟨4096, false⟩ :=
  have k := flag_pointer_is_a_pointer_and_a_flag ⟨64, 4097⟩ (by decide) (by decide) 8192
    (by decide) (by decide)
  ⟨⟨by decide, by decide, by decide, by decide⟩, k.1, by decide,
    k.2.2.2.2.2.2.2.2.1.trans (by decide)⟩

/-- C36, the code at a failing input: an arena of 100 bytes on a 64-bit
platform, three requests of 40 bytes (the third subscription of the test case
`stackmemory` would make the third).  The third call throws, and it has
advanced `ByteIndex` to 120: `used_memory()` is 120, above `total_memory()`
which is 100, and `available_memory()` has wrapped around to `2^64 - 20`.
In general a call that throws leaves the index at or above the capacity. -/
theorem failed_allocate_advances_the_index :
    (∃ a1 a2 a3,
      (⟨100, 8, 64, 0⟩ : callback.arena_allocator).allocate 40 = (.ok 0, a1) ∧
      a1.allocate 40 = (.ok 40, a2) ∧
      a2.allocate 40 = (.error .not_enough_memory, a3) ∧
      a2.ByteIndex = 80 ∧ a3.ByteIndex = 120 ∧
      callback.allocator_pigeon.total_memory a3 = 100 ∧
      callback.allocator_pigeon.used_memory a3 = 120 ∧
      callback.allocator_pigeon.available_memory a3 = 2 ^ 64 - 20 ∧
      callback.Demo.stack_two.allocators 0 = .arena a2 ∧
      (callback.Demo.stack_two.after_deliver 0 0 40).allocators 0 = .arena a3) ∧
    (∀ (a : callback.arena_allocator) (size_bytes : Nat) (e : logic_error)
      (a1 : callback.arena_allocator), a.allocate size_bytes = (.error e, a1) →
      callback.allocator_pigeon.total_memory a1 ≤ callback.allocator_pigeon.used_memory a1) :=
  ⟨⟨_, _, _, rfl, rfl, rfl, by decide, by decide, by decide, by decide, by decide, by decide,
      by decide⟩,
    fun a size_bytes e a1 h => by
      have h2 := (arena_allocate_index a size_bytes).2.1 e a1 h
      have hN : a1.N = a.N := by
        have := (arena_allocate_index a size_bytes).2.2.2
        rw [h] at this
        exact this
      unfold callback.allocator_pigeon.total_memory callback.allocator_pigeon.used_memory
        callback.arena_allocator.capacity
      rw [hN]; exact h2⟩

/-- C37, the code at a failing input: an arena of 100 bytes on a 64-bit
platform.  After `allocate(8)` (offset 0, index 8) the request of `2^64 - 8`
bytes has the rounded size `2^64 - 8`, which does not wrap, and
`8 + (2^64 - 8)` is not below 100; but the sum wraps to 0 in `size_t`, so the
call returns (offset 8) and the index is 0 again; the next `allocate(8)`
returns offset 0, the region of the first call.  When the sum does not wrap
either, `allocate` returns exactly when `ByteIndex + r < N`, with the offset
`ByteIndex` and the index advanced by `r`, and throws for an exact fit. -/
theorem allocate_wraps_past_the_capacity :
    (∃ a1 a2 a3,
      (⟨100, 8, 64, 0⟩ : callback.arena_allocator).allocate 8 = (.ok 0, a1) ∧
      a1.ByteIndex = 8 ∧
      (2 ^ 64 - 8 + 8 - 1) / 8 * 8 = 2 ^ 64 - 8 ∧
      ¬ (a1.ByteIndex + (2 ^ 64 - 8) < 100) ∧
      a1.allocate (2 ^ 64 - 8) = (.ok 8, a2) ∧
      a2.ByteIndex = 0 ∧
      a2.allocate 8 = (.ok 0, a3)) ∧
    (∀ (a : callback.arena_allocator) (size_bytes : Nat), 0 < a.MinAlignment →
      size_bytes + a.MinAlignment ≤ 2 ^ a.size_bits →
      a.ByteIndex + (size_bytes + a.MinAlignment - 1) / a.MinAlignment * a.MinAlignment
        < 2 ^ a.size_bits →
      ((∃ offset a1, a.allocate size_bytes = (.ok offset, a1)) ↔
        a.ByteIndex + (size_bytes + a.MinAlignment - 1) / a.MinAlignment * a.MinAlignment
          < a.N) ∧
      (∀ offset a1, a.allocate size_bytes = (.ok offset, a1) →
        offset = a.ByteIndex ∧
        a1.ByteIndex = a.ByteIndex +
          (size_bytes + a.MinAlignment - 1) / a.MinAlignment * a.MinAlignment) ∧
      (a.ByteIndex + (size_bytes + a.MinAlignment - 1) / a.MinAlignment * a.MinAlignment = a.N →
        ∃ a1, a.allocate size_bytes = (.error .not_enough_memory, a1))) := by
  refine ⟨⟨_, _, _, rfl, by decide, by decide, by decide, rfl, by decide, rfl⟩, ?_⟩
  intro a size_bytes hal hsize hw
  have he := arena_allocate_eq a size_bytes hal hsize hw
  refine ⟨⟨?_, ?_⟩, ?_, ?_⟩
  · rintro ⟨offset, a1, h⟩
    rw [he] at h
    by_contra hn
    rw [if_pos (by omega)] at h
    cases (Prod.mk.inj h).1
  · intro hlt
    rw [he, if_neg (by omega)]
    exact ⟨_, _, rfl⟩
  · intro offset a1 h
    rw [he] at h
    obtain ⟨h1, h2⟩ := Prod.mk.inj h
    split at h1
    · cases h1
    · injection h1 with h1
      exact ⟨h1.symm, by rw [← h2]⟩
  · intro hfit
    rw [he, if_pos (by omega)]
    exact ⟨_, rfl⟩

/-- C38, the code at a failing input: an arena of 100 bytes on a 64-bit
platform, empty.  For the request of `2^64 - 1` bytes the rounding
`size_bytes + MinAlignment - 1` wraps to 6 and the rounded size is 0, so
`allocate` returns offset 0 and leaves the index at 0, although
`0 + (2^64 - 1)` bytes are far more than the 100 of the arena.  When neither
the rounding nor the sum wraps, a call that returns has
`ByteIndex + size_bytes < N`. -/
theorem huge_request_is_granted :
    ((⟨100, 8, 64, 0⟩ : callback.arena_allocator).allocate (2 ^ 64 - 1) =
        (.ok 0, ⟨100, 8, 64, 0⟩) ∧
      (2 ^ 64 - 1 + 8 + (2 ^ 64 - 1)) % 2 ^ 64 = 6 ∧
      ¬ (0 + (2 ^ 64 - 1) ≤ 100)) ∧
    (∀ (a : callback.arena_allocator) (size_bytes : Nat), 0 < a.MinAlignment →
      size_bytes + a.MinAlignment ≤ 2 ^ a.size_bits →
      a.ByteIndex + (size_bytes + a.MinAlignment - 1) / a.MinAlignment * a.MinAlignment
        < 2 ^ a.size_bits →
      ∀ offset a1, a.allocate size_bytes = (.ok offset, a1) →
        offset + size_bytes < a.N) := by
  refine ⟨⟨rfl, by decide, by decide⟩, ?_⟩
  intro a size_bytes hal hsize hw offset a1 h
  have he := arena_allocate_eq a size_bytes hal hsize hw
  have hr := (arena_rounded size_bytes a.MinAlignment a.size_bits hal hsize).2.2.1
  rw [he] at h
  obtain ⟨h1, _⟩ := Prod.mk.inj h
  split at h1
  · cases h1
  · next hlt =>
    injection h1 with h1
    omega

/-- C35: `response` terminates when the response handler answers `repeat` only
finitely often, and `r` answers `repeat` cost at most `(r + 1) * n` visits on
a list of `n` entries.  Termination: the environment carries a budget that the
handlers never raise and that the response handler lowers with every `repeat`
(so it answers `repeat` at most `budget a` times); then `response` returns,
within `(budget a + 1) * n` loop tests and the final one.  Bound: for any
handlers, when `response` returns and its log holds `r` answers `repeat`, it
has returned within `(r + 1) * n` loop tests and the final one (one loop test
per entry visited), and the handlers were called at most `(r + 1) * n`
times. -/
theorem response_terminates_with_finitely_many_repeats {σ ρ : Type}
    (send : World → Nat → σ → σ × Option ρ) (h : ρ → σ → σ × Option iteration_state)
    (m : Nat) (a : σ) (w : World) (budget : σ → Nat)
    (hsend : ∀ w c s, budget (send w c s).1 ≤ budget s)
    (hrep : ∀ r s, (h r s).2 = some .repeat_ → budget (h r s).1 < budget s)
    (hother : ∀ r s, budget (h r s).1 ≤ budget s) :
    (∃ out, message.response ((budget a + 1) * (w.messages m).Senders.length + 1) send h m a w =
      some out) ∧
    (∀ (send2 : World → Nat → σ → σ × Option ρ) (h2 : ρ → σ → σ × Option iteration_state)
      (fuel : Nat) (out : Outcome (σ × List (call_event ρ))),
      message.response fuel (logged_send send2) (logged_controller h2) m (a, []) w = some out →
      message.response
        (((out.user.2.filter call_event.is_repeat).length + 1) * (w.messages m).Senders.length + 1)
        (logged_send send2) (logged_controller h2) m (a, []) w = some out ∧
      out.trace.length ≤
        ((out.user.2.filter call_event.is_repeat).length + 1) * (w.messages m).Senders.length) := by
  refine ⟨?_, ?_⟩
  · unfold message.response
    cases hs : message.isSending m w with
    | true => exact ⟨⟨w, a, [], false⟩, by simp⟩
    | false =>
      simp only [Bool.false_eq_true, if_false]
      obtain ⟨out, ho⟩ := walk_terminates send h m budget hsend hrep hother
        ((budget a + 1) * (w.messages m).Senders.length + 1) [] (w.messages m).Senders a []
        (w.setSending m true) (by
          have := repeat_bound_le (budget a) (w.messages m).Senders.length
          simpa using this)
      rw [ho]
      exact ⟨_, rfl⟩
  · intro send2 h2 fuel out hr
    unfold message.response at hr ⊢
    cases hs : message.isSending m w with
    | true =>
      simp only [hs, if_true, Option.some.injEq] at hr ⊢
      subst hr
      exact ⟨rfl, by simp⟩
    | false =>
      simp only [hs, Bool.false_eq_true, if_false] at hr ⊢
      cases hw : message.response.walk (logged_send send2) (logged_controller h2) m fuel []
          (w.messages m).Senders (a, []) [] (w.setSending m true) with
      | none => simp [hw] at hr
      | some out1 =>
        simp only [hw, Option.some.injEq] at hr
        obtain ⟨new, n1, n2, n3⟩ := walk_logged_bound send2 h2 m fuel [] _ a [] []
          (w.setSending m true) out1 hw
        simp only [List.nil_append, List.length_nil, Nat.zero_add] at n1 n2 n3
        have hlog : out.user.2 = new := by rw [← hr]; exact n1
        have htr : out.trace = out1.trace := by rw [← hr]
        rw [hlog, htr]
        have hb := repeat_bound_le (new.filter call_event.is_repeat).length
          (w.messages m).Senders.length
        refine ⟨?_, by omega⟩
        rw [walk_fuel_le _ _ m _ _ hb _ _ _ _ _ out1 n2]
        simp only [Option.some.injEq]
        exact hr

theorem response_terminates_with_finitely_many_repeats_witness :
    (∀ (w : World) (c s : Nat), id ((fun _ _ (n : Nat) => (n, some ())) w c s).1 ≤ id s) ∧
    (∃ out, message.response ((2 + 1) * 2 + 1) (fun _ _ (n : Nat) => (n, some ()))
        (fun (_ : Unit) n => if n = 0 then (n, some .progress) else (n - 1, some .repeat_))
        0 2 Demo.two = some out) ∧
    (message.response 4 (fun _ _ (n : Nat) => (n, some ()))
        (fun (_ : Unit) n => if n = 0 then (n, some .progress) else (n - 1, some .repeat_))
        0 2 Demo.two).map (fun o => (o.trace, o.user)) = some ([1, 0, 1], 0) ∧
    (message.response 3 (fun _ _ (n : Nat) => (n, some ()))
        (fun (_ : Unit) n => if n = 0 then (n, some .progress) else (n - 1, some .repeat_))
        0 2 Demo.two).map (fun o => (o.trace, o.user)) = none :=
  ⟨fun _ _ _ => Nat.le_refl _,
    (response_terminates_with_finitely_many_repeats (fun _ _ (n : Nat) => (n, some ()))
      (fun (_ : Unit) n => if n = 0 then (n, some .progress) else (n - 1, some .repeat_))
      0 2 Demo.two id (fun _ _ _ => Nat.le_refl _)
      (fun _ s hd => by
        by_cases hs : s = 0
        · simp [hs] at hd
        · simp only [hs, if_false, id]; omega)
      (fun _ s => by
        by_cases hs : s = 0
        · simp [hs]
        · simp only [hs, if_false, id]; omega)).1,
    by decide, by decide⟩

/-- C34: a `repeat` decision at the entry `x = s_k` of the list
`visited ++ x :: next` (`visited` are the entries before it), on the cells of
the list: the three assignments of the case `repeat` leave the cells holding
the rotation `x :: next ++ visited`, which ends with `nullptr`, has no entry
twice (it is acyclic) and has exactly the entries of the list before; the
flag of `Senders` (the message is dispatching) is as before; the loop goes on
with `previous_sender` at `x` and `sender` at the entry behind `x` in the
rotated list, `nullptr` if there is none.  With `visited` empty (`k = 1`) the
list is the one before.  This is the state `([x], next ++ visited)` that the
loop of the first model continues with, there with the flag kept as well. -/
theorem repeat_rotates_the_list (s : cursor) (visited : List Nat) (x : Nat) (next : List Nat)
    (bits fuel : Nat) (hrep : s.represents visited (x :: next))
    (hnd : (visited ++ x :: next).Nodup) (hv : s.cells.valid bits (visited ++ x :: next))
    (hfuel : next.length + 1 ≤ fuel) :
    s.cells.is_list (visited ++ x :: next) ∧
    (∃ s2, message.response.repeat_case fuel s = some s2 ∧
      s2.cells.is_list (x :: (next ++ visited)) ∧
      (x :: (next ++ visited)).Perm (visited ++ x :: next) ∧
      s2.cells.Senders.test = s.cells.Senders.test ∧
      s2.represents [x] (next ++ visited) ∧
      s2.previous_sender = .NextSender x ∧
      s2.sender = (next ++ visited).headD 0 ∧
      s2.cells.valid bits (x :: (next ++ visited)) ∧
      (visited = [] → s2.cells.is_list (visited ++ x :: next))) ∧
    (∀ (σ ρ : Type) (send : World → Nat → σ → σ × Option ρ)
      (h : ρ → σ → σ × Option iteration_state) (m : Nat) (a a1 : σ) (tr : List Nat) (w : World)
      (fuel2 : Nat), sender.try_send send h x w a = (a1, some .repeat_) →
      message.response.walk send h m (fuel2 + 1) visited (x :: next) a tr w =
        message.response.walk send h m fuel2 [x] (next ++ visited) a1
          (if contact.isDropped x w then tr else tr ++ [x])
          (w.setSenders m (x :: (next ++ visited))) ∧
      ((w.setSenders m (x :: (next ++ visited))).messages m).Senders = x :: (next ++ visited) ∧
      message.isSending m (w.setSenders m (x :: (next ++ visited))) = message.isSending m w) := by
  obtain ⟨s2, r1, r2, r3, r4, r5, r6, r7⟩ :=
    repeat_case_represents s visited x next bits fuel hrep hnd hv hfuel
  refine ⟨⟨(segment_append _ _ _ _ _).2 ⟨s.sender, hrep.1, hrep.2.1⟩, hnd⟩,
    ⟨s2, r1, r3, ?_, r4, r2, r7, r6, r5, ?_⟩, ?_⟩
  · have : (x :: (next ++ visited)) = (x :: next) ++ visited := rfl
    rw [this]
    exact List.perm_append_comm
  · intro hvis
    subst hvis
    simpa using r3
  · intro σ ρ send h m a a1 tr w fuel2 htry
    refine ⟨?_, by simp, by simp [message.isSending]⟩
    rw [message.response.walk, htry]

theorem repeat_rotates_the_list_witness :
    (Demo.cursor.represents [4096] [8192, 12288] ∧
      ([4096] ++ [8192, 12288] : List Nat).Nodup ∧
      Demo.cursor.cells.valid 64 ([4096] ++ [8192, 12288])) ∧
    (message.response.repeat_case 2 Demo.cursor).map
        (fun s => (s.cells.Senders, s.cells.NextSender 8192, s.cells.NextSender 12288,
          s.cells.NextSender 4096, s.sender)) =
      some (⟨64, 8193⟩, ⟨64, 12288⟩, ⟨64, 4096⟩, ⟨64, 0⟩, 12288) ∧
    (∃ s2, message.response.repeat_case 2 Demo.cursor = some s2 ∧
      s2.cells.is_list (8192 :: ([12288] ++ [4096])) ∧
      s2.cells.Senders.test = Demo.cursor.cells.Senders.test) :=
  have k := repeat_rotates_the_list Demo.cursor [4096] 8192 [12288] 64 2
    demo_cursor_represents.1 demo_cursor_represents.2.1 demo_cursor_represents.2.2 (by decide)
  ⟨demo_cursor_represents, by decide,
    k.2.1.elim fun s2 hs => ⟨s2, hs.1, hs.2.1, hs.2.2.2.1⟩⟩

end pigeon
